import Mathlib

/-! # Reference-counted shared / weak pointers (`shared-ptr/sw_fwd.h`, `shared.h`, `weak.h`)

Shallow embedding of the control block (`Storage`, `RealStorage`, `IndirectStorage`,
`InlineStorage`), of `details::Handle`, and of `SharedPtr`, `WeakPtr` and
`EnableSharedFromThis`.

Modelling conventions.

* The program state is explicit: a table of control blocks, a table of managed
  objects, and the `SharedPtr` / `WeakPtr` variables of the client program.  A raw
  pointer is an `Option Nat` (`none` is `nullptr`); a block pointer `some b`
  designates entry `b` of the block table, an object pointer `some o` entry `o` of
  the object table.
* A constructor appends a variable; a destructor runs on a variable and leaves its
  (now empty) record in place.
* `assert(...)` is modelled as in a build with assertions enabled: a failed
  assertion ends the run, and the operation yields `none`.  Dereferencing a pointer
  that designates no table entry also yields `none`.
* The counters `handles_` and `strong_` are `size_t`; each unit of either counter is
  backed by a live `Handle`, so they are modelled as natural numbers.
* Destroying an object destroys its `me_` member, which releases a `Handle`, which
  may delete a block, which may delete an object: this recursion is bounded by an
  explicit fuel, and running out of fuel yields `none`.
* Fields marked *ghost* are instrumentation (counts of deletions, destructor runs,
  allocations); the source has no such fields and never reads them.
-/

namespace SharedPtrModel

/-- Raw pointer value: `none` is `nullptr`. -/
abbrev Ptr := Option Nat

/-- The two storage variants derived from `RealStorage`. -/
inductive Kind where
  /-- Variant `IndirectStorage<T>` with its field `data_`. -/
  | indirect (data : Ptr)
  /-- Variant `InlineStorage<T>`; `obj` identifies the object living in `storage_`. -/
  | inline (obj : Nat)
  deriving DecidableEq

/-- A control block (`Storage` + `RealStorage` + variant). -/
structure Block where
  /-- Member `Storage::handles_` -/
  handles : Nat
  /-- Member `RealStorage::strong_` -/
  strong : Nat
  kind : Kind
  /-- ghost: how many times `delete` ran on this block -/
  freed : Nat
  /-- ghost: how many times `Destroy()` was invoked on this block -/
  destroys : Nat
  deriving DecidableEq

/-- Models `WeakPtr<T>`: `handle_` (the `Storage*` inside the `Handle`) and `ptr_`. -/
structure WeakPtr where
  handle : Ptr
  ptr : Ptr
  deriving DecidableEq

/-- Models `SharedPtr<T>`: `handle_` (the `Storage*` inside the `Handle`) and `ptr_`. -/
structure SharedPtr where
  handle : Ptr
  ptr : Ptr
  deriving DecidableEq

/-- A managed object.  `cap` says whether its type derives from
`EnableSharedFromThis`; `me` is then the member `me_` (for other types it stays
empty and is never written). -/
structure Obj where
  cap : Bool
  me : WeakPtr
  /-- ghost: how many times the destructor ran -/
  dtors : Nat
  deriving DecidableEq

/-- Program state. -/
structure State where
  blocks : List Block
  objs : List Obj
  sps : List SharedPtr
  wps : List WeakPtr
  /-- ghost: number of `new` expressions evaluated -/
  allocs : Nat
  deriving DecidableEq

/-- The state of a program that has not created anything yet. -/
def State.init : State := ⟨[], [], [], [], 0⟩

def State.setBlock (s : State) (b : Nat) (x : Block) : State :=
  { s with blocks := s.blocks.set b x }

def State.setObj (s : State) (o : Nat) (x : Obj) : State :=
  { s with objs := s.objs.set o x }

def State.setSp (s : State) (i : Nat) (x : SharedPtr) : State :=
  { s with sps := s.sps.set i x }

def State.setWp (s : State) (j : Nat) (x : WeakPtr) : State :=
  { s with wps := s.wps.set j x }

/-! ## `Storage` and `RealStorage` -/

/-- Models `Storage::HandleBegin`. -/
def Storage.HandleBegin (s : State) (b : Nat) : Option State :=
  match s.blocks[b]? with
  | none => none
  | some blk =>
    if 0 < blk.handles then
      some (s.setBlock b { blk with handles := blk.handles + 1 })
    else none

/-- Models `Storage::HandleEnd`: the new state and the returned flag `--handles_ == 0`. -/
def Storage.HandleEnd (s : State) (b : Nat) : Option (State × Bool) :=
  match s.blocks[b]? with
  | none => none
  | some blk =>
    if 0 < blk.handles then
      some (s.setBlock b { blk with handles := blk.handles - 1 }, blk.handles - 1 == 0)
    else none

/-- The destructor of the managed object `o`, up to the point where its member
`me_` is destroyed: the run is counted, the `Storage*` of `me_.handle_` is taken out
(`Handle::Take`) and returned to be released by the caller. -/
def Obj.dtorTake (s : State) (o : Nat) : Option (State × Ptr) :=
  match s.objs[o]? with
  | none => none
  | some obj =>
    some (s.setObj o { obj with dtors := obj.dtors + 1, me := { obj.me with handle := none } },
          obj.me.handle)

/-- Models `Handle::Reset` after `Take()` returned `p`: `if (!s) return; if (s->HandleEnd())
delete s;`.  Deleting an `IndirectStorage` runs `delete data_`, which destroys the
object and with it the handle inside its `me_`. -/
def Handle.releaseAux : Nat → State → Ptr → Option State
  | _, s, none => some s
  | 0, _, some _ => none
  | fuel + 1, s, some b =>
    match Storage.HandleEnd s b with
    | none => none
    | some (s1, false) => some s1
    | some (s1, true) =>
      match s1.blocks[b]? with
      | none => none
      | some blk =>
        let s2 := s1.setBlock b { blk with freed := blk.freed + 1 }
        match blk.kind with
        | Kind.inline _ => some s2
        | Kind.indirect none => some s2
        | Kind.indirect (some o) =>
          match Obj.dtorTake s2 o with
          | none => none
          | some (s3, p) => Handle.releaseAux fuel s3 p

/-- Fuel for the destruction cascade: every nested release after the first is
caused by the destruction of one more object. -/
def State.fuel (s : State) : Nat := s.objs.length + 1

/-- Models `Handle::Reset` after `Take()`. -/
def Handle.release (s : State) (p : Ptr) : Option State :=
  Handle.releaseAux s.fuel s p

/-- The virtual `Destroy()`: `InlineStorage::Destroy` runs the destructor in place,
`IndirectStorage::Destroy` runs `delete data_; data_ = nullptr;`. -/
def Storage.Destroy (s : State) (b : Nat) : Option State :=
  match s.blocks[b]? with
  | none => none
  | some blk =>
    let s0 := s.setBlock b { blk with destroys := blk.destroys + 1 }
    match blk.kind with
    | Kind.inline o =>
      match Obj.dtorTake s0 o with
      | none => none
      | some (s1, p) => Handle.release s1 p
    | Kind.indirect d =>
      let r : Option State :=
        match d with
        | none => some s0
        | some o =>
          match Obj.dtorTake s0 o with
          | none => none
          | some (s1, p) => Handle.release s1 p
      match r with
      | none => none
      | some s2 =>
        match s2.blocks[b]? with
        | none => none
        | some blk2 => some (s2.setBlock b { blk2 with kind := Kind.indirect none })

/-- Models `RealStorage::BeginStrong`. -/
def RealStorage.BeginStrong (s : State) (b : Nat) : Option State :=
  match s.blocks[b]? with
  | none => none
  | some blk =>
    if 0 < blk.strong then
      some (s.setBlock b { blk with strong := blk.strong + 1 })
    else none

/-- Models `RealStorage::EndStrong`. -/
def RealStorage.EndStrong (s : State) (b : Nat) : Option State :=
  match s.blocks[b]? with
  | none => none
  | some blk =>
    if 0 < blk.strong then
      let s1 := s.setBlock b { blk with strong := blk.strong - 1 }
      if blk.strong - 1 = 0 then Storage.Destroy s1 b else some s1
    else none

/-- Models `RealStorage::StrongCount`. -/
def RealStorage.StrongCount (s : State) (b : Nat) : Option Nat :=
  (s.blocks[b]?).map fun blk => blk.strong

/-- Models `RealStorage::Alive`. -/
def RealStorage.Alive (s : State) (b : Nat) : Option Bool :=
  (s.blocks[b]?).map fun blk => decide (0 < blk.strong)

/-! ## `details::Handle`

A `Handle` is stored inside a `SharedPtr` variable, a `WeakPtr` variable or the
`me_` member of an object; temporaries are plain values. -/

/-- Where a `Handle` lives. -/
inductive Loc where
  | sp (i : Nat)
  | wp (j : Nat)
  | me (o : Nat)
  deriving DecidableEq

/-- Models `Handle::Get` at a location (`none` when there is no such location). -/
def State.getH (s : State) : Loc → Option Ptr
  | Loc.sp i => (s.sps[i]?).map fun x => x.handle
  | Loc.wp j => (s.wps[j]?).map fun x => x.handle
  | Loc.me o => (s.objs[o]?).map fun x => x.me.handle

/-- Overwrite the `storage_` field of the `Handle` at a location. -/
def State.setH (s : State) (l : Loc) (p : Ptr) : State :=
  match l with
  | Loc.sp i =>
    match s.sps[i]? with
    | none => s
    | some x => s.setSp i { x with handle := p }
  | Loc.wp j =>
    match s.wps[j]? with
    | none => s
    | some x => s.setWp j { x with handle := p }
  | Loc.me o =>
    match s.objs[o]? with
    | none => s
    | some x => s.setObj o { x with me := { x.me with handle := p } }

/-- Models `Handle(Handle const& other)` producing a temporary: `HandleBegin` when
`other.storage_` is non-null.  The temporary holds the same pointer `p`. -/
def Handle.copy (s : State) (p : Ptr) : Option State :=
  match p with
  | none => some s
  | some b => Storage.HandleBegin s b

/-- Models `Handle::Reset` on the handle at `l`: `Take()`, then release. -/
def Handle.Reset (s : State) (l : Loc) : Option State :=
  match s.getH l with
  | none => none
  | some p => Handle.release (s.setH l none) p

/-- Models `Handle::operator=(Handle&&)` at `l` from a temporary holding `hv`. -/
def Handle.assignTemp (s : State) (l : Loc) (hv : Ptr) : Option State :=
  match Handle.Reset s l with
  | none => none
  | some s1 => some (s1.setH l hv)

/-- Models `Handle::operator=(Handle&&)` at `l` from the handle at `src` (which may be `l`
itself): `Reset(); storage_ = other.Take();`. -/
def Handle.assignFrom (s : State) (l src : Loc) : Option State :=
  match Handle.Reset s l with
  | none => none
  | some s1 =>
    match s1.getH src with
    | none => none
    | some p => some ((s1.setH src none).setH l p)

/-- Models `std::swap` on two handles: `Handle tmp(std::move(a)); a = std::move(b);
b = std::move(tmp);` and the destructor of the emptied `tmp`. -/
def Handle.swap (s : State) (a b : Loc) : Option State :=
  match s.getH a with
  | none => none
  | some t =>
    match Handle.assignFrom (s.setH a none) a b with
    | none => none
    | some s1 =>
      match Handle.assignTemp s1 b t with
      | none => none
      | some s2 => Handle.release s2 none

/-! ## `SharedPtr` -/

def State.setSpPtr (s : State) (i : Nat) (p : Ptr) : State :=
  match s.sps[i]? with
  | none => s
  | some x => s.setSp i { x with ptr := p }

def State.setWpPtr (s : State) (j : Nat) (p : Ptr) : State :=
  match s.wps[j]? with
  | none => s
  | some x => s.setWp j { x with ptr := p }

/-- Models `SharedPtr::Adopt(details::Handle&& handle, T* ptr)` on variable `i`, the
argument being a temporary that holds `hv`. -/
def SharedPtr.Adopt (s : State) (i : Nat) (hv : Ptr) (ptr : Ptr) : Option State :=
  match Handle.assignTemp s (Loc.sp i) hv with
  | none => none
  | some s1 =>
    let r : Option State :=
      match hv with
      | none => some s1
      | some b => RealStorage.BeginStrong s1 b
    r.map fun s2 => s2.setSpPtr i ptr

/-- Models `SharedPtr::Steal(details::Handle&& handle, T* ptr)` on variable `i`, the
argument being a temporary that holds `hv`. -/
def SharedPtr.StealTemp (s : State) (i : Nat) (hv : Ptr) (ptr : Ptr) : Option State :=
  (Handle.assignTemp s (Loc.sp i) hv).map fun s1 => s1.setSpPtr i ptr

/-- Models `SharedPtr::Steal(std::move(other.handle_), ptr)` on variable `i`, `other` being
variable `j`. -/
def SharedPtr.StealFrom (s : State) (i j : Nat) (ptr : Ptr) : Option State :=
  (Handle.assignFrom s (Loc.sp i) (Loc.sp j)).map fun s1 => s1.setSpPtr i ptr

/-- Models `EnableSharedFromThis<T>::Initialize(details::Handle&& handle, void* ptr)` on
object `o`, the argument being a temporary that holds `hv`. -/
def EnableSharedFromThis.Initialize (s : State) (o : Nat) (hv : Ptr) (ptr : Ptr) :
    Option State :=
  match Handle.assignTemp s (Loc.me o) hv with
  | none => none
  | some s1 =>
    match s1.objs[o]? with
    | none => none
    | some x => some (s1.setObj o { x with me := { x.me with ptr := ptr } })

/-- Models `SharedPtr::SharedFromThisSetupHook` on variable `i`.  `cap` is the
`if constexpr` test, a property of the pointer type `T`: whether `T*` converts to
`EnableSharedFromThisBase const*`.  When it holds, `Initialize` is called through
`ptr_`, and there is no null test: with a null `ptr_` the call goes through a null
pointer and the operation yields `none`. -/
def SharedPtr.SharedFromThisSetupHook (s : State) (i : Nat) (cap : Bool) : Option State :=
  if cap then
    match s.sps[i]? with
    | none => none
    | some x =>
      match x.ptr with
      | none => none
      | some o =>
        match s.objs[o]? with
        | none => none
        | some _ =>
          match Handle.copy s x.handle with
          | none => none
          | some s1 => EnableSharedFromThis.Initialize s1 o x.handle x.ptr
  else some s

/-- A default-constructed `SharedPtr` variable is appended. -/
def State.pushSp (s : State) : State := { s with sps := s.sps ++ [⟨none, none⟩] }

/-- A default-constructed `WeakPtr` variable is appended. -/
def State.pushWp (s : State) : State := { s with wps := s.wps ++ [⟨none, none⟩] }

/-- Models `new details::IndirectStorage<T>(ptr)`; the new block is `s.blocks.length`. -/
def State.newIndirect (s : State) (ptr : Ptr) : State :=
  { s with blocks := s.blocks ++ [⟨1, 1, Kind.indirect ptr, 0, 0⟩], allocs := s.allocs + 1 }

/-- Models `new T(...)` by the client; the new object is `s.objs.length`. -/
def State.newObj (s : State) (cap : Bool) : State :=
  { s with objs := s.objs ++ [⟨cap, ⟨none, none⟩, 0⟩], allocs := s.allocs + 1 }

/-- Models `SharedPtr()` and `SharedPtr(std::nullptr_t)`; the new variable is
`s.sps.length`. -/
def SharedPtr.default (s : State) : Option State := some s.pushSp

/-- Models `explicit SharedPtr(T* ptr)`, `cap` saying whether `T` has the
self-reference capability; the new variable is `s.sps.length`. -/
def SharedPtr.ofRaw (s : State) (ptr : Ptr) (cap : Bool) : Option State :=
  let i := s.sps.length
  let b := s.blocks.length
  match SharedPtr.StealTemp (s.pushSp.newIndirect ptr) i (some b) ptr with
  | none => none
  | some s1 => SharedPtr.SharedFromThisSetupHook s1 i cap

/-- Models `SharedPtr<T>(new T(...))`. -/
def SharedPtr.ofNew (s : State) (cap : Bool) : Option State :=
  SharedPtr.ofRaw (s.newObj cap) (some s.objs.length) cap

/-- Models `SharedPtr::MakeShared(args...)`: one `new InlineStorage<T>()`, `Init` constructs
the object inside it. -/
def SharedPtr.MakeShared (s : State) (cap : Bool) : Option State :=
  let i := s.sps.length
  let b := s.blocks.length
  let o := s.objs.length
  let s0 : State :=
    { s with blocks := s.blocks ++ [⟨1, 1, Kind.inline o, 0, 0⟩],
             objs := s.objs ++ [⟨cap, ⟨none, none⟩, 0⟩],
             allocs := s.allocs + 1 }
  match SharedPtr.StealTemp s0.pushSp i (some b) (some o) with
  | none => none
  | some s1 => SharedPtr.SharedFromThisSetupHook s1 i cap

/-- Models `SharedPtr::Get`. -/
def SharedPtr.Get (s : State) (i : Nat) : Option Ptr :=
  (s.sps[i]?).map fun x =>
    match x.handle with
    | none => none
    | some _ => x.ptr

/-- Models `SharedPtr::UseCount`. -/
def SharedPtr.UseCount (s : State) (i : Nat) : Option Nat :=
  match s.sps[i]? with
  | none => none
  | some x =>
    match x.handle with
    | none => some 0
    | some b => RealStorage.StrongCount s b

/-- Models `SharedPtr::operator bool`. -/
def SharedPtr.toBool (s : State) (i : Nat) : Option Bool :=
  (s.sps[i]?).map fun x => x.handle.isSome

/-- The aliasing constructor `SharedPtr(SharedPtr<U> const& other, T* ptr)`. -/
def SharedPtr.aliasCopy (s : State) (j : Nat) (ptr : Ptr) : Option State :=
  match s.sps[j]? with
  | none => none
  | some other =>
    match Handle.copy s.pushSp other.handle with
    | none => none
    | some s1 => SharedPtr.Adopt s1 s.sps.length other.handle ptr

/-- The aliasing constructor `SharedPtr(SharedPtr<U>&& other, T* ptr)`. -/
def SharedPtr.aliasMove (s : State) (j : Nat) (ptr : Ptr) : Option State :=
  match s.sps[j]? with
  | none => none
  | some _ => SharedPtr.StealFrom s.pushSp s.sps.length j ptr

/-- Models `SharedPtr(SharedPtr const& other)`. -/
def SharedPtr.copy (s : State) (j : Nat) : Option State :=
  match s.sps[j]? with
  | none => none
  | some other => SharedPtr.aliasCopy s j other.ptr

/-- Models `SharedPtr(SharedPtr&& other)`. -/
def SharedPtr.move (s : State) (j : Nat) : Option State :=
  match s.sps[j]? with
  | none => none
  | some other => SharedPtr.aliasMove s j other.ptr

/-- The converting constructor `SharedPtr(SharedPtr<U> const& other)`. -/
def SharedPtr.convCopy (s : State) (j : Nat) : Option State :=
  match SharedPtr.Get s j with
  | none => none
  | some p => SharedPtr.aliasCopy s j p

/-- The converting constructor `SharedPtr(SharedPtr<U>&& other)`. -/
def SharedPtr.convMove (s : State) (j : Nat) : Option State :=
  match SharedPtr.Get s j with
  | none => none
  | some p => SharedPtr.aliasMove s j p

/-- Models `SharedPtr::Reset()`. -/
def SharedPtr.Reset (s : State) (i : Nat) : Option State :=
  match s.sps[i]? with
  | none => none
  | some x =>
    match x.handle with
    | none => some s
    | some b =>
      match RealStorage.EndStrong s b with
      | none => none
      | some s1 => Handle.assignTemp s1 (Loc.sp i) none

/-- Models `SharedPtr::~SharedPtr`. -/
def SharedPtr.dtor (s : State) (i : Nat) : Option State := SharedPtr.Reset s i

/-- Models `explicit SharedPtr(U* ptr) : SharedPtr(SharedPtr<U>(ptr))`, `cap` saying
whether `U` has the self-reference capability: the temporary is variable
`s.sps.length`, the result `s.sps.length + 1`. -/
def SharedPtr.ofRawConv (s : State) (ptr : Ptr) (cap : Bool) : Option State :=
  match SharedPtr.ofRaw s ptr cap with
  | none => none
  | some s1 =>
    match SharedPtr.convMove s1 s.sps.length with
    | none => none
    | some s2 => SharedPtr.dtor s2 s.sps.length

/-- Models `SharedPtr& operator=(const SharedPtr& other)`. -/
def SharedPtr.assignCopy (s : State) (i j : Nat) : Option State :=
  match SharedPtr.Reset s i with
  | none => none
  | some s1 =>
    match s1.sps[j]? with
    | none => none
    | some other =>
      match Handle.copy s1 other.handle with
      | none => none
      | some s2 => SharedPtr.Adopt s2 i other.handle other.ptr

/-- Models `SharedPtr& operator=(SharedPtr&& other)`. -/
def SharedPtr.assignMove (s : State) (i j : Nat) : Option State :=
  match SharedPtr.Reset s i with
  | none => none
  | some s1 =>
    match s1.sps[j]? with
    | none => none
    | some other => SharedPtr.StealFrom s1 i j other.ptr

/-- Models `SharedPtr::Reset(U* ptr)` on a `SharedPtr<T>`, `cap` saying whether `T` has
the self-reference capability. -/
def SharedPtr.ResetPtr (s : State) (i : Nat) (ptr : Ptr) (cap : Bool) : Option State :=
  match SharedPtr.Reset s i with
  | none => none
  | some s1 =>
    match ptr with
    | none => some s1
    | some _ =>
      match SharedPtr.StealTemp (s1.newIndirect ptr) i (some s1.blocks.length) ptr with
      | none => none
      | some s2 => SharedPtr.SharedFromThisSetupHook s2 i cap

/-- Models `p.Reset(new T(...))` on a `SharedPtr<T>`. -/
def SharedPtr.ResetNew (s : State) (i : Nat) (cap : Bool) : Option State :=
  SharedPtr.ResetPtr (s.newObj cap) i (some s.objs.length) cap

/-- Models `SharedPtr::Swap`. -/
def SharedPtr.Swap (s : State) (i j : Nat) : Option State :=
  match Handle.swap s (Loc.sp i) (Loc.sp j) with
  | none => none
  | some s1 =>
    match s1.sps[i]?, s1.sps[j]? with
    | some x, some y => some ((s1.setSpPtr i y.ptr).setSpPtr j x.ptr)
    | _, _ => none

/-- Models `operator==` on two `SharedPtr`s. -/
def SharedPtr.eq (s : State) (i j : Nat) : Option Bool :=
  match SharedPtr.Get s i, SharedPtr.Get s j with
  | some p, some q => some (decide (p = q))
  | _, _ => none

/-! ## `WeakPtr` -/

/-- Models `WeakPtr()`. -/
def WeakPtr.default (s : State) : Option State := some s.pushWp

/-- Models `WeakPtr(WeakPtr const& other)` and its converting variant: the members are
initialised by `Handle(Handle const&)` and a pointer copy. -/
def WeakPtr.copy (s : State) (j : Nat) : Option State :=
  match s.wps[j]? with
  | none => none
  | some other =>
    (Handle.copy s other.handle).map fun s1 => { s1 with wps := s1.wps ++ [other] }

/-- Models `WeakPtr(WeakPtr&& other)`: `handle_(std::move(other.handle_))`, `ptr_(other.ptr_)`. -/
def WeakPtr.move (s : State) (j : Nat) : Option State :=
  match s.wps[j]? with
  | none => none
  | some other =>
    let s1 := s.setH (Loc.wp j) none
    some { s1 with wps := s1.wps ++ [other] }

/-- Models `WeakPtr(const SharedPtr<T>& other)`. -/
def WeakPtr.ofShared (s : State) (i : Nat) : Option State :=
  match s.sps[i]? with
  | none => none
  | some other =>
    (Handle.copy s other.handle).map fun s1 =>
      { s1 with wps := s1.wps ++ [⟨other.handle, other.ptr⟩] }

/-- Models `WeakPtr& operator=(const WeakPtr& other)`:
`handle_ = details::Handle(other.handle_); ptr_ = other.ptr_;`. -/
def WeakPtr.assignCopy (s : State) (i j : Nat) : Option State :=
  match s.wps[j]? with
  | none => none
  | some other =>
    match Handle.copy s other.handle with
    | none => none
    | some s1 =>
      match Handle.assignTemp s1 (Loc.wp i) other.handle with
      | none => none
      | some s2 => (s2.wps[j]?).map fun o2 => s2.setWpPtr i o2.ptr

/-- Models `WeakPtr& operator=(WeakPtr&& other)`:
`handle_ = std::move(other.handle_); ptr_ = other.ptr_;`. -/
def WeakPtr.assignMove (s : State) (i j : Nat) : Option State :=
  match Handle.assignFrom s (Loc.wp i) (Loc.wp j) with
  | none => none
  | some s1 => (s1.wps[j]?).map fun o2 => s1.setWpPtr i o2.ptr

/-- Models `WeakPtr::Reset`: `handle_ = details::Handle();`. -/
def WeakPtr.Reset (s : State) (j : Nat) : Option State :=
  Handle.assignTemp s (Loc.wp j) none

/-- The implicit `~WeakPtr`, which destroys `handle_`. -/
def WeakPtr.dtor (s : State) (j : Nat) : Option State :=
  Handle.Reset s (Loc.wp j)

/-- Models `WeakPtr::Swap`. -/
def WeakPtr.Swap (s : State) (i j : Nat) : Option State :=
  match Handle.swap s (Loc.wp i) (Loc.wp j) with
  | none => none
  | some s1 =>
    match s1.wps[i]?, s1.wps[j]? with
    | some x, some y => some ((s1.setWpPtr i y.ptr).setWpPtr j x.ptr)
    | _, _ => none

/-- Models `WeakPtr::UseCount` on a `WeakPtr` with the given members. -/
def WeakPtr.useCountOf (s : State) (w : WeakPtr) : Option Nat :=
  match w.handle with
  | none => some 0
  | some b => RealStorage.StrongCount s b

/-- Models `WeakPtr::UseCount` on variable `j`. -/
def WeakPtr.UseCount (s : State) (j : Nat) : Option Nat :=
  match s.wps[j]? with
  | none => none
  | some w => WeakPtr.useCountOf s w

/-- Models `WeakPtr::Expired` on a `WeakPtr` with the given members. -/
def WeakPtr.expiredOf (s : State) (w : WeakPtr) : Option Bool :=
  match w.handle with
  | none => some true
  | some b => (RealStorage.Alive s b).map fun a => !a

/-- Models `WeakPtr::Expired` on variable `j`. -/
def WeakPtr.Expired (s : State) (j : Nat) : Option Bool :=
  match s.wps[j]? with
  | none => none
  | some w => WeakPtr.expiredOf s w

/-- Models `WeakPtr::TryLockInto(SharedPtr<T>* target)` on a `WeakPtr` with the given
members, `target` being variable `i`: the new state and the returned flag. -/
def WeakPtr.tryLockIntoOf (s : State) (w : WeakPtr) (i : Nat) : Option (State × Bool) :=
  match WeakPtr.expiredOf s w with
  | none => none
  | some true => some (s, false)
  | some false =>
    match Handle.copy s w.handle with
    | none => none
    | some s1 => (SharedPtr.Adopt s1 i w.handle w.ptr).map fun s2 => (s2, true)

/-- Models `WeakPtr::TryLockInto(SharedPtr<T>* target)` on variable `j`. -/
def WeakPtr.TryLockInto (s : State) (j i : Nat) : Option (State × Bool) :=
  match s.wps[j]? with
  | none => none
  | some w => WeakPtr.tryLockIntoOf s w i

/-- Models `WeakPtr::Lock`; the returned pointer is variable `s.sps.length`. -/
def WeakPtr.Lock (s : State) (j : Nat) : Option State :=
  (WeakPtr.TryLockInto s.pushSp j s.sps.length).map fun r => r.1

/-- Models `explicit SharedPtr(const WeakPtr<T>& weak)` for a `WeakPtr` with the given
members: the flag is `false` when `BadWeakPtr` is thrown (the delegated-to default
constructor has completed, so the destructor of the empty pointer runs during
unwinding).  The new variable is `s.sps.length`. -/
def SharedPtr.ofWeakOf (s : State) (w : WeakPtr) : Option (State × Bool) :=
  match WeakPtr.tryLockIntoOf s.pushSp w s.sps.length with
  | none => none
  | some (s1, true) => some (s1, true)
  | some (s1, false) => (SharedPtr.dtor s1 s.sps.length).map fun s2 => (s2, false)

/-- Models `explicit SharedPtr(const WeakPtr<T>& weak)`, `weak` being variable `j`. -/
def SharedPtr.ofWeak (s : State) (j : Nat) : Option (State × Bool) :=
  match s.wps[j]? with
  | none => none
  | some w => SharedPtr.ofWeakOf s w

/-! ## `EnableSharedFromThis` -/

/-- Models `EnableSharedFromThis<T>::WeakFromThis` on the live object `o`: a copy of `me_`
is returned as variable `s.wps.length`. -/
def EnableSharedFromThis.WeakFromThis (s : State) (o : Nat) : Option State :=
  match s.objs[o]? with
  | none => none
  | some obj =>
    if obj.cap ∧ obj.dtors = 0 then
      (Handle.copy s obj.me.handle).map fun s1 => { s1 with wps := s1.wps ++ [obj.me] }
    else none

/-- Models `EnableSharedFromThis<T>::SharedFromThis` on the live object `o`:
`SharedPtr(me_)`. -/
def EnableSharedFromThis.SharedFromThis (s : State) (o : Nat) : Option (State × Bool) :=
  match s.objs[o]? with
  | none => none
  | some obj =>
    if obj.cap ∧ obj.dtors = 0 then SharedPtr.ofWeakOf s obj.me else none

/-! ## Client programs -/

/-- The public operations a client can perform.  Raw pointers handed to the library
are either null or the result of a fresh `new`; `cap` says whether the type the
operation is instantiated with has the self-reference capability. -/
inductive Op where
  | spDefault
  | spOfNew (cap : Bool)
  | spOfNull (cap : Bool)
  | spOfNewConv (cap : Bool)
  | spMakeShared (cap : Bool)
  | spCopy (j : Nat)
  | spMove (j : Nat)
  | spAliasCopy (j : Nat) (addr : Ptr)
  | spAliasMove (j : Nat) (addr : Ptr)
  | spConvCopy (j : Nat)
  | spConvMove (j : Nat)
  | spOfWeak (j : Nat)
  | spAssignCopy (i j : Nat)
  | spAssignMove (i j : Nat)
  | spDtor (i : Nat)
  | spReset (i : Nat)
  | spResetNew (i : Nat) (cap : Bool)
  | spResetNull (i : Nat) (cap : Bool)
  | spSwap (i j : Nat)
  | wpDefault
  | wpCopy (j : Nat)
  | wpMove (j : Nat)
  | wpOfShared (i : Nat)
  | wpAssignCopy (i j : Nat)
  | wpAssignMove (i j : Nat)
  | wpReset (j : Nat)
  | wpDtor (j : Nat)
  | wpSwap (i j : Nat)
  | wpTryLockInto (j i : Nat)
  | wpLock (j : Nat)
  | sharedFromThis (o : Nat)
  | weakFromThis (o : Nat)
  deriving DecidableEq

/-- One operation of the client program. -/
def step (s : State) : Op → Option State
  | Op.spDefault => SharedPtr.default s
  | Op.spOfNew cap => SharedPtr.ofNew s cap
  | Op.spOfNull cap => SharedPtr.ofRaw s none cap
  | Op.spOfNewConv cap => SharedPtr.ofRawConv (s.newObj cap) (some s.objs.length) cap
  | Op.spMakeShared cap => SharedPtr.MakeShared s cap
  | Op.spCopy j => SharedPtr.copy s j
  | Op.spMove j => SharedPtr.move s j
  | Op.spAliasCopy j addr => SharedPtr.aliasCopy s j addr
  | Op.spAliasMove j addr => SharedPtr.aliasMove s j addr
  | Op.spConvCopy j => SharedPtr.convCopy s j
  | Op.spConvMove j => SharedPtr.convMove s j
  | Op.spOfWeak j => (SharedPtr.ofWeak s j).map fun r => r.1
  | Op.spAssignCopy i j => SharedPtr.assignCopy s i j
  | Op.spAssignMove i j => SharedPtr.assignMove s i j
  | Op.spDtor i => SharedPtr.dtor s i
  | Op.spReset i => SharedPtr.Reset s i
  | Op.spResetNew i cap => SharedPtr.ResetNew s i cap
  | Op.spResetNull i cap => SharedPtr.ResetPtr s i none cap
  | Op.spSwap i j => SharedPtr.Swap s i j
  | Op.wpDefault => WeakPtr.default s
  | Op.wpCopy j => WeakPtr.copy s j
  | Op.wpMove j => WeakPtr.move s j
  | Op.wpOfShared i => WeakPtr.ofShared s i
  | Op.wpAssignCopy i j => WeakPtr.assignCopy s i j
  | Op.wpAssignMove i j => WeakPtr.assignMove s i j
  | Op.wpReset j => WeakPtr.Reset s j
  | Op.wpDtor j => WeakPtr.dtor s j
  | Op.wpSwap i j => WeakPtr.Swap s i j
  | Op.wpTryLockInto j i => (WeakPtr.TryLockInto s j i).map fun r => r.1
  | Op.wpLock j => WeakPtr.Lock s j
  | Op.sharedFromThis o => (EnableSharedFromThis.SharedFromThis s o).map fun r => r.1
  | Op.weakFromThis o => EnableSharedFromThis.WeakFromThis s o

/-- Run a program (a list of operations) from a state. -/
def run (s : State) : List Op → Option State
  | [] => some s
  | op :: ops =>
    match step s op with
    | none => none
    | some s1 => run s1 ops

/-- States a client program can bring about. -/
inductive Reachable : State → Prop where
  | init : Reachable State.init
  | step {s s1 : State} (op : Op) : Reachable s → step s op = some s1 → Reachable s1

/-! ## Counting handles, and the well-formedness invariant -/

/-- The object a block is responsible for: `data_` of an `IndirectStorage`, the
embedded object of an `InlineStorage`. -/
def Kind.obj : Kind → Ptr
  | Kind.indirect d => d
  | Kind.inline o => some o

/-- Counts `1` when the pointer designates block `b`, else `0`. -/
def cnt (p : Ptr) (b : Nat) : Nat := if p = some b then 1 else 0

/-- Number of `SharedPtr` variables whose `Handle` references block `b`. -/
def State.cntS (s : State) (b : Nat) : Nat :=
  s.sps.countP fun x => decide (x.handle = some b)

/-- Number of `WeakPtr` variables whose `Handle` references block `b`. -/
def State.cntW (s : State) (b : Nat) : Nat :=
  s.wps.countP fun x => decide (x.handle = some b)

/-- Number of objects whose `me_` holds a `Handle` referencing block `b`. -/
def State.cntM (s : State) (b : Nat) : Nat :=
  s.objs.countP fun x => decide (x.me.handle = some b)

/-- Number of non-empty `Handle`s referencing block `b`. -/
def State.refs (s : State) (b : Nat) : Nat := s.cntS b + s.cntW b + s.cntM b

/-- Well-formedness of a state in the middle of an operation: `T` lists the
temporary `Handle`s currently alive, `d` is a block whose strong count is one short
of the `SharedPtr`s referencing it (between the two halves of `Adopt` or `Reset`). -/
structure WF (s : State) (T : List Ptr) (d : Ptr) : Prop where
  spV : ∀ (i : Nat) (x : SharedPtr) (b : Nat),
    s.sps[i]? = some x → x.handle = some b → b < s.blocks.length
  wpV : ∀ (j : Nat) (x : WeakPtr) (b : Nat),
    s.wps[j]? = some x → x.handle = some b → b < s.blocks.length
  tV : ∀ b : Nat, some b ∈ T → b < s.blocks.length
  meO : ∀ (o : Nat) (x : Obj) (b : Nat), s.objs[o]? = some x → x.me.handle = some b →
    ∃ blk : Block, s.blocks[b]? = some blk ∧ blk.kind.obj = some o
  hEq : ∀ (b : Nat) (blk : Block), s.blocks[b]? = some blk →
    blk.handles = s.refs b + T.count (some b)
  fEq : ∀ (b : Nat) (blk : Block), s.blocks[b]? = some blk →
    blk.freed = if blk.handles = 0 then 1 else 0
  own : ∀ (b : Nat) (blk : Block) (o : Nat), s.blocks[b]? = some blk →
    blk.kind.obj = some o → o < s.objs.length
  uniq : ∀ (b b1 : Nat) (blk blk1 : Block) (o : Nat), s.blocks[b]? = some blk →
    s.blocks[b1]? = some blk1 → blk.kind.obj = some o → blk1.kind.obj = some o → b = b1
  sGe : ∀ (b : Nat) (blk : Block), s.blocks[b]? = some blk →
    s.cntS b ≤ blk.strong + cnt d b

/-- An object in the care of a block has been destroyed exactly when the block's
protocol says so: the object of an `IndirectStorage` whose `data_` still points to
it iff the block was deleted, the object of an `InlineStorage` iff the strong count
is zero.  And no destructor has run twice. -/
structure Alive (s : State) : Prop where
  dt : ∀ (b : Nat) (blk : Block) (o : Nat) (obj : Obj), s.blocks[b]? = some blk →
    s.objs[o]? = some obj → blk.kind.obj = some o →
    obj.dtors = (match blk.kind with
      | Kind.indirect _ => blk.freed
      | Kind.inline _ => if blk.strong = 0 then 1 else 0)
  once : ∀ (o : Nat) (obj : Obj), s.objs[o]? = some obj → obj.dtors ≤ 1

/-- Well-formedness between operations. -/
def Inv (s : State) : Prop := WF s [] none ∧ Alive s

/-- What an operation that only acts through block `p` leaves alone in the heap:
the allocation count, the sizes of the tables, every block other than `p`, and every
object that is not in the care of `p`.  Block `p` itself keeps or loses its object;
an object keeps its `cap` and `me_.ptr_`, and its `me_.handle_` is kept or emptied. -/
structure Frame (s s1 : State) (p : Ptr) : Prop where
  allocs : s1.allocs = s.allocs
  nblocks : s1.blocks.length = s.blocks.length
  nobjs : s1.objs.length = s.objs.length
  blk : ∀ (c : Nat) (blk : Block), s.blocks[c]? = some blk →
    ∃ blk1 : Block, s1.blocks[c]? = some blk1 ∧ (p ≠ some c → blk1 = blk) ∧
      (∀ o : Nat, blk1.kind.obj = some o → blk.kind.obj = some o)
  obj : ∀ (o : Nat) (obj : Obj), s.objs[o]? = some obj →
    ∃ obj1 : Obj, s1.objs[o]? = some obj1 ∧ obj1.cap = obj.cap ∧
      obj1.me.ptr = obj.me.ptr ∧
      (obj1.me.handle = obj.me.handle ∨ obj1.me.handle = none) ∧
      ((∀ (c : Nat) (blk : Block), p = some c → s.blocks[c]? = some blk →
          blk.kind.obj ≠ some o) → obj1 = obj)

/-- What releasing a handle on block `p` leaves alone, beyond `Frame`: the variables,
every `me_` member, and the strong count, variant and `Destroy` count of every
block. -/
structure RelFrame (s s1 : State) (p : Ptr) : Prop where
  frame : Frame s s1 p
  sps : s1.sps = s.sps
  wps : s1.wps = s.wps
  me : ∀ (o : Nat) (obj : Obj), s.objs[o]? = some obj →
    ∃ obj1 : Obj, s1.objs[o]? = some obj1 ∧ obj1.me = obj.me
  blk : ∀ (c : Nat) (blk : Block), s.blocks[c]? = some blk →
    ∃ blk1 : Block, s1.blocks[c]? = some blk1 ∧ blk1.strong = blk.strong ∧
      blk1.kind = blk.kind ∧ blk1.destroys = blk.destroys

/-- What the handle `p` stored at location `l` adds to the number of `SharedPtr`s
referencing block `c`. -/
def sCnt (l : Loc) (p : Ptr) (c : Nat) : Nat :=
  match l with
  | Loc.sp _ => cnt p c
  | _ => 0

/-! ## Sample programs -/

/-- The state after `SharedPtr<T> p(new T);`. -/
def exOwner : State :=
  ⟨[⟨1, 1, Kind.indirect (some 0), 0, 0⟩], [⟨false, ⟨none, none⟩, 0⟩], [⟨some 0, some 0⟩], [], 2⟩

/-- The state after `SharedPtr<T> p(new T); WeakPtr<T> w(p);`. -/
def exWeak : State :=
  ⟨[⟨2, 1, Kind.indirect (some 0), 0, 0⟩], [⟨false, ⟨none, none⟩, 0⟩], [⟨some 0, some 0⟩],
    [⟨some 0, some 0⟩], 2⟩

/-- The state after `SharedPtr<T> p(new T); WeakPtr<T> w(p); SharedPtr<T> q;`. -/
def exTarget : State :=
  ⟨[⟨2, 1, Kind.indirect (some 0), 0, 0⟩], [⟨false, ⟨none, none⟩, 0⟩],
    [⟨some 0, some 0⟩, ⟨none, none⟩], [⟨some 0, some 0⟩], 2⟩

/-- The state after `auto p = MakeShared<T>(); SharedPtr<T> q(p);`. -/
def exShared : State :=
  ⟨[⟨2, 2, Kind.inline 0, 0, 0⟩], [⟨false, ⟨none, none⟩, 0⟩],
    [⟨some 0, some 0⟩, ⟨some 0, some 0⟩], [], 1⟩

/-- The state after `SharedPtr<T> p(new T); WeakPtr<T> w(p); w.TryLockInto(&p);`. -/
def exLockSelf : State :=
  ⟨[⟨2, 2, Kind.indirect (some 0), 0, 0⟩], [⟨false, ⟨none, none⟩, 0⟩], [⟨some 0, some 0⟩],
    [⟨some 0, some 0⟩], 2⟩

/-- The state after
`SharedPtr<T> p(new T); WeakPtr<T> w(p); w.TryLockInto(&p); p.Reset();`. -/
def exLeak : State :=
  ⟨[⟨1, 1, Kind.indirect (some 0), 0, 0⟩], [⟨false, ⟨none, none⟩, 0⟩], [⟨none, some 0⟩],
    [⟨some 0, some 0⟩], 2⟩

/-- The state after `SharedPtr<T> a(new T); a = a;`. -/
def exSelfAssigned : State :=
  ⟨[⟨0, 0, Kind.indirect none, 1, 1⟩], [⟨false, ⟨none, none⟩, 1⟩], [⟨none, some 0⟩], [], 2⟩

/-! ## Call sequences on one control block -/

/-- A sequence of calls on the `RealStorage` part of block `b`: `true` stands for
`BeginStrong()`, `false` for `EndStrong()`. -/
def RealStorage.calls (s : State) (b : Nat) : List Bool → Option State
  | [] => some s
  | c :: cs =>
    match (if c then RealStorage.BeginStrong s b else RealStorage.EndStrong s b) with
    | none => none
    | some s1 => RealStorage.calls s1 b cs

/-! ## More sample programs -/

/-- The state after `auto p = MakeShared<T>();` for a type `T` that derives from
`EnableSharedFromThis<T>`. -/
def exSelfRef : State :=
  ⟨[⟨2, 1, Kind.inline 0, 0, 0⟩], [⟨true, ⟨some 0, some 0⟩, 0⟩], [⟨some 0, some 0⟩], [], 1⟩

/-- The state after `auto p = MakeShared<T>(); WeakPtr<T> w(p);`. -/
def exInlineWeak : State :=
  ⟨[⟨2, 1, Kind.inline 0, 0, 0⟩], [⟨false, ⟨none, none⟩, 0⟩], [⟨some 0, some 0⟩],
    [⟨some 0, some 0⟩], 1⟩

/-- The state after
`SharedPtr<T> a(new T); auto t = MakeShared<T>(); WeakPtr<T> w(a); WeakPtr<T> wb(t);`. -/
def exTwoOwners : State :=
  ⟨[⟨2, 1, Kind.indirect (some 0), 0, 0⟩, ⟨2, 1, Kind.inline 1, 0, 0⟩],
    [⟨false, ⟨none, none⟩, 0⟩, ⟨false, ⟨none, none⟩, 0⟩],
    [⟨some 0, some 0⟩, ⟨some 1, some 1⟩], [⟨some 0, some 0⟩, ⟨some 1, some 1⟩], 3⟩

/-- The state `exTwoOwners` after `w.TryLockInto(&t);`. -/
def exRetarget : State :=
  ⟨[⟨3, 2, Kind.indirect (some 0), 0, 0⟩, ⟨1, 1, Kind.inline 1, 0, 0⟩],
    [⟨false, ⟨none, none⟩, 0⟩, ⟨false, ⟨none, none⟩, 0⟩],
    [⟨some 0, some 0⟩, ⟨some 0, some 0⟩], [⟨some 0, some 0⟩, ⟨some 1, some 1⟩], 3⟩

/-- The state `exLeak` after `w.Reset();`. -/
def exLeakReleased : State :=
  ⟨[⟨0, 1, Kind.indirect (some 0), 1, 0⟩], [⟨false, ⟨none, none⟩, 1⟩], [⟨none, some 0⟩],
    [⟨none, some 0⟩], 2⟩

/-! ## Frames and client obligations -/

/-- The strong count of every block of `s` is the same in `s1`. -/
def StrongKept (s s1 : State) : Prop :=
  ∀ (b : Nat) (blk : Block), s.blocks[b]? = some blk →
    ∃ blk1 : Block, s1.blocks[b]? = some blk1 ∧ blk1.strong = blk.strong

/-- Every block of `s` whose strong count is 0 still has strong count 0 in `s1`. -/
def DeadKept (s s1 : State) : Prop :=
  ∀ (b : Nat) (blk : Block), s.blocks[b]? = some blk → blk.strong = 0 →
    ∃ blk1 : Block, s1.blocks[b]? = some blk1 ∧ blk1.strong = 0

/-- The `WeakPtr` operations other than promotion. -/
def Op.weak : Op → Bool
  | Op.wpDefault => true
  | Op.wpCopy _ => true
  | Op.wpMove _ => true
  | Op.wpOfShared _ => true
  | Op.wpAssignCopy _ _ => true
  | Op.wpAssignMove _ _ => true
  | Op.wpReset _ => true
  | Op.wpDtor _ => true
  | Op.wpSwap _ _ => true
  | _ => false

/-- What the client owes an operation: the variables it names exist,
`SharedFromThis` / `WeakFromThis` are called on a live object whose type has the
capability, and no null `T*` is handed to `explicit SharedPtr(T*)` for a type `T` with
the capability (the hook would call `Initialize` through the null pointer). -/
def Op.valid (s : State) : Op → Bool
  | Op.spDefault => true
  | Op.spOfNew _ => true
  | Op.spOfNull cap => !cap
  | Op.spOfNewConv _ => true
  | Op.spMakeShared _ => true
  | Op.spCopy j => decide (j < s.sps.length)
  | Op.spMove j => decide (j < s.sps.length)
  | Op.spAliasCopy j _ => decide (j < s.sps.length)
  | Op.spAliasMove j _ => decide (j < s.sps.length)
  | Op.spConvCopy j => decide (j < s.sps.length)
  | Op.spConvMove j => decide (j < s.sps.length)
  | Op.spOfWeak j => decide (j < s.wps.length)
  | Op.spAssignCopy i j => decide (i < s.sps.length) && decide (j < s.sps.length)
  | Op.spAssignMove i j => decide (i < s.sps.length) && decide (j < s.sps.length)
  | Op.spDtor i => decide (i < s.sps.length)
  | Op.spReset i => decide (i < s.sps.length)
  | Op.spResetNew i _ => decide (i < s.sps.length)
  | Op.spResetNull i _ => decide (i < s.sps.length)
  | Op.spSwap i j => decide (i < s.sps.length) && decide (j < s.sps.length)
  | Op.wpDefault => true
  | Op.wpCopy j => decide (j < s.wps.length)
  | Op.wpMove j => decide (j < s.wps.length)
  | Op.wpOfShared i => decide (i < s.sps.length)
  | Op.wpAssignCopy i j => decide (i < s.wps.length) && decide (j < s.wps.length)
  | Op.wpAssignMove i j => decide (i < s.wps.length) && decide (j < s.wps.length)
  | Op.wpReset j => decide (j < s.wps.length)
  | Op.wpDtor j => decide (j < s.wps.length)
  | Op.wpSwap i j => decide (i < s.wps.length) && decide (j < s.wps.length)
  | Op.wpTryLockInto j i => decide (j < s.wps.length) && decide (i < s.sps.length)
  | Op.wpLock j => decide (j < s.wps.length)
  | Op.sharedFromThis o =>
    match s.objs[o]? with
    | none => false
    | some obj => obj.cap && decide (obj.dtors = 0)
  | Op.weakFromThis o =>
    match s.objs[o]? with
    | none => false
    | some obj => obj.cap && decide (obj.dtors = 0)

/-- The state after `auto p = MakeShared<T>(); WeakPtr<T> w(p); p.Reset();`: the block
is dead (strong count 0) and kept by the weak pointer. -/
def exExpired : State :=
  ⟨[⟨1, 0, Kind.inline 0, 0, 1⟩], [⟨false, ⟨none, none⟩, 1⟩], [⟨none, some 0⟩],
    [⟨some 0, some 0⟩], 1⟩

/-- The state `exExpired` after the further operations
`auto l = w.Lock(); SharedPtr<T> q(p); WeakPtr<T> w2(w); p.Reset(new T);`. -/
def exExpiredLater : State :=
  ⟨[⟨2, 0, Kind.inline 0, 0, 1⟩, ⟨1, 1, Kind.indirect (some 1), 0, 0⟩],
    [⟨false, ⟨none, none⟩, 1⟩, ⟨false, ⟨none, none⟩, 0⟩],
    [⟨some 1, some 1⟩, ⟨none, none⟩, ⟨none, some 0⟩],
    [⟨some 0, some 0⟩, ⟨some 0, some 0⟩], 3⟩

/-! ## Registration of self-referencing objects -/

/-- Locations of handles in client variables (as opposed to the `me_` member of an
object). -/
def Loc.isVar : Loc → Bool
  | Loc.me _ => false
  | _ => true

/-- From `s` to `s1` the tables have kept their sizes, no block has taken another
object into its care, and an object whose destructor has not run in `s1` is as it
was in `s`. -/
def MeKept (s s1 : State) : Prop :=
  s1.blocks.length = s.blocks.length ∧ s1.objs.length = s.objs.length ∧
  (∀ (b : Nat) (blk : Block), s.blocks[b]? = some blk →
    ∃ blk1 : Block, s1.blocks[b]? = some blk1 ∧
      ∀ o : Nat, blk1.kind.obj = some o → blk.kind.obj = some o) ∧
  (∀ (o : Nat) (obj : Obj), s.objs[o]? = some obj →
    ∃ obj1 : Obj, s1.objs[o]? = some obj1 ∧ (obj1.dtors = 0 → obj1 = obj))

/-- Every live object with the self-reference capability that is in the care of a
control block holds, in `me_`, a handle on that block and its own address. -/
def Registered (s : State) : Prop :=
  ∀ (b : Nat) (blk : Block) (o : Nat) (obj : Obj), s.blocks[b]? = some blk →
    blk.kind.obj = some o → s.objs[o]? = some obj → obj.cap = true → obj.dtors = 0 →
    obj.me = ⟨some b, some o⟩

/-! ## Sample programs with self-referencing objects -/

/-- The state after
`SharedPtr<T> p(new T); { auto w = p->WeakFromThis(); w.TryLockInto(&p); }`
where `T` has the self-reference capability: one `SharedPtr`, no `WeakPtr` left. -/
def exSelfLock : State :=
  ⟨[⟨2, 2, Kind.indirect (some 0), 0, 0⟩], [⟨true, ⟨some 0, some 0⟩, 0⟩],
    [⟨some 0, some 0⟩], [⟨none, some 0⟩], 2⟩

/-- The state `exSelfLock` after `p.Reset();`. -/
def exSelfLeak : State :=
  ⟨[⟨1, 1, Kind.indirect (some 0), 0, 0⟩], [⟨true, ⟨some 0, some 0⟩, 0⟩],
    [⟨none, some 0⟩], [⟨none, some 0⟩], 2⟩

/-- The state `exSelfRefBusy` after `w.Reset();`: the object with the self-reference
is owned by `p` alone and no `WeakPtr` references its block. -/
def exSelfRefAlone : State :=
  ⟨[⟨2, 1, Kind.inline 0, 0, 0⟩, ⟨1, 1, Kind.indirect (some 1), 0, 0⟩],
    [⟨true, ⟨some 0, some 0⟩, 0⟩, ⟨false, ⟨none, none⟩, 0⟩],
    [⟨some 0, some 0⟩, ⟨none, none⟩, ⟨some 1, some 1⟩], [⟨none, some 0⟩], 3⟩

/-- The state `exLockSelf` after `p.Reset(new T);`. -/
def exLockSelfRebound : State :=
  ⟨[⟨1, 1, Kind.indirect (some 0), 0, 0⟩, ⟨1, 1, Kind.indirect (some 1), 0, 0⟩],
    [⟨false, ⟨none, none⟩, 0⟩, ⟨false, ⟨none, none⟩, 0⟩], [⟨some 1, some 1⟩],
    [⟨some 0, some 0⟩], 4⟩

/-! ## Theorems -/

theorem countP_set_add {α : Type} (p : α → Bool) (l : List α) (i : Nat) (x y : α)
    (h : l[i]? = some y) :
    (l.set i x).countP p + (if p y then 1 else 0) = l.countP p + (if p x then 1 else 0) := by
  induction l generalizing i with
  | nil => simp at h
  | cons a l ih =>
    cases i with
    | zero =>
      simp at h
      subst h
      simp [List.countP_cons]
      omega
    | succ i =>
      simp at h
      have := ih i h
      simp [List.countP_cons]
      omega

theorem lt_of_getElem? {α : Type} {l : List α} {i : Nat} {x : α} (h : l[i]? = some x) :
    i < l.length := by
  rcases List.getElem?_eq_some_iff.1 h with ⟨h1, _⟩; exact h1

theorem getElem?_set_self_of {α : Type} {l : List α} {i : Nat} {x y : α} (h : l[i]? = some x) :
    (l.set i y)[i]? = some y := by
  simp [List.getElem?_set, lt_of_getElem? h]

@[simp] theorem setBlock_sps (s : State) (b : Nat) (x : Block) : (s.setBlock b x).sps = s.sps := rfl
@[simp] theorem setBlock_wps (s : State) (b : Nat) (x : Block) : (s.setBlock b x).wps = s.wps := rfl
@[simp] theorem setBlock_objs (s : State) (b : Nat) (x : Block) : (s.setBlock b x).objs = s.objs := rfl
@[simp] theorem setBlock_allocs (s : State) (b : Nat) (x : Block) : (s.setBlock b x).allocs = s.allocs := rfl
@[simp] theorem setBlock_blocks (s : State) (b : Nat) (x : Block) : (s.setBlock b x).blocks = s.blocks.set b x := rfl
@[simp] theorem setBlock_cntS (s : State) (b : Nat) (x : Block) (c : Nat) : (s.setBlock b x).cntS c = s.cntS c := rfl
@[simp] theorem setBlock_refs (s : State) (b : Nat) (x : Block) (c : Nat) : (s.setBlock b x).refs c = s.refs c := rfl

/-- Replacing one block record. -/
theorem WF.setBlock {s : State} {T T1 : List Ptr} {d d1 : Ptr} {b : Nat} {blk y : Block}
    (w : WF s T d) (hb : s.blocks[b]? = some blk)
    (hT : ∀ c : Nat, some c ∈ T1 → c < s.blocks.length)
    (hTc : ∀ c : Nat, c ≠ b → T1.count (some c) = T.count (some c))
    (hh : y.handles = s.refs b + T1.count (some b))
    (hf : y.freed = if y.handles = 0 then 1 else 0)
    (hko : ∀ o : Nat, y.kind.obj = some o → blk.kind.obj = some o)
    (hm : ∀ (o : Nat) (x : Obj), s.objs[o]? = some x → x.me.handle = some b →
      y.kind.obj = some o)
    (hs : s.cntS b ≤ y.strong + cnt d1 b)
    (hd : ∀ c : Nat, c ≠ b → cnt d c ≤ cnt d1 c) :
    WF (s.setBlock b y) T1 d1 := by
  have hlt : b < s.blocks.length := lt_of_getElem? hb
  have key : ∀ (c : Nat) (x : Block), (s.blocks.set b y)[c]? = some x →
      (c = b ∧ x = y) ∨ (c ≠ b ∧ s.blocks[c]? = some x) := by
    intro c x hc
    rw [List.getElem?_set] at hc
    split at hc
    · next h =>
      subst h
      simp [hlt] at hc
      exact Or.inl ⟨rfl, hc.symm⟩
    · next h => exact Or.inr ⟨fun e => h e.symm, hc⟩
  constructor
  · intro i x c hi hx; simpa using w.spV i x c hi hx
  · intro i x c hi hx; simpa using w.wpV i x c hi hx
  · intro c hc; simpa using hT c hc
  · intro o x c ho hx
    by_cases hcb : c = b
    · subst hcb
      exact ⟨y, getElem?_set_self_of hb, hm o x ho hx⟩
    · obtain ⟨blk2, h1, h2⟩ := w.meO o x c ho hx
      exact ⟨blk2, by simp [List.getElem?_set, Ne.symm hcb, h1], h2⟩
  · intro c x hc
    rcases key c x hc with ⟨rfl, rfl⟩ | ⟨hne, hc1⟩
    · simpa using hh
    · simpa [hTc c hne] using w.hEq c x hc1
  · intro c x hc
    rcases key c x hc with ⟨rfl, rfl⟩ | ⟨hne, hc1⟩
    · exact hf
    · exact w.fEq c x hc1
  · intro c x o hc ho
    rcases key c x hc with ⟨rfl, rfl⟩ | ⟨hne, hc1⟩
    · simpa using w.own c blk o hb (hko o ho)
    · simpa using w.own c x o hc1 ho
  · intro c c1 x x1 o hc hc1 ho ho1
    rcases key c x hc with ⟨rfl, rfl⟩ | ⟨hne, hc2⟩ <;>
    rcases key c1 x1 hc1 with ⟨rfl, rfl⟩ | ⟨hne1, hc3⟩
    · rfl
    · exact w.uniq _ _ _ _ o hb hc3 (hko o ho) ho1
    · exact w.uniq _ _ _ _ o hc2 hb ho (hko o ho1)
    · exact w.uniq _ _ _ _ o hc2 hc3 ho ho1
  · intro c x hc
    rcases key c x hc with ⟨rfl, rfl⟩ | ⟨hne, hc1⟩
    · simpa using hs
    · have := w.sGe c x hc1
      have := hd c hne
      simp only [setBlock_cntS]
      omega

@[simp] theorem setObj_sps (s : State) (o : Nat) (x : Obj) : (s.setObj o x).sps = s.sps := rfl
@[simp] theorem setObj_wps (s : State) (o : Nat) (x : Obj) : (s.setObj o x).wps = s.wps := rfl
@[simp] theorem setObj_blocks (s : State) (o : Nat) (x : Obj) : (s.setObj o x).blocks = s.blocks := rfl
@[simp] theorem setObj_allocs (s : State) (o : Nat) (x : Obj) : (s.setObj o x).allocs = s.allocs := rfl
@[simp] theorem setObj_objs (s : State) (o : Nat) (x : Obj) : (s.setObj o x).objs = s.objs.set o x := rfl
@[simp] theorem setObj_cntS (s : State) (o : Nat) (x : Obj) (c : Nat) : (s.setObj o x).cntS c = s.cntS c := rfl
@[simp] theorem setObj_cntW (s : State) (o : Nat) (x : Obj) (c : Nat) : (s.setObj o x).cntW c = s.cntW c := rfl
@[simp] theorem setSp_objs (s : State) (i : Nat) (x : SharedPtr) : (s.setSp i x).objs = s.objs := rfl
@[simp] theorem setSp_wps (s : State) (i : Nat) (x : SharedPtr) : (s.setSp i x).wps = s.wps := rfl
@[simp] theorem setSp_blocks (s : State) (i : Nat) (x : SharedPtr) : (s.setSp i x).blocks = s.blocks := rfl
@[simp] theorem setSp_allocs (s : State) (i : Nat) (x : SharedPtr) : (s.setSp i x).allocs = s.allocs := rfl
@[simp] theorem setSp_sps (s : State) (i : Nat) (x : SharedPtr) : (s.setSp i x).sps = s.sps.set i x := rfl
@[simp] theorem setSp_cntW (s : State) (i : Nat) (x : SharedPtr) (c : Nat) : (s.setSp i x).cntW c = s.cntW c := rfl
@[simp] theorem setSp_cntM (s : State) (i : Nat) (x : SharedPtr) (c : Nat) : (s.setSp i x).cntM c = s.cntM c := rfl
@[simp] theorem setWp_objs (s : State) (i : Nat) (x : WeakPtr) : (s.setWp i x).objs = s.objs := rfl
@[simp] theorem setWp_sps (s : State) (i : Nat) (x : WeakPtr) : (s.setWp i x).sps = s.sps := rfl
@[simp] theorem setWp_blocks (s : State) (i : Nat) (x : WeakPtr) : (s.setWp i x).blocks = s.blocks := rfl
@[simp] theorem setWp_allocs (s : State) (i : Nat) (x : WeakPtr) : (s.setWp i x).allocs = s.allocs := rfl
@[simp] theorem setWp_wps (s : State) (i : Nat) (x : WeakPtr) : (s.setWp i x).wps = s.wps.set i x := rfl
@[simp] theorem setWp_cntS (s : State) (i : Nat) (x : WeakPtr) (c : Nat) : (s.setWp i x).cntS c = s.cntS c := rfl
@[simp] theorem setWp_cntM (s : State) (i : Nat) (x : WeakPtr) (c : Nat) : (s.setWp i x).cntM c = s.cntM c := rfl

theorem cntM_setObj {s : State} {o : Nat} {obj v : Obj} (ho : s.objs[o]? = some obj)
    (c : Nat) :
    (s.setObj o v).cntM c + cnt obj.me.handle c = s.cntM c + cnt v.me.handle c := by
  have := countP_set_add (fun x : Obj => decide (x.me.handle = some c)) s.objs o v obj ho
  simpa [State.cntM, cnt] using this

theorem cntS_setSp {s : State} {i : Nat} {x u : SharedPtr} (hi : s.sps[i]? = some x)
    (c : Nat) :
    (s.setSp i u).cntS c + cnt x.handle c = s.cntS c + cnt u.handle c := by
  have := countP_set_add (fun x : SharedPtr => decide (x.handle = some c)) s.sps i u x hi
  simpa [State.cntS, cnt] using this

theorem cntW_setWp {s : State} {i : Nat} {x u : WeakPtr} (hi : s.wps[i]? = some x)
    (c : Nat) :
    (s.setWp i u).cntW c + cnt x.handle c = s.cntW c + cnt u.handle c := by
  have := countP_set_add (fun x : WeakPtr => decide (x.handle = some c)) s.wps i u x hi
  simpa [State.cntW, cnt] using this

theorem getElem?_set_cases {α : Type} {l : List α} {i c : Nat} {x y z : α}
    (hi : l[i]? = some x) (hc : (l.set i y)[c]? = some z) :
    (c = i ∧ z = y) ∨ (c ≠ i ∧ l[c]? = some z) := by
  rw [List.getElem?_set] at hc
  split at hc
  · next h =>
    subst h
    simp [lt_of_getElem? hi] at hc
    exact Or.inl ⟨rfl, hc.symm⟩
  · next h => exact Or.inr ⟨fun e => h e.symm, hc⟩

/-- Replacing one object record. -/
theorem WF.setObj {s : State} {T T1 : List Ptr} {d : Ptr} {o : Nat} {q obj1 : Obj}
    (w : WF s T d) (ho : s.objs[o]? = some q)
    (hT : ∀ c : Nat, some c ∈ T1 → c < s.blocks.length)
    (hTc : ∀ c : Nat, cnt obj1.me.handle c + T1.count (some c)
      = cnt q.me.handle c + T.count (some c))
    (hm : ∀ c : Nat, obj1.me.handle = some c →
      ∃ blk : Block, s.blocks[c]? = some blk ∧ blk.kind.obj = some o) :
    WF (s.setObj o obj1) T1 d := by
  constructor
  · intro i x c hi hx; simpa using w.spV i x c hi hx
  · intro i x c hi hx; simpa using w.wpV i x c hi hx
  · intro c hc; simpa using hT c hc
  · intro o1 x c ho1 hx
    rcases getElem?_set_cases ho ho1 with ⟨rfl, rfl⟩ | ⟨_, h1⟩
    · simpa using hm c hx
    · simpa using w.meO o1 x c h1 hx
  · intro c x hc
    have h1 := w.hEq c x hc
    have h2 := cntM_setObj (v := obj1) ho c
    have h3 := hTc c
    simp only [State.refs, setObj_cntS, setObj_cntW] at h1 ⊢
    omega
  · intro c x hc; exact w.fEq c x hc
  · intro c x o1 hc ho1
    simpa using w.own c x o1 hc ho1
  · intro c c1 x x1 o1 hc hc1 ho1 ho2
    exact w.uniq c c1 x x1 o1 hc hc1 ho1 ho2
  · intro c x hc
    simpa using w.sGe c x hc

/-- Replacing one `SharedPtr` record. -/
theorem WF.setSp {s : State} {T T1 : List Ptr} {d d1 : Ptr} {i : Nat} {x x1 : SharedPtr}
    (w : WF s T d) (hi : s.sps[i]? = some x)
    (hT : ∀ c : Nat, some c ∈ T1 → c < s.blocks.length)
    (hTc : ∀ c : Nat, cnt x1.handle c + T1.count (some c)
      = cnt x.handle c + T.count (some c))
    (hv : ∀ c : Nat, x1.handle = some c → c < s.blocks.length)
    (hs : ∀ (c : Nat) (blk : Block), s.blocks[c]? = some blk →
      s.cntS c + cnt x1.handle c ≤ blk.strong + cnt d1 c + cnt x.handle c) :
    WF (s.setSp i x1) T1 d1 := by
  constructor
  · intro i1 y c hi1 hy
    rcases getElem?_set_cases hi hi1 with ⟨rfl, rfl⟩ | ⟨_, h1⟩
    · simpa using hv c hy
    · simpa using w.spV i1 y c h1 hy
  · intro i x c hi hx; simpa using w.wpV i x c hi hx
  · intro c hc; simpa using hT c hc
  · intro o1 y c ho1 hy
    simpa using w.meO o1 y c ho1 hy
  · intro c y hc
    have h1 := w.hEq c y hc
    have h2 := cntS_setSp (u := x1) hi c
    have h3 := hTc c
    simp only [State.refs, setSp_cntW, setSp_cntM] at h1 ⊢
    omega
  · intro c y hc; exact w.fEq c y hc
  · intro c y o1 hc ho1
    simpa using w.own c y o1 hc ho1
  · intro c c1 y y1 o1 hc hc1 ho1 ho2
    exact w.uniq c c1 y y1 o1 hc hc1 ho1 ho2
  · intro c y hc
    have h2 := cntS_setSp (u := x1) hi c
    have h3 := hs c y hc
    omega

/-- Replacing one `WeakPtr` record. -/
theorem WF.setWp {s : State} {T T1 : List Ptr} {d : Ptr} {i : Nat} {x x1 : WeakPtr}
    (w : WF s T d) (hi : s.wps[i]? = some x)
    (hT : ∀ c : Nat, some c ∈ T1 → c < s.blocks.length)
    (hTc : ∀ c : Nat, cnt x1.handle c + T1.count (some c)
      = cnt x.handle c + T.count (some c))
    (hv : ∀ c : Nat, x1.handle = some c → c < s.blocks.length) :
    WF (s.setWp i x1) T1 d := by
  constructor
  · intro i x c hi hx; simpa using w.spV i x c hi hx
  · intro i1 y c hi1 hy
    rcases getElem?_set_cases hi hi1 with ⟨rfl, rfl⟩ | ⟨_, h1⟩
    · simpa using hv c hy
    · simpa using w.wpV i1 y c h1 hy
  · intro c hc; simpa using hT c hc
  · intro o1 y c ho1 hy
    simpa using w.meO o1 y c ho1 hy
  · intro c y hc
    have h1 := w.hEq c y hc
    have h2 := cntW_setWp (u := x1) hi c
    have h3 := hTc c
    simp only [State.refs, setWp_cntS, setWp_cntM] at h1 ⊢
    omega
  · intro c y hc; exact w.fEq c y hc
  · intro c y o1 hc ho1
    simpa using w.own c y o1 hc ho1
  · intro c c1 y y1 o1 hc hc1 ho1 ho2
    exact w.uniq c c1 y y1 o1 hc hc1 ho1 ho2
  · intro c y hc
    simpa using w.sGe c y hc

theorem cnt_none (c : Nat) : cnt none c = 0 := by simp [cnt]

theorem cnt_some (b c : Nat) : cnt (some b) c = if b = c then 1 else 0 := by simp [cnt]

theorem cnt_self (b : Nat) : cnt (some b) b = 1 := by simp [cnt]

theorem cnt_le_one (p : Ptr) (c : Nat) : cnt p c ≤ 1 := by
  unfold cnt; split <;> omega

theorem count_cons_cnt (p : Ptr) (T : List Ptr) (c : Nat) :
    (p :: T).count (some c) = T.count (some c) + cnt p c := by
  simp only [List.count_cons, cnt]
  by_cases h : p = some c <;> simp [h]

theorem mem_cons_some {p : Ptr} {T : List Ptr} {c : Nat} (h : some c ∈ p :: T) :
    p = some c ∨ some c ∈ T := by
  simp only [List.mem_cons] at h
  rcases h with h | h
  · exact Or.inl h.symm
  · exact Or.inr h

/-- Only the multiset of non-null temporaries matters. -/
theorem WF.congrT {s : State} {T T1 : List Ptr} {d : Ptr} (w : WF s T d)
    (h : ∀ c : Nat, T1.count (some c) = T.count (some c)) : WF s T1 d := by
  refine ⟨w.spV, w.wpV, ?_, w.meO, ?_, w.fEq, w.own, w.uniq, w.sGe⟩
  · intro c hc
    apply w.tV
    have : 0 < T1.count (some c) := List.count_pos_iff.2 hc
    rw [h c] at this
    exact List.count_pos_iff.1 this
  · intro c x hc
    rw [h c]; exact w.hEq c x hc

theorem WF.dropNone {s : State} {T : List Ptr} {d : Ptr} (w : WF s (none :: T) d) :
    WF s T d :=
  w.congrT fun c => by simp [count_cons_cnt, cnt_none]

theorem WF.addNone {s : State} {T : List Ptr} {d : Ptr} (w : WF s T d) :
    WF s (none :: T) d :=
  w.congrT fun c => by simp [count_cons_cnt, cnt_none]

/-- The strong-count deficit can always be forgotten when there is none. -/
theorem WF.weakenD {s : State} {T : List Ptr} {d : Ptr} (w : WF s T none) : WF s T d := by
  refine ⟨w.spV, w.wpV, w.tV, w.meO, w.hEq, w.fEq, w.own, w.uniq, ?_⟩
  intro c x hc
  have := w.sGe c x hc
  simp only [cnt_none] at this
  omega

/-- Well-formedness only looks at the four tables. -/
theorem WF.congrS {s s1 : State} {T : List Ptr} {d : Ptr} (w : WF s T d)
    (hb : s1.blocks = s.blocks) (ho : s1.objs = s.objs) (hs : s1.sps = s.sps)
    (hw : s1.wps = s.wps) : WF s1 T d := by
  have e1 : ∀ c, s1.cntS c = s.cntS c := fun c => by simp [State.cntS, hs]
  have e2 : ∀ c, s1.refs c = s.refs c := fun c => by
    simp [State.refs, State.cntS, State.cntW, State.cntM, hs, hw, ho]
  constructor
  · intro i x c hi hx; rw [hs] at hi; rw [hb]; exact w.spV i x c hi hx
  · intro i x c hi hx; rw [hw] at hi; rw [hb]; exact w.wpV i x c hi hx
  · intro c hc; rw [hb]; exact w.tV c hc
  · intro o x c ho1 hx; rw [ho] at ho1; rw [hb]; exact w.meO o x c ho1 hx
  · intro c x hc; rw [hb] at hc; rw [e2]; exact w.hEq c x hc
  · intro c x hc; rw [hb] at hc; exact w.fEq c x hc
  · intro c x o hc ho1; rw [hb] at hc; rw [ho]; exact w.own c x o hc ho1
  · intro c c1 x x1 o hc hc1 h1 h2; rw [hb] at hc hc1; exact w.uniq c c1 x x1 o hc hc1 h1 h2
  · intro c x hc; rw [hb] at hc; rw [e1]; exact w.sGe c x hc

theorem Alive.congrSA {s s1 : State} (a : Alive s)
    (hb : s1.blocks = s.blocks) (ho : s1.objs = s.objs) : Alive s1 := by
  refine ⟨?_, ?_⟩
  · intro b blk o obj h1 h2 h3
    rw [hb] at h1; rw [ho] at h2
    exact a.dt b blk o obj h1 h2 h3
  · intro o obj h2
    rw [ho] at h2
    exact a.once o obj h2

/-- No handle references a block that does not exist. -/
theorem WF.refs_eq_zero {s : State} {T : List Ptr} {d : Ptr} (w : WF s T d) {c : Nat}
    (hc : s.blocks.length ≤ c) : s.refs c = 0 ∧ T.count (some c) = 0 := by
  refine ⟨?_, ?_⟩
  · simp only [State.refs, State.cntS, State.cntW, State.cntM, Nat.add_eq_zero,
      List.countP_eq_zero, decide_eq_true_eq]
    refine ⟨⟨?_, ?_⟩, ?_⟩
    · intro x hx hxc
      obtain ⟨i, hi, rfl⟩ := List.getElem_of_mem hx
      have := w.spV i _ c (List.getElem?_eq_getElem hi) hxc
      omega
    · intro x hx hxc
      obtain ⟨i, hi, rfl⟩ := List.getElem_of_mem hx
      have := w.wpV i _ c (List.getElem?_eq_getElem hi) hxc
      omega
    · intro x hx hxc
      obtain ⟨i, hi, rfl⟩ := List.getElem_of_mem hx
      obtain ⟨blk, h1, _⟩ := w.meO i _ c (List.getElem?_eq_getElem hi) hxc
      have := lt_of_getElem? h1
      omega
  · apply List.count_eq_zero.2
    intro h
    have := w.tV c h
    omega

theorem WF.cntS_eq_zero {s : State} {T : List Ptr} {d : Ptr} (w : WF s T d) {c : Nat}
    (hc : s.blocks.length ≤ c) : s.cntS c = 0 := by
  have := (w.refs_eq_zero hc).1
  simp only [State.refs] at this
  omega

/-- Appending a default-constructed `SharedPtr`. -/
theorem WF.pushSp {s : State} {T : List Ptr} {d : Ptr} (w : WF s T d) : WF s.pushSp T d := by
  have e1 : ∀ c, s.pushSp.cntS c = s.cntS c := fun c => by simp [State.cntS, State.pushSp]
  have e2 : ∀ c, s.pushSp.refs c = s.refs c := fun c => by
    simp [State.refs, State.cntS, State.cntW, State.cntM, State.pushSp]
  constructor
  · intro i x c hi hx
    simp only [State.pushSp] at hi ⊢
    rw [List.getElem?_append] at hi
    split at hi
    · exact w.spV i x c hi hx
    · have : x = ⟨none, none⟩ := by
        cases h : i - s.sps.length with
        | zero => simp [h] at hi; exact hi.symm
        | succ n => simp [h] at hi
      subst this; simp at hx
  · exact w.wpV
  · exact w.tV
  · exact w.meO
  · intro c x hc; rw [e2]; exact w.hEq c x hc
  · exact w.fEq
  · exact w.own
  · exact w.uniq
  · intro c x hc; rw [e1]; exact w.sGe c x hc

/-- Appending a `WeakPtr` that takes over the temporary handle `x.handle`. -/
theorem WF.appendWp {s : State} {T : List Ptr} {d : Ptr} {x : WeakPtr}
    (w : WF s (x.handle :: T) d) : WF { s with wps := s.wps ++ [x] } T d := by
  constructor
  · exact w.spV
  · intro i y c hi hy
    simp only at hi ⊢
    rw [List.getElem?_append] at hi
    split at hi
    · exact w.wpV i y c hi hy
    · have : y = x := by
        cases h : i - s.wps.length with
        | zero => simp [h] at hi; exact hi.symm
        | succ n => simp [h] at hi
      subst this
      exact w.tV c (by simp [hy])
  · intro c hc; exact w.tV c (by simp [hc])
  · exact w.meO
  · intro c y hc
    have := w.hEq c y hc
    simp only [State.refs, State.cntS, State.cntW, State.cntM, count_cons_cnt, cnt,
      List.countP_append, List.countP_cons, List.countP_nil, decide_eq_true_eq] at this ⊢
    omega
  · exact w.fEq
  · exact w.own
  · exact w.uniq
  · exact w.sGe

theorem WF.pushWp {s : State} {T : List Ptr} {d : Ptr} (w : WF s T d) : WF s.pushWp T d :=
  WF.appendWp (x := ⟨none, none⟩) w.addNone

/-- Appending a freshly constructed object. -/
theorem WF.appendObj {s : State} {T : List Ptr} {d : Ptr} (w : WF s T d) (cap : Bool)
    (p : Ptr) (n : Nat) : WF { s with objs := s.objs ++ [⟨cap, ⟨none, p⟩, n⟩] } T d := by
  constructor
  · exact w.spV
  · exact w.wpV
  · exact w.tV
  · intro o y c ho hy
    simp only at ho ⊢
    rw [List.getElem?_append] at ho
    split at ho
    · exact w.meO o y c ho hy
    · have : y = ⟨cap, ⟨none, p⟩, n⟩ := by
        cases h : o - s.objs.length with
        | zero => simp [h] at ho; exact ho.symm
        | succ n => simp [h] at ho
      subst this; simp at hy
  · intro c y hc
    have := w.hEq c y hc
    simp only [State.refs, State.cntS, State.cntW, State.cntM,
      List.countP_append, List.countP_cons, List.countP_nil, decide_eq_true_eq] at this ⊢
    simpa using this
  · exact w.fEq
  · intro c y o hc ho
    have := w.own c y o hc ho
    simp only [List.length_append, List.length_singleton]
    omega
  · exact w.uniq
  · exact w.sGe

theorem getElem?_append_singleton_cases {α : Type} {l : List α} {a x : α} {c : Nat}
    (h : (l ++ [a])[c]? = some x) : (c = l.length ∧ x = a) ∨ (c < l.length ∧ l[c]? = some x) := by
  rw [List.getElem?_append] at h
  split at h
  · next hlt => exact Or.inr ⟨hlt, h⟩
  · next hge =>
    cases h1 : c - l.length with
    | zero =>
      simp [h1] at h
      exact Or.inl ⟨by omega, h.symm⟩
    | succ n => simp [h1] at h

/-- Appending a freshly allocated block, owned so far by one temporary handle. -/
theorem WF.appendBlock {s : State} {T : List Ptr} {d : Ptr} (w : WF s T d) (k : Kind)
    (n : Nat)
    (hk : ∀ o : Nat, k.obj = some o → o < s.objs.length ∧
      ∀ (b : Nat) (blk : Block), s.blocks[b]? = some blk → blk.kind.obj ≠ some o) :
    WF { s with blocks := s.blocks ++ [⟨1, n, k, 0, 0⟩] } (some s.blocks.length :: T) d := by
  have hz := w.refs_eq_zero (c := s.blocks.length) (le_refl _)
  have hzS := w.cntS_eq_zero (c := s.blocks.length) (le_refl _)
  constructor
  · intro i x c hi hx
    have := w.spV i x c hi hx
    simp only [List.length_append, List.length_singleton]; omega
  · intro i x c hi hx
    have := w.wpV i x c hi hx
    simp only [List.length_append, List.length_singleton]; omega
  · intro c hc
    simp only [List.length_append, List.length_singleton]
    rcases mem_cons_some hc with h | h
    · cases h; omega
    · have := w.tV c h; omega
  · intro o y c ho hy
    obtain ⟨blk, h1, h2⟩ := w.meO o y c ho hy
    refine ⟨blk, ?_, h2⟩
    simp only
    rw [List.getElem?_append_left (lt_of_getElem? h1)]
    exact h1
  · intro c y hc
    rcases getElem?_append_singleton_cases hc with ⟨rfl, rfl⟩ | ⟨hlt, h1⟩
    · have e : State.refs { s with blocks := s.blocks ++ [⟨1, n, k, 0, 0⟩] } s.blocks.length
          = s.refs s.blocks.length := rfl
      rw [e, count_cons_cnt, cnt_self, hz.1, hz.2]
    · have e : State.refs { s with blocks := s.blocks ++ [⟨1, n, k, 0, 0⟩] } c
          = s.refs c := rfl
      rw [e, count_cons_cnt, w.hEq c y h1, cnt_some]
      have : ¬ s.blocks.length = c := by omega
      simp [this]
  · intro c y hc
    rcases getElem?_append_singleton_cases hc with ⟨rfl, rfl⟩ | ⟨hlt, h1⟩
    · simp
    · exact w.fEq c y h1
  · intro c y o hc ho
    rcases getElem?_append_singleton_cases hc with ⟨rfl, rfl⟩ | ⟨hlt, h1⟩
    · exact (hk o ho).1
    · exact w.own c y o h1 ho
  · intro c c1 y y1 o hc hc1 ho ho1
    rcases getElem?_append_singleton_cases hc with ⟨rfl, rfl⟩ | ⟨hlt, h1⟩ <;>
    rcases getElem?_append_singleton_cases hc1 with ⟨rfl, rfl⟩ | ⟨hlt1, h2⟩
    · rfl
    · exact absurd ho1 ((hk o ho).2 c1 y1 h2)
    · exact absurd ho ((hk o ho1).2 c y h1)
    · exact w.uniq c c1 y y1 o h1 h2 ho ho1
  · intro c y hc
    have e : State.cntS { s with blocks := s.blocks ++ [⟨1, n, k, 0, 0⟩] } c = s.cntS c := rfl
    rw [e]
    rcases getElem?_append_singleton_cases hc with ⟨rfl, rfl⟩ | ⟨hlt, h1⟩
    · rw [hzS]; omega
    · exact w.sGe c y h1

theorem setBlock_setBlock (s : State) (b : Nat) (x y : Block) :
    (s.setBlock b x).setBlock b y = s.setBlock b y := by
  simp [State.setBlock, List.set_set]

theorem getElem?_setBlock_self {s : State} {b : Nat} {blk : Block} (x : Block)
    (hb : s.blocks[b]? = some blk) : (s.setBlock b x).blocks[b]? = some x := by
  simp [State.setBlock, List.getElem?_set, lt_of_getElem? hb]

theorem getElem?_setBlock_ne {s : State} {b c : Nat} (x : Block) (h : c ≠ b) :
    (s.setBlock b x).blocks[c]? = s.blocks[c]? := by
  simp [State.setBlock, List.getElem?_set, Ne.symm h]

theorem getElem?_setObj_self {s : State} {o : Nat} {obj : Obj} (x : Obj)
    (ho : s.objs[o]? = some obj) : (s.setObj o x).objs[o]? = some x := by
  simp [State.setObj, List.getElem?_set, lt_of_getElem? ho]

theorem getElem?_setObj_ne {s : State} {o c : Nat} (x : Obj) (h : c ≠ o) :
    (s.setObj o x).objs[c]? = s.objs[c]? := by
  simp [State.setObj, List.getElem?_set, Ne.symm h]

theorem release_none (s : State) : Handle.release s none = some s := by
  simp [Handle.release, Handle.releaseAux]

theorem releaseAux_none (f : Nat) (s : State) : Handle.releaseAux f s none = some s := by
  cases f <;> simp [Handle.releaseAux]

theorem HandleEnd_dec {s : State} {b : Nat} {blk : Block} (hb : s.blocks[b]? = some blk)
    (h2 : 2 ≤ blk.handles) :
    Storage.HandleEnd s b
      = some (s.setBlock b { blk with handles := blk.handles - 1 }, false) := by
  have h0 : 0 < blk.handles := by omega
  have h1 : (blk.handles - 1 == 0) = false := by
    rw [beq_eq_false_iff_ne]; omega
  simp [Storage.HandleEnd, hb, h0, h1]

theorem HandleEnd_last {s : State} {b : Nat} {blk : Block} (hb : s.blocks[b]? = some blk)
    (h1 : blk.handles = 1) :
    Storage.HandleEnd s b = some (s.setBlock b { blk with handles := 0 }, true) := by
  simp [Storage.HandleEnd, hb, h1]

/-- Releasing a handle that is not the last one only decrements `handles_`. -/
theorem release_dec {s : State} {b : Nat} {blk : Block} (hb : s.blocks[b]? = some blk)
    (h2 : 2 ≤ blk.handles) :
    Handle.release s (some b)
      = some (s.setBlock b { blk with handles := blk.handles - 1 }) := by
  simp [Handle.release, State.fuel, Handle.releaseAux, HandleEnd_dec hb h2]

/-- Releasing the last handle of a block that has no object to delete. -/
theorem release_last_plain {s : State} {b : Nat} {blk : Block}
    (hb : s.blocks[b]? = some blk) (h1 : blk.handles = 1)
    (hk : ∀ o : Nat, blk.kind ≠ Kind.indirect (some o)) :
    Handle.release s (some b)
      = some (s.setBlock b { blk with handles := 0, freed := blk.freed + 1 }) := by
  have hlt := lt_of_getElem? hb
  cases hkind : blk.kind with
  | inline o =>
    simp [Handle.release, State.fuel, Handle.releaseAux, HandleEnd_last hb h1,
      List.getElem?_set, hlt, hkind, setBlock_setBlock]
  | indirect dp =>
    cases dp with
    | none =>
      simp [Handle.release, State.fuel, Handle.releaseAux, HandleEnd_last hb h1,
        List.getElem?_set, hlt, hkind, setBlock_setBlock]
    | some o => exact absurd hkind (hk o)

/-- Releasing the last handle of an `IndirectStorage` whose `data_` is still set:
the object is deleted; its `me_` holds no handle. -/
theorem release_last_obj {s : State} {b o : Nat} {blk : Block} {obj : Obj}
    (hb : s.blocks[b]? = some blk) (h1 : blk.handles = 1)
    (hk : blk.kind = Kind.indirect (some o)) (ho : s.objs[o]? = some obj)
    (hm : obj.me.handle = none) :
    Handle.release s (some b)
      = some ((s.setBlock b { blk with handles := 0, freed := blk.freed + 1 }).setObj o
          { obj with dtors := obj.dtors + 1 }) := by
  have hlt := lt_of_getElem? hb
  have hme : (⟨none, obj.me.ptr⟩ : WeakPtr) = obj.me := by
    cases hx : obj.me with
    | mk h p => rw [hx] at hm; simp at hm; simp [hm]
  simp [Handle.release, State.fuel, Handle.releaseAux, HandleEnd_last hb h1,
    List.getElem?_set, hlt, hk, setBlock_setBlock, Obj.dtorTake, ho, hm, hme,
    releaseAux_none]

theorem Frame.refl (s : State) (p : Ptr) : Frame s s p :=
  ⟨rfl, rfl, rfl, fun _ blk h => ⟨blk, h, fun _ => rfl, fun _ h => h⟩,
    fun _ obj h => ⟨obj, h, rfl, rfl, Or.inl rfl, fun _ => rfl⟩⟩

theorem Alive.setBlockA {s : State} {b : Nat} {blk y : Block} (a : Alive s)
    (hb : s.blocks[b]? = some blk) (hk : y.kind = blk.kind) (hf : y.freed = blk.freed)
    (hs : y.strong = 0 ↔ blk.strong = 0) : Alive (s.setBlock b y) := by
  refine ⟨?_, fun o obj ho => a.once o obj ho⟩
  intro c x o obj hc ho hx
  simp only [setBlock_objs] at ho
  rcases getElem?_set_cases hb hc with ⟨rfl, rfl⟩ | ⟨_, h1⟩
  · have := a.dt c blk o obj hb ho (hk ▸ hx)
    rw [this, hk, hf]
    simp only [hs]
  · exact a.dt c x o obj h1 ho hx

theorem countP_pos_of_getElem? {α : Type} {p : α → Bool} {l : List α} {i : Nat} {x : α}
    (h : l[i]? = some x) (hp : p x = true) : 1 ≤ l.countP p := by
  apply List.countP_pos_iff.2
  exact ⟨x, List.getElem?_mem h, hp⟩

theorem cntS_pos {s : State} {i b : Nat} {x : SharedPtr} (h : s.sps[i]? = some x)
    (hx : x.handle = some b) : 1 ≤ s.cntS b :=
  countP_pos_of_getElem? h (by simp [hx])

theorem cntW_pos {s : State} {i b : Nat} {x : WeakPtr} (h : s.wps[i]? = some x)
    (hx : x.handle = some b) : 1 ≤ s.cntW b :=
  countP_pos_of_getElem? h (by simp [hx])

theorem cntM_pos {s : State} {o b : Nat} {x : Obj} (h : s.objs[o]? = some x)
    (hx : x.me.handle = some b) : 1 ≤ s.cntM b :=
  countP_pos_of_getElem? h (by simp [hx])

theorem getElem?_of_lt {α : Type} {l : List α} {i : Nat} (h : i < l.length) :
    ∃ x : α, l[i]? = some x := ⟨l[i], List.getElem?_eq_getElem h⟩

/-- Replacing one block record, general form for `Alive`. -/
theorem Alive.setBlockGen {s : State} {b : Nat} {blk blk1 : Block} (a : Alive s)
    (hb : s.blocks[b]? = some blk)
    (h : ∀ (o : Nat) (obj : Obj), s.objs[o]? = some obj → blk1.kind.obj = some o →
      obj.dtors = (match blk1.kind with
        | Kind.indirect _ => blk1.freed
        | Kind.inline _ => if blk1.strong = 0 then 1 else 0)) :
    Alive (s.setBlock b blk1) := by
  refine ⟨?_, fun o obj ho => a.once o obj ho⟩
  intro c x o obj hc ho hx
  simp only [setBlock_objs] at ho
  rcases getElem?_set_cases hb hc with ⟨rfl, rfl⟩ | ⟨_, h1⟩
  · exact h o obj ho hx
  · exact a.dt c x o obj h1 ho hx

/-- In a well-formed state the `me_` of an object references only the block that
has the object in its care. -/
theorem WF.me_of_owned {s : State} {T : List Ptr} {d : Ptr} (w : WF s T d) {b o c : Nat}
    {blk : Block} {obj : Obj} (hb : s.blocks[b]? = some blk) (hk : blk.kind.obj = some o)
    (ho : s.objs[o]? = some obj) (hm : obj.me.handle = some c) : c = b := by
  obtain ⟨blk1, h1, h2⟩ := w.meO o obj c ho hm
  exact w.uniq c b blk1 blk o h1 hb h2 hk

/-- Behaviour of `Handle::Reset` after `Take()` in a well-formed state: it always returns, the
state stays well-formed with the temporary gone, and only block `p` and the object in
its care are touched. -/
theorem release_spec {s : State} {T : List Ptr} {d p : Ptr} (w : WF s (p :: T) d)
    (a : Alive s) :
    ∃ s1 : State, Handle.release s p = some s1 ∧ WF s1 T d ∧ Alive s1 ∧
      RelFrame s s1 p := by
  cases p with
  | none =>
    exact ⟨s, release_none s, w.dropNone, a, Frame.refl s none, rfl, rfl,
      fun o obj h => ⟨obj, h, rfl⟩, fun c blk h => ⟨blk, h, rfl, rfl, rfl⟩⟩
  | some b =>
    have hlt : b < s.blocks.length := w.tV b (by simp)
    obtain ⟨blk, hb⟩ := getElem?_of_lt hlt
    have hh := w.hEq b blk hb
    rw [count_cons_cnt, cnt_self] at hh
    have hf := w.fEq b blk hb
    have hf0 : blk.freed = 0 := by rw [hf]; simp; omega
    have hT : ∀ c : Nat, some c ∈ T → c < s.blocks.length :=
      fun c hc => w.tV c (by simp [hc])
    have hTc : ∀ c : Nat, c ≠ b → T.count (some c) = (some b :: T).count (some c) := by
      intro c hc
      rw [count_cons_cnt, cnt_some]
      simp [Ne.symm hc]
    have blocksFrame : ∀ (x : Block), x.strong = blk.strong → x.kind = blk.kind →
        x.destroys = blk.destroys →
        ∀ (c : Nat) (y : Block), s.blocks[c]? = some y →
        ∃ blk1 : Block, (s.blocks.set b x)[c]? = some blk1 ∧ blk1.strong = y.strong ∧
          blk1.kind = y.kind ∧ blk1.destroys = y.destroys ∧ (some b ≠ some c → blk1 = y) := by
      intro x h1 h2 h3 c y hc
      by_cases hcb : c = b
      · subst hcb
        rw [hb] at hc; cases hc
        exact ⟨x, getElem?_set_self_of hb, h1, h2, h3, fun h => absurd rfl h⟩
      · refine ⟨y, ?_, rfl, rfl, rfl, fun _ => rfl⟩
        rw [List.getElem?_set]; simp [Ne.symm hcb, hc]
    by_cases h2 : 2 ≤ blk.handles
    · -- not the last handle
      refine ⟨_, release_dec hb h2, ?_, ?_, ⟨?_, rfl, rfl, ?_, ?_⟩⟩
      · apply w.setBlock hb hT hTc
        · simp only; omega
        · simp only; rw [hf0]; rw [if_neg]; omega
        · intro o ho; exact ho
        · intro o x ho hx
          obtain ⟨blk1, h1, h3⟩ := w.meO o x b ho hx
          rw [hb] at h1; cases h1; exact h3
        · exact w.sGe b blk hb
        · intro c _; exact le_refl _
      · exact a.setBlockA hb rfl rfl Iff.rfl
      · refine ⟨rfl, by simp, rfl, ?_, ?_⟩
        · intro c y hc
          obtain ⟨blk1, e1, _, e3, _, e5⟩ :=
            blocksFrame { blk with handles := blk.handles - 1 } rfl rfl rfl c y hc
          exact ⟨blk1, e1, e5, fun o ho => by rw [← e3]; exact ho⟩
        · intro o obj ho
          exact ⟨obj, ho, rfl, rfl, Or.inl rfl, fun _ => rfl⟩
      · intro o obj ho; exact ⟨obj, ho, rfl⟩
      · intro c y hc
        obtain ⟨blk1, e1, e2, e3, e4, _⟩ :=
          blocksFrame { blk with handles := blk.handles - 1 } rfl rfl rfl c y hc
        exact ⟨blk1, e1, e2, e3, e4⟩
    · -- the last handle: the block is deleted
      have h1 : blk.handles = 1 := by omega
      have hr0 : s.refs b = 0 := by omega
      have hT0 : T.count (some b) = 0 := by omega
      have wB : WF (s.setBlock b { blk with handles := 0, freed := blk.freed + 1 }) T d := by
        apply w.setBlock hb hT hTc
        · simp only; omega
        · simp only; rw [hf0]; simp
        · intro o ho; exact ho
        · intro o x ho hx
          obtain ⟨blk1, h3, h4⟩ := w.meO o x b ho hx
          rw [hb] at h3; cases h3; exact h4
        · exact w.sGe b blk hb
        · intro c _; exact le_refl _
      by_cases hk : ∃ o : Nat, blk.kind = Kind.indirect (some o)
      · obtain ⟨o, hk⟩ := hk
        have hko : blk.kind.obj = some o := by rw [hk]; rfl
        obtain ⟨obj, ho⟩ := getElem?_of_lt (w.own b blk o hb hko)
        have hm : obj.me.handle = none := by
          cases hmh : obj.me.handle with
          | none => rfl
          | some c =>
            have := w.me_of_owned hb hko ho hmh
            subst this
            have := cntM_pos ho hmh
            simp only [State.refs] at hr0
            omega
        refine ⟨_, release_last_obj hb h1 hk ho hm, ?_, ?_, ⟨?_, rfl, rfl, ?_, ?_⟩⟩
        · apply wB.setObj (q := obj) (by simpa using ho)
          · intro c hc; simpa using hT c hc
          · intro c; rfl
          · intro c hc; simp only at hc; rw [hm] at hc; cases hc
        · have hd0 : obj.dtors = 0 := by
            have := a.dt b blk o obj hb ho hko
            simp only [hk] at this
            omega
          refine ⟨?_, ?_⟩
          · intro c x o1 obj1 hc ho1 hx
            simp only [setObj_blocks, setBlock_blocks] at hc
            simp only [setObj_objs, setBlock_objs] at ho1
            rcases getElem?_set_cases hb hc with ⟨rfl, rfl⟩ | ⟨hne, hc1⟩
            · simp only [hko, Option.some.injEq] at hx
              subst hx
              rcases getElem?_set_cases ho ho1 with ⟨_, rfl⟩ | ⟨hne, _⟩
              · simp only [hk]
                omega
              · exact absurd rfl hne
            · rcases getElem?_set_cases ho ho1 with ⟨rfl, rfl⟩ | ⟨_, ho2⟩
              · exact absurd (w.uniq c b x blk o1 hc1 hb hx hko) hne
              · exact a.dt c x o1 obj1 hc1 ho2 hx
          · intro o1 obj1 ho1
            simp only [setObj_objs, setBlock_objs] at ho1
            rcases getElem?_set_cases ho ho1 with ⟨_, rfl⟩ | ⟨_, ho2⟩
            · simp only; omega
            · exact a.once o1 obj1 ho2
        · refine ⟨rfl, by simp, by simp, ?_, ?_⟩
          · intro c y hc
            obtain ⟨blk1, e1, _, e3, _, e5⟩ :=
              blocksFrame { blk with handles := 0, freed := blk.freed + 1 } rfl rfl rfl c y hc
            exact ⟨blk1, e1, e5, fun o ho => by rw [← e3]; exact ho⟩
          · intro o1 obj1 ho1
            by_cases hoo : o1 = o
            · subst hoo
              rw [ho] at ho1; cases ho1
              refine ⟨_, getElem?_setObj_self _ (by simpa using ho), rfl, rfl, Or.inl rfl, ?_⟩
              intro hno
              exact absurd hko (hno b blk rfl hb)
            · refine ⟨obj1, ?_, rfl, rfl, Or.inl rfl, fun _ => rfl⟩
              rw [getElem?_setObj_ne _ hoo]; exact ho1
        · intro o1 obj1 ho1
          by_cases hoo : o1 = o
          · subst hoo
            rw [ho] at ho1; cases ho1
            exact ⟨_, getElem?_setObj_self _ (by simpa using ho), rfl⟩
          · refine ⟨obj1, ?_, rfl⟩
            rw [getElem?_setObj_ne _ hoo]; exact ho1
        · intro c y hc
          obtain ⟨blk1, e1, e2, e3, e4, _⟩ :=
            blocksFrame { blk with handles := 0, freed := blk.freed + 1 } rfl rfl rfl c y hc
          exact ⟨blk1, e1, e2, e3, e4⟩
      · have hk1 : ∀ o : Nat, blk.kind ≠ Kind.indirect (some o) :=
          fun o h => hk ⟨o, h⟩
        refine ⟨_, release_last_plain hb h1 hk1, wB, ?_, ⟨?_, rfl, rfl, ?_, ?_⟩⟩
        · apply a.setBlockGen hb
          intro o obj ho hx
          simp only at hx ⊢
          have := a.dt b blk o obj hb ho hx
          cases hkind : blk.kind with
          | inline o1 => rw [hkind] at this; exact this
          | indirect dp =>
            cases dp with
            | none => rw [hkind] at hx; simp [Kind.obj] at hx
            | some o1 => exact absurd hkind (hk1 o1)
        · refine ⟨rfl, by simp, rfl, ?_, ?_⟩
          · intro c y hc
            obtain ⟨blk1, e1, _, e3, _, e5⟩ :=
              blocksFrame { blk with handles := 0, freed := blk.freed + 1 } rfl rfl rfl c y hc
            exact ⟨blk1, e1, e5, fun o ho => by rw [← e3]; exact ho⟩
          · intro o obj ho
            exact ⟨obj, ho, rfl, rfl, Or.inl rfl, fun _ => rfl⟩
        · intro o obj ho; exact ⟨obj, ho, rfl⟩
        · intro c y hc
          obtain ⟨blk1, e1, e2, e3, e4, _⟩ :=
            blocksFrame { blk with handles := 0, freed := blk.freed + 1 } rfl rfl rfl c y hc
          exact ⟨blk1, e1, e2, e3, e4⟩

theorem setObj_setBlock (s : State) (b o : Nat) (x : Block) (y : Obj) :
    (s.setObj o y).setBlock b x = (s.setBlock b x).setObj o y := rfl

theorem copy_none (s : State) : Handle.copy s none = some s := rfl

theorem copy_eq {s : State} {b : Nat} {blk : Block} (hb : s.blocks[b]? = some blk)
    (h : 0 < blk.handles) :
    Handle.copy s (some b) = some (s.setBlock b { blk with handles := blk.handles + 1 }) := by
  simp [Handle.copy, Storage.HandleBegin, hb, h]

/-- Inversion of a successful `Handle(Handle const&)`. -/
theorem copy_inv {s s1 : State} {p : Ptr} (h : Handle.copy s p = some s1) :
    (p = none ∧ s1 = s) ∨
    ∃ (b : Nat) (blk : Block), p = some b ∧ s.blocks[b]? = some blk ∧ 0 < blk.handles ∧
      s1 = s.setBlock b { blk with handles := blk.handles + 1 } := by
  cases p with
  | none => left; simp [Handle.copy] at h; exact ⟨rfl, h.symm⟩
  | some b =>
    right
    simp only [Handle.copy, Storage.HandleBegin] at h
    cases hb : s.blocks[b]? with
    | none => simp [hb] at h
    | some blk =>
      simp only [hb] at h
      split at h
      · next hpos =>
        simp at h
        exact ⟨b, blk, rfl, hb, hpos, h.symm⟩
      · simp at h

theorem copy_WF {s s1 : State} {T : List Ptr} {d p : Ptr} (h : Handle.copy s p = some s1)
    (w : WF s T d) : WF s1 (p :: T) d := by
  rcases copy_inv h with ⟨rfl, rfl⟩ | ⟨b, blk, rfl, hb, hpos, rfl⟩
  · exact w.addNone
  · have hlt := lt_of_getElem? hb
    apply w.setBlock hb
    · intro c hc
      rcases mem_cons_some hc with h1 | h1
      · cases h1; exact hlt
      · exact w.tV c h1
    · intro c hc
      rw [count_cons_cnt, cnt_some]; simp [Ne.symm hc]
    · simp only [count_cons_cnt, cnt_self]
      have := w.hEq b blk hb
      omega
    · simp only
      have := w.fEq b blk hb
      rw [this]
      have e1 : ¬ blk.handles = 0 := by omega
      have e2 : ¬ blk.handles + 1 = 0 := by omega
      simp [e1, e2]
    · intro o ho; exact ho
    · intro o x ho hx
      obtain ⟨blk1, h1, h3⟩ := w.meO o x b ho hx
      rw [hb] at h1; cases h1; exact h3
    · exact w.sGe b blk hb
    · intro c _; exact le_refl _

theorem copy_Alive {s s1 : State} {p : Ptr} (h : Handle.copy s p = some s1) (a : Alive s) :
    Alive s1 := by
  rcases copy_inv h with ⟨rfl, rfl⟩ | ⟨b, blk, rfl, hb, hpos, rfl⟩
  · exact a
  · exact a.setBlockA hb rfl rfl Iff.rfl

theorem copy_frame {s s1 : State} {p : Ptr} (h : Handle.copy s p = some s1) :
    s1.sps = s.sps ∧ s1.wps = s.wps ∧ s1.objs = s.objs ∧ s1.allocs = s.allocs ∧
    s1.blocks.length = s.blocks.length ∧
    ∀ (c : Nat) (blk : Block), s.blocks[c]? = some blk →
      ∃ blk1 : Block, s1.blocks[c]? = some blk1 ∧ blk1.strong = blk.strong ∧
        blk1.kind = blk.kind ∧ blk1.destroys = blk.destroys ∧ blk1.freed = blk.freed ∧
        blk1.handles = blk.handles + cnt p c := by
  rcases copy_inv h with ⟨rfl, rfl⟩ | ⟨b, blk, rfl, hb, hpos, rfl⟩
  · exact ⟨rfl, rfl, rfl, rfl, rfl, fun c blk hc => ⟨blk, hc, rfl, rfl, rfl, rfl, by simp [cnt]⟩⟩
  · refine ⟨rfl, rfl, rfl, rfl, by simp, ?_⟩
    intro c y hc
    by_cases hcb : c = b
    · subst hcb
      rw [hb] at hc; cases hc
      exact ⟨_, getElem?_setBlock_self _ hb, rfl, rfl, rfl, rfl, by simp [cnt]⟩
    · refine ⟨y, ?_, rfl, rfl, rfl, rfl, ?_⟩
      · rw [getElem?_setBlock_ne _ hcb]; exact hc
      · simp [cnt, Ne.symm hcb]

theorem BeginStrong_eq {s : State} {b : Nat} {blk : Block} (hb : s.blocks[b]? = some blk)
    (h : 0 < blk.strong) :
    RealStorage.BeginStrong s b
      = some (s.setBlock b { blk with strong := blk.strong + 1 }) := by
  simp [RealStorage.BeginStrong, hb, h]

theorem BeginStrong_inv {s s1 : State} {b : Nat} (h : RealStorage.BeginStrong s b = some s1) :
    ∃ blk : Block, s.blocks[b]? = some blk ∧ 0 < blk.strong ∧
      s1 = s.setBlock b { blk with strong := blk.strong + 1 } := by
  simp only [RealStorage.BeginStrong] at h
  cases hb : s.blocks[b]? with
  | none => simp [hb] at h
  | some blk =>
    simp only [hb] at h
    split at h
    · next hpos =>
      simp at h
      exact ⟨blk, rfl, hpos, h.symm⟩
    · simp at h

theorem BeginStrong_WF {s s1 : State} {T : List Ptr} {d : Ptr} {b : Nat}
    (h : RealStorage.BeginStrong s b = some s1) (w : WF s T d)
    (hd : ∀ c : Nat, c ≠ b → cnt d c = 0) : WF s1 T none := by
  obtain ⟨blk, hb, hpos, rfl⟩ := BeginStrong_inv h
  refine w.setBlock (y := { blk with strong := blk.strong + 1 }) hb w.tV
    (fun c _ => rfl) (w.hEq b blk hb) (w.fEq b blk hb) ?_ ?_ ?_ ?_
  · intro o ho; exact ho
  · intro o x ho hx
    obtain ⟨blk1, h1, h3⟩ := w.meO o x b ho hx
    rw [hb] at h1; cases h1; exact h3
  · have := w.sGe b blk hb
    have := cnt_le_one d b
    simp only [cnt_none]
    omega
  · intro c hc; rw [hd c hc]; exact Nat.zero_le _

theorem BeginStrong_Alive {s s1 : State} {b : Nat}
    (h : RealStorage.BeginStrong s b = some s1) (a : Alive s) : Alive s1 := by
  obtain ⟨blk, hb, hpos, rfl⟩ := BeginStrong_inv h
  refine a.setBlockA (y := { blk with strong := blk.strong + 1 }) hb rfl rfl ?_
  simp only
  constructor <;> intro h1 <;> omega

/-- Behaviour of `EndStrong` that does not drop the last strong reference. -/
theorem EndStrong_dec {s : State} {b : Nat} {blk : Block} (hb : s.blocks[b]? = some blk)
    (h2 : 2 ≤ blk.strong) :
    RealStorage.EndStrong s b
      = some (s.setBlock b { blk with strong := blk.strong - 1 }) := by
  have h0 : 0 < blk.strong := by omega
  have h1 : ¬ blk.strong - 1 = 0 := by omega
  simp [RealStorage.EndStrong, hb, h0, h1]

/-- Behaviour of `EndStrong` dropping the last strong reference of a block without object
(an `IndirectStorage` whose `data_` is null). -/
theorem EndStrong_last_null {s : State} {b : Nat} {blk : Block}
    (hb : s.blocks[b]? = some blk) (h1 : blk.strong = 1)
    (hk : blk.kind = Kind.indirect none) :
    RealStorage.EndStrong s b
      = some (s.setBlock b { blk with strong := 0, destroys := blk.destroys + 1 }) := by
  have hlt := lt_of_getElem? hb
  simp [RealStorage.EndStrong, hb, h1, Storage.Destroy, List.getElem?_set, hlt, hk,
    setBlock_setBlock]

/-- Behaviour of `EndStrong` dropping the last strong reference of a block with an object: the
object is destroyed, and the handle in its `me_` (none, or one of at least two
handles on this very block) is released. -/
theorem EndStrong_last_obj {s : State} {b o : Nat} {blk : Block} {obj : Obj} {r : Kind}
    (hb : s.blocks[b]? = some blk) (h1 : blk.strong = 1)
    (ho : s.objs[o]? = some obj)
    (hm : obj.me.handle = none ∨ (obj.me.handle = some b ∧ 2 ≤ blk.handles))
    (hk : (blk.kind = Kind.inline o ∧ r = Kind.inline o) ∨
      (blk.kind = Kind.indirect (some o) ∧ r = Kind.indirect none)) :
    RealStorage.EndStrong s b
      = some ((s.setBlock b
          { blk with
            handles := blk.handles - cnt obj.me.handle b
            strong := 0
            kind := r
            destroys := blk.destroys + 1 }).setObj o
          { obj with dtors := obj.dtors + 1, me := { obj.me with handle := none } }) := by
  have hlt := lt_of_getElem? hb
  rcases hm with hm | ⟨hm, h2⟩
  · rcases hk with ⟨hk, rfl⟩ | ⟨hk, rfl⟩
    · simp [RealStorage.EndStrong, hb, h1, Storage.Destroy, List.getElem?_set, hlt, hk,
        setBlock_setBlock, Obj.dtorTake, ho, hm, release_none, cnt_none, setObj_setBlock]
    · simp [RealStorage.EndStrong, hb, h1, Storage.Destroy, List.getElem?_set, hlt, hk,
        setBlock_setBlock, Obj.dtorTake, ho, hm, release_none, cnt_none, setObj_setBlock]
  · have hrel : ∀ (x : Block) (y : Obj), x.handles = blk.handles →
        Handle.release ((s.setBlock b x).setObj o y) (some b)
          = some (((s.setBlock b x).setObj o y).setBlock b
              { x with handles := x.handles - 1 }) := by
      intro x y hx
      apply release_dec
      · simp [List.getElem?_set, hlt]
      · omega
    rcases hk with ⟨hk, rfl⟩ | ⟨hk, rfl⟩
    · simp [RealStorage.EndStrong, hb, h1, Storage.Destroy, List.getElem?_set, hlt, hk,
        setBlock_setBlock, Obj.dtorTake, ho, hm, cnt_self, setObj_setBlock, hrel]
    · simp [RealStorage.EndStrong, hb, h1, Storage.Destroy, List.getElem?_set, hlt, hk,
        setBlock_setBlock, Obj.dtorTake, ho, hm, cnt_self, setObj_setBlock, hrel]

/-- Behaviour of `RealStorage::EndStrong` on a block referenced by at least one `SharedPtr`, in a
well-formed state: it returns, the strong count drops by one (leaving the block one
short with respect to the `SharedPtr`s that reference it, until the caller drops its
handle), and only block `b` and the object in its care are touched. -/
theorem EndStrong_spec {s : State} {T : List Ptr} {b : Nat} (w : WF s T none) (a : Alive s)
    (hS : 1 ≤ s.cntS b) :
    ∃ (s1 : State) (blk blk1 : Block), s.blocks[b]? = some blk ∧ 1 ≤ blk.strong ∧
      RealStorage.EndStrong s b = some s1 ∧ WF s1 T (some b) ∧ Alive s1 ∧
      Frame s s1 (some b) ∧ s1.sps = s.sps ∧ s1.wps = s.wps ∧
      s1.blocks[b]? = some blk1 ∧ blk1.strong = blk.strong - 1 := by
  have hlt : b < s.blocks.length := by
    by_contra hge
    have := w.cntS_eq_zero (c := b) (by omega)
    omega
  obtain ⟨blk, hb⟩ := getElem?_of_lt hlt
  have hs := w.sGe b blk hb
  simp only [cnt_none] at hs
  have hh := w.hEq b blk hb
  have hf := w.fEq b blk hb
  have hrS : s.cntS b ≤ s.refs b := by simp only [State.refs]; omega
  have hf0 : blk.freed = 0 := by rw [hf]; rw [if_neg]; omega
  have hmeO : ∀ (o : Nat) (x : Obj), s.objs[o]? = some x → x.me.handle = some b →
      blk.kind.obj = some o := by
    intro o x ho hx
    obtain ⟨blk1, h1, h3⟩ := w.meO o x b ho hx
    rw [hb] at h1; cases h1; exact h3
  have frameBlk : ∀ (x : Block), (∀ o : Nat, x.kind.obj = some o → blk.kind.obj = some o) →
      ∀ (c : Nat) (y : Block), s.blocks[c]? = some y →
      ∃ blk1 : Block, (s.blocks.set b x)[c]? = some blk1 ∧ (some b ≠ some c → blk1 = y) ∧
        (∀ o : Nat, blk1.kind.obj = some o → y.kind.obj = some o) := by
    intro x hx c y hc
    by_cases hcb : c = b
    · subst hcb
      rw [hb] at hc; cases hc
      exact ⟨x, getElem?_set_self_of hb, fun h => absurd rfl h, hx⟩
    · refine ⟨y, ?_, fun _ => rfl, fun _ h => h⟩
      rw [List.getElem?_set]; simp [Ne.symm hcb, hc]
  by_cases h2 : 2 ≤ blk.strong
  · refine ⟨_, blk, { blk with strong := blk.strong - 1 }, hb, by omega, EndStrong_dec hb h2,
      ?_, ?_, ?_, rfl, rfl, getElem?_setBlock_self _ hb, rfl⟩
    · refine w.setBlock (y := { blk with strong := blk.strong - 1 }) hb w.tV
        (fun c _ => rfl) hh hf (fun o ho => ho) hmeO ?_ ?_
      · simp only [cnt_self]; omega
      · intro c _; simp [cnt_none]
    · refine a.setBlockA (y := { blk with strong := blk.strong - 1 }) hb rfl rfl ?_
      simp only
      constructor <;> intro h1 <;> omega
    · refine ⟨rfl, by simp, rfl, ?_, ?_⟩
      · exact frameBlk { blk with strong := blk.strong - 1 } (fun o ho => ho)
      · intro o obj ho
        exact ⟨obj, ho, rfl, rfl, Or.inl rfl, fun _ => rfl⟩
  · have h1 : blk.strong = 1 := by omega
    cases hko : blk.kind.obj with
    | none =>
      have hk : blk.kind = Kind.indirect none := by
        cases hkind : blk.kind with
        | inline o => rw [hkind] at hko; simp [Kind.obj] at hko
        | indirect dp => rw [hkind] at hko; simp only [Kind.obj] at hko; rw [hko]
      refine ⟨_, blk, { blk with strong := 0, destroys := blk.destroys + 1 }, hb, by omega,
        EndStrong_last_null hb h1 hk, ?_, ?_, ?_, rfl, rfl, getElem?_setBlock_self _ hb,
        by simp [h1]⟩
      · refine w.setBlock (y := { blk with strong := 0, destroys := blk.destroys + 1 })
          hb w.tV (fun c _ => rfl) hh hf (fun o ho => ho) hmeO ?_ ?_
        · simp only [cnt_self]; omega
        · intro c _; simp [cnt_none]
      · apply a.setBlockGen hb
        intro o obj ho hx
        simp only [hko] at hx
        cases hx
      · refine ⟨rfl, by simp, rfl, ?_, ?_⟩
        · exact frameBlk { blk with strong := 0, destroys := blk.destroys + 1 }
            (fun o ho => ho)
        · intro o obj ho
          exact ⟨obj, ho, rfl, rfl, Or.inl rfl, fun _ => rfl⟩
    | some o =>
      obtain ⟨obj, ho⟩ := getElem?_of_lt (w.own b blk o hb hko)
      -- the handle inside `me_`
      have hme : obj.me.handle = none ∨ (obj.me.handle = some b ∧ 2 ≤ blk.handles) := by
        cases hmh : obj.me.handle with
        | none => exact Or.inl rfl
        | some c =>
          have := w.me_of_owned hb hko ho hmh
          subst this
          have := cntM_pos ho hmh
          refine Or.inr ⟨rfl, ?_⟩
          simp only [State.refs] at hh
          omega
      have hcnt : ∀ c : Nat, c ≠ b → cnt obj.me.handle c = 0 := by
        intro c hc
        rcases hme with h | ⟨h, _⟩
        · rw [h]; exact cnt_none c
        · rw [h, cnt_some]; simp [Ne.symm hc]
      have hd0 : obj.dtors = 0 := by
        have := a.dt b blk o obj hb ho hko
        cases hkind : blk.kind with
        | inline o1 => rw [hkind] at this; simp [h1] at this; exact this
        | indirect dp => rw [hkind] at this; simp only at this; omega
      obtain ⟨k1, hk⟩ : ∃ k1 : Kind, (blk.kind = Kind.inline o ∧ k1 = Kind.inline o) ∨
          (blk.kind = Kind.indirect (some o) ∧ k1 = Kind.indirect none) := by
        cases hkind : blk.kind with
        | inline o1 =>
          rw [hkind] at hko; simp only [Kind.obj, Option.some.injEq] at hko
          subst hko
          exact ⟨Kind.inline o1, Or.inl ⟨rfl, rfl⟩⟩
        | indirect dp =>
          rw [hkind] at hko; simp only [Kind.obj] at hko
          subst hko
          exact ⟨Kind.indirect none, Or.inr ⟨rfl, rfl⟩⟩
      have hk1o : ∀ o1 : Nat, k1.obj = some o1 → blk.kind.obj = some o1 := by
        intro o1 h
        rcases hk with ⟨e1, rfl⟩ | ⟨e1, rfl⟩
        · rw [e1]; exact h
        · simp [Kind.obj] at h
      have hres := EndStrong_last_obj (r := k1) hb h1 ho hme hk
      have wO : WF (s.setObj o { obj with dtors := obj.dtors + 1, me := { obj.me with handle := none } })
          (obj.me.handle :: T) none := by
        apply w.setObj ho
        · intro c hc
          rcases mem_cons_some hc with h | h
          · rcases hme with h0 | ⟨h0, _⟩
            · rw [h0] at h; cases h
            · rw [h0] at h; cases h; exact hlt
          · exact w.tV c h
        · intro c
          simp only [count_cons_cnt, cnt_none]; omega
        · intro c hc; simp at hc
      have hcM := cntM_setObj (v := { obj with dtors := obj.dtors + 1, me := { obj.me with handle := none } }) ho b
      simp only [cnt_none] at hcM
      have hcS : s.cntS b ≤ 1 := by omega
      refine ⟨_, blk, _, hb, by omega, hres, ?_, ?_, ?_, rfl, rfl,
        by simpa using getElem?_setBlock_self _ hb, by simp [h1]⟩
      · rw [← setObj_setBlock]
        apply wO.setBlock (by simpa using hb)
        · intro c hc; exact w.tV c hc
        · intro c hc; rw [count_cons_cnt, hcnt c hc]; rfl
        · simp only [State.refs, setObj_cntS, setObj_cntW] at hh ⊢
          omega
        · simp only
          rw [hf0, if_neg]
          rcases hme with h | ⟨h, h3⟩
          · rw [h, cnt_none]; omega
          · rw [h, cnt_self]; omega
        · exact hk1o
        · intro o1 x ho1 hx
          simp only [setObj_objs] at ho1
          rcases getElem?_set_cases ho ho1 with ⟨_, rfl⟩ | ⟨hne, ho2⟩
          · simp at hx
          · have := hmeO o1 x ho2 hx
            rw [hko] at this; cases this
            exact absurd rfl hne
        · simp only [setObj_cntS, cnt_self]; omega
        · intro c _; simp [cnt_none]
      · refine ⟨?_, ?_⟩
        · intro c x o1 obj1 hc ho1 hx
          simp only [setObj_blocks, setBlock_blocks] at hc
          simp only [setObj_objs, setBlock_objs] at ho1
          rcases getElem?_set_cases hb hc with ⟨rfl, rfl⟩ | ⟨hne, hc1⟩
          · simp only at hx ⊢
            rcases hk with ⟨e1, rfl⟩ | ⟨e1, rfl⟩
            · simp only [Kind.obj, Option.some.injEq] at hx
              subst hx
              rcases getElem?_set_cases ho ho1 with ⟨_, rfl⟩ | ⟨hne, _⟩
              · simp [hd0]
              · exact absurd rfl hne
            · simp [Kind.obj] at hx
          · rcases getElem?_set_cases ho ho1 with ⟨rfl, rfl⟩ | ⟨_, ho2⟩
            · exact absurd (w.uniq c b x blk o1 hc1 hb hx hko) hne
            · exact a.dt c x o1 obj1 hc1 ho2 hx
        · intro o1 obj1 ho1
          simp only [setObj_objs, setBlock_objs] at ho1
          rcases getElem?_set_cases ho ho1 with ⟨_, rfl⟩ | ⟨_, ho2⟩
          · simp only; omega
          · exact a.once o1 obj1 ho2
      · refine ⟨rfl, by simp, by simp, ?_, ?_⟩
        · exact frameBlk _ hk1o
        · intro o1 obj1 ho1
          by_cases hoo : o1 = o
          · subst hoo
            rw [ho] at ho1; cases ho1
            refine ⟨_, getElem?_setObj_self _ (by simpa using ho), rfl, rfl, Or.inr rfl, ?_⟩
            intro hno
            exact absurd hko (hno b blk rfl hb)
          · refine ⟨obj1, ?_, rfl, rfl, Or.inl rfl, fun _ => rfl⟩
            rw [getElem?_setObj_ne _ hoo]; exact ho1

@[simp] theorem setH_blocks (s : State) (l : Loc) (p : Ptr) : (s.setH l p).blocks = s.blocks := by
  cases l <;> simp only [State.setH] <;> split <;> rfl

@[simp] theorem setH_allocs (s : State) (l : Loc) (p : Ptr) : (s.setH l p).allocs = s.allocs := by
  cases l <;> simp only [State.setH] <;> split <;> rfl

theorem getH_sp {s : State} {i : Nat} {q : Ptr} (h : s.getH (Loc.sp i) = some q) :
    ∃ x : SharedPtr, s.sps[i]? = some x ∧ x.handle = q := by
  simp only [State.getH, Option.map_eq_some'] at h
  exact h

theorem getH_wp {s : State} {i : Nat} {q : Ptr} (h : s.getH (Loc.wp i) = some q) :
    ∃ x : WeakPtr, s.wps[i]? = some x ∧ x.handle = q := by
  simp only [State.getH, Option.map_eq_some'] at h
  exact h

theorem getH_me {s : State} {o : Nat} {q : Ptr} (h : s.getH (Loc.me o) = some q) :
    ∃ x : Obj, s.objs[o]? = some x ∧ x.me.handle = q := by
  simp only [State.getH, Option.map_eq_some'] at h
  exact h

theorem setH_sp {s : State} {i : Nat} {x : SharedPtr} (h : s.sps[i]? = some x) (p : Ptr) :
    s.setH (Loc.sp i) p = s.setSp i { x with handle := p } := by
  simp [State.setH, h]

theorem setH_wp {s : State} {i : Nat} {x : WeakPtr} (h : s.wps[i]? = some x) (p : Ptr) :
    s.setH (Loc.wp i) p = s.setWp i { x with handle := p } := by
  simp [State.setH, h]

theorem setH_me {s : State} {o : Nat} {x : Obj} (h : s.objs[o]? = some x) (p : Ptr) :
    s.setH (Loc.me o) p = s.setObj o { x with me := { x.me with handle := p } } := by
  simp [State.setH, h]

theorem getH_setH_self {s : State} {l : Loc} {q : Ptr} (hg : s.getH l = some q) (p : Ptr) :
    (s.setH l p).getH l = some p := by
  cases l with
  | sp i =>
    obtain ⟨x, hx, _⟩ := getH_sp hg
    simp [setH_sp hx, State.getH, List.getElem?_set, lt_of_getElem? hx]
  | wp i =>
    obtain ⟨x, hx, _⟩ := getH_wp hg
    simp [setH_wp hx, State.getH, List.getElem?_set, lt_of_getElem? hx]
  | me o =>
    obtain ⟨x, hx, _⟩ := getH_me hg
    simp [setH_me hx, State.getH, List.getElem?_set, lt_of_getElem? hx]

theorem getH_setH_ne {s : State} {l l1 : Loc} (hne : l ≠ l1) (p : Ptr) :
    (s.setH l p).getH l1 = s.getH l1 := by
  cases l with
  | sp i =>
    cases h : s.sps[i]? with
    | none => simp [State.setH, h]
    | some x =>
      rw [setH_sp h]
      cases l1 with
      | sp j =>
        have : i ≠ j := fun e => hne (by rw [e])
        simp [State.getH, List.getElem?_set, this]
      | wp j => rfl
      | me o => rfl
  | wp i =>
    cases h : s.wps[i]? with
    | none => simp [State.setH, h]
    | some x =>
      rw [setH_wp h]
      cases l1 with
      | sp j => rfl
      | wp j =>
        have : i ≠ j := fun e => hne (by rw [e])
        simp [State.getH, List.getElem?_set, this]
      | me o => rfl
  | me i =>
    cases h : s.objs[i]? with
    | none => simp [State.setH, h]
    | some x =>
      rw [setH_me h]
      cases l1 with
      | sp j => rfl
      | wp j => rfl
      | me o =>
        have : i ≠ o := fun e => hne (by rw [e])
        simp [State.getH, List.getElem?_set, this]

theorem cntS_setH {s : State} {l : Loc} {q : Ptr} (hg : s.getH l = some q) (p : Ptr)
    (c : Nat) : (s.setH l p).cntS c + sCnt l q c = s.cntS c + sCnt l p c := by
  cases l with
  | sp i =>
    obtain ⟨x, hx, rfl⟩ := getH_sp hg
    rw [setH_sp hx]
    exact cntS_setSp hx c
  | wp i =>
    obtain ⟨x, hx, rfl⟩ := getH_wp hg
    rw [setH_wp hx]; rfl
  | me o =>
    obtain ⟨x, hx, rfl⟩ := getH_me hg
    rw [setH_me hx]; rfl

/-- Replacing one object record without touching its destructor count. -/
theorem Alive.setObjA {s : State} {o : Nat} {q obj1 : Obj} (a : Alive s)
    (ho : s.objs[o]? = some q) (hd : obj1.dtors = q.dtors) : Alive (s.setObj o obj1) := by
  refine ⟨?_, ?_⟩
  · intro c x o1 y hc ho1 hx
    simp only [setObj_blocks] at hc
    simp only [setObj_objs] at ho1
    rcases getElem?_set_cases ho ho1 with ⟨rfl, rfl⟩ | ⟨_, ho2⟩
    · rw [hd]; exact a.dt c x o1 q hc ho hx
    · exact a.dt c x o1 y hc ho2 hx
  · intro o1 y ho1
    simp only [setObj_objs] at ho1
    rcases getElem?_set_cases ho ho1 with ⟨rfl, rfl⟩ | ⟨_, ho2⟩
    · rw [hd]; exact a.once o1 q ho
    · exact a.once o1 y ho2

theorem Alive.setHA {s : State} (a : Alive s) (l : Loc) (p : Ptr) : Alive (s.setH l p) := by
  cases l with
  | sp i =>
    cases h : s.sps[i]? with
    | none => simpa [State.setH, h] using a
    | some x => rw [setH_sp h]; exact a.congrSA rfl rfl
  | wp i =>
    cases h : s.wps[i]? with
    | none => simpa [State.setH, h] using a
    | some x => rw [setH_wp h]; exact a.congrSA rfl rfl
  | me o =>
    cases h : s.objs[o]? with
    | none => simpa [State.setH, h] using a
    | some x => rw [setH_me h]; exact a.setObjA h rfl

/-- The strong-count deficit may be restated whenever the inequality allows it. -/
theorem WF.changeD {s : State} {T : List Ptr} {d d1 : Ptr} (w : WF s T d)
    (hs : ∀ (c : Nat) (blk : Block), s.blocks[c]? = some blk →
      s.cntS c ≤ blk.strong + cnt d1 c) : WF s T d1 :=
  ⟨w.spV, w.wpV, w.tV, w.meO, w.hEq, w.fEq, w.own, w.uniq, hs⟩

/-- Overwriting the handle stored at a location. -/
theorem WF.setH {s : State} {T T1 : List Ptr} {d d1 : Ptr} {l : Loc} {q p : Ptr}
    (w : WF s T d) (hg : s.getH l = some q)
    (hT : ∀ c : Nat, some c ∈ T1 → c < s.blocks.length)
    (hTc : ∀ c : Nat, cnt p c + T1.count (some c) = cnt q c + T.count (some c))
    (hv : ∀ c : Nat, p = some c → c < s.blocks.length)
    (hs : ∀ (c : Nat) (blk : Block), s.blocks[c]? = some blk →
      s.cntS c + sCnt l p c ≤ blk.strong + cnt d1 c + sCnt l q c)
    (hm : ∀ o c : Nat, l = Loc.me o → p = some c →
      ∃ blk : Block, s.blocks[c]? = some blk ∧ blk.kind.obj = some o) :
    WF (s.setH l p) T1 d1 := by
  cases l with
  | sp i =>
    obtain ⟨x, hx, rfl⟩ := getH_sp hg
    rw [setH_sp hx]
    exact w.setSp hx hT hTc hv (fun c blk hc => by simpa [sCnt] using hs c blk hc)
  | wp i =>
    obtain ⟨x, hx, rfl⟩ := getH_wp hg
    rw [setH_wp hx]
    have w1 : WF s T d1 := w.changeD (fun c blk hc => by simpa [sCnt] using hs c blk hc)
    exact w1.setWp hx hT hTc hv
  | me o =>
    obtain ⟨x, hx, rfl⟩ := getH_me hg
    rw [setH_me hx]
    have w1 : WF s T d1 := w.changeD (fun c blk hc => by simpa [sCnt] using hs c blk hc)
    exact w1.setObj hx hT hTc (fun c hc => hm o c rfl hc)

/-- Behaviour of `Handle::Take` at a location: the handle becomes a temporary. -/
theorem WF.takeH {s : State} {T : List Ptr} {d z : Ptr} {l : Loc} {q : Ptr}
    (w : WF s T d) (hg : s.getH l = some q)
    (hs : ∀ (c : Nat) (blk : Block), s.blocks[c]? = some blk →
      s.cntS c ≤ blk.strong + cnt z c + sCnt l q c) :
    WF (s.setH l none) (q :: T) z := by
  have hqv : ∀ c : Nat, q = some c → c < s.blocks.length := by
    intro c hc
    subst hc
    cases l with
    | sp i => obtain ⟨x, hx, hq⟩ := getH_sp hg; exact w.spV i x c hx hq
    | wp i => obtain ⟨x, hx, hq⟩ := getH_wp hg; exact w.wpV i x c hx hq
    | me o =>
      obtain ⟨x, hx, hq⟩ := getH_me hg
      obtain ⟨blk, hb, _⟩ := w.meO o x c hx hq
      exact lt_of_getElem? hb
  apply w.setH hg
  · intro c hc
    rcases mem_cons_some hc with h | h
    · exact hqv c h
    · exact w.tV c h
  · intro c; rw [count_cons_cnt, cnt_none]; omega
  · intro c hc; cases hc
  · intro c blk hc
    have : sCnt l none c = 0 := by cases l <;> simp [sCnt, cnt_none]
    rw [this]; exact hs c blk hc
  · intro o c _ hc; cases hc

theorem sCnt_le_cnt (l : Loc) (p : Ptr) (c : Nat) : sCnt l p c ≤ cnt p c := by
  cases l <;> simp [sCnt]

theorem RelFrame.getH {s s1 : State} {p : Ptr} (f : RelFrame s s1 p) (l : Loc) {q : Ptr}
    (hg : s.getH l = some q) : s1.getH l = some q := by
  cases l with
  | sp i => simpa [State.getH, f.sps] using hg
  | wp i => simpa [State.getH, f.wps] using hg
  | me o =>
    obtain ⟨x, hx, rfl⟩ := getH_me hg
    obtain ⟨y, hy, hme⟩ := f.me o x hx
    simp [State.getH, hy, hme]

theorem RelFrame.cntS {s s1 : State} {p : Ptr} (f : RelFrame s s1 p) (c : Nat) :
    s1.cntS c = s.cntS c := by
  simp [State.cntS, f.sps]

/-- Behaviour of `Handle::Reset` at a location of a well-formed state. -/
theorem Reset_spec {s : State} {T : List Ptr} {d z : Ptr} {l : Loc} {q : Ptr}
    (w : WF s T d) (a : Alive s) (hg : s.getH l = some q)
    (hs : ∀ (c : Nat) (blk : Block), s.blocks[c]? = some blk →
      s.cntS c ≤ blk.strong + cnt z c + sCnt l q c) :
    ∃ s1 : State, Handle.Reset s l = some s1 ∧ WF s1 T z ∧ Alive s1 ∧
      RelFrame (s.setH l none) s1 q ∧ s1.getH l = some none := by
  obtain ⟨s1, h1, w1, a1, f1⟩ := release_spec (w.takeH hg hs) (a.setHA l none)
  refine ⟨s1, ?_, w1, a1, f1, f1.getH l (getH_setH_self hg none)⟩
  simp [Handle.Reset, hg, h1]

/-- Behaviour of `Handle::operator=(Handle&&)` from a temporary, at a location of a well-formed
state. -/
theorem assignTemp_spec {s : State} {T : List Ptr} {d z : Ptr} {l : Loc} {q hv : Ptr}
    (w : WF s (hv :: T) d) (a : Alive s) (hg : s.getH l = some q)
    (hs : ∀ (c : Nat) (blk : Block), s.blocks[c]? = some blk →
      s.cntS c + sCnt l hv c ≤ blk.strong + cnt z c + sCnt l q c)
    (hm : ∀ o c : Nat, l = Loc.me o → hv = some c →
      ∃ blk : Block, s.blocks[c]? = some blk ∧ blk.kind.obj = some o) :
    ∃ s0 : State, Handle.Reset s l = some s0 ∧ RelFrame (s.setH l none) s0 q ∧
      Handle.assignTemp s l hv = some (s0.setH l hv) ∧ WF (s0.setH l hv) T z ∧
      Alive (s0.setH l hv) := by
  have hs0 : ∀ (c : Nat) (blk : Block), s.blocks[c]? = some blk →
      s.cntS c ≤ blk.strong + cnt d c + sCnt l q c := by
    intro c blk hc
    have := w.sGe c blk hc
    omega
  obtain ⟨s0, h0, w0, a0, f0, g0⟩ := Reset_spec w a hg hs0
  refine ⟨s0, h0, f0, by simp [Handle.assignTemp, h0], ?_, a0.setHA l hv⟩
  apply w0.setH g0
  · intro c hc; exact w0.tV c (by simp [hc])
  · intro c; rw [count_cons_cnt, cnt_none]; omega
  · intro c hc; exact w0.tV c (by simp [hc])
  · intro c blk0 hc
    have hlt : c < s.blocks.length := by
      have := lt_of_getElem? hc
      have := f0.frame.nblocks
      simp only [setH_blocks] at this
      omega
    obtain ⟨blk, hb⟩ := getElem?_of_lt hlt
    obtain ⟨blk1, e1, e2, _, _⟩ := f0.blk c blk (by simpa using hb)
    rw [hc] at e1; cases e1
    have h1 := hs c blk hb
    have h2 := f0.cntS c
    have h3 := cntS_setH hg none c
    have h4 : sCnt l none c = 0 := by cases l <;> simp [sCnt, cnt_none]
    omega
  · intro o c hl hc
    obtain ⟨blk, hb, hk⟩ := hm o c hl hc
    obtain ⟨blk1, e1, _, e3, _⟩ := f0.blk c blk (by simpa using hb)
    exact ⟨blk1, e1, by rw [e3]; exact hk⟩

theorem WF.setSpPtr {s : State} {T : List Ptr} {d : Ptr} (w : WF s T d) (i : Nat) (p : Ptr) :
    WF (s.setSpPtr i p) T d := by
  simp only [State.setSpPtr]
  cases h : s.sps[i]? with
  | none => exact w
  | some x =>
    exact w.setSp h w.tV (fun c => rfl) (fun c hc => w.spV i x c h hc)
      (fun c blk hc => by have := w.sGe c blk hc; simp only; omega)

theorem WF.setWpPtr {s : State} {T : List Ptr} {d : Ptr} (w : WF s T d) (i : Nat) (p : Ptr) :
    WF (s.setWpPtr i p) T d := by
  simp only [State.setWpPtr]
  cases h : s.wps[i]? with
  | none => exact w
  | some x =>
    exact w.setWp h w.tV (fun c => rfl) (fun c hc => w.wpV i x c h hc)

theorem Alive.setSpPtrA {s : State} (a : Alive s) (i : Nat) (p : Ptr) :
    Alive (s.setSpPtr i p) := by
  simp only [State.setSpPtr]
  cases h : s.sps[i]? with
  | none => exact a
  | some x => exact a.congrSA rfl rfl

theorem Alive.setWpPtrA {s : State} (a : Alive s) (i : Nat) (p : Ptr) :
    Alive (s.setWpPtr i p) := by
  simp only [State.setWpPtr]
  cases h : s.wps[i]? with
  | none => exact a
  | some x => exact a.congrSA rfl rfl

theorem Reset_some_getH {s s1 : State} {l : Loc} (h : Handle.Reset s l = some s1) :
    ∃ q : Ptr, s.getH l = some q := by
  simp only [Handle.Reset] at h
  cases hg : s.getH l with
  | none => simp [hg] at h
  | some q => exact ⟨q, rfl⟩

theorem assignTemp_some_getH {s s1 : State} {l : Loc} {hv : Ptr}
    (h : Handle.assignTemp s l hv = some s1) : ∃ q : Ptr, s.getH l = some q := by
  simp only [Handle.assignTemp] at h
  cases hr : Handle.Reset s l with
  | none => simp [hr] at h
  | some s0 => exact Reset_some_getH hr

/-- Behaviour of `SharedPtr::Adopt` with a temporary handle. -/
theorem Adopt_WF {s s1 : State} {T : List Ptr} {i : Nat} {hv ptr : Ptr}
    (w : WF s (hv :: T) none) (a : Alive s) (h : SharedPtr.Adopt s i hv ptr = some s1) :
    WF s1 T none ∧ Alive s1 := by
  simp only [SharedPtr.Adopt] at h
  cases hat : Handle.assignTemp s (Loc.sp i) hv with
  | none => simp [hat] at h
  | some sa =>
    obtain ⟨q, hg⟩ := assignTemp_some_getH hat
    obtain ⟨s0, _, _, e, wa, aa⟩ := assignTemp_spec (z := hv) w a hg
      (fun c blk hc => by
        have := w.sGe c blk hc
        simp only [sCnt, cnt_none] at this ⊢
        omega)
      (fun o c hl _ => by cases hl)
    rw [hat] at e; cases e
    simp only [hat, Option.map_eq_some'] at h
    obtain ⟨s2, h2, rfl⟩ := h
    cases hv with
    | none =>
      simp only [Option.some.injEq] at h2
      subst h2
      exact ⟨wa.setSpPtr i ptr, aa.setSpPtrA i ptr⟩
    | some b =>
      simp only at h2
      have w2 := BeginStrong_WF h2 wa (fun c hc => by rw [cnt_some]; simp [Ne.symm hc])
      exact ⟨w2.setSpPtr i ptr, (BeginStrong_Alive h2 aa).setSpPtrA i ptr⟩

/-- Behaviour of `SharedPtr::Steal` with a temporary handle. -/
theorem StealTemp_WF {s s1 : State} {T : List Ptr} {d d1 : Ptr} {i : Nat} {hv ptr q : Ptr}
    (w : WF s (hv :: T) d) (a : Alive s) (hg : s.getH (Loc.sp i) = some q)
    (hs : ∀ (c : Nat) (blk : Block), s.blocks[c]? = some blk →
      s.cntS c + cnt hv c ≤ blk.strong + cnt d1 c + cnt q c)
    (h : SharedPtr.StealTemp s i hv ptr = some s1) :
    WF s1 T d1 ∧ Alive s1 := by
  obtain ⟨s0, _, _, e, wa, aa⟩ := assignTemp_spec (z := d1) w a hg
    (fun c blk hc => by simpa [sCnt] using hs c blk hc)
    (fun o c hl _ => by cases hl)
  simp only [SharedPtr.StealTemp, e, Option.map_some', Option.some.injEq] at h
  subst h
  exact ⟨wa.setSpPtr i ptr, aa.setSpPtrA i ptr⟩

/-- Behaviour of `Handle::operator=(Handle&&)` between two locations of the same kind. -/
theorem assignFrom_WF {s s1 : State} {T : List Ptr} {d : Ptr} {l g : Loc}
    (w : WF s T d) (a : Alive s) (hk : ∀ (p : Ptr) (c : Nat), sCnt l p c = sCnt g p c)
    (hnme : ∀ o : Nat, l ≠ Loc.me o) (h : Handle.assignFrom s l g = some s1) :
    WF s1 T d ∧ Alive s1 ∧
    (∃ q : Ptr, s.getH l = some q ∧ ∀ c : Nat, s1.cntS c + sCnt l q c = s.cntS c) ∧
    s1.blocks.length = s.blocks.length ∧
    (∀ (c : Nat) (blk : Block), s.blocks[c]? = some blk →
      ∃ blk1 : Block, s1.blocks[c]? = some blk1 ∧ blk1.strong = blk.strong) := by
  simp only [Handle.assignFrom] at h
  cases hr : Handle.Reset s l with
  | none => simp [hr] at h
  | some s0 =>
    obtain ⟨q, hg⟩ := Reset_some_getH hr
    obtain ⟨s0a, e, w0, a0, f0, g0⟩ := Reset_spec (z := d) w a hg
      (fun c blk hc => by have := w.sGe c blk hc; omega)
    rw [hr] at e; cases e
    simp only [hr] at h
    cases hgs : s0.getH g with
    | none => simp [hgs] at h
    | some p =>
      simp only [hgs, Option.some.injEq] at h
      subst h
      have w1 : WF (s0.setH g none) (p :: T) d :=
        w0.takeH hgs (fun c blk hc => by have := w0.sGe c blk hc; omega)
      have gl : (s0.setH g none).getH l = some none := by
        by_cases hls : g = l
        · subst hls; exact getH_setH_self hgs none
        · rw [getH_setH_ne hls]; exact g0
      have hc0 : ∀ c : Nat, sCnt l none c = 0 := by
        intro c; cases l <;> simp [sCnt, cnt_none]
      have hc1 : ∀ c : Nat, sCnt g none c = 0 := by
        intro c; cases g <;> simp [sCnt, cnt_none]
      have e1 := fun c => cntS_setH hgs none c
      have e2 := fun c => cntS_setH gl p c
      have e3 := fun c => cntS_setH hg none c
      have e4 := fun c => f0.cntS c
      refine ⟨?_, (a0.setHA g none).setHA l p, ⟨q, hg, ?_⟩, ?_, ?_⟩
      · apply w1.setH gl
        · intro c hc; exact w1.tV c (by simp [hc])
        · intro c; rw [count_cons_cnt, cnt_none]; omega
        · intro c hc; exact w1.tV c (by simp [hc])
        · intro c blk hc
          have h1 := w0.sGe c blk (by simpa using hc)
          have := e1 c; have := hk p c; have := hc0 c; have := hc1 c
          omega
        · intro o c hl; exact absurd hl (hnme o)
      · intro c
        have := e1 c; have := e2 c; have := e3 c; have := e4 c
        have := hk p c; have := hc0 c; have := hc1 c
        omega
      · have := f0.frame.nblocks
        simpa using this
      · intro c blk hc
        obtain ⟨blk1, e5, e6, _, _⟩ := f0.blk c blk (by simpa using hc)
        exact ⟨blk1, by simpa using e5, e6⟩

/-- Behaviour of `SharedPtr::Steal` from the handle of another `SharedPtr`. -/
theorem StealFrom_WF {s s1 : State} {T : List Ptr} {d : Ptr} {i j : Nat} {ptr : Ptr}
    (w : WF s T d) (a : Alive s) (h : SharedPtr.StealFrom s i j ptr = some s1) :
    WF s1 T d ∧ Alive s1 := by
  simp only [SharedPtr.StealFrom, Option.map_eq_some'] at h
  obtain ⟨s0, h0, rfl⟩ := h
  obtain ⟨w0, a0, _⟩ := assignFrom_WF (l := Loc.sp i) (g := Loc.sp j) w a
    (fun p c => rfl) (fun o => by simp) h0
  exact ⟨w0.setSpPtr i ptr, a0.setSpPtrA i ptr⟩

/-- Behaviour of `std::swap` of two handles at locations of the same kind. -/
theorem swap_WF {s s1 : State} {T : List Ptr} {d : Ptr} {n f : Loc}
    (w : WF s T d) (a : Alive s) (hk : ∀ (p : Ptr) (c : Nat), sCnt n p c = sCnt f p c)
    (hnme : ∀ o : Nat, n ≠ Loc.me o) (hnme2 : ∀ o : Nat, f ≠ Loc.me o)
    (h : Handle.swap s n f = some s1) : WF s1 T d ∧ Alive s1 := by
  simp only [Handle.swap] at h
  cases hg : s.getH n with
  | none => simp [hg] at h
  | some t =>
    simp only [hg] at h
    cases h1 : Handle.assignFrom (s.setH n none) n f with
    | none => simp [h1] at h
    | some sa =>
      simp only [h1] at h
      cases h2 : Handle.assignTemp sa f t with
      | none => simp [h2] at h
      | some sb =>
        simp only [h2, release_none, Option.some.injEq] at h
        subst h
        have w1 : WF (s.setH n none) (t :: T) d :=
          w.takeH hg (fun c blk hc => by have := w.sGe c blk hc; omega)
        obtain ⟨wa, aa, ⟨q, hq, hcnt⟩, hlen, hstr⟩ :=
          assignFrom_WF w1 (a.setHA n none) hk hnme h1
        have hqn : q = none := by
          have := getH_setH_self hg none
          rw [this] at hq; cases hq; rfl
        subst hqn
        obtain ⟨q2, hg2⟩ := assignTemp_some_getH h2
        obtain ⟨s0, _, _, e, wb, ab⟩ := assignTemp_spec (z := d) wa aa hg2
          (fun c blk hc => by
            have hlt : c < s.blocks.length := by
              have := lt_of_getElem? hc
              simp only [setH_blocks] at hlen
              omega
            obtain ⟨blk0, hb0⟩ := getElem?_of_lt hlt
            obtain ⟨blk1, e1, e2⟩ := hstr c blk0 (by simpa using hb0)
            rw [hc] at e1; cases e1
            have := w.sGe c blk0 hb0
            have := hcnt c
            have := cntS_setH hg none c
            have := hk t c
            have h0 : sCnt n none c = 0 := by cases n <;> simp [sCnt, cnt_none]
            omega)
          (fun o c hl _ => absurd hl (hnme2 o))
        rw [h2] at e; cases e
        exact ⟨wb, ab⟩

theorem set_self_of_getElem? {α : Type} {l : List α} {i : Nat} {x : α} (h : l[i]? = some x) :
    l.set i x = l := by
  induction l generalizing i with
  | nil => simp at h
  | cons a l ih =>
    cases i with
    | zero => simp at h; subst h; rfl
    | succ i => simp at h; simp [ih h]

theorem Frame.of_heap_eq {s s1 : State} (p : Ptr) (hb : s1.blocks = s.blocks)
    (ho : s1.objs = s.objs) (ha : s1.allocs = s.allocs) : Frame s s1 p :=
  ⟨ha, by rw [hb], by rw [ho],
    fun c blk h => ⟨blk, by rw [hb]; exact h, fun _ => rfl, fun _ h => h⟩,
    fun o obj h => ⟨obj, by rw [ho]; exact h, rfl, rfl, Or.inl rfl, fun _ => rfl⟩⟩

theorem Frame.trans {s s1 s2 : State} {p : Ptr} (f : Frame s s1 p) (g : Frame s1 s2 p) :
    Frame s s2 p := by
  refine ⟨g.allocs.trans f.allocs, g.nblocks.trans f.nblocks, g.nobjs.trans f.nobjs, ?_, ?_⟩
  · intro c blk hc
    obtain ⟨blk1, h1, e1, k1⟩ := f.blk c blk hc
    obtain ⟨blk2, h2, e2, k2⟩ := g.blk c blk1 h1
    exact ⟨blk2, h2, fun hp => (e2 hp).trans (e1 hp), fun o ho => k1 o (k2 o ho)⟩
  · intro o obj ho
    obtain ⟨obj1, h1, c1, p1, m1, u1⟩ := f.obj o obj ho
    obtain ⟨obj2, h2, c2, p2, m2, u2⟩ := g.obj o obj1 h1
    refine ⟨obj2, h2, c2.trans c1, p2.trans p1, ?_, ?_⟩
    · rcases m2 with m2 | m2
      · rcases m1 with m1 | m1
        · exact Or.inl (m2.trans m1)
        · exact Or.inr (m2.trans m1)
      · exact Or.inr m2
    · intro hno
      have e1 := u1 hno
      subst e1
      apply u2
      intro c blk1 hp hc1
      have hlt : c < s.blocks.length := by
        have := lt_of_getElem? hc1
        have := f.nblocks
        omega
      obtain ⟨blk, hb⟩ := getElem?_of_lt hlt
      obtain ⟨blk1a, h1a, _, k1⟩ := f.blk c blk hb
      rw [hc1] at h1a; cases h1a
      intro hk
      exact hno c blk hp hb (k1 o hk)

theorem Frame.setH_right {s s1 : State} {p : Ptr} (f : Frame s s1 p) (l : Loc)
    (hl : ∀ o : Nat, l ≠ Loc.me o) (q : Ptr) : Frame s (s1.setH l q) p := by
  apply f.trans
  cases l with
  | sp i =>
    cases h : s1.sps[i]? with
    | none => simp only [State.setH, h]; exact Frame.refl _ _
    | some x => rw [setH_sp h]; exact Frame.of_heap_eq p rfl rfl rfl
  | wp i =>
    cases h : s1.wps[i]? with
    | none => simp only [State.setH, h]; exact Frame.refl _ _
    | some x => rw [setH_wp h]; exact Frame.of_heap_eq p rfl rfl rfl
  | me o => exact absurd rfl (hl o)

theorem Frame.setH_left {s s1 : State} {p : Ptr} {l : Loc} {q : Ptr}
    (f : Frame (s.setH l q) s1 p) (hl : ∀ o : Nat, l ≠ Loc.me o) : Frame s s1 p := by
  refine Frame.trans ?_ f
  exact (Frame.refl s p).setH_right l hl q

/-- Behaviour of `SharedPtr::Reset()` on a variable of a well-formed state: it returns, the state
stays well-formed, the variable is emptied (its `ptr_` is kept), and only the block it
referenced and the object in that block's care are touched. -/
theorem SharedPtr_Reset_spec {s : State} {T : List Ptr} {i : Nat} {x : SharedPtr}
    (w : WF s T none) (a : Alive s) (hx : s.sps[i]? = some x) :
    ∃ s1 : State, SharedPtr.Reset s i = some s1 ∧ WF s1 T none ∧ Alive s1 ∧
      Frame s s1 x.handle ∧ s1.sps = s.sps.set i ⟨none, x.ptr⟩ ∧ s1.wps = s.wps := by
  cases hh : x.handle with
  | none =>
    refine ⟨s, by simp [SharedPtr.Reset, hx, hh], w, a, Frame.refl _ _, ?_, rfl⟩
    have : (⟨none, x.ptr⟩ : SharedPtr) = x := by
      cases x; simp only at hh; subst hh; rfl
    rw [this, set_self_of_getElem? hx]
  | some b =>
    obtain ⟨sa, blk, blk1, hb, hs1, he, wa, aa, fa, spa, wpa, _, _⟩ :=
      EndStrong_spec w a (cntS_pos hx hh)
    have hga : sa.getH (Loc.sp i) = some (some b) := by
      simp [State.getH, spa, hx, hh]
    obtain ⟨s0, _, f0, e, w1, a1⟩ := assignTemp_spec (z := none) wa.addNone aa hga
      (fun c blk hc => by
        have := wa.sGe c blk hc
        simp only [sCnt, cnt_none] at this ⊢
        omega)
      (fun o c hl _ => by cases hl)
    have hxa : sa.sps[i]? = some x := by rw [spa]; exact hx
    have h0sps : s0.sps = s.sps.set i ⟨none, x.ptr⟩ := by
      rw [f0.sps, setH_sp hxa, setSp_sps, spa]
    have h0x : s0.sps[i]? = some ⟨none, x.ptr⟩ := by
      rw [h0sps]; exact getElem?_set_self_of hx
    refine ⟨s0.setH (Loc.sp i) none, ?_, w1, a1, ?_, ?_, ?_⟩
    · simp [SharedPtr.Reset, hx, hh, he, e]
    · exact (fa.trans (f0.frame.setH_left (fun o => by simp))).setH_right _
        (fun o => by simp) none
    · rw [setH_sp h0x, setSp_sps, h0sps, List.set_set]
    · rw [setH_sp h0x, setSp_wps, f0.wps, setH_sp hxa, setSp_wps, wpa]

theorem Reset_empty {s : State} {l : Loc} (hg : s.getH l = some none) :
    Handle.Reset s l = some (s.setH l none) := by
  simp [Handle.Reset, hg, release_none]

theorem setSp_setSp (s : State) (i : Nat) (x y : SharedPtr) :
    (s.setSp i x).setSp i y = s.setSp i y := by
  simp [State.setSp, List.set_set]

theorem getElem?_setSp_self {s : State} {i : Nat} {x : SharedPtr} (y : SharedPtr)
    (h : s.sps[i]? = some x) : (s.setSp i y).sps[i]? = some y := by
  simp [State.setSp, List.getElem?_set, lt_of_getElem? h]

theorem getElem?_setWp_self {s : State} {i : Nat} {x : WeakPtr} (y : WeakPtr)
    (h : s.wps[i]? = some x) : (s.setWp i y).wps[i]? = some y := by
  simp [State.setWp, List.getElem?_set, lt_of_getElem? h]

/-- Behaviour of `Steal` of a temporary handle into a `SharedPtr` that holds none. -/
theorem StealTemp_empty {s : State} {i : Nat} {x : SharedPtr} (hx : s.sps[i]? = some x)
    (hh : x.handle = none) (hv ptr : Ptr) :
    SharedPtr.StealTemp s i hv ptr = some (s.setSp i ⟨hv, ptr⟩) := by
  have hg : s.getH (Loc.sp i) = some none := by simp [State.getH, hx, hh]
  have hlt := lt_of_getElem? hx
  simp [SharedPtr.StealTemp, Handle.assignTemp, Reset_empty hg, State.setH, hx,
    State.setSpPtr, State.setSp, List.getElem?_set, hlt, List.set_set]

/-- The hook does nothing for a type without the capability. -/
theorem hook_nocap (s : State) (i : Nat) :
    SharedPtr.SharedFromThisSetupHook s i false = some s := by
  simp [SharedPtr.SharedFromThisSetupHook]

/-- For a type with the capability, the hook on a null `ptr_` calls `Initialize`
through the null pointer. -/
theorem hook_null {s : State} {i : Nat} {x : SharedPtr}
    (hx : s.sps[i]? = some x) (hp : x.ptr = none) :
    SharedPtr.SharedFromThisSetupHook s i true = none := by
  simp [SharedPtr.SharedFromThisSetupHook, hx, hp]

/-- The hook on an object whose `me_` is still empty: the handle of the pointer is
copied into `me_`. -/
theorem hook_cap {s : State} {i o b : Nat} {x : SharedPtr} {obj : Obj} {blk : Block}
    (hx : s.sps[i]? = some x) (hp : x.ptr = some o) (hh : x.handle = some b)
    (ho : s.objs[o]? = some obj) (hm : obj.me.handle = none)
    (hb : s.blocks[b]? = some blk) (hpos : 0 < blk.handles) :
    SharedPtr.SharedFromThisSetupHook s i true
      = some ((s.setBlock b { blk with handles := blk.handles + 1 }).setObj o
          { obj with me := ⟨some b, some o⟩ }) := by
  have ho1 : (s.setBlock b { blk with handles := blk.handles + 1 }).objs[o]? = some obj := ho
  have hg : (s.setBlock b { blk with handles := blk.handles + 1 }).getH (Loc.me o)
      = some none := by simp [State.getH, ho, hm]
  have hlt := lt_of_getElem? ho
  have e1 : SharedPtr.SharedFromThisSetupHook s i true
      = EnableSharedFromThis.Initialize (s.setBlock b { blk with handles := blk.handles + 1 })
          o (some b) (some o) := by
    simp [SharedPtr.SharedFromThisSetupHook, hx, hp, hh, ho, copy_eq hb hpos]
  rw [e1]
  simp only [EnableSharedFromThis.Initialize, Handle.assignTemp, Reset_empty hg]
  rw [setH_me ho1, setH_me (getElem?_setObj_self _ ho1)]
  simp [State.setObj, List.getElem?_set, hlt, List.set_set]

theorem Alive.appendObjA {s : State} {T : List Ptr} {d : Ptr} (a : Alive s) (w : WF s T d)
    (x : Obj) (hx : x.dtors ≤ 1) : Alive { s with objs := s.objs ++ [x] } := by
  refine ⟨?_, ?_⟩
  · intro b blk o obj hb ho hk
    have hlt := w.own b blk o hb hk
    simp only at ho
    rw [List.getElem?_append_left hlt] at ho
    exact a.dt b blk o obj hb ho hk
  · intro o obj ho
    rcases getElem?_append_singleton_cases ho with ⟨_, rfl⟩ | ⟨_, h1⟩
    · exact hx
    · exact a.once o obj h1

theorem Alive.appendBlockA {s : State} (a : Alive s) (k : Kind)
    (hk : ∀ (o : Nat) (obj : Obj), k.obj = some o → s.objs[o]? = some obj → obj.dtors = 0) :
    Alive { s with blocks := s.blocks ++ [⟨1, 1, k, 0, 0⟩] } := by
  refine ⟨?_, fun o obj ho => a.once o obj ho⟩
  intro b blk o obj hb ho hko
  rcases getElem?_append_singleton_cases hb with ⟨_, rfl⟩ | ⟨_, h1⟩
  · have := hk o obj hko ho
    rw [this]
    cases k <;> simp
  · exact a.dt b blk o obj h1 ho hko

/-- Core of the owning constructors: a fresh block (one handle, strong count 1) in
the care of `ptr` is stolen into the empty variable `i`, and the hook runs. -/
theorem construct_spec {s t : State} {T : List Ptr} {i : Nat} {x : SharedPtr} {k : Kind}
    {m : Ptr} {c : Bool} (w : WF s T none) (a : Alive s) (hx : s.sps[i]? = some x)
    (hh : x.handle = none) (hk : k.obj = m) (hnull : m = none → c = false)
    (hfresh : ∀ o : Nat, m = some o → ∃ obj : Obj, s.objs[o]? = some obj ∧
      obj.me.handle = none ∧ obj.dtors = 0 ∧
      ∀ (b : Nat) (blk : Block), s.blocks[b]? = some blk → blk.kind.obj ≠ some o)
    (hb0 : t.blocks = s.blocks ++ [⟨1, 1, k, 0, 0⟩]) (ho0 : t.objs = s.objs)
    (hs0 : t.sps = s.sps) (hw0 : t.wps = s.wps) :
    ∃ s1 s2 : State, SharedPtr.StealTemp t i (some s.blocks.length) m = some s1 ∧
      SharedPtr.SharedFromThisSetupHook s1 i c = some s2 ∧ WF s2 T none ∧ Alive s2 ∧
      s2.sps = s.sps.set i ⟨some s.blocks.length, m⟩ ∧ s2.wps = s.wps ∧
      s2.allocs = t.allocs ∧ s2.blocks.length = s.blocks.length + 1 ∧
      s2.objs.length = s.objs.length ∧
      (∀ (c : Nat) (blk : Block), s.blocks[c]? = some blk → s2.blocks[c]? = some blk) ∧
      (∀ (o : Nat) (obj : Obj), s.objs[o]? = some obj → m ≠ some o →
        s2.objs[o]? = some obj) := by
  have hx0 : t.sps[i]? = some x := by rw [hs0]; exact hx
  have hnb : t.blocks[s.blocks.length]? = some ⟨1, 1, k, 0, 0⟩ := by
    rw [hb0]; simp
  -- the state with the new block, one temporary handle outstanding
  have wA : WF t (some s.blocks.length :: T) none := by
    have := w.appendBlock k 1 (fun o ho => by
      obtain ⟨obj, h1, _, _, h4⟩ := hfresh o (by rw [← hk]; exact ho)
      exact ⟨lt_of_getElem? h1, h4⟩)
    exact this.congrS hb0 ho0 hs0 hw0
  have aA : Alive t := by
    have := a.appendBlockA k (fun o obj ho h1 => by
      obtain ⟨obj1, h2, _, h3, _⟩ := hfresh o (by rw [← hk]; exact ho)
      rw [h1] at h2; cases h2; exact h3)
    exact this.congrSA hb0 ho0
  have hz := w.cntS_eq_zero (c := s.blocks.length) (le_refl _)
  have e0 : ∀ c, t.cntS c = s.cntS c := fun c => by simp [State.cntS, hs0]
  -- the handle moves into the variable
  have wB : WF (t.setSp i ⟨some s.blocks.length, m⟩) T none := by
    apply wA.setSp hx0
    · intro c hc; exact wA.tV c (by simp [hc])
    · intro c; rw [count_cons_cnt, hh, cnt_none]; simp only; omega
    · intro c hc; simp only [Option.some.injEq] at hc; subst hc; rw [hb0]; simp
    · intro c blk hc
      rw [hh, e0]
      simp only [cnt_none, cnt_some]
      rw [hb0] at hc
      rcases getElem?_append_singleton_cases hc with ⟨rfl, rfl⟩ | ⟨hlt, h1⟩
      · simp [hz]
      · have := w.sGe c blk h1
        simp only [cnt_none] at this
        have hne : ¬ s.blocks.length = c := by omega
        simp [hne]; omega
  have aB : Alive (t.setSp i ⟨some s.blocks.length, m⟩) := aA.congrSA rfl rfl
  have hx1 := getElem?_setSp_self (x := x) ⟨some s.blocks.length, m⟩ hx0
  have hsps : (t.setSp i ⟨some s.blocks.length, m⟩).sps
      = s.sps.set i ⟨some s.blocks.length, m⟩ := by simp [hs0]
  have hold : ∀ (c : Nat) (blk : Block), s.blocks[c]? = some blk →
      t.blocks[c]? = some blk := by
    intro c blk hc
    rw [hb0, List.getElem?_append_left (lt_of_getElem? hc)]; exact hc
  suffices hsuf : ∃ s2 : State,
      SharedPtr.SharedFromThisSetupHook (t.setSp i ⟨some s.blocks.length, m⟩) i c = some s2 ∧
      WF s2 T none ∧ Alive s2 ∧
      s2.sps = s.sps.set i ⟨some s.blocks.length, m⟩ ∧ s2.wps = s.wps ∧
      s2.allocs = t.allocs ∧ s2.blocks.length = s.blocks.length + 1 ∧
      s2.objs.length = s.objs.length ∧
      (∀ (c : Nat) (blk : Block), s.blocks[c]? = some blk → s2.blocks[c]? = some blk) ∧
      (∀ (o : Nat) (obj : Obj), s.objs[o]? = some obj → m ≠ some o →
        s2.objs[o]? = some obj) by
    obtain ⟨s2, h⟩ := hsuf
    exact ⟨_, s2, StealTemp_empty hx0 hh (some s.blocks.length) m, h⟩
  cases hptr : m with
  | none =>
    subst hptr
    rw [hnull rfl]
    exact ⟨_, hook_nocap _ _, wB, aB, hsps, hw0, rfl, by simp [hb0], by simp [ho0], hold,
      fun o obj ho _ => by simp [ho0, ho]⟩
  | some o =>
    subst hptr
    obtain ⟨obj, ho, hm, hd, _⟩ := hfresh o rfl
    have ho1 : (t.setSp i ⟨some s.blocks.length, some o⟩).objs[o]? = some obj := by
      simp [ho0, ho]
    cases c with
    | false =>
      exact ⟨_, hook_nocap _ _, wB, aB, hsps, hw0, rfl, by simp [hb0],
        by simp [ho0], hold, fun o1 obj1 ho2 _ => by simp [ho0, ho2]⟩
    | true =>
      have hnb1 : (t.setSp i ⟨some s.blocks.length, some o⟩).blocks[s.blocks.length]?
          = some ⟨1, 1, k, 0, 0⟩ := hnb
      refine ⟨_, hook_cap hx1 rfl rfl ho1 hm hnb1 (by simp), ?_, ?_, hsps, hw0, rfl,
        by simp [hb0], by simp [ho0], ?_, ?_⟩
      · -- well-formedness: copy the handle, then store it in `me_`
        have wC := copy_WF (copy_eq hnb1 (by simp)) wB
        apply wC.setObj (q := obj) (by simpa using ho1)
        · intro c hc1; exact wC.tV c (by simp [hc1])
        · intro c; rw [count_cons_cnt, hm, cnt_none]; simp only; omega
        · intro c hc1
          simp only [Option.some.injEq] at hc1
          subst hc1
          exact ⟨_, getElem?_setBlock_self _ hnb1, hk⟩
      · exact Alive.setObjA (q := obj) (aB.setBlockA hnb1 rfl rfl Iff.rfl)
          (by simpa using ho1) rfl
      · intro c blk hc
        have hne : c ≠ s.blocks.length := by have := lt_of_getElem? hc; omega
        simp only [setObj_blocks]
        rw [getElem?_setBlock_ne _ hne]
        exact hold c blk hc
      · intro o1 obj1 ho2 hne
        have hne1 : o1 ≠ o := fun e => hne (by rw [e])
        rw [getElem?_setObj_ne _ hne1]
        simp [ho0, ho2]

theorem Inv.pushSpI {s : State} (h : Inv s) : Inv s.pushSp :=
  ⟨h.1.pushSp, h.2.congrSA rfl rfl⟩

theorem Inv.pushWpI {s : State} (h : Inv s) : Inv s.pushWp :=
  ⟨h.1.pushWp, h.2.congrSA rfl rfl⟩

theorem Inv.newObj {s : State} (h : Inv s) (cap : Bool) : Inv (s.newObj cap) :=
  ⟨(h.1.appendObj cap none 0).congrS rfl rfl rfl rfl,
    (h.2.appendObjA h.1 ⟨cap, ⟨none, none⟩, 0⟩ (Nat.zero_le 1)).congrSA rfl rfl⟩

theorem Inv.init : Inv State.init := by
  refine ⟨⟨?_, ?_, ?_, ?_, ?_, ?_, ?_, ?_, ?_⟩, ⟨?_, ?_⟩⟩
  all_goals first
    | (intro b blk o obj hb; simp [State.init] at hb)
    | (intro o obj ho; simp [State.init] at ho)
    | (intros; simp_all [State.init])

/-- A freshly allocated object is in nobody's care. -/
theorem fresh_newObj {s : State} (h : Inv s) (cap : Bool) :
    ∀ o : Nat, (some s.objs.length : Ptr) = some o →
      ∃ obj : Obj, (s.newObj cap).objs[o]? = some obj ∧ obj.me.handle = none ∧
        obj.dtors = 0 ∧
        ∀ (b : Nat) (blk : Block), (s.newObj cap).blocks[b]? = some blk →
          blk.kind.obj ≠ some o := by
  intro o ho
  simp only [Option.some.injEq] at ho
  subst ho
  refine ⟨⟨cap, ⟨none, none⟩, 0⟩, by simp [State.newObj], rfl, rfl, ?_⟩
  intro b blk hb hk
  have := h.1.own b blk _ hb hk
  omega

/-- The constructor `explicit SharedPtr(T* ptr)` on a null pointer, for a type with the
capability: the hook calls `Initialize` through the null pointer. -/
theorem ofRaw_null_cap (s : State) : SharedPtr.ofRaw s none true = none := by
  have hx : (s.pushSp.newIndirect none).sps[s.sps.length]? = some ⟨none, none⟩ := by
    simp [State.pushSp, State.newIndirect]
  have e1 := StealTemp_empty hx rfl (some s.blocks.length) none
  have hx1 := getElem?_setSp_self (x := ⟨none, none⟩) ⟨some s.blocks.length, none⟩ hx
  simp only [SharedPtr.ofRaw, e1]
  exact hook_null hx1 rfl

/-- Behaviour of `explicit SharedPtr(T* ptr)` on a null pointer or a fresh object. -/
theorem ofRaw_Inv {s s1 : State} {m : Ptr} {c : Bool} (h : Inv s)
    (hfresh : ∀ o : Nat, m = some o → ∃ obj : Obj, s.objs[o]? = some obj ∧
      obj.me.handle = none ∧ obj.dtors = 0 ∧
      ∀ (b : Nat) (blk : Block), s.blocks[b]? = some blk → blk.kind.obj ≠ some o)
    (hr : SharedPtr.ofRaw s m c = some s1) : Inv s1 := by
  have hnull : m = none → c = false := by
    intro hm
    subst hm
    cases c with
    | false => rfl
    | true => rw [ofRaw_null_cap] at hr; cases hr
  have hx : s.pushSp.sps[s.sps.length]? = some ⟨none, none⟩ := by simp [State.pushSp]
  obtain ⟨sa, sb, e1, e2, wb, ab, _⟩ := construct_spec (s := s.pushSp)
    (t := s.pushSp.newIndirect m) (k := Kind.indirect m) (m := m) (c := c)
    h.pushSpI.1 h.pushSpI.2 hx rfl rfl hnull hfresh rfl rfl rfl rfl
  have e1a : SharedPtr.StealTemp (s.pushSp.newIndirect m) s.sps.length
      (some s.blocks.length) m = some sa := e1
  simp only [SharedPtr.ofRaw, e1a, e2, Option.some.injEq] at hr
  subst hr
  exact ⟨wb, ab⟩

theorem ofNew_Inv {s s1 : State} {cap : Bool} (h : Inv s)
    (hr : SharedPtr.ofNew s cap = some s1) : Inv s1 :=
  ofRaw_Inv (h.newObj cap) (fresh_newObj h cap) hr

theorem MakeShared_Inv {s s1 : State} {cap : Bool} (h : Inv s)
    (hr : SharedPtr.MakeShared s cap = some s1) : Inv s1 := by
  have hI := (h.newObj cap).pushSpI
  have hx : (s.newObj cap).pushSp.sps[s.sps.length]? = some ⟨none, none⟩ := by
    simp [State.pushSp, State.newObj]
  obtain ⟨sa, sb, e1, e2, wb, ab, _⟩ := construct_spec (s := (s.newObj cap).pushSp)
    (t := State.pushSp (State.mk (s.blocks ++ [Block.mk 1 1 (Kind.inline s.objs.length) 0 0])
      (s.objs ++ [Obj.mk cap (WeakPtr.mk none none) 0]) s.sps s.wps (s.allocs + 1)))
    (k := Kind.inline s.objs.length) (m := some s.objs.length) (c := cap)
    hI.1 hI.2 hx rfl rfl (fun hf => by cases hf) (fresh_newObj h cap) rfl rfl rfl rfl
  have e1a : SharedPtr.StealTemp
      (State.pushSp (State.mk (s.blocks ++ [Block.mk 1 1 (Kind.inline s.objs.length) 0 0])
        (s.objs ++ [Obj.mk cap (WeakPtr.mk none none) 0]) s.sps s.wps (s.allocs + 1)))
      s.sps.length (some s.blocks.length) (some s.objs.length) = some sa := e1
  simp only [SharedPtr.MakeShared, e1a, e2, Option.some.injEq] at hr
  subst hr
  exact ⟨wb, ab⟩

theorem aliasCopy_Inv {s s1 : State} {j : Nat} {ptr : Ptr} (h : Inv s)
    (hr : SharedPtr.aliasCopy s j ptr = some s1) : Inv s1 := by
  simp only [SharedPtr.aliasCopy] at hr
  cases hj : s.sps[j]? with
  | none => simp [hj] at hr
  | some other =>
    simp only [hj] at hr
    cases hc : Handle.copy s.pushSp other.handle with
    | none => simp [hc] at hr
    | some sa =>
      simp only [hc] at hr
      exact Adopt_WF (copy_WF hc h.pushSpI.1) (copy_Alive hc h.pushSpI.2) hr

theorem aliasMove_Inv {s s1 : State} {j : Nat} {ptr : Ptr} (h : Inv s)
    (hr : SharedPtr.aliasMove s j ptr = some s1) : Inv s1 := by
  simp only [SharedPtr.aliasMove] at hr
  cases hj : s.sps[j]? with
  | none => simp [hj] at hr
  | some other =>
    simp only [hj] at hr
    exact StealFrom_WF h.pushSpI.1 h.pushSpI.2 hr

theorem copy_Inv {s s1 : State} {j : Nat} (h : Inv s)
    (hr : SharedPtr.copy s j = some s1) : Inv s1 := by
  simp only [SharedPtr.copy] at hr
  cases hj : s.sps[j]? with
  | none => simp [hj] at hr
  | some other => simp only [hj] at hr; exact aliasCopy_Inv h hr

theorem move_Inv {s s1 : State} {j : Nat} (h : Inv s)
    (hr : SharedPtr.move s j = some s1) : Inv s1 := by
  simp only [SharedPtr.move] at hr
  cases hj : s.sps[j]? with
  | none => simp [hj] at hr
  | some other => simp only [hj] at hr; exact aliasMove_Inv h hr

theorem convCopy_Inv {s s1 : State} {j : Nat} (h : Inv s)
    (hr : SharedPtr.convCopy s j = some s1) : Inv s1 := by
  simp only [SharedPtr.convCopy] at hr
  cases hj : SharedPtr.Get s j with
  | none => simp [hj] at hr
  | some p => simp only [hj] at hr; exact aliasCopy_Inv h hr

theorem convMove_Inv {s s1 : State} {j : Nat} (h : Inv s)
    (hr : SharedPtr.convMove s j = some s1) : Inv s1 := by
  simp only [SharedPtr.convMove] at hr
  cases hj : SharedPtr.Get s j with
  | none => simp [hj] at hr
  | some p => simp only [hj] at hr; exact aliasMove_Inv h hr

theorem Reset_Inv {s s1 : State} {i : Nat} (h : Inv s)
    (hr : SharedPtr.Reset s i = some s1) : Inv s1 := by
  cases hi : s.sps[i]? with
  | none => simp [SharedPtr.Reset, hi] at hr
  | some x =>
    obtain ⟨s2, e, w2, a2, _⟩ := SharedPtr_Reset_spec h.1 h.2 hi
    rw [hr] at e; cases e
    exact ⟨w2, a2⟩

theorem ofRawConv_Inv {s s1 : State} {ptr : Ptr} {c : Bool} (h : Inv s)
    (hfresh : ∀ o : Nat, ptr = some o → ∃ obj : Obj, s.objs[o]? = some obj ∧
      obj.me.handle = none ∧ obj.dtors = 0 ∧
      ∀ (b : Nat) (blk : Block), s.blocks[b]? = some blk → blk.kind.obj ≠ some o)
    (hr : SharedPtr.ofRawConv s ptr c = some s1) : Inv s1 := by
  simp only [SharedPtr.ofRawConv] at hr
  cases h1 : SharedPtr.ofRaw s ptr c with
  | none => simp [h1] at hr
  | some sa =>
    simp only [h1] at hr
    cases h2 : SharedPtr.convMove sa s.sps.length with
    | none => simp [h2] at hr
    | some sb =>
      simp only [h2] at hr
      exact Reset_Inv (convMove_Inv (ofRaw_Inv h hfresh h1) h2) hr

theorem tryLockIntoOf_Inv {s s1 : State} {w : WeakPtr} {i : Nat} {f : Bool} (h : Inv s)
    (hr : WeakPtr.tryLockIntoOf s w i = some (s1, f)) : Inv s1 := by
  simp only [WeakPtr.tryLockIntoOf] at hr
  cases he : WeakPtr.expiredOf s w with
  | none => simp [he] at hr
  | some e =>
    cases e with
    | true =>
      simp only [he, Option.some.injEq, Prod.mk.injEq] at hr
      rw [← hr.1]; exact h
    | false =>
      simp only [he] at hr
      cases hc : Handle.copy s w.handle with
      | none => simp [hc] at hr
      | some sa =>
        simp only [hc, Option.map_eq_some', Prod.mk.injEq] at hr
        obtain ⟨s2, h2, rfl, _⟩ := hr
        exact Adopt_WF (copy_WF hc h.1) (copy_Alive hc h.2) h2

theorem ofWeakOf_Inv {s s1 : State} {w : WeakPtr} {f : Bool} (h : Inv s)
    (hr : SharedPtr.ofWeakOf s w = some (s1, f)) : Inv s1 := by
  simp only [SharedPtr.ofWeakOf] at hr
  cases ht : WeakPtr.tryLockIntoOf s.pushSp w s.sps.length with
  | none => simp [ht] at hr
  | some r =>
    obtain ⟨sa, fa⟩ := r
    have hI := tryLockIntoOf_Inv h.pushSpI ht
    cases fa with
    | true =>
      simp only [ht, Option.some.injEq, Prod.mk.injEq] at hr
      rw [← hr.1]; exact hI
    | false =>
      simp only [ht, Option.map_eq_some', Prod.mk.injEq] at hr
      obtain ⟨s2, h2, rfl, _⟩ := hr
      exact Reset_Inv hI h2

theorem assignCopy_Inv {s s1 : State} {i j : Nat} (h : Inv s)
    (hr : SharedPtr.assignCopy s i j = some s1) : Inv s1 := by
  simp only [SharedPtr.assignCopy] at hr
  cases h1 : SharedPtr.Reset s i with
  | none => simp [h1] at hr
  | some sa =>
    simp only [h1] at hr
    have hI := Reset_Inv h h1
    cases hj : sa.sps[j]? with
    | none => simp [hj] at hr
    | some other =>
      simp only [hj] at hr
      cases hc : Handle.copy sa other.handle with
      | none => simp [hc] at hr
      | some sb =>
        simp only [hc] at hr
        exact Adopt_WF (copy_WF hc hI.1) (copy_Alive hc hI.2) hr

theorem assignMove_Inv {s s1 : State} {i j : Nat} (h : Inv s)
    (hr : SharedPtr.assignMove s i j = some s1) : Inv s1 := by
  simp only [SharedPtr.assignMove] at hr
  cases h1 : SharedPtr.Reset s i with
  | none => simp [h1] at hr
  | some sa =>
    simp only [h1] at hr
    have hI := Reset_Inv h h1
    cases hj : sa.sps[j]? with
    | none => simp [hj] at hr
    | some other =>
      simp only [hj] at hr
      exact StealFrom_WF hI.1 hI.2 hr

theorem ResetPtr_Inv {s s1 : State} {i : Nat} {m : Ptr} {c : Bool} (h : Inv s)
    (hfresh : ∀ o : Nat, m = some o → ∃ obj : Obj, s.objs[o]? = some obj ∧
      obj.me.handle = none ∧ obj.dtors = 0 ∧
      ∀ (b : Nat) (blk : Block), s.blocks[b]? = some blk → blk.kind.obj ≠ some o)
    (hr : SharedPtr.ResetPtr s i m c = some s1) : Inv s1 := by
  simp only [SharedPtr.ResetPtr] at hr
  cases hi : s.sps[i]? with
  | none => simp [SharedPtr.Reset, hi] at hr
  | some x =>
    obtain ⟨sa, e, wa, aa, fa, spa, _⟩ := SharedPtr_Reset_spec h.1 h.2 hi
    simp only [e] at hr
    cases hp : m with
    | none =>
      simp only [hp, Option.some.injEq] at hr
      subst hr; exact ⟨wa, aa⟩
    | some o =>
      subst hp
      simp only at hr
      have hxa : sa.sps[i]? = some ⟨none, x.ptr⟩ := by
        rw [spa]; exact getElem?_set_self_of hi
      obtain ⟨obj, ho, hm, hd, hno⟩ := hfresh o rfl
      have hfa : ∀ o1 : Nat, (some o : Ptr) = some o1 → ∃ obj : Obj,
          sa.objs[o1]? = some obj ∧ obj.me.handle = none ∧ obj.dtors = 0 ∧
          ∀ (b : Nat) (blk : Block), sa.blocks[b]? = some blk → blk.kind.obj ≠ some o1 := by
        intro o1 ho1
        simp only [Option.some.injEq] at ho1
        subst ho1
        obtain ⟨obj1, h1, _, _, _, h5⟩ := fa.obj o obj ho
        have := h5 (fun c blk _ hc => hno c blk hc)
        subst this
        refine ⟨obj1, h1, hm, hd, ?_⟩
        intro b blk1 hb1 hk1
        have hlt : b < s.blocks.length := by
          have := lt_of_getElem? hb1
          have := fa.nblocks
          omega
        obtain ⟨blk, hb⟩ := getElem?_of_lt hlt
        obtain ⟨blk2, h2, _, h4⟩ := fa.blk b blk hb
        rw [hb1] at h2; cases h2
        exact hno b blk hb (h4 o hk1)
      obtain ⟨sb, sc, e1, e2, wc, ac, _⟩ := construct_spec (s := sa)
        (t := sa.newIndirect (some o)) (k := Kind.indirect (some o)) (m := some o) (c := c)
        wa aa hxa rfl rfl (fun hf => by cases hf) hfa rfl rfl rfl rfl
      have e1a : SharedPtr.StealTemp (sa.newIndirect (some o)) i (some sa.blocks.length)
          (some o) = some sb := e1
      simp only [e1a, e2, Option.some.injEq] at hr
      subst hr
      exact ⟨wc, ac⟩

theorem ResetNew_Inv {s s1 : State} {i : Nat} {cap : Bool} (h : Inv s)
    (hr : SharedPtr.ResetNew s i cap = some s1) : Inv s1 :=
  ResetPtr_Inv (h.newObj cap) (fresh_newObj h cap) hr

theorem Swap_Inv {s s1 : State} {i j : Nat} (h : Inv s)
    (hr : SharedPtr.Swap s i j = some s1) : Inv s1 := by
  simp only [SharedPtr.Swap] at hr
  cases h1 : Handle.swap s (Loc.sp i) (Loc.sp j) with
  | none => simp [h1] at hr
  | some sa =>
    have hI := swap_WF (n := Loc.sp i) (f := Loc.sp j) h.1 h.2 (fun p c => rfl)
      (fun o => by simp) (fun o => by simp) h1
    simp only [h1] at hr
    cases hi : sa.sps[i]? with
    | none => simp [hi] at hr
    | some x =>
      cases hj : sa.sps[j]? with
      | none => simp [hi, hj] at hr
      | some y =>
        simp only [hi, hj, Option.some.injEq] at hr
        subst hr
        exact ⟨(hI.1.setSpPtr i y.ptr).setSpPtr j x.ptr,
          (hI.2.setSpPtrA i y.ptr).setSpPtrA j x.ptr⟩

theorem Alive.appendWpA {s : State} (a : Alive s) (x : WeakPtr) :
    Alive { s with wps := s.wps ++ [x] } := a.congrSA rfl rfl

theorem WeakPtr_copy_Inv {s s1 : State} {j : Nat} (h : Inv s)
    (hr : WeakPtr.copy s j = some s1) : Inv s1 := by
  simp only [WeakPtr.copy] at hr
  cases hj : s.wps[j]? with
  | none => simp [hj] at hr
  | some other =>
    simp only [hj, Option.map_eq_some'] at hr
    obtain ⟨sa, hc, rfl⟩ := hr
    exact ⟨(copy_WF hc h.1).appendWp, (copy_Alive hc h.2).appendWpA other⟩

theorem WeakPtr_move_Inv {s s1 : State} {j : Nat} (h : Inv s)
    (hr : WeakPtr.move s j = some s1) : Inv s1 := by
  simp only [WeakPtr.move] at hr
  cases hj : s.wps[j]? with
  | none => simp [hj] at hr
  | some other =>
    simp only [hj, Option.some.injEq] at hr
    subst hr
    have hg : s.getH (Loc.wp j) = some other.handle := by simp [State.getH, hj]
    have w1 := h.1.takeH (z := none) hg (fun c blk hc => by
      have := h.1.sGe c blk hc; omega)
    exact ⟨w1.appendWp, (h.2.setHA (Loc.wp j) none).appendWpA other⟩

theorem WeakPtr_ofShared_Inv {s s1 : State} {i : Nat} (h : Inv s)
    (hr : WeakPtr.ofShared s i = some s1) : Inv s1 := by
  simp only [WeakPtr.ofShared] at hr
  cases hi : s.sps[i]? with
  | none => simp [hi] at hr
  | some other =>
    simp only [hi, Option.map_eq_some'] at hr
    obtain ⟨sa, hc, rfl⟩ := hr
    exact ⟨WF.appendWp (x := ⟨other.handle, other.ptr⟩) (copy_WF hc h.1),
      (copy_Alive hc h.2).appendWpA _⟩

theorem WeakPtr_assignCopy_Inv {s s1 : State} {i j : Nat} (h : Inv s)
    (hr : WeakPtr.assignCopy s i j = some s1) : Inv s1 := by
  simp only [WeakPtr.assignCopy] at hr
  cases hj : s.wps[j]? with
  | none => simp [hj] at hr
  | some other =>
    simp only [hj] at hr
    cases hc : Handle.copy s other.handle with
    | none => simp [hc] at hr
    | some sa =>
      simp only [hc] at hr
      cases hat : Handle.assignTemp sa (Loc.wp i) other.handle with
      | none => simp [hat] at hr
      | some sb =>
        obtain ⟨q, hg⟩ := assignTemp_some_getH hat
        obtain ⟨s0, _, _, e, wb, ab⟩ := assignTemp_spec (z := none) (copy_WF hc h.1)
          (copy_Alive hc h.2) hg
          (fun c blk hc1 => by
            have := (copy_WF hc h.1).sGe c blk hc1
            simp only [sCnt] at this ⊢
            omega)
          (fun o c hl _ => by cases hl)
        rw [hat] at e; cases e
        simp only [hat, Option.map_eq_some'] at hr
        obtain ⟨o2, _, rfl⟩ := hr
        exact ⟨wb.setWpPtr i o2.ptr, ab.setWpPtrA i o2.ptr⟩

theorem WeakPtr_assignMove_Inv {s s1 : State} {i j : Nat} (h : Inv s)
    (hr : WeakPtr.assignMove s i j = some s1) : Inv s1 := by
  simp only [WeakPtr.assignMove] at hr
  cases h1 : Handle.assignFrom s (Loc.wp i) (Loc.wp j) with
  | none => simp [h1] at hr
  | some sa =>
    obtain ⟨wa, aa, _⟩ := assignFrom_WF (l := Loc.wp i) (g := Loc.wp j) h.1 h.2
      (fun p c => rfl) (fun o => by simp) h1
    simp only [h1, Option.map_eq_some'] at hr
    obtain ⟨o2, _, rfl⟩ := hr
    exact ⟨wa.setWpPtr i o2.ptr, aa.setWpPtrA i o2.ptr⟩

theorem WeakPtr_Reset_Inv {s s1 : State} {j : Nat} (h : Inv s)
    (hr : WeakPtr.Reset s j = some s1) : Inv s1 := by
  simp only [WeakPtr.Reset] at hr
  obtain ⟨q, hg⟩ := assignTemp_some_getH hr
  obtain ⟨s0, _, _, e, wb, ab⟩ := assignTemp_spec (z := none) h.1.addNone h.2 hg
    (fun c blk hc1 => by
      have := h.1.sGe c blk hc1
      simp only [sCnt] at this ⊢
      omega)
    (fun o c hl _ => by cases hl)
  rw [hr] at e; cases e
  exact ⟨wb, ab⟩

theorem WeakPtr_dtor_Inv {s s1 : State} {j : Nat} (h : Inv s)
    (hr : WeakPtr.dtor s j = some s1) : Inv s1 := by
  simp only [WeakPtr.dtor] at hr
  obtain ⟨q, hg⟩ := Reset_some_getH hr
  obtain ⟨s0, e, w0, a0, _⟩ := Reset_spec (z := none) h.1 h.2 hg
    (fun c blk hc1 => by
      have := h.1.sGe c blk hc1
      omega)
  rw [hr] at e; cases e
  exact ⟨w0, a0⟩

theorem WeakPtr_Swap_Inv {s s1 : State} {i j : Nat} (h : Inv s)
    (hr : WeakPtr.Swap s i j = some s1) : Inv s1 := by
  simp only [WeakPtr.Swap] at hr
  cases h1 : Handle.swap s (Loc.wp i) (Loc.wp j) with
  | none => simp [h1] at hr
  | some sa =>
    have hI := swap_WF (n := Loc.wp i) (f := Loc.wp j) h.1 h.2 (fun p c => rfl)
      (fun o => by simp) (fun o => by simp) h1
    simp only [h1] at hr
    cases hi : sa.wps[i]? with
    | none => simp [hi] at hr
    | some x =>
      cases hj : sa.wps[j]? with
      | none => simp [hi, hj] at hr
      | some y =>
        simp only [hi, hj, Option.some.injEq] at hr
        subst hr
        exact ⟨(hI.1.setWpPtr i y.ptr).setWpPtr j x.ptr,
          (hI.2.setWpPtrA i y.ptr).setWpPtrA j x.ptr⟩

theorem TryLockInto_Inv {s s1 : State} {j i : Nat} {f : Bool} (h : Inv s)
    (hr : WeakPtr.TryLockInto s j i = some (s1, f)) : Inv s1 := by
  simp only [WeakPtr.TryLockInto] at hr
  cases hj : s.wps[j]? with
  | none => simp [hj] at hr
  | some w => simp only [hj] at hr; exact tryLockIntoOf_Inv h hr

theorem Lock_Inv {s s1 : State} {j : Nat} (h : Inv s)
    (hr : WeakPtr.Lock s j = some s1) : Inv s1 := by
  simp only [WeakPtr.Lock, Option.map_eq_some'] at hr
  obtain ⟨r, h1, rfl⟩ := hr
  exact TryLockInto_Inv (f := r.2) h.pushSpI h1

theorem ofWeak_Inv {s s1 : State} {j : Nat} {f : Bool} (h : Inv s)
    (hr : SharedPtr.ofWeak s j = some (s1, f)) : Inv s1 := by
  simp only [SharedPtr.ofWeak] at hr
  cases hj : s.wps[j]? with
  | none => simp [hj] at hr
  | some w => simp only [hj] at hr; exact ofWeakOf_Inv h hr

theorem SharedFromThis_Inv {s s1 : State} {o : Nat} {f : Bool} (h : Inv s)
    (hr : EnableSharedFromThis.SharedFromThis s o = some (s1, f)) : Inv s1 := by
  simp only [EnableSharedFromThis.SharedFromThis] at hr
  cases ho : s.objs[o]? with
  | none => simp [ho] at hr
  | some obj =>
    simp only [ho] at hr
    split at hr
    · exact ofWeakOf_Inv h hr
    · cases hr

theorem WeakFromThis_Inv {s s1 : State} {o : Nat} (h : Inv s)
    (hr : EnableSharedFromThis.WeakFromThis s o = some s1) : Inv s1 := by
  simp only [EnableSharedFromThis.WeakFromThis] at hr
  cases ho : s.objs[o]? with
  | none => simp [ho] at hr
  | some obj =>
    simp only [ho] at hr
    split at hr
    · simp only [Option.map_eq_some'] at hr
      obtain ⟨sa, hc, rfl⟩ := hr
      exact ⟨(copy_WF hc h.1).appendWp, (copy_Alive hc h.2).appendWpA obj.me⟩
    · cases hr

/-- Every operation of a client program preserves well-formedness. -/
theorem step_Inv {s s1 : State} (op : Op) (h : Inv s) (hr : step s op = some s1) : Inv s1 := by
  cases op with
  | spDefault =>
    simp only [step, SharedPtr.default, Option.some.injEq] at hr
    subst hr; exact h.pushSpI
  | spOfNew cap => exact ofNew_Inv h hr
  | spOfNull cap => exact ofRaw_Inv (m := none) (c := cap) h (fun o ho => by cases ho) hr
  | spOfNewConv cap => exact ofRawConv_Inv (h.newObj cap) (fresh_newObj h cap) hr
  | spMakeShared cap => exact MakeShared_Inv h hr
  | spCopy j => exact copy_Inv h hr
  | spMove j => exact move_Inv h hr
  | spAliasCopy j addr => exact aliasCopy_Inv h hr
  | spAliasMove j addr => exact aliasMove_Inv h hr
  | spConvCopy j => exact convCopy_Inv h hr
  | spConvMove j => exact convMove_Inv h hr
  | spOfWeak j =>
    simp only [step, Option.map_eq_some'] at hr
    obtain ⟨r, h1, rfl⟩ := hr
    exact ofWeak_Inv (f := r.2) h h1
  | spAssignCopy i j => exact assignCopy_Inv h hr
  | spAssignMove i j => exact assignMove_Inv h hr
  | spDtor i => exact Reset_Inv h hr
  | spReset i => exact Reset_Inv h hr
  | spResetNew i cap => exact ResetNew_Inv h hr
  | spResetNull i cap =>
    exact ResetPtr_Inv (m := none) (i := i) (c := cap) h (fun o ho => by cases ho) hr
  | spSwap i j => exact Swap_Inv h hr
  | wpDefault =>
    simp only [step, WeakPtr.default, Option.some.injEq] at hr
    subst hr; exact h.pushWpI
  | wpCopy j => exact WeakPtr_copy_Inv h hr
  | wpMove j => exact WeakPtr_move_Inv h hr
  | wpOfShared i => exact WeakPtr_ofShared_Inv h hr
  | wpAssignCopy i j => exact WeakPtr_assignCopy_Inv h hr
  | wpAssignMove i j => exact WeakPtr_assignMove_Inv h hr
  | wpReset j => exact WeakPtr_Reset_Inv h hr
  | wpDtor j => exact WeakPtr_dtor_Inv h hr
  | wpSwap i j => exact WeakPtr_Swap_Inv h hr
  | wpTryLockInto j i =>
    simp only [step, Option.map_eq_some'] at hr
    obtain ⟨r, h1, rfl⟩ := hr
    exact TryLockInto_Inv (f := r.2) h h1
  | wpLock j => exact Lock_Inv h hr
  | sharedFromThis o =>
    simp only [step, Option.map_eq_some'] at hr
    obtain ⟨r, h1, rfl⟩ := hr
    exact SharedFromThis_Inv (f := r.2) h h1
  | weakFromThis o => exact WeakFromThis_Inv h hr

/-- Every reachable state is well-formed. -/
theorem reachable_Inv {s : State} (h : Reachable s) : Inv s := by
  induction h with
  | init => exact Inv.init
  | step op _ hs ih => exact step_Inv op ih hs

theorem run_Inv {s s1 : State} (ops : List Op) (h : Inv s) (hr : run s ops = some s1) :
    Inv s1 := by
  induction ops generalizing s with
  | nil => simp only [run, Option.some.injEq] at hr; subst hr; exact h
  | cons op ops ih =>
    simp only [run] at hr
    cases hs : step s op with
    | none => simp [hs] at hr
    | some sa => simp only [hs] at hr; exact ih (step_Inv op h hs) hr

theorem run_Reachable {s s1 : State} (ops : List Op) (h : Reachable s)
    (hr : run s ops = some s1) : Reachable s1 := by
  induction ops generalizing s with
  | nil => simp only [run, Option.some.injEq] at hr; subst hr; exact h
  | cons op ops ih =>
    simp only [run] at hr
    cases hs : step s op with
    | none => simp [hs] at hr
    | some sa => simp only [hs] at hr; exact ih (Reachable.step op h hs) hr

theorem getElem?_pushSp_new (s : State) : s.pushSp.sps[s.sps.length]? = some ⟨none, none⟩ := by
  simp [State.pushSp]

theorem getElem?_pushSp_old {s : State} {i : Nat} {x : SharedPtr} (h : s.sps[i]? = some x) :
    s.pushSp.sps[i]? = some x := by
  simp only [State.pushSp]
  rw [List.getElem?_append_left (lt_of_getElem? h)]; exact h

theorem set_append_length {α : Type} (l : List α) (a b : α) :
    (l ++ [a]).set l.length b = l ++ [b] := by
  induction l with
  | nil => rfl
  | cons x l ih => simp [ih]

theorem set_append_lt {α : Type} {l : List α} {i : Nat} (h : i < l.length) (a b : α) :
    (l ++ [a]).set i b = l.set i b ++ [a] := by
  induction l generalizing i with
  | nil => simp at h
  | cons x l ih =>
    cases i with
    | zero => rfl
    | succ i => simp at h; simp [ih h]

theorem setH_sp_mk {B : List Block} {O : List Obj} {S : List SharedPtr} {W : List WeakPtr}
    {n i : Nat} {x : SharedPtr} (h : S[i]? = some x) (p : Ptr) :
    (State.mk B O S W n).setH (Loc.sp i) p = State.mk B O (S.set i ⟨p, x.ptr⟩) W n := by
  simp [State.setH, h, State.setSp]

theorem setSpPtr_mk {B : List Block} {O : List Obj} {S : List SharedPtr} {W : List WeakPtr}
    {n i : Nat} {x : SharedPtr} (h : S[i]? = some x) (p : Ptr) :
    (State.mk B O S W n).setSpPtr i p = State.mk B O (S.set i ⟨x.handle, p⟩) W n := by
  simp [State.setSpPtr, h, State.setSp]

theorem getH_sp_mk {B : List Block} {O : List Obj} {S : List SharedPtr} {W : List WeakPtr}
    {n i : Nat} {x : SharedPtr} (h : S[i]? = some x) :
    (State.mk B O S W n).getH (Loc.sp i) = some x.handle := by
  simp [State.getH, h]

theorem BeginStrong_mk {B : List Block} {O : List Obj} {S : List SharedPtr}
    {W : List WeakPtr} {n b : Nat} {blk : Block} (hb : B[b]? = some blk)
    (hs : 0 < blk.strong) :
    RealStorage.BeginStrong (State.mk B O S W n) b
      = some (State.mk (B.set b { blk with strong := blk.strong + 1 }) O S W n) :=
  BeginStrong_eq (s := State.mk B O S W n) hb hs

theorem copy_mk {B : List Block} {O : List Obj} {S : List SharedPtr}
    {W : List WeakPtr} {n b : Nat} {blk : Block} (hb : B[b]? = some blk)
    (hh : 0 < blk.handles) :
    Handle.copy (State.mk B O S W n) (some b)
      = some (State.mk (B.set b { blk with handles := blk.handles + 1 }) O S W n) :=
  copy_eq (s := State.mk B O S W n) hb hh

theorem release_dec_mk {B : List Block} {O : List Obj} {S : List SharedPtr}
    {W : List WeakPtr} {n b : Nat} {blk : Block} (hb : B[b]? = some blk)
    (hh : 2 ≤ blk.handles) :
    Handle.release (State.mk B O S W n) (some b)
      = some (State.mk (B.set b { blk with handles := blk.handles - 1 }) O S W n) :=
  release_dec (s := State.mk B O S W n) hb hh

theorem EndStrong_dec_mk {B : List Block} {O : List Obj} {S : List SharedPtr}
    {W : List WeakPtr} {n b : Nat} {blk : Block} (hb : B[b]? = some blk)
    (hs : 2 ≤ blk.strong) :
    RealStorage.EndStrong (State.mk B O S W n) b
      = some (State.mk (B.set b { blk with strong := blk.strong - 1 }) O S W n) :=
  EndStrong_dec (s := State.mk B O S W n) hb hs

theorem Reset_empty_sp_mk {B : List Block} {O : List Obj} {S : List SharedPtr}
    {W : List WeakPtr} {n i : Nat} {x : SharedPtr} (h : S[i]? = some x)
    (hh : x.handle = none) :
    Handle.Reset (State.mk B O S W n) (Loc.sp i) = some (State.mk B O S W n) := by
  have hg : (State.mk B O S W n).getH (Loc.sp i) = some none := by
    rw [getH_sp_mk h, hh]
  rw [Reset_empty hg, setH_sp_mk h]
  have : (⟨none, x.ptr⟩ : SharedPtr) = x := by cases x; simp only at hh; subst hh; rfl
  rw [this, set_self_of_getElem? h]

theorem assignTemp_empty_sp_mk {B : List Block} {O : List Obj} {S : List SharedPtr}
    {W : List WeakPtr} {n i : Nat} {x : SharedPtr} (h : S[i]? = some x)
    (hh : x.handle = none) (hv : Ptr) :
    Handle.assignTemp (State.mk B O S W n) (Loc.sp i) hv
      = some (State.mk B O (S.set i ⟨hv, x.ptr⟩) W n) := by
  simp only [Handle.assignTemp, Reset_empty_sp_mk h hh]
  rw [setH_sp_mk h]

/-- Behaviour of `Adopt` of a temporary handle on block `b` into a `SharedPtr` that holds none. -/
theorem Adopt_empty_mk {B : List Block} {O : List Obj} {S : List SharedPtr}
    {W : List WeakPtr} {n i b : Nat} {x : SharedPtr} {blk : Block}
    (hx : S[i]? = some x) (hh : x.handle = none) (hb : B[b]? = some blk)
    (hs : 0 < blk.strong) (ptr : Ptr) :
    SharedPtr.Adopt (State.mk B O S W n) i (some b) ptr
      = some (State.mk (B.set b { blk with strong := blk.strong + 1 }) O
          (S.set i ⟨some b, ptr⟩) W n) := by
  simp only [SharedPtr.Adopt, assignTemp_empty_sp_mk hx hh, BeginStrong_mk hb hs,
    Option.map_some']
  rw [setSpPtr_mk (getElem?_set_self_of hx), List.set_set]

theorem Adopt_empty_none_mk {B : List Block} {O : List Obj} {S : List SharedPtr}
    {W : List WeakPtr} {n i : Nat} {x : SharedPtr}
    (hx : S[i]? = some x) (hh : x.handle = none) (ptr : Ptr) :
    SharedPtr.Adopt (State.mk B O S W n) i none ptr
      = some (State.mk B O (S.set i ⟨none, ptr⟩) W n) := by
  simp only [SharedPtr.Adopt, assignTemp_empty_sp_mk hx hh, Option.map_some']
  rw [setSpPtr_mk (getElem?_set_self_of hx), List.set_set]

/-- The copy-flavoured aliasing constructor on a non-empty source, in explicit form. -/
theorem aliasCopy_some {s : State} {j b : Nat} {x : SharedPtr} {blk : Block}
    (hj : s.sps[j]? = some x) (hxh : x.handle = some b) (hb : s.blocks[b]? = some blk)
    (hh : 0 < blk.handles) (hs : 0 < blk.strong) (ptr : Ptr) :
    SharedPtr.aliasCopy s j ptr
      = some ⟨s.blocks.set b { blk with handles := blk.handles + 1, strong := blk.strong + 1 },
          s.objs, s.sps ++ [⟨some b, ptr⟩], s.wps, s.allocs⟩ := by
  obtain ⟨B, O, S, W, n⟩ := s
  simp only at hj hb ⊢
  have h1 : (S ++ [(⟨none, none⟩ : SharedPtr)])[S.length]? = some ⟨none, none⟩ := by simp
  simp only [SharedPtr.aliasCopy, hj, hxh, State.pushSp, copy_mk hb hh]
  rw [Adopt_empty_mk h1 rfl
    (getElem?_set_self_of (y := { blk with handles := blk.handles + 1 }) hb) hs,
    List.set_set, set_append_length]

/-- The copy-flavoured aliasing constructor on an empty source. -/
theorem aliasCopy_none {s : State} {j : Nat} {x : SharedPtr}
    (hj : s.sps[j]? = some x) (hxh : x.handle = none) (ptr : Ptr) :
    SharedPtr.aliasCopy s j ptr
      = some ⟨s.blocks, s.objs, s.sps ++ [⟨none, ptr⟩], s.wps, s.allocs⟩ := by
  obtain ⟨B, O, S, W, n⟩ := s
  simp only at hj ⊢
  have h1 : (S ++ [(⟨none, none⟩ : SharedPtr)])[S.length]? = some ⟨none, none⟩ := by simp
  simp only [SharedPtr.aliasCopy, hj, hxh, State.pushSp, copy_none]
  rw [Adopt_empty_none_mk h1 rfl, set_append_length]

/-- Behaviour of `Handle::operator=(Handle&&)` into an empty `SharedPtr` handle from another
`SharedPtr` handle. -/
theorem assignFrom_empty_sp_mk {B : List Block} {O : List Obj} {S : List SharedPtr}
    {W : List WeakPtr} {n i j : Nat} {x y : SharedPtr} (hi : S[i]? = some x)
    (hh : x.handle = none) (hj : S[j]? = some y) (hij : i ≠ j) :
    Handle.assignFrom (State.mk B O S W n) (Loc.sp i) (Loc.sp j)
      = some (State.mk B O ((S.set j ⟨none, y.ptr⟩).set i ⟨y.handle, x.ptr⟩) W n) := by
  have h2 : (S.set j ⟨none, y.ptr⟩)[i]? = some x := by
    rw [List.getElem?_set]; simp [Ne.symm hij, hi]
  simp only [Handle.assignFrom, Reset_empty_sp_mk hi hh, getH_sp_mk hj]
  rw [setH_sp_mk hj, setH_sp_mk h2]

/-- The move-flavoured aliasing constructor, in explicit form. -/
theorem aliasMove_eq {s : State} {j : Nat} {x : SharedPtr} (hj : s.sps[j]? = some x)
    (ptr : Ptr) :
    SharedPtr.aliasMove s j ptr
      = some ⟨s.blocks, s.objs, s.sps.set j ⟨none, x.ptr⟩ ++ [⟨x.handle, ptr⟩], s.wps,
          s.allocs⟩ := by
  obtain ⟨B, O, S, W, n⟩ := s
  simp only at hj ⊢
  have hjl := lt_of_getElem? hj
  have h1 : (S ++ [(⟨none, none⟩ : SharedPtr)])[S.length]? = some ⟨none, none⟩ := by simp
  have h2 : (S ++ [(⟨none, none⟩ : SharedPtr)])[j]? = some x := by
    rw [List.getElem?_append_left hjl]; exact hj
  have hl : (S.set j ⟨none, x.ptr⟩).length = S.length := List.length_set _ _ _
  simp only [SharedPtr.aliasMove, hj, SharedPtr.StealFrom, State.pushSp,
    assignFrom_empty_sp_mk h1 rfl h2 (Nat.ne_of_gt hjl), Option.map_some']
  rw [set_append_lt hjl]
  have h3 : ((S.set j ⟨none, x.ptr⟩ ++ [(⟨none, none⟩ : SharedPtr)]).set S.length
      ⟨x.handle, none⟩)[S.length]? = some ⟨x.handle, none⟩ := by
    rw [← hl, set_append_length]; simp
  rw [setSpPtr_mk h3, List.set_set]
  rw [← hl, set_append_length]

/-- Behaviour of `Reset()` on an owner that is not the last one, in explicit form. -/
theorem Reset_dec {s : State} {i b : Nat} {x : SharedPtr} {blk : Block}
    (hx : s.sps[i]? = some x) (hxh : x.handle = some b) (hb : s.blocks[b]? = some blk)
    (hs : 2 ≤ blk.strong) (hh : 2 ≤ blk.handles) :
    SharedPtr.Reset s i
      = some ⟨s.blocks.set b { blk with handles := blk.handles - 1, strong := blk.strong - 1 },
          s.objs, s.sps.set i ⟨none, x.ptr⟩, s.wps, s.allocs⟩ := by
  obtain ⟨B, O, S, W, n⟩ := s
  simp only at hx hb ⊢
  have hb1 : (B.set b { blk with strong := blk.strong - 1 })[b]?
      = some { blk with strong := blk.strong - 1 } := getElem?_set_self_of hb
  simp only [SharedPtr.Reset, hx, hxh, EndStrong_dec_mk hb hs, Handle.assignTemp, Handle.Reset,
    getH_sp_mk hx, setH_sp_mk hx, release_dec_mk hb1 hh, List.set_set]
  rw [setH_sp_mk (getElem?_set_self_of hx), List.set_set]

theorem StealTemp_empty_mk {B : List Block} {O : List Obj} {S : List SharedPtr}
    {W : List WeakPtr} {n i : Nat} {x : SharedPtr} (hx : S[i]? = some x)
    (hh : x.handle = none) (hv ptr : Ptr) :
    SharedPtr.StealTemp (State.mk B O S W n) i hv ptr
      = some (State.mk B O (S.set i ⟨hv, ptr⟩) W n) :=
  StealTemp_empty (s := State.mk B O S W n) hx hh hv ptr

/-- Behaviour of `SharedPtr::MakeShared` in explicit form: one block (with a second handle in
`me_` when the type has the capability), one object, one pointer. -/
theorem MakeShared_eq (s : State) (cap : Bool) :
    SharedPtr.MakeShared s cap
      = some ⟨s.blocks ++ [⟨if cap then 2 else 1, 1, Kind.inline s.objs.length, 0, 0⟩],
          s.objs ++ [⟨cap, if cap then ⟨some s.blocks.length, some s.objs.length⟩
                            else ⟨none, none⟩, 0⟩],
          s.sps ++ [⟨some s.blocks.length, some s.objs.length⟩], s.wps, s.allocs + 1⟩ := by
  obtain ⟨B, O, S, W, n⟩ := s
  have h1 : (S ++ [(⟨none, none⟩ : SharedPtr)])[S.length]? = some ⟨none, none⟩ := by simp
  simp only [SharedPtr.MakeShared, State.pushSp, StealTemp_empty_mk h1 rfl, set_append_length]
  have hx : (State.mk (B ++ [⟨1, 1, Kind.inline O.length, 0, 0⟩]) (O ++ [⟨cap, ⟨none, none⟩, 0⟩])
      (S ++ [⟨some B.length, some O.length⟩]) W (n + 1)).sps[S.length]?
      = some ⟨some B.length, some O.length⟩ := by simp
  have ho : (State.mk (B ++ [⟨1, 1, Kind.inline O.length, 0, 0⟩]) (O ++ [⟨cap, ⟨none, none⟩, 0⟩])
      (S ++ [⟨some B.length, some O.length⟩]) W (n + 1)).objs[O.length]?
      = some ⟨cap, ⟨none, none⟩, 0⟩ := by simp
  have hb : (State.mk (B ++ [⟨1, 1, Kind.inline O.length, 0, 0⟩]) (O ++ [⟨cap, ⟨none, none⟩, 0⟩])
      (S ++ [⟨some B.length, some O.length⟩]) W (n + 1)).blocks[B.length]?
      = some ⟨1, 1, Kind.inline O.length, 0, 0⟩ := by simp
  cases cap with
  | false =>
    rw [hook_nocap]
    simp
  | true =>
    rw [hook_cap hx rfl rfl ho rfl hb (by simp)]
    simp [State.setBlock, State.setObj, set_append_length]

/-- Behaviour of `SharedPtr<T>(new T(...))` in explicit form. -/
theorem ofNew_eq (s : State) (cap : Bool) :
    SharedPtr.ofNew s cap
      = some ⟨s.blocks ++ [⟨if cap then 2 else 1, 1, Kind.indirect (some s.objs.length), 0, 0⟩],
          s.objs ++ [⟨cap, if cap then ⟨some s.blocks.length, some s.objs.length⟩
                            else ⟨none, none⟩, 0⟩],
          s.sps ++ [⟨some s.blocks.length, some s.objs.length⟩], s.wps, s.allocs + 2⟩ := by
  obtain ⟨B, O, S, W, n⟩ := s
  have h1 : (S ++ [(⟨none, none⟩ : SharedPtr)])[S.length]? = some ⟨none, none⟩ := by simp
  simp only [SharedPtr.ofNew, SharedPtr.ofRaw, State.newObj, State.pushSp, State.newIndirect,
    StealTemp_empty_mk h1 rfl, set_append_length]
  have hx : (State.mk (B ++ [⟨1, 1, Kind.indirect (some O.length), 0, 0⟩])
      (O ++ [⟨cap, ⟨none, none⟩, 0⟩])
      (S ++ [⟨some B.length, some O.length⟩]) W (n + 1 + 1)).sps[S.length]?
      = some ⟨some B.length, some O.length⟩ := by simp
  have ho : (State.mk (B ++ [⟨1, 1, Kind.indirect (some O.length), 0, 0⟩])
      (O ++ [⟨cap, ⟨none, none⟩, 0⟩])
      (S ++ [⟨some B.length, some O.length⟩]) W (n + 1 + 1)).objs[O.length]?
      = some ⟨cap, ⟨none, none⟩, 0⟩ := by simp
  have hb : (State.mk (B ++ [⟨1, 1, Kind.indirect (some O.length), 0, 0⟩])
      (O ++ [⟨cap, ⟨none, none⟩, 0⟩])
      (S ++ [⟨some B.length, some O.length⟩]) W (n + 1 + 1)).blocks[B.length]?
      = some ⟨1, 1, Kind.indirect (some O.length), 0, 0⟩ := by simp
  cases cap with
  | false =>
    rw [hook_nocap]
    simp
  | true =>
    rw [hook_cap hx rfl rfl ho rfl hb (by simp)]
    simp [State.setBlock, State.setObj, set_append_length]

/-- Releasing a handle of a block that has no object to delete. -/
theorem release_noobj {s : State} {b : Nat} {blk : Block} (hb : s.blocks[b]? = some blk)
    (h1 : 1 ≤ blk.handles) (hk : ∀ o : Nat, blk.kind ≠ Kind.indirect (some o)) :
    Handle.release s (some b)
      = some (s.setBlock b { blk with handles := blk.handles - 1,
                                      freed := blk.freed + (if blk.handles = 1 then 1 else 0) }) := by
  by_cases h2 : 2 ≤ blk.handles
  · rw [release_dec hb h2]
    have : ¬ blk.handles = 1 := by omega
    simp [this]
  · have e1 : blk.handles = 1 := by omega
    rw [release_last_plain hb e1 hk]
    simp [e1]

/-- In a well-formed state the `me_` of the object in the care of block `b` holds no
handle, or one of at least `1 + (number of SharedPtr on b)` handles on `b`. -/
theorem WF.me_handle_cases {s : State} {T : List Ptr} {d : Ptr} (w : WF s T d) {b o : Nat}
    {blk : Block} {obj : Obj} (hb : s.blocks[b]? = some blk) (hk : blk.kind.obj = some o)
    (ho : s.objs[o]? = some obj) :
    obj.me.handle = none ∨ (obj.me.handle = some b ∧ s.cntS b + 1 ≤ blk.handles) := by
  cases hmh : obj.me.handle with
  | none => exact Or.inl rfl
  | some c =>
    have := w.me_of_owned hb hk ho hmh
    subst this
    have h1 := cntM_pos ho hmh
    have h2 := w.hEq c blk hb
    refine Or.inr ⟨rfl, ?_⟩
    simp only [State.refs] at h2
    omega

/-- Behaviour of `Reset()` on the last strong owner of a block, in a well-formed state: the
strong count becomes 0, `Destroy` runs once, the object in the block's care (if any)
is destroyed, and nothing else in the heap changes but the handle count of `b`. -/
theorem Reset_last {s : State} {i b : Nat} {x : SharedPtr} {blk : Block} (h : Inv s)
    (hx : s.sps[i]? = some x) (hxh : x.handle = some b) (hb : s.blocks[b]? = some blk)
    (hs : blk.strong = 1) :
    ∃ s1 : State, SharedPtr.Reset s i = some s1 ∧ s1.sps = s.sps.set i ⟨none, x.ptr⟩ ∧
      s1.wps = s.wps ∧ s1.allocs = s.allocs ∧
      (∃ blk1 : Block, s1.blocks[b]? = some blk1 ∧ blk1.strong = 0 ∧
        blk1.destroys = blk.destroys + 1 ∧ blk1.handles < blk.handles) ∧
      (∀ c : Nat, c ≠ b → s1.blocks[c]? = s.blocks[c]?) ∧
      (∀ (o : Nat) (obj : Obj), blk.kind.obj = some o → s.objs[o]? = some obj →
        obj.dtors = 0 ∧ s1.objs[o]? = some { obj with dtors := 1, me := ⟨none, obj.me.ptr⟩ }) ∧
      (∀ o : Nat, blk.kind.obj ≠ some o → s1.objs[o]? = s.objs[o]?) := by
  have hlt := lt_of_getElem? hb
  have hcS := cntS_pos hx hxh
  have hH := h.1.hEq b blk hb
  have hf := h.1.fEq b blk hb
  have hHge : 1 ≤ blk.handles := by
    simp only [State.refs, List.count_nil] at hH; omega
  cases hko : blk.kind.obj with
  | none =>
    have hk : blk.kind = Kind.indirect none := by
      cases hkind : blk.kind with
      | inline o => rw [hkind] at hko; simp [Kind.obj] at hko
      | indirect dp => rw [hkind] at hko; simp only [Kind.obj] at hko; rw [hko]
    obtain ⟨B, O, S, W, n⟩ := s
    simp only at hx hb hlt ⊢
    have e1 := EndStrong_last_null (s := State.mk B O S W n) hb hs hk
    simp only [State.setBlock] at e1
    have hb1 : (State.mk (B.set b { blk with strong := 0, destroys := blk.destroys + 1 }) O
        (S.set i ⟨none, x.ptr⟩) W n).blocks[b]?
        = some { blk with strong := 0, destroys := blk.destroys + 1 } :=
      getElem?_set_self_of hb
    have e2 := release_noobj hb1 hHge (fun o => by simp [hk])
    simp only [State.setBlock, List.set_set] at e2
    have hR : SharedPtr.Reset (State.mk B O S W n) i
        = some (State.mk (B.set b (Block.mk (blk.handles - 1) 0 blk.kind
            (blk.freed + if blk.handles = 1 then 1 else 0) (blk.destroys + 1))) O
            (S.set i ⟨none, x.ptr⟩) W n) := by
      simp only [SharedPtr.Reset, hx, hxh, e1, Handle.assignTemp, Handle.Reset,
        getH_sp_mk hx, setH_sp_mk hx, e2]
      rw [setH_sp_mk (getElem?_set_self_of hx), List.set_set]
    refine ⟨_, hR, rfl, rfl, rfl, ⟨_, getElem?_set_self_of hb, rfl, rfl, ?_⟩, ?_, ?_, ?_⟩
    · simp only; omega
    · intro c hc
      simp only
      rw [List.getElem?_set]; simp [Ne.symm hc]
    · intro o obj hk1; cases hk1
    · intro o _; rfl
  | some o =>
    obtain ⟨obj, ho⟩ := getElem?_of_lt (h.1.own b blk o hb hko)
    have hme := h.1.me_handle_cases hb hko ho
    have hme1 : obj.me.handle = none ∨ (obj.me.handle = some b ∧ 2 ≤ blk.handles) := by
      rcases hme with h1 | ⟨h1, h2⟩
      · exact Or.inl h1
      · exact Or.inr ⟨h1, by omega⟩
    have hcm : cnt obj.me.handle b + 1 ≤ blk.handles := by
      rcases hme with h1 | ⟨h1, h2⟩
      · rw [h1, cnt_none]; omega
      · rw [h1, cnt_self]; omega
    have hd0 : obj.dtors = 0 := by
      have := h.2.dt b blk o obj hb ho hko
      cases hkind : blk.kind with
      | inline o1 => rw [hkind] at this; simp [hs] at this; exact this
      | indirect dp =>
        rw [hkind] at this; simp only at this
        rw [this, hf, if_neg]; omega
    obtain ⟨k1, hk⟩ : ∃ k1 : Kind, (blk.kind = Kind.inline o ∧ k1 = Kind.inline o) ∨
        (blk.kind = Kind.indirect (some o) ∧ k1 = Kind.indirect none) := by
      cases hkind : blk.kind with
      | inline o1 =>
        rw [hkind] at hko; simp only [Kind.obj, Option.some.injEq] at hko
        subst hko
        exact ⟨Kind.inline o1, Or.inl ⟨rfl, rfl⟩⟩
      | indirect dp =>
        rw [hkind] at hko; simp only [Kind.obj] at hko
        subst hko
        exact ⟨Kind.indirect none, Or.inr ⟨rfl, rfl⟩⟩
    have hk1 : ∀ o1 : Nat, k1 ≠ Kind.indirect (some o1) := by
      intro o1
      rcases hk with ⟨_, rfl⟩ | ⟨_, rfl⟩ <;> simp
    obtain ⟨B, O, S, W, n⟩ := s
    simp only at hx hb hlt ho ⊢
    have e1 := EndStrong_last_obj (s := State.mk B O S W n) (r := k1) hb hs ho hme1 hk
    simp only [State.setBlock, State.setObj] at e1
    have hb1 : (State.mk (B.set b (Block.mk (blk.handles - cnt obj.me.handle b) 0 k1
        blk.freed (blk.destroys + 1)))
        (O.set o { obj with dtors := obj.dtors + 1, me := { obj.me with handle := none } })
        (S.set i ⟨none, x.ptr⟩) W n).blocks[b]?
        = some (Block.mk (blk.handles - cnt obj.me.handle b) 0 k1 blk.freed
            (blk.destroys + 1)) :=
      getElem?_set_self_of hb
    have e2 := release_noobj hb1 (by simp only; omega) hk1
    simp only [State.setBlock, List.set_set] at e2
    have hR : SharedPtr.Reset (State.mk B O S W n) i
        = some (State.mk (B.set b (Block.mk (blk.handles - cnt obj.me.handle b - 1) 0 k1
            (blk.freed + if blk.handles - cnt obj.me.handle b = 1 then 1 else 0)
            (blk.destroys + 1)))
            (O.set o { obj with dtors := obj.dtors + 1, me := { obj.me with handle := none } })
            (S.set i ⟨none, x.ptr⟩) W n) := by
      simp only [SharedPtr.Reset, hx, hxh, e1, Handle.assignTemp, Handle.Reset,
        getH_sp_mk hx, setH_sp_mk hx, e2]
      rw [setH_sp_mk (getElem?_set_self_of hx), List.set_set]
    refine ⟨_, hR, rfl, rfl, rfl, ⟨_, getElem?_set_self_of hb, rfl, rfl, ?_⟩, ?_, ?_, ?_⟩
    · simp only; omega
    · intro c hc
      simp only
      rw [List.getElem?_set]; simp [Ne.symm hc]
    · intro o1 obj1 hk2 ho1
      simp only [Option.some.injEq] at hk2
      subst hk2
      rw [ho] at ho1; cases ho1
      refine ⟨hd0, ?_⟩
      simp only [hd0]
      exact getElem?_set_self_of ho
    · intro o1 hne
      have : o1 ≠ o := fun e => hne (by rw [e])
      simp only
      rw [List.getElem?_set]; simp [Ne.symm this]

/-- The block behind a non-empty `SharedPtr` of a well-formed state exists, is not
deleted, and has positive strong and handle counts. -/
theorem Inv.sp_block {s : State} {i b : Nat} {x : SharedPtr} (h : Inv s)
    (hx : s.sps[i]? = some x) (hxh : x.handle = some b) :
    ∃ blk : Block, s.blocks[b]? = some blk ∧ 1 ≤ blk.strong ∧ s.cntS b ≤ blk.strong ∧
      s.cntS b ≤ blk.handles ∧ 1 ≤ blk.handles ∧ blk.freed = 0 := by
  obtain ⟨blk, hb⟩ := getElem?_of_lt (h.1.spV i x b hx hxh)
  have h1 := cntS_pos hx hxh
  have h2 := h.1.sGe b blk hb
  have h3 := h.1.hEq b blk hb
  have h4 := h.1.fEq b blk hb
  simp only [cnt_none] at h2
  simp only [State.refs, List.count_nil] at h3
  refine ⟨blk, hb, by omega, by omega, by omega, by omega, ?_⟩
  rw [h4, if_neg]; omega

/-- The block behind a non-empty `WeakPtr` of a well-formed state exists and is not
deleted. -/
theorem Inv.wp_block {s : State} {j b : Nat} {w : WeakPtr} (h : Inv s)
    (hw : s.wps[j]? = some w) (hwh : w.handle = some b) :
    ∃ blk : Block, s.blocks[b]? = some blk ∧ 1 ≤ blk.handles ∧ blk.freed = 0 := by
  obtain ⟨blk, hb⟩ := getElem?_of_lt (h.1.wpV j w b hw hwh)
  have h1 := cntW_pos hw hwh
  have h3 := h.1.hEq b blk hb
  have h4 := h.1.fEq b blk hb
  simp only [State.refs, List.count_nil] at h3
  refine ⟨blk, hb, by omega, ?_⟩
  rw [h4, if_neg]; omega

/-- While a `SharedPtr` references a block, the object in the block's care has not
been destroyed. -/
theorem Inv.owned_alive {s : State} {i b o : Nat} {x : SharedPtr} {blk : Block} (h : Inv s)
    (hx : s.sps[i]? = some x) (hxh : x.handle = some b) (hb : s.blocks[b]? = some blk)
    (hk : blk.kind.obj = some o) : ∃ obj : Obj, s.objs[o]? = some obj ∧ obj.dtors = 0 := by
  obtain ⟨blk1, hb1, hs, _, _, _, hf⟩ := h.sp_block hx hxh
  rw [hb] at hb1; cases hb1
  obtain ⟨obj, ho⟩ := getElem?_of_lt (h.1.own b blk o hb hk)
  refine ⟨obj, ho, ?_⟩
  have := h.2.dt b blk o obj hb ho hk
  cases hkind : blk.kind with
  | inline o1 =>
    rw [hkind] at this
    have hne : ¬ blk.strong = 0 := by omega
    simpa [hne] using this
  | indirect dp => rw [hkind] at this; simp only at this; omega

theorem UseCount_eq {s : State} {i b : Nat} {x : SharedPtr} {blk : Block}
    (hx : s.sps[i]? = some x) (hxh : x.handle = some b) (hb : s.blocks[b]? = some blk) :
    SharedPtr.UseCount s i = some blk.strong := by
  simp [SharedPtr.UseCount, hx, hxh, RealStorage.StrongCount, hb]

theorem UseCount_empty {s : State} {i : Nat} {x : SharedPtr}
    (hx : s.sps[i]? = some x) (hxh : x.handle = none) :
    SharedPtr.UseCount s i = some 0 := by
  simp [SharedPtr.UseCount, hx, hxh]

theorem Get_eq {s : State} {i b : Nat} {x : SharedPtr}
    (hx : s.sps[i]? = some x) (hxh : x.handle = some b) :
    SharedPtr.Get s i = some x.ptr := by
  simp [SharedPtr.Get, hx, hxh]

theorem Get_empty {s : State} {i : Nat} {x : SharedPtr}
    (hx : s.sps[i]? = some x) (hxh : x.handle = none) :
    SharedPtr.Get s i = some none := by
  simp [SharedPtr.Get, hx, hxh]

theorem toBool_eq {s : State} {i : Nat} {x : SharedPtr} (hx : s.sps[i]? = some x) :
    SharedPtr.toBool s i = some x.handle.isSome := by
  simp [SharedPtr.toBool, hx]

theorem expiredOf_none {s : State} {w : WeakPtr} (h : w.handle = none) :
    WeakPtr.expiredOf s w = some true := by
  simp [WeakPtr.expiredOf, h]

theorem expiredOf_some {s : State} {w : WeakPtr} {b : Nat} {blk : Block}
    (h : w.handle = some b) (hb : s.blocks[b]? = some blk) :
    WeakPtr.expiredOf s w = some (decide (blk.strong = 0)) := by
  simp only [WeakPtr.expiredOf, h, RealStorage.Alive, hb, Option.map_some']
  by_cases h0 : blk.strong = 0
  · simp [h0]
  · have : 0 < blk.strong := Nat.pos_of_ne_zero h0
    simp [h0, this]

/-- Behaviour of `SharedPtr::Adopt` returns whenever the adopted handle's block has a positive
strong count. -/
theorem Adopt_total {s : State} {T : List Ptr} {i : Nat} {hv m q : Ptr}
    (w : WF s (hv :: T) none) (a : Alive s) (hg : s.getH (Loc.sp i) = some q)
    (hs : ∀ (b : Nat) (blk : Block), hv = some b → s.blocks[b]? = some blk → 0 < blk.strong) :
    ∃ s1 : State, SharedPtr.Adopt s i hv m = some s1 := by
  obtain ⟨s0, _, f0, e, wa, aa⟩ := assignTemp_spec (z := hv) w a hg
    (fun c blk hc => by
      have := w.sGe c blk hc
      simp only [sCnt, cnt_none] at this ⊢
      omega)
    (fun o c hl _ => by cases hl)
  simp only [SharedPtr.Adopt, e]
  cases hv with
  | none => exact ⟨_, rfl⟩
  | some b =>
    obtain ⟨blk, hb⟩ := getElem?_of_lt (w.tV b (by simp))
    obtain ⟨blk1, hb1, hs1, _⟩ := f0.blk b blk (by rw [setH_blocks]; exact hb)
    have hb2 : (s0.setH (Loc.sp i) (some b)).blocks[b]? = some blk1 := by
      rw [setH_blocks]; exact hb1
    have hpos : 0 < blk1.strong := by have := hs b blk rfl hb; omega
    simp only [BeginStrong_eq hb2 hpos]
    exact ⟨_, rfl⟩

/-- Behaviour of `WeakPtr::TryLockInto` returns for every target, with the negation of `Expired()`;
when it returns `false` the state is unchanged. -/
theorem tryLockIntoOf_total {s : State} {w : WeakPtr} {i : Nat} {x : SharedPtr} (h : Inv s)
    (hx : s.sps[i]? = some x)
    (hv : ∀ b : Nat, w.handle = some b →
      ∃ blk : Block, s.blocks[b]? = some blk ∧ 0 < blk.handles) :
    ∃ (e : Bool) (s1 : State), WeakPtr.expiredOf s w = some e ∧
      WeakPtr.tryLockIntoOf s w i = some (s1, !e) ∧ (e = true → s1 = s) := by
  cases hw : w.handle with
  | none =>
    refine ⟨true, s, expiredOf_none hw, ?_, fun _ => rfl⟩
    simp [WeakPtr.tryLockIntoOf, expiredOf_none hw]
  | some b =>
    obtain ⟨blk, hb, hh⟩ := hv b hw
    by_cases h0 : blk.strong = 0
    · have he : WeakPtr.expiredOf s w = some true := by
        rw [expiredOf_some hw hb]; simp [h0]
      refine ⟨true, s, he, ?_, fun _ => rfl⟩
      simp [WeakPtr.tryLockIntoOf, he]
    · have he : WeakPtr.expiredOf s w = some false := by
        rw [expiredOf_some hw hb]; simp [h0]
      have hc := copy_eq hb hh
      have wa := copy_WF (T := []) hc h.1
      have aa := copy_Alive hc h.2
      have hg : (s.setBlock b { blk with handles := blk.handles + 1 }).getH (Loc.sp i)
          = some x.handle := by
        simp [State.getH, hx]
      obtain ⟨s1, h1⟩ := Adopt_total (m := w.ptr) wa aa hg (fun c blk1 hc1 hb1 => by
        cases hc1
        rw [getElem?_setBlock_self _ hb] at hb1
        cases hb1
        exact Nat.pos_of_ne_zero h0)
      refine ⟨false, s1, he, ?_, fun hf => by cases hf⟩
      simp only [WeakPtr.tryLockIntoOf, he, hw, hc, h1, Option.map_some', Bool.not_false]

/-- Behaviour of `WeakPtr::TryLockInto` into an empty target, in explicit form. -/
theorem tryLockIntoOf_empty {s : State} {w : WeakPtr} {i b : Nat} {x : SharedPtr}
    {blk : Block} (hx : s.sps[i]? = some x) (hxh : x.handle = none)
    (hw : w.handle = some b) (hb : s.blocks[b]? = some blk) (hh : 0 < blk.handles)
    (hs : 0 < blk.strong) :
    WeakPtr.tryLockIntoOf s w i
      = some (⟨s.blocks.set b { blk with handles := blk.handles + 1, strong := blk.strong + 1 },
          s.objs, s.sps.set i ⟨some b, w.ptr⟩, s.wps, s.allocs⟩, true) := by
  have he : WeakPtr.expiredOf s w = some false := by
    rw [expiredOf_some hw hb]
    have : blk.strong ≠ 0 := by omega
    simp [this]
  obtain ⟨B, O, S, W, n⟩ := s
  simp only at hx hb ⊢
  simp only [WeakPtr.tryLockIntoOf, he, hw, copy_mk hb hh]
  rw [Adopt_empty_mk hx hxh
    (getElem?_set_self_of (y := { blk with handles := blk.handles + 1 }) hb) hs,
    List.set_set]
  rfl

/-- Behaviour of `WeakPtr::TryLockInto` on an expired `WeakPtr`. -/
theorem tryLockIntoOf_expired {s : State} {w : WeakPtr} {i : Nat}
    (he : WeakPtr.expiredOf s w = some true) :
    WeakPtr.tryLockIntoOf s w i = some (s, false) := by
  simp [WeakPtr.tryLockIntoOf, he]

/-- Behaviour of `SharedPtr(const WeakPtr&)` on an expired `WeakPtr`: `BadWeakPtr` is thrown and
only the empty pointer under construction has come and gone. -/
theorem ofWeakOf_expired {s : State} {w : WeakPtr}
    (he : WeakPtr.expiredOf s w = some true) :
    SharedPtr.ofWeakOf s w = some (s.pushSp, false) := by
  have he1 : WeakPtr.expiredOf s.pushSp w = some true := he
  simp only [SharedPtr.ofWeakOf, tryLockIntoOf_expired he1, SharedPtr.dtor, SharedPtr.Reset,
    getElem?_pushSp_new, Option.map_some']

/-- Behaviour of `SharedPtr(const WeakPtr&)` on a `WeakPtr` that is not expired, in explicit form. -/
theorem ofWeakOf_live {s : State} {w : WeakPtr} {b : Nat} {blk : Block}
    (hw : w.handle = some b) (hb : s.blocks[b]? = some blk) (hh : 0 < blk.handles)
    (hs : 0 < blk.strong) :
    SharedPtr.ofWeakOf s w
      = some (⟨s.blocks.set b { blk with handles := blk.handles + 1, strong := blk.strong + 1 },
          s.objs, s.sps ++ [⟨some b, w.ptr⟩], s.wps, s.allocs⟩, true) := by
  have hb1 : s.pushSp.blocks[b]? = some blk := hb
  simp only [SharedPtr.ofWeakOf,
    tryLockIntoOf_empty (getElem?_pushSp_new s) rfl hw hb1 hh hs]
  simp only [State.pushSp, set_append_length]

/-- Behaviour of `SharedPtr::operator=(SharedPtr&&)` into an empty pointer, in explicit form. -/
theorem assignMove_empty {s : State} {i j : Nat} {x y : SharedPtr}
    (hi : s.sps[i]? = some y) (hyh : y.handle = none) (hj : s.sps[j]? = some x)
    (hij : i ≠ j) :
    SharedPtr.assignMove s i j
      = some ⟨s.blocks, s.objs, (s.sps.set j ⟨none, x.ptr⟩).set i ⟨x.handle, x.ptr⟩, s.wps,
          s.allocs⟩ := by
  obtain ⟨B, O, S, W, n⟩ := s
  simp only at hi hj ⊢
  simp only [SharedPtr.assignMove, SharedPtr.Reset, hi, hyh, hj, SharedPtr.StealFrom,
    assignFrom_empty_sp_mk hi hyh hj hij, Option.map_some']
  have h3 : ((S.set j ⟨none, x.ptr⟩).set i ⟨x.handle, y.ptr⟩)[i]?
      = some ⟨x.handle, y.ptr⟩ := by
    rw [List.getElem?_set]
    simp [List.length_set, lt_of_getElem? hi]
  rw [setSpPtr_mk h3, List.set_set]

theorem exOwner_run : run State.init [Op.spOfNew false] = some exOwner := rfl

theorem exWeak_run : run State.init [Op.spOfNew false, Op.wpOfShared 0] = some exWeak := rfl

theorem exTarget_run :
    run State.init [Op.spOfNew false, Op.wpOfShared 0, Op.spDefault] = some exTarget := rfl

theorem exShared_run :
    run State.init [Op.spMakeShared false, Op.spCopy 0] = some exShared := rfl

theorem exOwner_Reachable : Reachable exOwner := run_Reachable _ Reachable.init exOwner_run

theorem exWeak_Reachable : Reachable exWeak := run_Reachable _ Reachable.init exWeak_run

theorem exTarget_Reachable : Reachable exTarget := run_Reachable _ Reachable.init exTarget_run

theorem exShared_Reachable : Reachable exShared := run_Reachable _ Reachable.init exShared_run

/-! ## Properties stated by the specification -/

/-- C1: the strong count of a live control block is claimed to equal the number of
`SharedPtr`s referencing it in every reachable state.  The program
`SharedPtr<T> s(new T); WeakPtr<T> w(s); w.TryLockInto(&s);` reaches a state in which
the only block has strong count 2 (so `s.UseCount()` is 2) while a single `SharedPtr`
references it: `Adopt` overwrote the target's handle without `EndStrong`. -/
theorem c1_strong_count_exceeds_owners :
    run State.init [Op.spOfNew false, Op.wpOfShared 0, Op.wpTryLockInto 0 0]
      = some exLockSelf ∧
    Reachable exLockSelf ∧
    exLockSelf.blocks[0]? = some ⟨2, 2, Kind.indirect (some 0), 0, 0⟩ ∧
    exLockSelf.cntS 0 = 1 ∧
    SharedPtr.UseCount exLockSelf 0 = some 2 :=
  ⟨rfl, run_Reachable [Op.spOfNew false, Op.wpOfShared 0, Op.wpTryLockInto 0 0]
    Reachable.init rfl, rfl, rfl, rfl⟩

/-- C2: in every reachable state the handle count of each control block equals the
number of non-empty handles referencing it, those of `SharedPtr` variables, of
`WeakPtr` variables and of `me_` members taken together; the block has been deleted
once if that count is 0 and has not been deleted otherwise. -/
theorem c2_handle_count_invariant (s : State) (b : Nat) (blk : Block) (h : Reachable s)
    (hb : s.blocks[b]? = some blk) :
    blk.handles = s.cntS b + s.cntW b + s.cntM b ∧
    blk.freed = (if blk.handles = 0 then 1 else 0) ∧ blk.freed ≤ 1 := by
  have hI := reachable_Inv h
  have h1 := hI.1.hEq b blk hb
  have h2 := hI.1.fEq b blk hb
  simp only [State.refs, List.count_nil, Nat.add_zero] at h1
  refine ⟨h1, h2, ?_⟩
  rw [h2]; split <;> omega

theorem c2_handle_count_invariant_witness :
    run State.init [Op.spOfNew false, Op.wpOfShared 0] = some exWeak ∧
    exWeak.blocks[0]? = some ⟨2, 1, Kind.indirect (some 0), 0, 0⟩ ∧
    (2 = exWeak.cntS 0 + exWeak.cntW 0 + exWeak.cntM 0 ∧
      0 = (if 2 = 0 then 1 else 0) ∧ 0 ≤ 1) :=
  ⟨rfl, rfl, c2_handle_count_invariant exWeak 0 ⟨2, 1, Kind.indirect (some 0), 0, 0⟩
    exWeak_Reachable rfl⟩

/-- C4: copy-constructing `b` from a non-empty `SharedPtr` `a` with `UseCount() == n`
returns, makes `a.UseCount() == b.UseCount() == n + 1` and `b.Get() == a.Get()`;
destroying `b` afterwards returns, brings `a.UseCount()` back to `n`, leaves `a.Get()`
as it was, and leaves every object and every control block as before the copy (so the
managed object is not destroyed). -/
theorem c4_copy_then_destroy (s : State) (a b n : Nat) (x : SharedPtr) (h : Reachable s)
    (ha : s.sps[a]? = some x) (hxh : x.handle = some b)
    (hn : SharedPtr.UseCount s a = some n) :
    ∃ s1 : State, SharedPtr.copy s a = some s1 ∧
      SharedPtr.UseCount s1 a = some (n + 1) ∧
      SharedPtr.UseCount s1 s.sps.length = some (n + 1) ∧
      SharedPtr.Get s1 s.sps.length = SharedPtr.Get s1 a ∧
      SharedPtr.Get s1 a = SharedPtr.Get s a ∧ s1.objs = s.objs ∧
      ∃ s2 : State, SharedPtr.dtor s1 s.sps.length = some s2 ∧
        SharedPtr.UseCount s2 a = some n ∧ SharedPtr.Get s2 a = SharedPtr.Get s a ∧
        s2.objs = s.objs ∧ s2.blocks = s.blocks := by
  have hI := reachable_Inv h
  obtain ⟨blk, hb, hs, _, _, hh, _⟩ := hI.sp_block ha hxh
  rw [UseCount_eq ha hxh hb] at hn
  simp only [Option.some.injEq] at hn
  subst hn
  have hlt := lt_of_getElem? ha
  have e0 : SharedPtr.copy s a = SharedPtr.aliasCopy s a x.ptr := by
    simp only [SharedPtr.copy, ha]
  have e := e0.trans (aliasCopy_some ha hxh hb (by omega) (by omega) x.ptr)
  have hb1 : (s.blocks.set b (Block.mk (blk.handles + 1) (blk.strong + 1) blk.kind blk.freed
      blk.destroys))[b]? = some (Block.mk (blk.handles + 1) (blk.strong + 1) blk.kind
      blk.freed blk.destroys) := getElem?_set_self_of hb
  have ha1 : (s.sps ++ [(⟨some b, x.ptr⟩ : SharedPtr)])[a]? = some x := by
    rw [List.getElem?_append_left hlt]; exact ha
  have hn1 : (s.sps ++ [(⟨some b, x.ptr⟩ : SharedPtr)])[s.sps.length]?
      = some ⟨some b, x.ptr⟩ := by simp
  refine ⟨_, e, ?_, ?_, ?_, ?_, rfl, ?_⟩
  · exact UseCount_eq (s := State.mk _ _ _ _ _) ha1 hxh hb1
  · exact UseCount_eq (s := State.mk _ _ _ _ _) hn1 rfl hb1
  · rw [Get_eq (s := State.mk _ _ _ _ _) hn1 rfl, Get_eq (s := State.mk _ _ _ _ _) ha1 hxh]
  · rw [Get_eq (s := State.mk _ _ _ _ _) ha1 hxh, Get_eq ha hxh]
  · have e2 := Reset_dec (s := State.mk (s.blocks.set b (Block.mk (blk.handles + 1)
        (blk.strong + 1) blk.kind blk.freed blk.destroys)) s.objs
        (s.sps ++ [⟨some b, x.ptr⟩]) s.wps s.allocs) hn1 rfl hb1
        (by simp only; omega) (by simp only; omega)
    simp only [List.set_set, Nat.add_sub_cancel, set_append_length] at e2
    have hbb : s.blocks.set b blk = s.blocks := set_self_of_getElem? hb
    have hblk : ({ blk with handles := blk.handles, strong := blk.strong } : Block) = blk := rfl
    rw [hblk, hbb] at e2
    have ha2 : (s.sps ++ [(⟨none, x.ptr⟩ : SharedPtr)])[a]? = some x := by
      rw [List.getElem?_append_left hlt]; exact ha
    refine ⟨_, e2, ?_, ?_, rfl, rfl⟩
    · exact UseCount_eq (s := State.mk _ _ _ _ _) ha2 hxh hb
    · rw [Get_eq (s := State.mk _ _ _ _ _) ha2 hxh, Get_eq ha hxh]

theorem c4_copy_then_destroy_witness :
    run State.init [Op.spOfNew false] = some exOwner ∧
    exOwner.sps[0]? = some ⟨some 0, some 0⟩ ∧ SharedPtr.UseCount exOwner 0 = some 1 ∧
    ∃ s1 : State, SharedPtr.copy exOwner 0 = some s1 ∧
      SharedPtr.UseCount s1 0 = some (1 + 1) ∧
      SharedPtr.UseCount s1 exOwner.sps.length = some (1 + 1) ∧
      SharedPtr.Get s1 exOwner.sps.length = SharedPtr.Get s1 0 ∧
      SharedPtr.Get s1 0 = SharedPtr.Get exOwner 0 ∧ s1.objs = exOwner.objs ∧
      ∃ s2 : State, SharedPtr.dtor s1 exOwner.sps.length = some s2 ∧
        SharedPtr.UseCount s2 0 = some 1 ∧ SharedPtr.Get s2 0 = SharedPtr.Get exOwner 0 ∧
        s2.objs = exOwner.objs ∧ s2.blocks = exOwner.blocks :=
  ⟨rfl, rfl, rfl,
    c4_copy_then_destroy exOwner 0 0 1 ⟨some 0, some 0⟩ exOwner_Reachable rfl rfl rfl⟩

/-- C5: copy assignment `a = b` is claimed to leave `a.Get()` equal to the previous
`b.Get()` with `UseCount() >= 1` and the object alive, also when `a` and `b` are the
same pointer.  The program `SharedPtr<T> a(new T); a = a;` ends with `a` empty
(`Get()` null, `UseCount()` 0) and the object destroyed: `operator=` runs `Reset()`
before it copies the handle of `other`. -/
theorem c5_self_copy_assignment_releases :
    run State.init [Op.spOfNew false] = some exOwner ∧
    SharedPtr.Get exOwner 0 = some (some 0) ∧ SharedPtr.UseCount exOwner 0 = some 1 ∧
    exOwner.objs = [⟨false, ⟨none, none⟩, 0⟩] ∧
    SharedPtr.assignCopy exOwner 0 0 = some exSelfAssigned ∧
    SharedPtr.Get exSelfAssigned 0 = some none ∧
    SharedPtr.UseCount exSelfAssigned 0 = some 0 ∧
    SharedPtr.toBool exSelfAssigned 0 = some false ∧
    exSelfAssigned.objs = [⟨false, ⟨none, none⟩, 1⟩] :=
  ⟨rfl, rfl, rfl, rfl, rfl, rfl, rfl, rfl, rfl⟩

/-- C6: for a non-empty `SharedPtr` `b`, move construction of `a` from `b`, and move
assignment of `b` into a distinct empty pointer `a`, both return; afterwards `a.Get()`
and `a.UseCount()` are what `b.Get()` and `b.UseCount()` were, no control block (hence
no strong or handle count) and no object has changed, and `b` is empty: `Get()` null,
`UseCount()` 0, boolean conversion false, with its stored raw pointer kept. -/
theorem c6_move_transfers_ownership (s : State) (j b : Nat) (x : SharedPtr)
    (hj : s.sps[j]? = some x) (hxh : x.handle = some b) :
    (∃ s1 : State, SharedPtr.move s j = some s1 ∧
      s1.blocks = s.blocks ∧ s1.objs = s.objs ∧
      SharedPtr.Get s1 s.sps.length = SharedPtr.Get s j ∧
      SharedPtr.UseCount s1 s.sps.length = SharedPtr.UseCount s j ∧
      SharedPtr.Get s1 j = some none ∧ SharedPtr.UseCount s1 j = some 0 ∧
      SharedPtr.toBool s1 j = some false ∧ s1.sps[j]? = some ⟨none, x.ptr⟩) ∧
    (∀ (i : Nat) (y : SharedPtr), i ≠ j → s.sps[i]? = some y → y.handle = none →
      ∃ s1 : State, SharedPtr.assignMove s i j = some s1 ∧
        s1.blocks = s.blocks ∧ s1.objs = s.objs ∧
        SharedPtr.Get s1 i = SharedPtr.Get s j ∧
        SharedPtr.UseCount s1 i = SharedPtr.UseCount s j ∧
        SharedPtr.Get s1 j = some none ∧ SharedPtr.UseCount s1 j = some 0 ∧
        SharedPtr.toBool s1 j = some false ∧ s1.sps[j]? = some ⟨none, x.ptr⟩) := by
  have hlt := lt_of_getElem? hj
  have hUC : SharedPtr.UseCount s j = RealStorage.StrongCount s b := by
    simp [SharedPtr.UseCount, hj, hxh]
  obtain ⟨xh, xp⟩ := x
  simp only at hxh ⊢
  subst hxh
  constructor
  · have e0 : SharedPtr.move s j = SharedPtr.aliasMove s j xp := by
      simp only [SharedPtr.move, hj]
    have e := e0.trans (aliasMove_eq hj xp)
    simp only at e
    have hl : (s.sps.set j ⟨none, xp⟩).length = s.sps.length := List.length_set _ _ _
    have hn1 : (s.sps.set j ⟨none, xp⟩ ++ [(⟨some b, xp⟩ : SharedPtr)])[s.sps.length]?
        = some ⟨some b, xp⟩ := by
      rw [← hl]; simp
    have hj1 : (s.sps.set j ⟨none, xp⟩ ++ [(⟨some b, xp⟩ : SharedPtr)])[j]?
        = some ⟨none, xp⟩ := by
      rw [List.getElem?_append_left (by rw [hl]; exact hlt)]
      exact getElem?_set_self_of hj
    refine ⟨_, e, rfl, rfl, ?_, ?_, ?_, ?_, ?_, hj1⟩
    · rw [Get_eq (s := State.mk _ _ _ _ _) hn1 rfl, Get_eq hj rfl]
    · rw [hUC]
      simp [SharedPtr.UseCount, hn1, RealStorage.StrongCount]
    · exact Get_empty (s := State.mk _ _ _ _ _) hj1 rfl
    · exact UseCount_empty (s := State.mk _ _ _ _ _) hj1 rfl
    · rw [toBool_eq (s := State.mk _ _ _ _ _) hj1]; rfl
  · intro i y hij hi hyh
    have e := assignMove_empty hi hyh hj hij
    have hil := lt_of_getElem? hi
    have hi1 : ((s.sps.set j ⟨none, xp⟩).set i ⟨some b, xp⟩)[i]?
        = some ⟨some b, xp⟩ := by
      rw [List.getElem?_set]; simp [List.length_set, hil]
    have hj1 : ((s.sps.set j ⟨none, xp⟩).set i ⟨some b, xp⟩)[j]?
        = some ⟨none, xp⟩ := by
      rw [List.getElem?_set]
      simp only [hij, if_false]
      exact getElem?_set_self_of hj
    refine ⟨_, e, rfl, rfl, ?_, ?_, ?_, ?_, ?_, hj1⟩
    · rw [Get_eq (s := State.mk _ _ _ _ _) hi1 rfl, Get_eq hj rfl]
    · rw [hUC]
      simp [SharedPtr.UseCount, hi1, RealStorage.StrongCount]
    · exact Get_empty (s := State.mk _ _ _ _ _) hj1 rfl
    · exact UseCount_empty (s := State.mk _ _ _ _ _) hj1 rfl
    · rw [toBool_eq (s := State.mk _ _ _ _ _) hj1]; rfl

theorem c6_move_transfers_ownership_witness :
    run State.init [Op.spOfNew false, Op.wpOfShared 0, Op.spDefault] = some exTarget ∧
    exTarget.sps[0]? = some ⟨some 0, some 0⟩ ∧
    (∃ s1 : State, SharedPtr.move exTarget 0 = some s1 ∧
      s1.blocks = exTarget.blocks ∧ s1.objs = exTarget.objs ∧
      SharedPtr.Get s1 exTarget.sps.length = SharedPtr.Get exTarget 0 ∧
      SharedPtr.UseCount s1 exTarget.sps.length = SharedPtr.UseCount exTarget 0 ∧
      SharedPtr.Get s1 0 = some none ∧ SharedPtr.UseCount s1 0 = some 0 ∧
      SharedPtr.toBool s1 0 = some false ∧ s1.sps[0]? = some ⟨none, some 0⟩) ∧
    ∃ s1 : State, SharedPtr.assignMove exTarget 1 0 = some s1 ∧
      s1.blocks = exTarget.blocks ∧ s1.objs = exTarget.objs ∧
      SharedPtr.Get s1 1 = SharedPtr.Get exTarget 0 ∧
      SharedPtr.UseCount s1 1 = SharedPtr.UseCount exTarget 0 ∧
      SharedPtr.Get s1 0 = some none ∧ SharedPtr.UseCount s1 0 = some 0 ∧
      SharedPtr.toBool s1 0 = some false ∧ s1.sps[0]? = some ⟨none, some 0⟩ :=
  ⟨rfl, rfl, (c6_move_transfers_ownership exTarget 0 0 ⟨some 0, some 0⟩ rfl rfl).1,
    (c6_move_transfers_ownership exTarget 0 0 ⟨some 0, some 0⟩ rfl rfl).2 1 ⟨none, none⟩
      (by decide) rfl rfl⟩

/-- C7: in a reachable state, `SharedPtr(const WeakPtr&)` on a `WeakPtr` `w` returns
or throws; it throws `BadWeakPtr` exactly when `w.Expired()`.  When it throws, no
control block and no object has changed; when it succeeds, the new pointer references
`w`'s block, its `Get()` is `w`'s stored pointer, and the block's strong count and
handle count are each one more than before, every other block being unchanged. -/
theorem c7_promotion_raises_iff_expired (s : State) (j : Nat) (w : WeakPtr)
    (h : Reachable s) (hw : s.wps[j]? = some w) :
    ∃ (e : Bool) (s1 : State), WeakPtr.Expired s j = some e ∧
      SharedPtr.ofWeak s j = some (s1, !e) ∧
      (e = true → s1.blocks = s.blocks ∧ s1.objs = s.objs ∧ s1.wps = s.wps) ∧
      (e = false → ∃ (b : Nat) (blk : Block), w.handle = some b ∧
        s.blocks[b]? = some blk ∧
        s1.sps[s.sps.length]? = some ⟨some b, w.ptr⟩ ∧
        SharedPtr.Get s1 s.sps.length = some w.ptr ∧
        s1.blocks = s.blocks.set b { blk with handles := blk.handles + 1, strong := blk.strong + 1 } ∧
        s1.objs = s.objs ∧ s1.wps = s.wps) := by
  have hI := reachable_Inv h
  have hE : WeakPtr.Expired s j = WeakPtr.expiredOf s w := by simp only [WeakPtr.Expired, hw]
  have hO : SharedPtr.ofWeak s j = SharedPtr.ofWeakOf s w := by simp only [SharedPtr.ofWeak, hw]
  rw [hE, hO]
  cases hwh : w.handle with
  | none =>
    have he := expiredOf_none (s := s) hwh
    refine ⟨true, s.pushSp, he, ofWeakOf_expired he, fun _ => ⟨rfl, rfl, rfl⟩, fun hf => ?_⟩
    cases hf
  | some b =>
    obtain ⟨blk, hb, hh, _⟩ := hI.wp_block hw hwh
    by_cases h0 : blk.strong = 0
    · have he : WeakPtr.expiredOf s w = some true := by
        rw [expiredOf_some hwh hb]; simp [h0]
      refine ⟨true, s.pushSp, he, ofWeakOf_expired he, fun _ => ⟨rfl, rfl, rfl⟩, fun hf => ?_⟩
      cases hf
    · have he : WeakPtr.expiredOf s w = some false := by
        rw [expiredOf_some hwh hb]; simp [h0]
      have e := ofWeakOf_live hwh hb hh (Nat.pos_of_ne_zero h0)
      have hn1 : (s.sps ++ [(⟨some b, w.ptr⟩ : SharedPtr)])[s.sps.length]?
          = some ⟨some b, w.ptr⟩ := by simp
      refine ⟨false, _, he, e, (fun hf => by cases hf), fun _ =>
        ⟨b, blk, rfl, hb, hn1, ?_, rfl, rfl, rfl⟩⟩
      exact Get_eq (s := State.mk _ _ _ _ _) hn1 rfl

theorem c7_promotion_raises_iff_expired_witness :
    run State.init [Op.spOfNew false, Op.wpOfShared 0] = some exWeak ∧
    exWeak.wps[0]? = some ⟨some 0, some 0⟩ ∧
    ∃ (e : Bool) (s1 : State), WeakPtr.Expired exWeak 0 = some e ∧
      SharedPtr.ofWeak exWeak 0 = some (s1, !e) ∧
      (e = true → s1.blocks = exWeak.blocks ∧ s1.objs = exWeak.objs ∧ s1.wps = exWeak.wps) ∧
      (e = false → ∃ (b : Nat) (blk : Block), (⟨some 0, some 0⟩ : WeakPtr).handle = some b ∧
        exWeak.blocks[b]? = some blk ∧
        s1.sps[exWeak.sps.length]? = some ⟨some b, (⟨some 0, some 0⟩ : WeakPtr).ptr⟩ ∧
        SharedPtr.Get s1 exWeak.sps.length = some (⟨some 0, some 0⟩ : WeakPtr).ptr ∧
        s1.blocks = exWeak.blocks.set b { blk with handles := blk.handles + 1, strong := blk.strong + 1 } ∧
        s1.objs = exWeak.objs ∧ s1.wps = exWeak.wps) :=
  ⟨rfl, rfl, c7_promotion_raises_iff_expired exWeak 0 ⟨some 0, some 0⟩ exWeak_Reachable rfl⟩

/-- C8: in a reachable state, `w.TryLockInto(&target)` returns for every target, with
`true` exactly when `w` is not expired.  When it returns `false` the whole state is
unchanged; when it returns `true` and the target was empty, `target.Get()` is `w`'s
stored pointer and the block's strong count is one more than before.  `w.Lock()`
always returns; the pointer it returns is empty exactly when `w` is expired, in which
case no block has changed, and otherwise references `w`'s block, whose strong count is
one more than before. -/
theorem c8_try_lock_and_lock (s : State) (j i : Nat) (w : WeakPtr) (t : SharedPtr)
    (h : Reachable s) (hw : s.wps[j]? = some w) (ht : s.sps[i]? = some t) :
    ∃ e : Bool, WeakPtr.Expired s j = some e ∧
      (∃ s1 : State, WeakPtr.TryLockInto s j i = some (s1, !e) ∧
        (e = true → s1 = s) ∧
        (e = false → t.handle = none → ∃ (b : Nat) (blk : Block), w.handle = some b ∧
          s.blocks[b]? = some blk ∧
          s1.sps[i]? = some ⟨some b, w.ptr⟩ ∧
          SharedPtr.Get s1 i = some w.ptr ∧
          s1.blocks = s.blocks.set b { blk with handles := blk.handles + 1, strong := blk.strong + 1 } ∧
          s1.objs = s.objs)) ∧
      (∃ s2 : State, WeakPtr.Lock s j = some s2 ∧
        SharedPtr.toBool s2 s.sps.length = some (!e) ∧ s2.objs = s.objs ∧
        (e = true → s2.blocks = s.blocks) ∧
        (e = false → ∃ (b : Nat) (blk : Block), w.handle = some b ∧
          s.blocks[b]? = some blk ∧
          s2.sps[s.sps.length]? = some ⟨some b, w.ptr⟩ ∧
          s2.blocks = s.blocks.set b { blk with handles := blk.handles + 1, strong := blk.strong + 1 })) := by
  have hI := reachable_Inv h
  have hE : WeakPtr.Expired s j = WeakPtr.expiredOf s w := by simp only [WeakPtr.Expired, hw]
  have hT : WeakPtr.TryLockInto s j i = WeakPtr.tryLockIntoOf s w i := by
    simp only [WeakPtr.TryLockInto, hw]
  have hw1 : s.pushSp.wps[j]? = some w := hw
  have hL : WeakPtr.Lock s j
      = (WeakPtr.tryLockIntoOf s.pushSp w s.sps.length).map fun r => r.1 := by
    simp only [WeakPtr.Lock, WeakPtr.TryLockInto, hw1]
  have hv : ∀ b : Nat, w.handle = some b →
      ∃ blk : Block, s.blocks[b]? = some blk ∧ 0 < blk.handles := by
    intro b hwh
    obtain ⟨blk, hb, hh, _⟩ := hI.wp_block hw hwh
    exact ⟨blk, hb, hh⟩
  obtain ⟨e, s1, he, hs1, hsame⟩ := tryLockIntoOf_total (i := i) hI ht hv
  rw [hE, hT, hL]
  refine ⟨e, he, ⟨s1, hs1, hsame, ?_⟩, ?_⟩
  · intro hf hth
    subst hf
    cases hwh : w.handle with
    | none => rw [expiredOf_none hwh] at he; cases he
    | some b =>
      obtain ⟨blk, hb, hh⟩ := hv b hwh
      have h0 : blk.strong ≠ 0 := by
        intro h0
        rw [expiredOf_some hwh hb] at he
        simp [h0] at he
      have e2 := tryLockIntoOf_empty ht hth hwh hb hh (Nat.pos_of_ne_zero h0)
      rw [e2] at hs1
      simp only [Option.some.injEq, Prod.mk.injEq, Bool.not_false, and_true] at hs1
      subst hs1
      have hn1 : (s.sps.set i (⟨some b, w.ptr⟩ : SharedPtr))[i]? = some ⟨some b, w.ptr⟩ :=
        getElem?_set_self_of ht
      exact ⟨b, blk, rfl, hb, hn1, Get_eq (s := State.mk _ _ _ _ _) hn1 rfl, rfl, rfl⟩
  · cases e with
    | true =>
      have he1 : WeakPtr.expiredOf s.pushSp w = some true := he
      refine ⟨s.pushSp, by rw [tryLockIntoOf_expired he1]; rfl, ?_, rfl, fun _ => rfl,
        fun hf => by cases hf⟩
      rw [toBool_eq (getElem?_pushSp_new s)]; rfl
    | false =>
      cases hwh : w.handle with
      | none => rw [expiredOf_none hwh] at he; cases he
      | some b =>
        obtain ⟨blk, hb, hh⟩ := hv b hwh
        have h0 : blk.strong ≠ 0 := by
          intro h0
          rw [expiredOf_some hwh hb] at he
          simp [h0] at he
        have hb1 : s.pushSp.blocks[b]? = some blk := hb
        have e2 := tryLockIntoOf_empty (getElem?_pushSp_new s) rfl hwh hb1 hh
          (Nat.pos_of_ne_zero h0)
        simp only [State.pushSp, set_append_length] at e2
        have hn1 : (s.sps ++ [(⟨some b, w.ptr⟩ : SharedPtr)])[s.sps.length]?
            = some ⟨some b, w.ptr⟩ := by simp
        have e3 := congrArg (Option.map fun r => r.1) e2
        refine ⟨_, e3, ?_, rfl, (fun hf => by cases hf),
          fun _ => ⟨b, blk, rfl, hb, hn1, rfl⟩⟩
        rw [toBool_eq (s := State.mk _ _ _ _ _) hn1]; rfl

theorem c8_try_lock_and_lock_witness :
    run State.init [Op.spOfNew false, Op.wpOfShared 0, Op.spDefault] = some exTarget ∧
    exTarget.wps[0]? = some ⟨some 0, some 0⟩ ∧ exTarget.sps[1]? = some ⟨none, none⟩ ∧
    WeakPtr.TryLockInto exTarget 0 1
      = some (⟨[⟨3, 2, Kind.indirect (some 0), 0, 0⟩], [⟨false, ⟨none, none⟩, 0⟩],
          [⟨some 0, some 0⟩, ⟨some 0, some 0⟩], [⟨some 0, some 0⟩], 2⟩, true) ∧
    ∃ e : Bool, WeakPtr.Expired exTarget 0 = some e ∧
      (∃ s1 : State, WeakPtr.TryLockInto exTarget 0 1 = some (s1, !e) ∧
        (e = true → s1 = exTarget) ∧
        (e = false → (⟨none, none⟩ : SharedPtr).handle = none →
          ∃ (b : Nat) (blk : Block), (⟨some 0, some 0⟩ : WeakPtr).handle = some b ∧
          exTarget.blocks[b]? = some blk ∧
          s1.sps[1]? = some ⟨some b, (⟨some 0, some 0⟩ : WeakPtr).ptr⟩ ∧
          SharedPtr.Get s1 1 = some (⟨some 0, some 0⟩ : WeakPtr).ptr ∧
          s1.blocks = exTarget.blocks.set b { blk with handles := blk.handles + 1, strong := blk.strong + 1 } ∧
          s1.objs = exTarget.objs)) ∧
      (∃ s2 : State, WeakPtr.Lock exTarget 0 = some s2 ∧
        SharedPtr.toBool s2 exTarget.sps.length = some (!e) ∧ s2.objs = exTarget.objs ∧
        (e = true → s2.blocks = exTarget.blocks) ∧
        (e = false → ∃ (b : Nat) (blk : Block), (⟨some 0, some 0⟩ : WeakPtr).handle = some b ∧
          exTarget.blocks[b]? = some blk ∧
          s2.sps[exTarget.sps.length]? = some ⟨some b, (⟨some 0, some 0⟩ : WeakPtr).ptr⟩ ∧
          s2.blocks = exTarget.blocks.set b { blk with handles := blk.handles + 1, strong := blk.strong + 1 })) :=
  ⟨rfl, rfl, rfl, rfl,
    c8_try_lock_and_lock exTarget 0 1 ⟨some 0, some 0⟩ ⟨none, none⟩ exTarget_Reachable rfl rfl⟩

/-- C9: a `WeakPtr` made from a `SharedPtr` is claimed to be expired, with
`UseCount() == 0` and an empty `Lock()`, once every `SharedPtr` owning the object has
been released.  After
`SharedPtr<T> s(new T); WeakPtr<T> w(s); w.TryLockInto(&s); s.Reset();`
no `SharedPtr` references the block, yet `w.Expired()` is false, `w.UseCount()` is 1,
`w.Lock()` returns a non-empty pointer, and the object has not been destroyed. -/
theorem c9_weak_outlives_owners_unexpired :
    run State.init [Op.spOfNew false, Op.wpOfShared 0, Op.wpTryLockInto 0 0, Op.spReset 0]
      = some exLeak ∧
    Reachable exLeak ∧
    exLeak.sps = [⟨none, some 0⟩] ∧ exLeak.cntS 0 = 0 ∧
    WeakPtr.Expired exLeak 0 = some false ∧
    WeakPtr.UseCount exLeak 0 = some 1 ∧
    (WeakPtr.Lock exLeak 0).bind (fun s1 => SharedPtr.toBool s1 1) = some true ∧
    exLeak.objs = [⟨false, ⟨none, none⟩, 0⟩] :=
  ⟨rfl, run_Reachable
    [Op.spOfNew false, Op.wpOfShared 0, Op.wpTryLockInto 0 0, Op.spReset 0]
    Reachable.init rfl, rfl, rfl, rfl, rfl, rfl, rfl⟩

/-- C10: for a non-empty `SharedPtr` `p` of a reachable state and any address `addr`,
the copy-flavoured aliasing constructor returns a pointer `q` with `q.Get() == addr`
on `p`'s block, whose strong count is one more than before; the move-flavoured one
returns `q` with `q.Get() == addr` on `p`'s block, with no block changed and `p`
empty.  In every reachable state, as long as some `SharedPtr` references a block,
whatever address it stores, the object in the block's care has not been destroyed;
and `Reset()` on the last strong owner of a block, whatever address it stores,
destroys exactly that object. -/
theorem c10_aliasing_shares_block (s : State) (j b : Nat) (x : SharedPtr) (addr : Ptr)
    (h : Reachable s) (hj : s.sps[j]? = some x) (hxh : x.handle = some b) :
    (∃ blk : Block, s.blocks[b]? = some blk ∧
      (∃ s1 : State, SharedPtr.aliasCopy s j addr = some s1 ∧
        s1.sps[s.sps.length]? = some ⟨some b, addr⟩ ∧
        SharedPtr.Get s1 s.sps.length = some addr ∧ s1.sps[j]? = some x ∧
        s1.blocks = s.blocks.set b { blk with handles := blk.handles + 1, strong := blk.strong + 1 } ∧
        s1.objs = s.objs) ∧
      (∃ s2 : State, SharedPtr.aliasMove s j addr = some s2 ∧
        s2.sps[s.sps.length]? = some ⟨some b, addr⟩ ∧
        SharedPtr.Get s2 s.sps.length = some addr ∧
        s2.blocks = s.blocks ∧ s2.objs = s.objs ∧
        SharedPtr.Get s2 j = some none ∧ SharedPtr.UseCount s2 j = some 0 ∧
        SharedPtr.toBool s2 j = some false)) ∧
    (∀ (s1 : State) (i c o : Nat) (y : SharedPtr) (blk : Block), Reachable s1 →
      s1.sps[i]? = some y → y.handle = some c → s1.blocks[c]? = some blk →
      blk.kind.obj = some o → ∃ obj : Obj, s1.objs[o]? = some obj ∧ obj.dtors = 0) ∧
    (∀ (s1 : State) (i c o : Nat) (y : SharedPtr) (blk : Block), Reachable s1 →
      s1.sps[i]? = some y → y.handle = some c → s1.blocks[c]? = some blk →
      blk.strong = 1 → blk.kind.obj = some o →
      ∃ (s2 : State) (obj : Obj), SharedPtr.Reset s1 i = some s2 ∧
        s2.objs[o]? = some obj ∧ obj.dtors = 1 ∧
        ∀ (k : Nat), k ≠ o → s2.objs[k]? = s1.objs[k]?) := by
  have hI := reachable_Inv h
  have hlt := lt_of_getElem? hj
  obtain ⟨blk, hb, hs, _, _, hh, _⟩ := hI.sp_block hj hxh
  refine ⟨⟨blk, hb, ?_, ?_⟩, ?_, ?_⟩
  · have e := aliasCopy_some hj hxh hb (by omega) (by omega) addr
    have hn1 : (s.sps ++ [(⟨some b, addr⟩ : SharedPtr)])[s.sps.length]?
        = some ⟨some b, addr⟩ := by simp
    have hj1 : (s.sps ++ [(⟨some b, addr⟩ : SharedPtr)])[j]? = some x := by
      rw [List.getElem?_append_left hlt]; exact hj
    exact ⟨_, e, hn1, Get_eq (s := State.mk _ _ _ _ _) hn1 rfl, hj1, rfl, rfl⟩
  · have e := aliasMove_eq hj addr
    rw [hxh] at e
    have hl : (s.sps.set j ⟨none, x.ptr⟩).length = s.sps.length := List.length_set _ _ _
    have hn1 : (s.sps.set j ⟨none, x.ptr⟩ ++ [(⟨some b, addr⟩ : SharedPtr)])[s.sps.length]?
        = some ⟨some b, addr⟩ := by
      rw [← hl]; simp
    have hj1 : (s.sps.set j ⟨none, x.ptr⟩ ++ [(⟨some b, addr⟩ : SharedPtr)])[j]?
        = some ⟨none, x.ptr⟩ := by
      rw [List.getElem?_append_left (by rw [hl]; exact hlt)]
      exact getElem?_set_self_of hj
    refine ⟨_, e, hn1, Get_eq (s := State.mk _ _ _ _ _) hn1 rfl, rfl, rfl,
      Get_empty (s := State.mk _ _ _ _ _) hj1 rfl,
      UseCount_empty (s := State.mk _ _ _ _ _) hj1 rfl, ?_⟩
    rw [toBool_eq (s := State.mk _ _ _ _ _) hj1]; rfl
  · intro s1 i c o y blk1 hr hy hyh hc hk
    exact (reachable_Inv hr).owned_alive hy hyh hc hk
  · intro s1 i c o y blk1 hr hy hyh hc hst hk
    have hI1 := reachable_Inv hr
    obtain ⟨obj, ho, hd⟩ := hI1.owned_alive hy hyh hc hk
    obtain ⟨s2, e, _, _, _, _, _, hobj, hoth⟩ := Reset_last hI1 hy hyh hc hst
    refine ⟨s2, _, e, (hobj o obj hk ho).2, rfl, ?_⟩
    intro k hko
    apply hoth k
    rw [hk]
    intro hc2
    cases hc2
    exact hko rfl

theorem c10_aliasing_shares_block_witness :
    run State.init [Op.spOfNew false] = some exOwner ∧
    exOwner.sps[0]? = some ⟨some 0, some 0⟩ ∧
    SharedPtr.aliasCopy exOwner 0 (some 7)
      = some ⟨[⟨2, 2, Kind.indirect (some 0), 0, 0⟩], [⟨false, ⟨none, none⟩, 0⟩],
          [⟨some 0, some 0⟩, ⟨some 0, some 7⟩], [], 2⟩ ∧
    ∃ blk : Block, exOwner.blocks[0]? = some blk ∧
      (∃ s1 : State, SharedPtr.aliasCopy exOwner 0 (some 7) = some s1 ∧
        s1.sps[exOwner.sps.length]? = some ⟨some 0, some 7⟩ ∧
        SharedPtr.Get s1 exOwner.sps.length = some (some 7) ∧
        s1.sps[0]? = some ⟨some 0, some 0⟩ ∧
        s1.blocks = exOwner.blocks.set 0 { blk with handles := blk.handles + 1, strong := blk.strong + 1 } ∧
        s1.objs = exOwner.objs) ∧
      (∃ s2 : State, SharedPtr.aliasMove exOwner 0 (some 7) = some s2 ∧
        s2.sps[exOwner.sps.length]? = some ⟨some 0, some 7⟩ ∧
        SharedPtr.Get s2 exOwner.sps.length = some (some 7) ∧
        s2.blocks = exOwner.blocks ∧ s2.objs = exOwner.objs ∧
        SharedPtr.Get s2 0 = some none ∧ SharedPtr.UseCount s2 0 = some 0 ∧
        SharedPtr.toBool s2 0 = some false) :=
  ⟨rfl, rfl, rfl,
    (c10_aliasing_shares_block exOwner 0 0 ⟨some 0, some 0⟩ (some 7) exOwner_Reachable
      rfl rfl).1⟩

/-- Behaviour of `std::swap` on the handles of two distinct `SharedPtr` variables, in explicit
form. -/
theorem swap_sp_ne_mk {B : List Block} {O : List Obj} {S : List SharedPtr} {W : List WeakPtr}
    {n i j : Nat} {x y : SharedPtr} (hi : S[i]? = some x) (hj : S[j]? = some y)
    (hij : i ≠ j) :
    Handle.swap (State.mk B O S W n) (Loc.sp i) (Loc.sp j)
      = some (State.mk B O ((S.set i ⟨y.handle, x.ptr⟩).set j ⟨x.handle, y.ptr⟩) W n) := by
  have hil := lt_of_getElem? hi
  have hjl := lt_of_getElem? hj
  have hi0 : (S.set i (⟨none, x.ptr⟩ : SharedPtr))[i]? = some ⟨none, x.ptr⟩ :=
    getElem?_set_self_of hi
  have hj0 : (S.set i (⟨none, x.ptr⟩ : SharedPtr))[j]? = some y := by
    rw [List.getElem?_set]; simp [hij, hj]
  have hj1 : (((S.set i (⟨none, x.ptr⟩ : SharedPtr)).set j ⟨none, y.ptr⟩).set i
      ⟨y.handle, x.ptr⟩)[j]? = some ⟨none, y.ptr⟩ := by
    rw [List.getElem?_set]
    simp only [hij, if_false]
    exact getElem?_set_self_of hj0
  simp only [Handle.swap, getH_sp_mk hi, setH_sp_mk hi,
    assignFrom_empty_sp_mk hi0 rfl hj0 hij, assignTemp_empty_sp_mk hj1 rfl, release_none]
  congr 2
  apply List.ext_getElem?
  intro k
  simp only [List.getElem?_set, List.length_set]
  by_cases h1 : j = k
  · subst h1; simp [hjl, hij]
  · by_cases h2 : i = k
    · subst h2; simp [hil, h1]
    · simp [h1, h2]

/-- Behaviour of `std::swap` of the handle of a `SharedPtr` variable with itself. -/
theorem swap_sp_self_mk {B : List Block} {O : List Obj} {S : List SharedPtr}
    {W : List WeakPtr} {n i : Nat} {x : SharedPtr} (hi : S[i]? = some x) :
    Handle.swap (State.mk B O S W n) (Loc.sp i) (Loc.sp i) = some (State.mk B O S W n) := by
  have hi0 : (S.set i (⟨none, x.ptr⟩ : SharedPtr))[i]? = some ⟨none, x.ptr⟩ :=
    getElem?_set_self_of hi
  simp only [Handle.swap, getH_sp_mk hi, setH_sp_mk hi, Handle.assignFrom,
    Reset_empty_sp_mk hi0 rfl, getH_sp_mk hi0, setH_sp_mk hi0, List.set_set,
    assignTemp_empty_sp_mk hi0 rfl, release_none]
  have : (⟨x.handle, x.ptr⟩ : SharedPtr) = x := rfl
  rw [this, set_self_of_getElem? hi]

/-- Behaviour of `SharedPtr::Swap` in explicit form: the two records are exchanged and nothing
else changes. -/
theorem Swap_eq {s : State} {i j : Nat} {x y : SharedPtr} (hi : s.sps[i]? = some x)
    (hj : s.sps[j]? = some y) :
    SharedPtr.Swap s i j
      = some ⟨s.blocks, s.objs, (s.sps.set i y).set j x, s.wps, s.allocs⟩ := by
  obtain ⟨B, O, S, W, n⟩ := s
  simp only at hi hj ⊢
  have hil := lt_of_getElem? hi
  have hjl := lt_of_getElem? hj
  by_cases hij : i = j
  · subst hij
    rw [hi] at hj; cases hj
    simp only [SharedPtr.Swap, swap_sp_self_mk hi, hi, setSpPtr_mk hi]
    have h1 : (S.set i (⟨x.handle, x.ptr⟩ : SharedPtr))[i]? = some ⟨x.handle, x.ptr⟩ :=
      getElem?_set_self_of hi
    rw [setSpPtr_mk h1]
  · have h1 : ((S.set i (⟨y.handle, x.ptr⟩ : SharedPtr)).set j ⟨x.handle, y.ptr⟩)[i]?
        = some ⟨y.handle, x.ptr⟩ := by
      rw [List.getElem?_set]
      simp only [Ne.symm hij, if_false]
      exact getElem?_set_self_of hi
    have h2 : ((S.set i (⟨y.handle, x.ptr⟩ : SharedPtr)).set j ⟨x.handle, y.ptr⟩)[j]?
        = some ⟨x.handle, y.ptr⟩ := by
      rw [List.getElem?_set]; simp [hjl]
    simp only [SharedPtr.Swap, swap_sp_ne_mk hi hj hij, h1, h2]
    rw [setSpPtr_mk h1]
    have h3 : (((S.set i (⟨y.handle, x.ptr⟩ : SharedPtr)).set j ⟨x.handle, y.ptr⟩).set i
        ⟨y.handle, y.ptr⟩)[j]? = some ⟨x.handle, y.ptr⟩ := by
      rw [List.getElem?_set]
      simp only [hij, if_false]
      exact h2
    rw [setSpPtr_mk h3]
    congr 2
    apply List.ext_getElem?
    intro k
    simp only [List.getElem?_set, List.length_set]
    by_cases h4 : j = k
    · subst h4; simp [hjl, hij]
    · by_cases h5 : i = k
      · subst h5; simp [hil, h4]
      · simp [h4, h5]

theorem swapped_getElem? {α : Type} {S : List α} {i j : Nat} {x y : α} (hi : S[i]? = some x)
    (hj : S[j]? = some y) :
    ((S.set i y).set j x)[i]? = some y ∧ ((S.set i y).set j x)[j]? = some x := by
  have hil := lt_of_getElem? hi
  have hjl := lt_of_getElem? hj
  by_cases hij : i = j
  · subst hij
    rw [hi] at hj; cases hj
    simp [List.getElem?_set, hil]
  · constructor
    · rw [List.getElem?_set]
      simp only [Ne.symm hij, if_false]
      exact getElem?_set_self_of hi
    · rw [List.getElem?_set]; simp [hjl]

theorem swapped_back {α : Type} {S : List α} {i j : Nat} {x y : α} (hi : S[i]? = some x)
    (hj : S[j]? = some y) :
    (((S.set i y).set j x).set i x).set j y = S := by
  have hil := lt_of_getElem? hi
  have hjl := lt_of_getElem? hj
  apply List.ext_getElem?
  intro k
  simp only [List.getElem?_set, List.length_set]
  by_cases h4 : j = k
  · subst h4; simp [hjl, hj]
  · by_cases h5 : i = k
    · subst h5; simp [hil, h4, hi]
    · simp [h4, h5]

/-- C14: for two `SharedPtr` variables `a` and `b` (which may be the same),
`a.Swap(b)` returns; afterwards `a` shows the `Get()`, `UseCount()` and boolean
conversion `b` showed before and vice versa, no control block (hence no strong count
and no handle count) and no object has changed; a second `a.Swap(b)` restores the
original state, and `a.Swap(a)` leaves the state as it was. -/
theorem c14_swap_exchanges (s : State) (i j : Nat) (x y : SharedPtr)
    (hi : s.sps[i]? = some x) (hj : s.sps[j]? = some y) :
    (∃ s1 : State, SharedPtr.Swap s i j = some s1 ∧
      s1.blocks = s.blocks ∧ s1.objs = s.objs ∧ s1.wps = s.wps ∧
      s1.sps[i]? = some y ∧ s1.sps[j]? = some x ∧
      SharedPtr.Get s1 i = SharedPtr.Get s j ∧ SharedPtr.Get s1 j = SharedPtr.Get s i ∧
      SharedPtr.UseCount s1 i = SharedPtr.UseCount s j ∧
      SharedPtr.UseCount s1 j = SharedPtr.UseCount s i ∧
      SharedPtr.toBool s1 i = SharedPtr.toBool s j ∧
      SharedPtr.toBool s1 j = SharedPtr.toBool s i ∧
      SharedPtr.Swap s1 i j = some s) ∧
    SharedPtr.Swap s i i = some s := by
  obtain ⟨e1, e2⟩ := swapped_getElem? hi hj
  constructor
  · refine ⟨_, Swap_eq hi hj, rfl, rfl, rfl, e1, e2, ?_, ?_, ?_, ?_, ?_, ?_, ?_⟩
    · simp [SharedPtr.Get, e1, hj]
    · simp [SharedPtr.Get, e2, hi]
    · simp [SharedPtr.UseCount, e1, hj, RealStorage.StrongCount]
    · simp [SharedPtr.UseCount, e2, hi, RealStorage.StrongCount]
    · simp [SharedPtr.toBool, e1, hj]
    · simp [SharedPtr.toBool, e2, hi]
    · rw [Swap_eq (s := State.mk _ _ _ _ _) e1 e2]
      simp only [swapped_back hi hj]
  · rw [Swap_eq hi hi]
    have : (s.sps.set i x).set i x = s.sps := by
      rw [List.set_set, set_self_of_getElem? hi]
    simp only [this]

/-- Behaviour of `IndirectStorage::Destroy` on a block whose `data_` is set, the object holding
no handle in its `me_`: the object is deleted and `data_` is cleared. -/
theorem Destroy_indirect_obj {s : State} {b o : Nat} {blk : Block} {obj : Obj}
    (hb : s.blocks[b]? = some blk) (hk : blk.kind = Kind.indirect (some o))
    (ho : s.objs[o]? = some obj) (hm : obj.me.handle = none) :
    Storage.Destroy s b
      = some ((s.setBlock b { blk with kind := Kind.indirect none, destroys := blk.destroys + 1 }).setObj o
          { obj with dtors := obj.dtors + 1 }) := by
  have hlt := lt_of_getElem? hb
  have hme : (⟨none, obj.me.ptr⟩ : WeakPtr) = obj.me := by
    cases hx : obj.me with
    | mk h p => rw [hx] at hm; simp at hm; simp [hm]
  simp [Storage.Destroy, hb, List.getElem?_set, hlt, hk, setBlock_setBlock, Obj.dtorTake, ho,
    hm, hme, release_none, setObj_setBlock]

/-- C18: for an `IndirectStorage` block holding the last handle and wrapping the
object `o` (whose `me_` holds no handle), the destructor of `o` runs once in both
orders of teardown.  When `Destroy()` runs first it deletes `o` and nulls `data_`;
the later deletion of the block (release of the last handle) frees the block and
changes no object.  When the block is deleted without `Destroy()` having run, its
destructor deletes `o`. -/
theorem c18_indirect_teardown_deletes_once (s : State) (b o : Nat) (blk : Block) (obj : Obj)
    (hb : s.blocks[b]? = some blk) (hk : blk.kind = Kind.indirect (some o))
    (hh : blk.handles = 1) (ho : s.objs[o]? = some obj) (hm : obj.me.handle = none) :
    (∃ (s1 s2 : State) (blk1 blk2 : Block) (obj1 : Obj),
      Storage.Destroy s b = some s1 ∧
      s1.blocks[b]? = some blk1 ∧ blk1.kind = Kind.indirect none ∧
      blk1.freed = blk.freed ∧ blk1.destroys = blk.destroys + 1 ∧
      s1.objs[o]? = some obj1 ∧ obj1.dtors = obj.dtors + 1 ∧
      Handle.release s1 (some b) = some s2 ∧
      s2.blocks[b]? = some blk2 ∧ blk2.handles = 0 ∧ blk2.freed = blk.freed + 1 ∧
      s2.objs = s1.objs) ∧
    (∃ (s2 : State) (blk2 : Block) (obj2 : Obj),
      Handle.release s (some b) = some s2 ∧
      s2.blocks[b]? = some blk2 ∧ blk2.handles = 0 ∧ blk2.freed = blk.freed + 1 ∧
      blk2.destroys = blk.destroys ∧
      s2.objs[o]? = some obj2 ∧ obj2.dtors = obj.dtors + 1) := by
  have hlt := lt_of_getElem? hb
  have holt := lt_of_getElem? ho
  constructor
  · have e1 := Destroy_indirect_obj hb hk ho hm
    have hb1 : ((s.setBlock b { blk with kind := Kind.indirect none, destroys := blk.destroys + 1 }).setObj o
        { obj with dtors := obj.dtors + 1 }).blocks[b]?
        = some { blk with kind := Kind.indirect none, destroys := blk.destroys + 1 } := by
      simp [List.getElem?_set, hlt]
    have e2 := release_last_plain hb1 hh (by intro o1; simp)
    refine ⟨_, _, { blk with kind := Kind.indirect none, destroys := blk.destroys + 1 },
      { blk with handles := 0, kind := Kind.indirect none, freed := blk.freed + 1, destroys := blk.destroys + 1 },
      { obj with dtors := obj.dtors + 1 }, e1, hb1, rfl, rfl, rfl, ?_, rfl, e2, ?_, rfl, rfl, rfl⟩
    · simp [List.getElem?_set, holt]
    · simp [List.getElem?_set, hlt]
  · have e := release_last_obj hb hh hk ho hm
    refine ⟨_, { blk with handles := 0, freed := blk.freed + 1 },
      { obj with dtors := obj.dtors + 1 }, e, ?_, rfl, rfl, rfl, ?_, rfl⟩
    · simp [List.getElem?_set, hlt]
    · simp [List.getElem?_set, holt]

/-- One `BeginStrong` or `EndStrong` call on a block whose `Destroy` count is `1` if its
strong count is `0` and `0` otherwise, and whose object (if any) holds no handle in its
`me_`: a call made while the strong count is positive returns, keeps this shape, and
invokes `Destroy` exactly when it is the `EndStrong` that takes the count from 1 to 0. -/
theorem strong_call_step {s : State} {b : Nat} {blk : Block}
    (hb : s.blocks[b]? = some blk)
    (hd : blk.destroys = (if blk.strong = 0 then 1 else 0))
    (hobj : ∀ o : Nat, blk.kind.obj = some o →
      ∃ obj : Obj, s.objs[o]? = some obj ∧ obj.me.handle = none)
    (hpos : 0 < blk.strong) (c : Bool) :
    ∃ (s1 : State) (blk1 : Block),
      (if c then RealStorage.BeginStrong s b else RealStorage.EndStrong s b) = some s1 ∧
      s1.blocks[b]? = some blk1 ∧
      blk1.strong = (if c then blk.strong + 1 else blk.strong - 1) ∧
      blk1.destroys = blk.destroys + (if c = false ∧ blk.strong = 1 then 1 else 0) ∧
      blk1.destroys = (if blk1.strong = 0 then 1 else 0) ∧
      (∀ o : Nat, blk1.kind.obj = some o →
        ∃ obj : Obj, s1.objs[o]? = some obj ∧ obj.me.handle = none) := by
  have hlt := lt_of_getElem? hb
  have hne : blk.strong ≠ 0 := by omega
  have hd0 : blk.destroys = 0 := by rw [hd]; simp [hne]
  cases c with
  | true =>
    refine ⟨s.setBlock b { blk with strong := blk.strong + 1 },
      { blk with strong := blk.strong + 1 }, ?_, ?_, ?_, ?_, ?_, ?_⟩
    · simp only [if_true]; exact BeginStrong_eq hb hpos
    · simp [List.getElem?_set, hlt]
    · simp
    · simp
    · simp [hd0]
    · intro o ho; exact hobj o ho
  | false =>
    by_cases h1 : blk.strong = 1
    · cases hkind : blk.kind with
      | inline o =>
        obtain ⟨obj, ho, hm⟩ := hobj o (by rw [hkind]; rfl)
        have e := EndStrong_last_obj (r := Kind.inline o) hb h1 ho (Or.inl hm)
          (Or.inl ⟨hkind, rfl⟩)
        refine ⟨_, _, e, getElem?_set_self_of hb, ?_, ?_, ?_, ?_⟩
        · simp [h1]
        · simp [h1]
        · simp [hd0]
        · intro o1 ho1
          simp only [Kind.obj, Option.some.injEq] at ho1
          subst ho1
          exact ⟨_, getElem?_set_self_of ho, rfl⟩
      | indirect dp =>
        cases dp with
        | none =>
          have e := EndStrong_last_null hb h1 hkind
          refine ⟨_, _, e, getElem?_set_self_of hb, ?_, ?_, ?_, ?_⟩
          · simp [h1]
          · simp [h1]
          · simp [hd0]
          · intro o1 ho1
            simp [hkind, Kind.obj] at ho1
        | some o =>
          obtain ⟨obj, ho, hm⟩ := hobj o (by rw [hkind]; rfl)
          have e := EndStrong_last_obj (r := Kind.indirect none) hb h1 ho (Or.inl hm)
            (Or.inr ⟨hkind, rfl⟩)
          refine ⟨_, _, e, getElem?_set_self_of hb, ?_, ?_, ?_, ?_⟩
          · simp [h1]
          · simp [h1]
          · simp [hd0]
          · intro o1 ho1
            simp [Kind.obj] at ho1
    · have e := EndStrong_dec hb (by omega)
      refine ⟨_, { blk with strong := blk.strong - 1 }, e, ?_, ?_, ?_, ?_, ?_⟩
      · simp [List.getElem?_set, hlt]
      · simp
      · simp [h1]
      · have : blk.strong - 1 ≠ 0 := by omega
        simp [hd0, this]
      · intro o ho; exact hobj o ho

theorem strong_call_dead {s : State} {b : Nat} {blk : Block}
    (hb : s.blocks[b]? = some blk) (h0 : blk.strong = 0) :
    RealStorage.BeginStrong s b = none ∧ RealStorage.EndStrong s b = none := by
  simp [RealStorage.BeginStrong, RealStorage.EndStrong, hb, h0]

/-- The shape of `strong_call_step` holds after every completed call sequence. -/
theorem calls_shape {s s1 : State} {b : Nat} {blk : Block} (cs : List Bool)
    (hb : s.blocks[b]? = some blk)
    (hd : blk.destroys = (if blk.strong = 0 then 1 else 0))
    (hobj : ∀ o : Nat, blk.kind.obj = some o →
      ∃ obj : Obj, s.objs[o]? = some obj ∧ obj.me.handle = none)
    (hr : RealStorage.calls s b cs = some s1) :
    ∃ blk1 : Block, s1.blocks[b]? = some blk1 ∧
      blk1.destroys = (if blk1.strong = 0 then 1 else 0) ∧
      (∀ o : Nat, blk1.kind.obj = some o →
        ∃ obj : Obj, s1.objs[o]? = some obj ∧ obj.me.handle = none) := by
  induction cs generalizing s blk with
  | nil =>
    simp only [RealStorage.calls, Option.some.injEq] at hr
    subst hr
    exact ⟨blk, hb, hd, hobj⟩
  | cons c cs ih =>
    simp only [RealStorage.calls] at hr
    by_cases h0 : blk.strong = 0
    · obtain ⟨e1, e2⟩ := strong_call_dead hb h0
      cases c <;> simp [e1, e2] at hr
    · obtain ⟨s2, blk2, e, hb2, _, _, hd2, hobj2⟩ :=
        strong_call_step hb hd hobj (Nat.pos_of_ne_zero h0) c
      rw [e] at hr
      exact ih hb2 hd2 hobj2 hr

/-- C16: take a control block with strong count 1 on which `Destroy` has not run
(its object, if any, holding no handle in `me_`), and any sequence of
`BeginStrong` / `EndStrong` calls that has completed, that is, each call was made
while the strong count was positive.  Then `Destroy` has been invoked once if the
count is now 0 and not at all otherwise.  A further call returns as long as the count
is positive, and invokes `Destroy` exactly when it is the `EndStrong` that takes the
count from 1 to 0; once the count is 0 no further call is admitted. -/
theorem c16_destroy_once_at_zero (s : State) (b : Nat) (blk : Block) (cs : List Bool)
    (s1 : State) (hb : s.blocks[b]? = some blk) (hs : blk.strong = 1)
    (hd : blk.destroys = 0)
    (hobj : ∀ o : Nat, blk.kind.obj = some o →
      ∃ obj : Obj, s.objs[o]? = some obj ∧ obj.me.handle = none)
    (hr : RealStorage.calls s b cs = some s1) :
    ∃ blk1 : Block, s1.blocks[b]? = some blk1 ∧
      blk1.destroys = (if blk1.strong = 0 then 1 else 0) ∧
      (0 < blk1.strong →
        (∃ (s2 : State) (blk2 : Block), RealStorage.BeginStrong s1 b = some s2 ∧
          s2.blocks[b]? = some blk2 ∧ blk2.strong = blk1.strong + 1 ∧
          blk2.destroys = blk1.destroys) ∧
        (∃ (s2 : State) (blk2 : Block), RealStorage.EndStrong s1 b = some s2 ∧
          s2.blocks[b]? = some blk2 ∧ blk2.strong = blk1.strong - 1 ∧
          blk2.destroys = blk1.destroys + (if blk1.strong = 1 then 1 else 0))) ∧
      (blk1.strong = 0 →
        RealStorage.BeginStrong s1 b = none ∧ RealStorage.EndStrong s1 b = none) := by
  obtain ⟨blk1, hb1, hd1, hobj1⟩ := calls_shape cs hb (by simp [hs, hd]) hobj hr
  refine ⟨blk1, hb1, hd1, ?_, strong_call_dead hb1⟩
  intro hpos
  constructor
  · obtain ⟨s2, blk2, e, hb2, h3, h4, _, _⟩ := strong_call_step hb1 hd1 hobj1 hpos true
    exact ⟨s2, blk2, by simpa using e, hb2, by simpa using h3, by simpa using h4⟩
  · obtain ⟨s2, blk2, e, hb2, h3, h4, _, _⟩ := strong_call_step hb1 hd1 hobj1 hpos false
    refine ⟨s2, blk2, by simpa using e, hb2, by simpa using h3, ?_⟩
    simpa using h4

/-- Behaviour of `Handle::Reset` on the handle of a `SharedPtr` that is the last handle of a
block with no object left to delete: the block is freed. -/
theorem Reset_sp_last_plain_mk {B : List Block} {O : List Obj} {S : List SharedPtr}
    {W : List WeakPtr} {n i b : Nat} {x : SharedPtr} {blk : Block} (hx : S[i]? = some x)
    (hxh : x.handle = some b) (hb : B[b]? = some blk) (h1 : blk.handles = 1)
    (hk : ∀ o : Nat, blk.kind ≠ Kind.indirect (some o)) :
    Handle.Reset (State.mk B O S W n) (Loc.sp i)
      = some (State.mk (B.set b { blk with handles := 0, freed := blk.freed + 1 }) O
          (S.set i ⟨none, x.ptr⟩) W n) := by
  simp only [Handle.Reset, getH_sp_mk hx, hxh, setH_sp_mk hx]
  exact release_last_plain (s := State.mk B O (S.set i ⟨none, x.ptr⟩) W n) hb h1 hk

/-- Behaviour of `SharedPtr::Reset()` on the only owner of an object that keeps a
self-reference, no other handle being around: `EndStrong` destroys the object, whose
`me_` gives up its handle while the pointer still holds its own; then the pointer
drops the last handle and the block is freed. -/
theorem Reset_sole_self_ref {s : State} {i b o : Nat} {x : SharedPtr} {blk : Block}
    {obj : Obj} {r : Kind} (hx : s.sps[i]? = some x) (hxh : x.handle = some b)
    (hb : s.blocks[b]? = some blk) (h1 : blk.strong = 1) (h2 : blk.handles = 2)
    (ho : s.objs[o]? = some obj) (hm : obj.me.handle = some b)
    (hk : (blk.kind = Kind.inline o ∧ r = Kind.inline o) ∨
      (blk.kind = Kind.indirect (some o) ∧ r = Kind.indirect none)) :
    RealStorage.EndStrong s b
      = some ⟨s.blocks.set b ⟨1, 0, r, blk.freed, blk.destroys + 1⟩,
          s.objs.set o ⟨obj.cap, ⟨none, obj.me.ptr⟩, obj.dtors + 1⟩, s.sps, s.wps, s.allocs⟩ ∧
    Handle.assignTemp ⟨s.blocks.set b ⟨1, 0, r, blk.freed, blk.destroys + 1⟩,
        s.objs.set o ⟨obj.cap, ⟨none, obj.me.ptr⟩, obj.dtors + 1⟩, s.sps, s.wps, s.allocs⟩
        (Loc.sp i) none
      = some ⟨s.blocks.set b ⟨0, 0, r, blk.freed + 1, blk.destroys + 1⟩,
          s.objs.set o ⟨obj.cap, ⟨none, obj.me.ptr⟩, obj.dtors + 1⟩,
          s.sps.set i ⟨none, x.ptr⟩, s.wps, s.allocs⟩ ∧
    SharedPtr.Reset s i
      = some ⟨s.blocks.set b ⟨0, 0, r, blk.freed + 1, blk.destroys + 1⟩,
          s.objs.set o ⟨obj.cap, ⟨none, obj.me.ptr⟩, obj.dtors + 1⟩,
          s.sps.set i ⟨none, x.ptr⟩, s.wps, s.allocs⟩ := by
  have e1 := EndStrong_last_obj (r := r) hb h1 ho (Or.inr ⟨hm, by omega⟩) hk
  rw [hm, cnt_self, h2] at e1
  obtain ⟨B, O, S, W, n⟩ := s
  simp only at hx hb ho
  simp only [State.setBlock, State.setObj] at e1
  have hb1 : (B.set b (Block.mk 1 0 r blk.freed (blk.destroys + 1)))[b]?
      = some (Block.mk 1 0 r blk.freed (blk.destroys + 1)) := getElem?_set_self_of hb
  have hkr : ∀ o1 : Nat, (Block.mk 1 0 r blk.freed (blk.destroys + 1)).kind
      ≠ Kind.indirect (some o1) := by
    intro o1
    rcases hk with ⟨_, rfl⟩ | ⟨_, rfl⟩ <;> simp
  have e2 : Handle.assignTemp (State.mk (B.set b (Block.mk 1 0 r blk.freed (blk.destroys + 1)))
      (O.set o ⟨obj.cap, ⟨none, obj.me.ptr⟩, obj.dtors + 1⟩) S W n) (Loc.sp i) none
      = some (State.mk (B.set b ⟨0, 0, r, blk.freed + 1, blk.destroys + 1⟩)
          (O.set o ⟨obj.cap, ⟨none, obj.me.ptr⟩, obj.dtors + 1⟩)
          (S.set i ⟨none, x.ptr⟩) W n) := by
    simp only [Handle.assignTemp, Reset_sp_last_plain_mk hx hxh hb1 rfl hkr, List.set_set]
    rw [setH_sp_mk (getElem?_set_self_of hx), List.set_set]
  refine ⟨e1, e2, ?_⟩
  simp only [SharedPtr.Reset, hx, hxh, e1]
  exact e2

/-- Behaviour of `WeakPtr::Lock` on an expired `WeakPtr`: an empty pointer is returned. -/
theorem Lock_expired {s : State} {j : Nat} {w : WeakPtr}
    (hw : s.wps[j]? = some w) (he : WeakPtr.expiredOf s w = some true) :
    WeakPtr.Lock s j = some s.pushSp := by
  have hw1 : s.pushSp.wps[j]? = some w := hw
  have he1 : WeakPtr.expiredOf s.pushSp w = some true := he
  simp only [WeakPtr.Lock, WeakPtr.TryLockInto, hw1, tryLockIntoOf_expired he1,
    Option.map_some']

theorem exSelfRef_run : run State.init [Op.spMakeShared true] = some exSelfRef := rfl

theorem getH_wp_mk {B : List Block} {O : List Obj} {S : List SharedPtr} {W : List WeakPtr}
    {n j : Nat} {w : WeakPtr} (h : W[j]? = some w) :
    (State.mk B O S W n).getH (Loc.wp j) = some w.handle := by
  simp [State.getH, h]

theorem setH_wp_mk {B : List Block} {O : List Obj} {S : List SharedPtr} {W : List WeakPtr}
    {n j : Nat} {w : WeakPtr} (h : W[j]? = some w) (p : Ptr) :
    (State.mk B O S W n).setH (Loc.wp j) p = State.mk B O S (W.set j ⟨p, w.ptr⟩) n := by
  simp [State.setH, h, State.setWp]

/-- Behaviour of `WeakPtr::Reset` on a `WeakPtr` holding the last handle of a block that has no
object left to delete: the block is freed, no object is touched. -/
theorem WeakPtr_Reset_last_plain {s : State} {j b : Nat} {w : WeakPtr} {blk : Block}
    (hw : s.wps[j]? = some w) (hwh : w.handle = some b) (hb : s.blocks[b]? = some blk)
    (h1 : blk.handles = 1) (hk : ∀ o : Nat, blk.kind ≠ Kind.indirect (some o)) :
    WeakPtr.Reset s j
      = some ⟨s.blocks.set b { blk with handles := 0, freed := blk.freed + 1 }, s.objs, s.sps,
          s.wps.set j ⟨none, w.ptr⟩, s.allocs⟩ := by
  obtain ⟨B, O, S, W, n⟩ := s
  simp only at hw hb ⊢
  have e := release_last_plain (s := State.mk B O S (W.set j ⟨none, w.ptr⟩) n) hb h1 hk
  simp only [State.setBlock] at e
  simp only [WeakPtr.Reset, Handle.assignTemp, Handle.Reset, getH_wp_mk hw, hwh,
    setH_wp_mk hw, e]
  rw [setH_wp_mk (getElem?_set_self_of hw), List.set_set]

/-- Behaviour of `Reset()` on the last strong owner of an `InlineStorage` block, in explicit
form. -/
theorem Reset_last_inline {s : State} {i b o : Nat} {x : SharedPtr} {blk : Block}
    (h : Inv s) (hx : s.sps[i]? = some x) (hxh : x.handle = some b)
    (hb : s.blocks[b]? = some blk) (hs : blk.strong = 1) (hk : blk.kind = Kind.inline o) :
    ∃ obj : Obj, s.objs[o]? = some obj ∧ obj.dtors = 0 ∧
      cnt obj.me.handle b + 1 ≤ blk.handles ∧ s.cntM b = cnt obj.me.handle b ∧
      blk.freed = 0 ∧
      SharedPtr.Reset s i
        = some ⟨s.blocks.set b ⟨blk.handles - cnt obj.me.handle b - 1, 0, Kind.inline o,
              if blk.handles - cnt obj.me.handle b = 1 then 1 else 0, blk.destroys + 1⟩,
            s.objs.set o ⟨obj.cap, ⟨none, obj.me.ptr⟩, 1⟩, s.sps.set i ⟨none, x.ptr⟩, s.wps,
            s.allocs⟩ := by
  have hlt := lt_of_getElem? hb
  have hcS := cntS_pos hx hxh
  have hH := h.1.hEq b blk hb
  have hf := h.1.fEq b blk hb
  have hko : blk.kind.obj = some o := by rw [hk]; rfl
  have hHge : 1 ≤ blk.handles := by
    simp only [State.refs, List.count_nil] at hH; omega
  have hf0 : blk.freed = 0 := by rw [hf, if_neg]; omega
  obtain ⟨obj, ho⟩ := getElem?_of_lt (h.1.own b blk o hb hko)
  have hme := h.1.me_handle_cases hb hko ho
  have hme1 : obj.me.handle = none ∨ (obj.me.handle = some b ∧ 2 ≤ blk.handles) := by
    rcases hme with h1 | ⟨h1, h2⟩
    · exact Or.inl h1
    · exact Or.inr ⟨h1, by omega⟩
  have hcm : cnt obj.me.handle b + 1 ≤ blk.handles := by
    rcases hme with h1 | ⟨h1, h2⟩
    · rw [h1, cnt_none]; omega
    · rw [h1, cnt_self]; omega
  have hd0 : obj.dtors = 0 := by
    have := h.2.dt b blk o obj hb ho hko
    rw [hk] at this; simp [hs] at this; exact this
  -- the only `me_` that can reference `b` is the one of `o`
  have hcM : s.cntM b = cnt obj.me.handle b := by
    have hle : s.cntM b ≤ 1 := by
      simp only [State.cntM]
      by_contra hgt
      have h2 : 2 ≤ List.countP (fun x : Obj => decide (x.me.handle = some b)) s.objs := by
        omega
      obtain ⟨o1, o2, hne, y1, y2, hy1, hy2, hp1, hp2⟩ :
          ∃ (o1 o2 : Nat), o1 ≠ o2 ∧ ∃ (y1 y2 : Obj), s.objs[o1]? = some y1 ∧
            s.objs[o2]? = some y2 ∧ y1.me.handle = some b ∧ y2.me.handle = some b := by
        clear hme hme1 hcm hd0 ho
        generalize s.objs = l at h2
        induction l with
        | nil => simp at h2
        | cons a l ih =>
          by_cases ha : a.me.handle = some b
          · have h3 : 1 ≤ List.countP (fun x : Obj => decide (x.me.handle = some b)) l := by
              rw [List.countP_cons_of_pos _ _ (by simpa using ha)] at h2; omega
            obtain ⟨y, hy, hp⟩ := List.countP_pos_iff.1 h3
            obtain ⟨k, hk1, hk2⟩ := List.getElem_of_mem hy
            refine ⟨0, k + 1, by omega, a, y, by simp, ?_, ha, by simpa using hp⟩
            simp [List.getElem?_eq_getElem hk1, hk2]
          · rw [List.countP_cons_of_neg _ _ (by simpa using ha)] at h2
            obtain ⟨o1, o2, hne, y1, y2, hy1, hy2, hp1, hp2⟩ := ih h2
            exact ⟨o1 + 1, o2 + 1, by omega, y1, y2, by simpa using hy1, by simpa using hy2,
              hp1, hp2⟩
      obtain ⟨b1, hb1, hk1⟩ := h.1.meO o1 y1 b hy1 hp1
      obtain ⟨b2, hb2, hk2⟩ := h.1.meO o2 y2 b hy2 hp2
      rw [hb1] at hb2; cases hb2
      rw [hk1] at hk2; cases hk2
      exact hne rfl
    rcases hme with h1 | ⟨h1, _⟩
    · rw [h1, cnt_none]
      by_contra hne
      have h1' : 1 ≤ s.cntM b := by omega
      obtain ⟨y, hy, hp⟩ := List.countP_pos_iff.1 h1'
      obtain ⟨k, hk1, hk2⟩ := List.getElem_of_mem hy
      have hyk : s.objs[k]? = some y := by simp [List.getElem?_eq_getElem hk1, hk2]
      have hp' : y.me.handle = some b := by simpa using hp
      obtain ⟨b1, hb1, hkk⟩ := h.1.meO k y b hyk hp'
      rw [hb] at hb1; cases hb1
      rw [hko] at hkk; cases hkk
      rw [ho] at hyk; cases hyk
      rw [h1] at hp'; cases hp'
    · rw [h1, cnt_self]
      have := cntM_pos ho h1
      omega
  have hk1 : ∀ o1 : Nat, Kind.inline o ≠ Kind.indirect (some o1) := by intro o1; simp
  refine ⟨obj, ho, hd0, hcm, hcM, hf0, ?_⟩
  obtain ⟨B, O, S, W, n⟩ := s
  simp only at hx hb hlt ho ⊢
  have e1 := EndStrong_last_obj (s := State.mk B O S W n) (r := Kind.inline o) hb hs ho hme1
    (Or.inl ⟨hk, rfl⟩)
  simp only [State.setBlock, State.setObj] at e1
  have hb1 : (State.mk (B.set b (Block.mk (blk.handles - cnt obj.me.handle b) 0 (Kind.inline o)
      blk.freed (blk.destroys + 1)))
      (O.set o { obj with dtors := obj.dtors + 1, me := { obj.me with handle := none } })
      (S.set i ⟨none, x.ptr⟩) W n).blocks[b]?
      = some (Block.mk (blk.handles - cnt obj.me.handle b) 0 (Kind.inline o) blk.freed
          (blk.destroys + 1)) :=
    getElem?_set_self_of hb
  have e2 := release_noobj hb1 (by simp only; omega) hk1
  simp only [State.setBlock, List.set_set] at e2
  simp only [SharedPtr.Reset, hx, hxh, e1, Handle.assignTemp, Handle.Reset,
    getH_sp_mk hx, setH_sp_mk hx, e2]
  rw [setH_sp_mk (getElem?_set_self_of hx), List.set_set]
  simp [hf0, hd0]

theorem exInlineWeak_run :
    run State.init [Op.spMakeShared false, Op.wpOfShared 0] = some exInlineWeak := rfl

theorem exInlineWeak_Reachable : Reachable exInlineWeak :=
  run_Reachable _ Reachable.init exInlineWeak_run

/-- C15: `MakeShared` returns after exactly one allocation, that of the `InlineStorage`
block in which the object lives (`SharedPtr(new T)` takes two).  In a reachable
state, `Reset()` on the last strong owner of an `InlineStorage` block destroys the
object once and runs `Destroy` once, and the block is freed by it only if no handle
is left: while a `WeakPtr` still references the block, the block is not freed.  The
release of the last handle by a `WeakPtr` then frees the block, once, and touches no
object.  In every reachable state a block has been freed once if its handle count is
0 and not at all otherwise. -/
theorem c15_make_shared_single_allocation :
    (∀ (s : State) (cap : Bool), ∃ s1 s2 : State,
      SharedPtr.MakeShared s cap = some s1 ∧ s1.allocs = s.allocs + 1 ∧
      s1.blocks = s.blocks ++ [⟨if cap = true then 2 else 1, 1, Kind.inline s.objs.length, 0, 0⟩] ∧
      s1.objs.length = s.objs.length + 1 ∧
      SharedPtr.Get s1 s.sps.length = some (some s.objs.length) ∧
      SharedPtr.ofNew s cap = some s2 ∧ s2.allocs = s.allocs + 2) ∧
    (∀ (s : State) (i b o : Nat) (x : SharedPtr) (blk : Block), Reachable s →
      s.sps[i]? = some x → x.handle = some b → s.blocks[b]? = some blk →
      blk.kind = Kind.inline o → blk.strong = 1 →
      ∃ (s1 : State) (blk1 : Block) (obj obj1 : Obj), SharedPtr.Reset s i = some s1 ∧
        s1.allocs = s.allocs ∧ blk.freed = 0 ∧
        s1.blocks[b]? = some blk1 ∧ blk1.kind = Kind.inline o ∧ blk1.strong = 0 ∧
        blk1.destroys = blk.destroys + 1 ∧
        s.objs[o]? = some obj ∧ obj.dtors = 0 ∧
        s1.objs[o]? = some obj1 ∧ obj1.dtors = 1 ∧
        blk1.handles = s.cntW b ∧
        blk1.freed = (if s.cntW b = 0 then 1 else 0)) ∧
    (∀ (s : State) (j b o : Nat) (w : WeakPtr) (blk : Block), Reachable s →
      s.wps[j]? = some w → w.handle = some b → s.blocks[b]? = some blk →
      blk.kind = Kind.inline o → blk.handles = 1 →
      ∃ s1 : State, WeakPtr.Reset s j = some s1 ∧ blk.freed = 0 ∧
        s1.blocks[b]? = some { blk with handles := 0, freed := 1 } ∧
        s1.objs = s.objs ∧ s1.allocs = s.allocs) ∧
    (∀ (s : State) (b : Nat) (blk : Block), Reachable s → s.blocks[b]? = some blk →
      blk.freed = (if blk.handles = 0 then 1 else 0)) := by
  refine ⟨?_, ?_, ?_, ?_⟩
  · intro s cap
    refine ⟨_, _, MakeShared_eq s cap, rfl, rfl, by simp, ?_, ofNew_eq s cap, rfl⟩
    simp [SharedPtr.Get]
  · intro s i b o x blk hr hx hxh hb hk hs
    have hI := reachable_Inv hr
    obtain ⟨obj, ho, hd0, hcm, hcM, hf0, e⟩ := Reset_last_inline hI hx hxh hb hs hk
    have hH := hI.1.hEq b blk hb
    have hS := hI.1.sGe b blk hb
    have hcS := cntS_pos hx hxh
    simp only [State.refs, List.count_nil, cnt_none] at hH hS
    have hW : blk.handles - cnt obj.me.handle b - 1 = s.cntW b := by omega
    refine ⟨_, _, obj, _, e, rfl, hf0, getElem?_set_self_of hb, rfl, rfl, rfl, ho, hd0,
      getElem?_set_self_of ho, rfl, hW, ?_⟩
    simp only
    by_cases h0 : s.cntW b = 0
    · have : blk.handles - cnt obj.me.handle b = 1 := by omega
      simp [this, h0]
    · have : ¬ blk.handles - cnt obj.me.handle b = 1 := by omega
      simp [this, h0]
  · intro s j b o w blk hr hw hwh hb hk h1
    have hI := reachable_Inv hr
    have hf := hI.1.fEq b blk hb
    have hf0 : blk.freed = 0 := by rw [hf, if_neg]; omega
    have e := WeakPtr_Reset_last_plain hw hwh hb h1 (by intro o1; rw [hk]; simp)
    refine ⟨_, e, hf0, ?_, rfl, rfl⟩
    rw [hf0]
    exact getElem?_set_self_of hb
  · intro s b blk hr hb
    exact (reachable_Inv hr).1.fEq b blk hb

theorem c15_make_shared_single_allocation_witness :
    run State.init [Op.spMakeShared false, Op.wpOfShared 0] = some exInlineWeak ∧
    exInlineWeak.allocs = 1 ∧
    SharedPtr.Reset exInlineWeak 0
      = some ⟨[⟨1, 0, Kind.inline 0, 0, 1⟩], [⟨false, ⟨none, none⟩, 1⟩], [⟨none, some 0⟩],
          [⟨some 0, some 0⟩], 1⟩ ∧
    ∃ (s1 : State) (blk1 : Block) (obj obj1 : Obj), SharedPtr.Reset exInlineWeak 0 = some s1 ∧
      s1.allocs = exInlineWeak.allocs ∧ (⟨2, 1, Kind.inline 0, 0, 0⟩ : Block).freed = 0 ∧
      s1.blocks[0]? = some blk1 ∧ blk1.kind = Kind.inline 0 ∧ blk1.strong = 0 ∧
      blk1.destroys = (⟨2, 1, Kind.inline 0, 0, 0⟩ : Block).destroys + 1 ∧
      exInlineWeak.objs[0]? = some obj ∧ obj.dtors = 0 ∧
      s1.objs[0]? = some obj1 ∧ obj1.dtors = 1 ∧
      blk1.handles = exInlineWeak.cntW 0 ∧
      blk1.freed = (if exInlineWeak.cntW 0 = 0 then 1 else 0) :=
  ⟨rfl, rfl, rfl,
    c15_make_shared_single_allocation.2.1 exInlineWeak 0 0 0 ⟨some 0, some 0⟩
      ⟨2, 1, Kind.inline 0, 0, 0⟩ exInlineWeak_Reachable rfl rfl rfl rfl rfl⟩

/-- Behaviour of `SharedPtr::Reset()` on a non-empty pointer of a well-formed state: the strong
count of its block drops by one. -/
theorem Reset_strong {s : State} {i b : Nat} {x : SharedPtr} {blk : Block} (h : Inv s)
    (hx : s.sps[i]? = some x) (hh : x.handle = some b) (hb : s.blocks[b]? = some blk) :
    ∃ (s1 : State) (blk1 : Block), SharedPtr.Reset s i = some s1 ∧
      s1.blocks[b]? = some blk1 ∧ 1 ≤ blk.strong ∧ blk1.strong = blk.strong - 1 := by
  obtain ⟨sa, blk0, blk1, hb0, hs1, he, wa, aa, fa, spa, wpa, hb1, hs⟩ :=
    EndStrong_spec h.1 h.2 (cntS_pos hx hh)
  rw [hb] at hb0; cases hb0
  have hga : sa.getH (Loc.sp i) = some (some b) := by
    simp [State.getH, spa, hx, hh]
  obtain ⟨s0, _, f0, e, w1, a1⟩ := assignTemp_spec (z := none) wa.addNone aa hga
    (fun c blk hc => by
      have := wa.sGe c blk hc
      simp only [sCnt, cnt_none] at this ⊢
      omega)
    (fun o c hl _ => by cases hl)
  obtain ⟨blk2, hb2, hs2, _⟩ := f0.blk b blk1 (by rw [setH_blocks]; exact hb1)
  refine ⟨s0.setH (Loc.sp i) none, blk2, ?_, ?_, hs1, by omega⟩
  · simp [SharedPtr.Reset, hx, hh, he, e]
  · rw [setH_blocks]; exact hb2

/-- The second half of `Reset(U* ptr)` for a non-null `ptr`: a fresh `IndirectStorage`
is stolen into the (by now empty) pointer and the hook registers the object. -/
theorem rebind_eq {t : State} {i o : Nat} {y : SharedPtr} {obj : Obj} (c : Bool)
    (hy : t.sps[i]? = some y) (hyh : y.handle = none) (ho : t.objs[o]? = some obj)
    (hm : obj.me.handle = none) :
    (match SharedPtr.StealTemp (t.newIndirect (some o)) i (some t.blocks.length) (some o) with
      | none => none
      | some s2 => SharedPtr.SharedFromThisSetupHook s2 i c)
      = some ⟨t.blocks ++ [⟨if c = true then 2 else 1, 1, Kind.indirect (some o), 0, 0⟩],
          if c = true then t.objs.set o { obj with me := ⟨some t.blocks.length, some o⟩ }
          else t.objs,
          t.sps.set i ⟨some t.blocks.length, some o⟩, t.wps, t.allocs + 1⟩ := by
  obtain ⟨B, O, S, W, n⟩ := t
  simp only at hy ho ⊢
  simp only [State.newIndirect, StealTemp_empty_mk hy hyh]
  have hx1 : (State.mk (B ++ [⟨1, 1, Kind.indirect (some o), 0, 0⟩]) O
      (S.set i ⟨some B.length, some o⟩) W (n + 1)).sps[i]?
      = some ⟨some B.length, some o⟩ := getElem?_set_self_of hy
  have ho1 : (State.mk (B ++ [⟨1, 1, Kind.indirect (some o), 0, 0⟩]) O
      (S.set i ⟨some B.length, some o⟩) W (n + 1)).objs[o]? = some obj := ho
  have hb1 : (State.mk (B ++ [⟨1, 1, Kind.indirect (some o), 0, 0⟩]) O
      (S.set i ⟨some B.length, some o⟩) W (n + 1)).blocks[B.length]?
      = some ⟨1, 1, Kind.indirect (some o), 0, 0⟩ := by simp
  cases c with
  | false =>
    rw [hook_nocap]
    simp
  | true =>
    rw [hook_cap hx1 rfl rfl ho1 hm hb1 (by simp)]
    simp [State.setBlock, State.setObj, set_append_length]

/-- Behaviour of `SharedPtr::Reset()` in a well-formed state, all facts together. -/
theorem Reset_facts {s : State} {i : Nat} {x : SharedPtr} (h : Inv s)
    (hx : s.sps[i]? = some x) :
    ∃ s1 : State, SharedPtr.Reset s i = some s1 ∧ Inv s1 ∧ Frame s s1 x.handle ∧
      s1.sps = s.sps.set i ⟨none, x.ptr⟩ ∧ s1.wps = s.wps ∧
      (∀ (b : Nat) (blk : Block), x.handle = some b → s.blocks[b]? = some blk →
        ∃ blk1 : Block, s1.blocks[b]? = some blk1 ∧ 1 ≤ blk.strong ∧
          blk1.strong = blk.strong - 1 ∧
          (blk.strong = 1 → ∀ (o : Nat) (obj : Obj), blk.kind.obj = some o →
            s.objs[o]? = some obj →
            obj.dtors = 0 ∧ ∃ obj1 : Obj, s1.objs[o]? = some obj1 ∧ obj1.dtors = 1)) := by
  obtain ⟨s1, e, w1, a1, f1, hsp, hwp⟩ := SharedPtr_Reset_spec h.1 h.2 hx
  refine ⟨s1, e, ⟨w1, a1⟩, f1, hsp, hwp, ?_⟩
  intro b blk hxh hb
  obtain ⟨s2, blk1, e2, hb1, hpos, hs⟩ := Reset_strong h hx hxh hb
  rw [e] at e2; cases e2
  refine ⟨blk1, hb1, hpos, hs, ?_⟩
  intro h1 o obj hk ho
  obtain ⟨s3, e3, _, _, _, _, _, hobj, _⟩ := Reset_last h hx hxh hb h1
  rw [e] at e3; cases e3
  obtain ⟨hd, ho1⟩ := hobj o obj hk ho
  exact ⟨hd, _, ho1, rfl⟩

/-- Behaviour of `SharedPtr::Reset(U* ptr)` in a reachable state.  With a null pointer
it is `Reset()`; with a pointer fresh from `new`, the state is that after `Reset()`
with one more `IndirectStorage` block, to which the pointer now points.  In both
cases the strong count of the block referenced before is one less, and if it was 1
the object in that block's care has been destroyed. -/
theorem ResetPtr_release (s : State) (i : Nat) (x : SharedPtr) (cap : Bool)
    (h : Reachable s) (hx : s.sps[i]? = some x) :
    (∃ s1 : State, SharedPtr.Reset s i = some s1 ∧
      SharedPtr.ResetPtr s i none cap = some s1 ∧
      SharedPtr.Get s1 i = some none ∧ SharedPtr.UseCount s1 i = some 0 ∧
      SharedPtr.toBool s1 i = some false ∧
      (∀ (b : Nat) (blk : Block), x.handle = some b → s.blocks[b]? = some blk →
        ∃ blk1 : Block, s1.blocks[b]? = some blk1 ∧ 1 ≤ blk.strong ∧
          blk1.strong = blk.strong - 1 ∧
          (blk.strong = 1 → ∀ (o : Nat) (obj : Obj), blk.kind.obj = some o →
            s.objs[o]? = some obj →
            obj.dtors = 0 ∧ ∃ obj1 : Obj, s1.objs[o]? = some obj1 ∧ obj1.dtors = 1))) ∧
    (∃ s1 s2 : State, SharedPtr.Reset (s.newObj cap) i = some s1 ∧
      SharedPtr.ResetNew s i cap = some s2 ∧
      s2.blocks = s1.blocks ++
        [⟨if cap = true then 2 else 1, 1, Kind.indirect (some s.objs.length), 0, 0⟩] ∧
      s2.sps = s1.sps.set i ⟨some s1.blocks.length, some s.objs.length⟩ ∧
      s2.wps = s1.wps ∧ s2.allocs = s1.allocs + 1 ∧
      (∀ o : Nat, o ≠ s.objs.length → s2.objs[o]? = s1.objs[o]?) ∧
      s2.objs[s.objs.length]? = some ⟨cap, if cap = true then
        ⟨some s1.blocks.length, some s.objs.length⟩ else ⟨none, none⟩, 0⟩ ∧
      SharedPtr.Get s2 i = some (some s.objs.length) ∧
      SharedPtr.UseCount s2 i = some 1 ∧ SharedPtr.toBool s2 i = some true ∧
      (∀ (b : Nat) (blk : Block), x.handle = some b → s.blocks[b]? = some blk →
        ∃ blk1 : Block, s2.blocks[b]? = some blk1 ∧ 1 ≤ blk.strong ∧
          blk1.strong = blk.strong - 1 ∧
          (blk.strong = 1 → ∀ (o : Nat) (obj : Obj), blk.kind.obj = some o →
            s.objs[o]? = some obj →
            obj.dtors = 0 ∧ ∃ obj1 : Obj, s2.objs[o]? = some obj1 ∧ obj1.dtors = 1))) := by
  have hI := reachable_Inv h
  constructor
  · obtain ⟨s1, e, _, _, hsp, _, hrel⟩ := Reset_facts hI hx
    have hx1 : s1.sps[i]? = some ⟨none, x.ptr⟩ := by
      rw [hsp]; exact getElem?_set_self_of hx
    refine ⟨s1, e, by simp [SharedPtr.ResetPtr, e], Get_empty hx1 rfl, UseCount_empty hx1 rfl,
      ?_, hrel⟩
    rw [toBool_eq hx1]; rfl
  · have hI1 := hI.newObj cap
    have hx0 : (s.newObj cap).sps[i]? = some x := hx
    obtain ⟨s1, e, hI2, f1, hsp, hwp, hrel⟩ := Reset_facts hI1 hx0
    have hx1 : s1.sps[i]? = some ⟨none, x.ptr⟩ := by
      rw [hsp]; exact getElem?_set_self_of hx0
    have ho0 : (s.newObj cap).objs[s.objs.length]? = some ⟨cap, ⟨none, none⟩, 0⟩ := by
      simp [State.newObj]
    -- `Reset()` does not touch the object just created
    have ho1 : s1.objs[s.objs.length]? = some ⟨cap, ⟨none, none⟩, 0⟩ := by
      obtain ⟨obj1, h1, _, _, _, h5⟩ := f1.obj _ _ ho0
      have := h5 (fun c blk _ hc hk => by
        have hc' : s.blocks[c]? = some blk := hc
        have := hI.1.own c blk _ hc' hk
        omega)
      rw [this] at h1; exact h1
    have e2 := rebind_eq cap hx1 rfl ho1 rfl
    simp only at e2
    have e0 : SharedPtr.ResetNew s i cap
        = (match SharedPtr.StealTemp (s1.newIndirect (some s.objs.length)) i
            (some s1.blocks.length) (some s.objs.length) with
          | none => none
          | some s2 => SharedPtr.SharedFromThisSetupHook s2 i cap) := by
      simp only [SharedPtr.ResetNew, SharedPtr.ResetPtr, e]
    have eN := e0.trans e2
    have holt := lt_of_getElem? ho1
    have hxn : (s1.sps.set i (⟨some s1.blocks.length, some s.objs.length⟩ : SharedPtr))[i]?
        = some ⟨some s1.blocks.length, some s.objs.length⟩ := getElem?_set_self_of hx1
    have hbn : (s1.blocks ++ [(⟨if cap = true then 2 else 1, 1,
        Kind.indirect (some s.objs.length), 0, 0⟩ : Block)])[s1.blocks.length]?
        = some ⟨if cap = true then 2 else 1, 1, Kind.indirect (some s.objs.length), 0, 0⟩ := by
      simp
    refine ⟨s1, _, e, eN, rfl, rfl, rfl, rfl, ?_, ?_,
      Get_eq (s := State.mk _ _ _ _ _) hxn rfl, ?_, ?_, ?_⟩
    · intro o hne
      cases cap with
      | false => simp
      | true => simp only [if_true]; rw [List.getElem?_set]; simp [Ne.symm hne]
    · cases cap with
      | false => simpa using ho1
      | true => simp [List.getElem?_set, holt]
    · exact UseCount_eq (s := State.mk _ _ _ _ _) hxn rfl hbn
    · rw [toBool_eq (s := State.mk _ _ _ _ _) hxn]; rfl
    · intro b blk hxh hb
      obtain ⟨blk1, hb1, hpos, hs, hlast⟩ := hrel b blk hxh hb
      refine ⟨blk1, ?_, hpos, hs, ?_⟩
      · simp only
        rw [List.getElem?_append_left (lt_of_getElem? hb1)]; exact hb1
      · intro h1 o obj hk ho
        have holt2 := lt_of_getElem? ho
        have ho' : (s.newObj cap).objs[o]? = some obj := by
          simp only [State.newObj]
          rw [List.getElem?_append_left holt2]; exact ho
        obtain ⟨hd, obj1, ho2, hd1⟩ := hlast h1 o obj hk ho'
        refine ⟨hd, obj1, ?_, hd1⟩
        have hne : o ≠ s.objs.length := by omega
        cases cap with
        | false => simpa using ho2
        | true => simp only [if_true]; rw [List.getElem?_set]; simp [Ne.symm hne, ho2]

theorem exTwoOwners_run :
    run State.init [Op.spOfNew false, Op.spMakeShared false, Op.wpOfShared 0, Op.wpOfShared 1]
      = some exTwoOwners := rfl

/-- C19: `w.TryLockInto(&target)` on a non-empty target owning a different block `B`
is claimed to release the target's ownership of `B`.  After
`SharedPtr<T> a(new T); auto t = MakeShared<T>(); WeakPtr<T> w(a); WeakPtr<T> wb(t);`
the pointer `t` is the only strong owner of its block; `w.TryLockInto(&t)` returns
`true` and leaves that block with strong count 1 although no `SharedPtr` references
it any more: `wb.UseCount()` is 1, `wb.Expired()` is false, and the object has not
been destroyed.  `Adopt` dropped the handle of `B` without `EndStrong`. -/
theorem c19_retarget_keeps_strong_count :
    run State.init [Op.spOfNew false, Op.spMakeShared false, Op.wpOfShared 0, Op.wpOfShared 1]
      = some exTwoOwners ∧
    WeakPtr.Expired exTwoOwners 0 = some false ∧
    exTwoOwners.sps[1]? = some ⟨some 1, some 1⟩ ∧
    SharedPtr.UseCount exTwoOwners 1 = some 1 ∧ exTwoOwners.cntS 1 = 1 ∧
    WeakPtr.TryLockInto exTwoOwners 0 1 = some (exRetarget, true) ∧
    Reachable exRetarget ∧
    exRetarget.sps[1]? = some ⟨some 0, some 0⟩ ∧
    exRetarget.blocks[1]? = some ⟨1, 1, Kind.inline 1, 0, 0⟩ ∧
    exRetarget.cntS 1 = 0 ∧
    WeakPtr.UseCount exRetarget 1 = some 1 ∧
    WeakPtr.Expired exRetarget 1 = some false ∧
    exRetarget.objs[1]? = some ⟨false, ⟨none, none⟩, 0⟩ :=
  ⟨rfl, rfl, rfl, rfl, rfl, rfl,
    run_Reachable
      [Op.spOfNew false, Op.spMakeShared false, Op.wpOfShared 0, Op.wpOfShared 1,
        Op.wpTryLockInto 0 1] Reachable.init rfl,
    rfl, rfl, rfl, rfl, rfl, rfl⟩

theorem StrongKept.reflK (s : State) : StrongKept s s :=
  fun _ blk hb => ⟨blk, hb, rfl⟩

theorem StrongKept.transK {s s1 s2 : State} (h1 : StrongKept s s1) (h2 : StrongKept s1 s2) :
    StrongKept s s2 := by
  intro b blk hb
  obtain ⟨blk1, hb1, e1⟩ := h1 b blk hb
  obtain ⟨blk2, hb2, e2⟩ := h2 b blk1 hb1
  exact ⟨blk2, hb2, by omega⟩

theorem StrongKept.of_blocks {s t : State} (h : t.blocks = s.blocks) : StrongKept s t :=
  fun _ blk hb => ⟨blk, by rw [h]; exact hb, rfl⟩

theorem StrongKept.of_append {s s1 : State} {l : List Block} (h : s1.blocks = s.blocks ++ l) :
    StrongKept s s1 := by
  intro b blk hb
  refine ⟨blk, ?_, rfl⟩
  rw [h, List.getElem?_append_left (lt_of_getElem? hb)]; exact hb

theorem StrongKept.of_setBlock {s : State} {b : Nat} {blk y : Block}
    (hb : s.blocks[b]? = some blk) (hy : y.strong = blk.strong) :
    StrongKept s (s.setBlock b y) := by
  intro c x hc
  by_cases h : c = b
  · subst h
    rw [hb] at hc; cases hc
    exact ⟨y, getElem?_setBlock_self y hb, hy⟩
  · exact ⟨x, by rw [getElem?_setBlock_ne y h]; exact hc, rfl⟩

theorem DeadKept.reflD (s : State) : DeadKept s s :=
  fun _ blk hb h0 => ⟨blk, hb, h0⟩

theorem DeadKept.transD {s s1 s2 : State} (h1 : DeadKept s s1) (h2 : DeadKept s1 s2) :
    DeadKept s s2 := by
  intro b blk hb h0
  obtain ⟨blk1, hb1, e1⟩ := h1 b blk hb h0
  exact h2 b blk1 hb1 e1

theorem StrongKept.dead {s s1 : State} (h : StrongKept s s1) : DeadKept s s1 := by
  intro b blk hb h0
  obtain ⟨blk1, hb1, e1⟩ := h b blk hb
  exact ⟨blk1, hb1, by omega⟩

theorem HandleBegin_SK {s s1 : State} {b : Nat} (h : Storage.HandleBegin s b = some s1) :
    StrongKept s s1 := by
  simp only [Storage.HandleBegin] at h
  cases hb : s.blocks[b]? with
  | none => simp [hb] at h
  | some blk =>
    simp only [hb] at h
    split at h
    · simp only [Option.some.injEq] at h
      subst h
      exact StrongKept.of_setBlock hb rfl
    · cases h

theorem copy_SK {s s1 : State} {p : Ptr} (h : Handle.copy s p = some s1) :
    StrongKept s s1 := by
  cases p with
  | none => simp only [Handle.copy, Option.some.injEq] at h; subst h; exact StrongKept.reflK _
  | some b => exact HandleBegin_SK h

theorem HandleEnd_SK {s s1 : State} {b : Nat} {f : Bool}
    (h : Storage.HandleEnd s b = some (s1, f)) : StrongKept s s1 := by
  simp only [Storage.HandleEnd] at h
  cases hb : s.blocks[b]? with
  | none => simp [hb] at h
  | some blk =>
    simp only [hb] at h
    split at h
    · simp only [Option.some.injEq, Prod.mk.injEq] at h
      obtain ⟨h1, _⟩ := h
      subst h1
      exact StrongKept.of_setBlock hb rfl
    · cases h

theorem dtorTake_blocks {s s1 : State} {o : Nat} {p : Ptr}
    (h : Obj.dtorTake s o = some (s1, p)) : s1.blocks = s.blocks := by
  simp only [Obj.dtorTake] at h
  cases ho : s.objs[o]? with
  | none => simp [ho] at h
  | some obj =>
    simp only [ho, Option.some.injEq, Prod.mk.injEq] at h
    obtain ⟨h1, _⟩ := h
    subst h1
    rfl

theorem releaseAux_SK (fuel : Nat) {s s1 : State} {p : Ptr}
    (h : Handle.releaseAux fuel s p = some s1) : StrongKept s s1 := by
  induction fuel generalizing s p with
  | zero =>
    cases p with
    | none => simp only [Handle.releaseAux, Option.some.injEq] at h; subst h; exact StrongKept.reflK _
    | some b => simp [Handle.releaseAux] at h
  | succ n ih =>
    cases p with
    | none => simp only [Handle.releaseAux, Option.some.injEq] at h; subst h; exact StrongKept.reflK _
    | some b =>
      simp only [Handle.releaseAux] at h
      cases he : Storage.HandleEnd s b with
      | none => simp [he] at h
      | some r =>
        obtain ⟨sa, f⟩ := r
        have k1 := HandleEnd_SK he
        cases f with
        | false =>
          simp only [he, Option.some.injEq] at h
          subst h; exact k1
        | true =>
          simp only [he] at h
          cases hb : sa.blocks[b]? with
          | none => simp [hb] at h
          | some blk =>
            obtain ⟨bh, bs, bk, bf, bd⟩ := blk
            simp only [hb] at h
            cases bk with
            | inline o =>
              simp only [Option.some.injEq] at h
              subst h
              exact k1.transK (StrongKept.of_setBlock hb rfl)
            | indirect d =>
              cases d with
              | none =>
                simp only [Option.some.injEq] at h
                subst h
                exact k1.transK (StrongKept.of_setBlock hb rfl)
              | some o =>
                simp only at h
                split at h
                · cases h
                · rename_i sb q hd
                  exact ((k1.transK (StrongKept.of_setBlock
                    (y := ⟨bh, bs, Kind.indirect (some o), bf + 1, bd⟩) hb rfl)).transK
                    (StrongKept.of_blocks (dtorTake_blocks hd))).transK (ih h)

theorem release_SK {s s1 : State} {p : Ptr} (h : Handle.release s p = some s1) :
    StrongKept s s1 :=
  releaseAux_SK _ h

theorem setH_SK (s : State) (l : Loc) (p : Ptr) : StrongKept s (s.setH l p) :=
  StrongKept.of_blocks (setH_blocks s l p)

theorem HReset_SK {s s1 : State} {l : Loc} (h : Handle.Reset s l = some s1) :
    StrongKept s s1 := by
  simp only [Handle.Reset] at h
  cases hg : s.getH l with
  | none => simp [hg] at h
  | some p =>
    simp only [hg] at h
    exact (setH_SK s l none).transK (release_SK h)

theorem assignTemp_SK {s s1 : State} {l : Loc} {hv : Ptr}
    (h : Handle.assignTemp s l hv = some s1) : StrongKept s s1 := by
  simp only [Handle.assignTemp] at h
  cases hr : Handle.Reset s l with
  | none => simp [hr] at h
  | some sa =>
    simp only [hr, Option.some.injEq] at h
    subst h
    exact (HReset_SK hr).transK (setH_SK sa l hv)

theorem assignFrom_SK {s s1 : State} {l src : Loc}
    (h : Handle.assignFrom s l src = some s1) : StrongKept s s1 := by
  simp only [Handle.assignFrom] at h
  cases hr : Handle.Reset s l with
  | none => simp [hr] at h
  | some sa =>
    simp only [hr] at h
    cases hg : sa.getH src with
    | none => simp [hg] at h
    | some p =>
      simp only [hg, Option.some.injEq] at h
      subst h
      exact ((HReset_SK hr).transK (setH_SK sa src none)).transK (setH_SK _ l p)

theorem swap_SK {s s1 : State} {a b : Loc} (h : Handle.swap s a b = some s1) :
    StrongKept s s1 := by
  simp only [Handle.swap] at h
  cases hg : s.getH a with
  | none => simp [hg] at h
  | some t =>
    simp only [hg] at h
    cases h1 : Handle.assignFrom (s.setH a none) a b with
    | none => simp [h1] at h
    | some sa =>
      simp only [h1] at h
      cases h2 : Handle.assignTemp sa b t with
      | none => simp [h2] at h
      | some sb =>
        simp only [h2] at h
        exact (((setH_SK s a none).transK (assignFrom_SK h1)).transK (assignTemp_SK h2)).transK
          (release_SK h)

theorem Destroy_SK {s s1 : State} {b : Nat} (h : Storage.Destroy s b = some s1) :
    StrongKept s s1 := by
  simp only [Storage.Destroy] at h
  cases hb : s.blocks[b]? with
  | none => simp [hb] at h
  | some blk =>
    obtain ⟨bh, bs, bk, bf, bd⟩ := blk
    simp only [hb] at h
    have k0 : StrongKept s (s.setBlock b ⟨bh, bs, bk, bf, bd + 1⟩) :=
      StrongKept.of_setBlock hb rfl
    cases bk with
    | inline o =>
      simp only at h
      split at h
      · cases h
      · rename_i sa p hd
        exact (k0.transK (StrongKept.of_blocks (dtorTake_blocks hd))).transK (release_SK h)
    | indirect d =>
      cases d with
      | none =>
        simp only at h
        split at h
        · cases h
        · rename_i blk2 hb2
          simp only [Option.some.injEq] at h
          subst h
          exact k0.transK (StrongKept.of_setBlock hb2 rfl)
      | some o =>
        simp only at h
        split at h
        · cases h
        · rename_i s2 hr
          split at hr
          · cases hr
          · rename_i sa p hd
            split at h
            · cases h
            · rename_i blk2 hb2
              simp only [Option.some.injEq] at h
              subst h
              exact ((k0.transK (StrongKept.of_blocks (dtorTake_blocks hd))).transK
                (release_SK hr)).transK (StrongKept.of_setBlock hb2 rfl)

/-- Behaviour of `BeginStrong`: it is never completed on a block whose strong count is 0. -/
theorem BeginStrong_DK {s s1 : State} {b : Nat} (h : RealStorage.BeginStrong s b = some s1) :
    DeadKept s s1 := by
  obtain ⟨blk, hb, hpos, rfl⟩ := BeginStrong_inv h
  intro c x hc h0
  by_cases hcb : c = b
  · subst hcb
    rw [hb] at hc; cases hc
    omega
  · exact ⟨x, by rw [getElem?_setBlock_ne _ hcb]; exact hc, h0⟩

/-- Behaviour of `EndStrong`: it is never completed on a block whose strong count is 0. -/
theorem EndStrong_DK {s s1 : State} {b : Nat} (h : RealStorage.EndStrong s b = some s1) :
    DeadKept s s1 := by
  simp only [RealStorage.EndStrong] at h
  cases hb : s.blocks[b]? with
  | none => simp [hb] at h
  | some blk =>
    simp only [hb] at h
    split at h
    · rename_i hpos
      have k0 : DeadKept s (s.setBlock b { blk with strong := blk.strong - 1 }) := by
        intro c x hc h0
        by_cases hcb : c = b
        · subst hcb
          rw [hb] at hc; cases hc
          omega
        · exact ⟨x, by rw [getElem?_setBlock_ne _ hcb]; exact hc, h0⟩
      split at h
      · exact k0.transD (Destroy_SK h).dead
      · simp only [Option.some.injEq] at h
        subst h; exact k0
    · cases h

theorem setSpPtr_blocks (s : State) (i : Nat) (p : Ptr) : (s.setSpPtr i p).blocks = s.blocks := by
  simp only [State.setSpPtr]; split <;> rfl

theorem setWpPtr_blocks (s : State) (i : Nat) (p : Ptr) : (s.setWpPtr i p).blocks = s.blocks := by
  simp only [State.setWpPtr]; split <;> rfl

theorem setSpPtr_SK (s : State) (i : Nat) (p : Ptr) : StrongKept s (s.setSpPtr i p) :=
  StrongKept.of_blocks (setSpPtr_blocks s i p)

theorem setWpPtr_SK (s : State) (i : Nat) (p : Ptr) : StrongKept s (s.setWpPtr i p) :=
  StrongKept.of_blocks (setWpPtr_blocks s i p)

theorem StealTemp_SK {s s1 : State} {i : Nat} {hv ptr : Ptr}
    (h : SharedPtr.StealTemp s i hv ptr = some s1) : StrongKept s s1 := by
  simp only [SharedPtr.StealTemp, Option.map_eq_some'] at h
  obtain ⟨sa, h1, rfl⟩ := h
  exact (assignTemp_SK h1).transK (setSpPtr_SK _ _ _)

theorem StealFrom_SK {s s1 : State} {i j : Nat} {ptr : Ptr}
    (h : SharedPtr.StealFrom s i j ptr = some s1) : StrongKept s s1 := by
  simp only [SharedPtr.StealFrom, Option.map_eq_some'] at h
  obtain ⟨sa, h1, rfl⟩ := h
  exact (assignFrom_SK h1).transK (setSpPtr_SK _ _ _)

theorem Initialize_SK {s s1 : State} {o : Nat} {hv ptr : Ptr}
    (h : EnableSharedFromThis.Initialize s o hv ptr = some s1) : StrongKept s s1 := by
  simp only [EnableSharedFromThis.Initialize] at h
  split at h
  · cases h
  · rename_i sa h1
    split at h
    · cases h
    · simp only [Option.some.injEq] at h
      subst h
      exact (assignTemp_SK h1).transK (StrongKept.of_blocks rfl)

theorem hook_SK {s s1 : State} {i : Nat} {c : Bool}
    (h : SharedPtr.SharedFromThisSetupHook s i c = some s1) : StrongKept s s1 := by
  cases c with
  | false =>
    rw [hook_nocap] at h
    simp only [Option.some.injEq] at h; subst h; exact StrongKept.reflK _
  | true =>
    simp only [SharedPtr.SharedFromThisSetupHook, if_true] at h
    split at h
    · cases h
    · split at h
      · cases h
      · split at h
        · cases h
        · split at h
          · cases h
          · rename_i sa h1
            exact (copy_SK h1).transK (Initialize_SK h)

theorem ofRaw_SK {s s1 : State} {ptr : Ptr} {c : Bool}
    (h : SharedPtr.ofRaw s ptr c = some s1) : StrongKept s s1 := by
  simp only [SharedPtr.ofRaw] at h
  split at h
  · cases h
  · rename_i sa h1
    have k0 : StrongKept s (s.pushSp.newIndirect ptr) :=
      StrongKept.of_append (l := [⟨1, 1, Kind.indirect ptr, 0, 0⟩]) rfl
    exact (k0.transK (StealTemp_SK h1)).transK (hook_SK h)

theorem ofNew_SK {s s1 : State} {cap : Bool} (h : SharedPtr.ofNew s cap = some s1) :
    StrongKept s s1 :=
  (StrongKept.of_blocks (t := s.newObj cap) rfl).transK (ofRaw_SK h)

theorem MakeShared_SK {s s1 : State} {cap : Bool} (h : SharedPtr.MakeShared s cap = some s1) :
    StrongKept s s1 := by
  rw [MakeShared_eq] at h
  simp only [Option.some.injEq] at h
  subst h
  exact StrongKept.of_append (l := [⟨if cap = true then 2 else 1, 1, Kind.inline s.objs.length, 0, 0⟩]) rfl

theorem aliasMove_SK {s s1 : State} {j : Nat} {ptr : Ptr}
    (h : SharedPtr.aliasMove s j ptr = some s1) : StrongKept s s1 := by
  simp only [SharedPtr.aliasMove] at h
  split at h
  · cases h
  · exact (StrongKept.of_blocks (t := s.pushSp) rfl).transK (StealFrom_SK h)

theorem move_SK {s s1 : State} {j : Nat} (h : SharedPtr.move s j = some s1) :
    StrongKept s s1 := by
  simp only [SharedPtr.move] at h
  split at h
  · cases h
  · exact aliasMove_SK h

theorem convMove_SK {s s1 : State} {j : Nat} (h : SharedPtr.convMove s j = some s1) :
    StrongKept s s1 := by
  simp only [SharedPtr.convMove] at h
  split at h
  · cases h
  · exact aliasMove_SK h

theorem Swap_SK {s s1 : State} {i j : Nat} (h : SharedPtr.Swap s i j = some s1) :
    StrongKept s s1 := by
  simp only [SharedPtr.Swap] at h
  split at h
  · cases h
  · rename_i sa h1
    split at h
    · simp only [Option.some.injEq] at h
      subst h
      exact ((swap_SK h1).transK (setSpPtr_SK _ _ _)).transK (setSpPtr_SK _ _ _)
    · cases h

theorem WeakPtr_copy_SK {s s1 : State} {j : Nat} (h : WeakPtr.copy s j = some s1) :
    StrongKept s s1 := by
  simp only [WeakPtr.copy] at h
  split at h
  · cases h
  · simp only [Option.map_eq_some'] at h
    obtain ⟨sa, h1, rfl⟩ := h
    exact (copy_SK h1).transK (StrongKept.of_blocks rfl)

theorem WeakPtr_move_SK {s s1 : State} {j : Nat} (h : WeakPtr.move s j = some s1) :
    StrongKept s s1 := by
  simp only [WeakPtr.move] at h
  split at h
  · cases h
  · simp only [Option.some.injEq] at h
    subst h
    exact (setH_SK s (Loc.wp j) none).transK (StrongKept.of_blocks rfl)

theorem WeakPtr_ofShared_SK {s s1 : State} {i : Nat} (h : WeakPtr.ofShared s i = some s1) :
    StrongKept s s1 := by
  simp only [WeakPtr.ofShared] at h
  split at h
  · cases h
  · simp only [Option.map_eq_some'] at h
    obtain ⟨sa, h1, rfl⟩ := h
    exact (copy_SK h1).transK (StrongKept.of_blocks rfl)

theorem WeakPtr_assignCopy_SK {s s1 : State} {i j : Nat}
    (h : WeakPtr.assignCopy s i j = some s1) : StrongKept s s1 := by
  simp only [WeakPtr.assignCopy] at h
  split at h
  · cases h
  · split at h
    · cases h
    · rename_i sa h1
      split at h
      · cases h
      · rename_i sb h2
        simp only [Option.map_eq_some'] at h
        obtain ⟨o2, _, rfl⟩ := h
        exact ((copy_SK h1).transK (assignTemp_SK h2)).transK (setWpPtr_SK _ _ _)

theorem WeakPtr_assignMove_SK {s s1 : State} {i j : Nat}
    (h : WeakPtr.assignMove s i j = some s1) : StrongKept s s1 := by
  simp only [WeakPtr.assignMove] at h
  split at h
  · cases h
  · rename_i sa h1
    simp only [Option.map_eq_some'] at h
    obtain ⟨o2, _, rfl⟩ := h
    exact (assignFrom_SK h1).transK (setWpPtr_SK _ _ _)

theorem WeakPtr_Swap_SK {s s1 : State} {i j : Nat} (h : WeakPtr.Swap s i j = some s1) :
    StrongKept s s1 := by
  simp only [WeakPtr.Swap] at h
  split at h
  · cases h
  · rename_i sa h1
    split at h
    · simp only [Option.some.injEq] at h
      subst h
      exact ((swap_SK h1).transK (setWpPtr_SK _ _ _)).transK (setWpPtr_SK _ _ _)
    · cases h

theorem WeakFromThis_SK {s s1 : State} {o : Nat}
    (h : EnableSharedFromThis.WeakFromThis s o = some s1) : StrongKept s s1 := by
  simp only [EnableSharedFromThis.WeakFromThis] at h
  split at h
  · cases h
  · split at h
    · simp only [Option.map_eq_some'] at h
      obtain ⟨sa, h1, rfl⟩ := h
      exact (copy_SK h1).transK (StrongKept.of_blocks rfl)
    · cases h

/-- Every `WeakPtr` operation other than promotion keeps every strong count. -/
theorem weak_step_SK {s s1 : State} (op : Op) (hw : op.weak = true)
    (h : step s op = some s1) : StrongKept s s1 := by
  cases op with
  | wpDefault =>
    simp only [step, WeakPtr.default, Option.some.injEq] at h
    subst h; exact StrongKept.of_blocks rfl
  | wpCopy j => exact WeakPtr_copy_SK h
  | wpMove j => exact WeakPtr_move_SK h
  | wpOfShared i => exact WeakPtr_ofShared_SK h
  | wpAssignCopy i j => exact WeakPtr_assignCopy_SK h
  | wpAssignMove i j => exact WeakPtr_assignMove_SK h
  | wpReset j => exact assignTemp_SK h
  | wpDtor j => exact HReset_SK h
  | wpSwap i j => exact WeakPtr_Swap_SK h
  | _ => simp [Op.weak] at hw

theorem Adopt_DK {s s1 : State} {i : Nat} {hv ptr : Ptr}
    (h : SharedPtr.Adopt s i hv ptr = some s1) : DeadKept s s1 := by
  simp only [SharedPtr.Adopt] at h
  split at h
  · cases h
  · rename_i sa h1
    simp only [Option.map_eq_some'] at h
    obtain ⟨sb, h2, rfl⟩ := h
    have k1 := (assignTemp_SK h1).dead
    cases hv with
    | none =>
      simp only [Option.some.injEq] at h2
      subst h2
      exact k1.transD (setSpPtr_SK _ _ _).dead
    | some b =>
      exact (k1.transD (BeginStrong_DK h2)).transD (setSpPtr_SK _ _ _).dead

theorem aliasCopy_DK {s s1 : State} {j : Nat} {ptr : Ptr}
    (h : SharedPtr.aliasCopy s j ptr = some s1) : DeadKept s s1 := by
  simp only [SharedPtr.aliasCopy] at h
  split at h
  · cases h
  · split at h
    · cases h
    · rename_i sa h1
      exact ((StrongKept.of_blocks (t := s.pushSp) rfl).transK (copy_SK h1)).dead.transD
        (Adopt_DK h)

theorem copy_DK {s s1 : State} {j : Nat} (h : SharedPtr.copy s j = some s1) :
    DeadKept s s1 := by
  simp only [SharedPtr.copy] at h
  split at h
  · cases h
  · exact aliasCopy_DK h

theorem convCopy_DK {s s1 : State} {j : Nat} (h : SharedPtr.convCopy s j = some s1) :
    DeadKept s s1 := by
  simp only [SharedPtr.convCopy] at h
  split at h
  · cases h
  · exact aliasCopy_DK h

theorem Reset_DK {s s1 : State} {i : Nat} (h : SharedPtr.Reset s i = some s1) :
    DeadKept s s1 := by
  simp only [SharedPtr.Reset] at h
  split at h
  · cases h
  · split at h
    · simp only [Option.some.injEq] at h; subst h; exact DeadKept.reflD _
    · split at h
      · cases h
      · rename_i sa h1
        exact (EndStrong_DK h1).transD (assignTemp_SK h).dead

theorem ofRawConv_DK {s s1 : State} {ptr : Ptr} {c : Bool}
    (h : SharedPtr.ofRawConv s ptr c = some s1) : DeadKept s s1 := by
  simp only [SharedPtr.ofRawConv] at h
  split at h
  · cases h
  · rename_i sa h1
    split at h
    · cases h
    · rename_i sb h2
      exact ((ofRaw_SK h1).transK (convMove_SK h2)).dead.transD (Reset_DK h)

theorem assignCopy_DK {s s1 : State} {i j : Nat} (h : SharedPtr.assignCopy s i j = some s1) :
    DeadKept s s1 := by
  simp only [SharedPtr.assignCopy] at h
  split at h
  · cases h
  · rename_i sa h1
    split at h
    · cases h
    · split at h
      · cases h
      · rename_i sb h2
        exact ((Reset_DK h1).transD (copy_SK h2).dead).transD (Adopt_DK h)

theorem assignMove_DK {s s1 : State} {i j : Nat} (h : SharedPtr.assignMove s i j = some s1) :
    DeadKept s s1 := by
  simp only [SharedPtr.assignMove] at h
  split at h
  · cases h
  · rename_i sa h1
    split at h
    · cases h
    · exact (Reset_DK h1).transD (StealFrom_SK h).dead

theorem ResetPtr_DK {s s1 : State} {i : Nat} {p : Ptr} {c : Bool}
    (h : SharedPtr.ResetPtr s i p c = some s1) : DeadKept s s1 := by
  simp only [SharedPtr.ResetPtr] at h
  split at h
  · cases h
  · rename_i sa h1
    cases p with
    | none => simp only [Option.some.injEq] at h; subst h; exact Reset_DK h1
    | some o =>
      simp only at h
      split at h
      · cases h
      · rename_i sb h2
        have k0 : StrongKept sa (sa.newIndirect (some o)) :=
          StrongKept.of_append (l := [⟨1, 1, Kind.indirect (some o), 0, 0⟩]) rfl
        exact (Reset_DK h1).transD (((k0.transK (StealTemp_SK h2)).transK (hook_SK h)).dead)

theorem tryLockIntoOf_DK {s s1 : State} {w : WeakPtr} {i : Nat} {f : Bool}
    (h : WeakPtr.tryLockIntoOf s w i = some (s1, f)) : DeadKept s s1 := by
  simp only [WeakPtr.tryLockIntoOf] at h
  split at h
  · cases h
  · simp only [Option.some.injEq, Prod.mk.injEq] at h
    obtain ⟨h1, _⟩ := h
    subst h1; exact DeadKept.reflD _
  · split at h
    · cases h
    · rename_i sa h1
      simp only [Option.map_eq_some', Prod.mk.injEq] at h
      obtain ⟨sb, h2, rfl, _⟩ := h
      exact (copy_SK h1).dead.transD (Adopt_DK h2)

theorem ofWeakOf_DK {s s1 : State} {w : WeakPtr} {f : Bool}
    (h : SharedPtr.ofWeakOf s w = some (s1, f)) : DeadKept s s1 := by
  simp only [SharedPtr.ofWeakOf] at h
  have k0 : DeadKept s s.pushSp := (StrongKept.of_blocks rfl).dead
  split at h
  · cases h
  · rename_i sa h1
    simp only [Option.some.injEq, Prod.mk.injEq] at h
    obtain ⟨rfl, _⟩ := h
    exact k0.transD (tryLockIntoOf_DK h1)
  · rename_i sa h1
    simp only [Option.map_eq_some', Prod.mk.injEq] at h
    obtain ⟨sb, h2, rfl, _⟩ := h
    exact (k0.transD (tryLockIntoOf_DK h1)).transD (Reset_DK h2)

/-- No operation changes the strong count of a block whose strong count is 0. -/
theorem step_DK {s s1 : State} (op : Op) (h : step s op = some s1) : DeadKept s s1 := by
  cases op with
  | spDefault =>
    simp only [step, SharedPtr.default, Option.some.injEq] at h
    subst h; exact (StrongKept.of_blocks rfl).dead
  | spOfNew cap => exact (ofNew_SK h).dead
  | spOfNull => exact (ofRaw_SK h).dead
  | spOfNewConv cap =>
    exact (StrongKept.of_blocks (t := s.newObj cap) rfl).dead.transD (ofRawConv_DK h)
  | spMakeShared cap => exact (MakeShared_SK h).dead
  | spCopy j => exact copy_DK h
  | spMove j => exact (move_SK h).dead
  | spAliasCopy j addr => exact aliasCopy_DK h
  | spAliasMove j addr => exact (aliasMove_SK h).dead
  | spConvCopy j => exact convCopy_DK h
  | spConvMove j => exact (convMove_SK h).dead
  | spOfWeak j =>
    simp only [step, Option.map_eq_some'] at h
    obtain ⟨r, h1, rfl⟩ := h
    simp only [SharedPtr.ofWeak] at h1
    split at h1
    · cases h1
    · exact ofWeakOf_DK (f := r.2) h1
  | spAssignCopy i j => exact assignCopy_DK h
  | spAssignMove i j => exact assignMove_DK h
  | spDtor i => exact Reset_DK h
  | spReset i => exact Reset_DK h
  | spResetNew i cap =>
    have h1 : SharedPtr.ResetPtr (s.newObj cap) i (some s.objs.length) cap = some s1 := h
    exact (StrongKept.of_blocks (t := s.newObj cap) rfl).dead.transD (ResetPtr_DK h1)
  | spResetNull i cap =>
    have h1 : SharedPtr.ResetPtr s i none cap = some s1 := h
    exact ResetPtr_DK h1
  | spSwap i j => exact (Swap_SK h).dead
  | wpDefault => exact (weak_step_SK (Op.wpDefault) rfl h).dead
  | wpCopy j => exact (weak_step_SK (Op.wpCopy j) rfl h).dead
  | wpMove j => exact (weak_step_SK (Op.wpMove j) rfl h).dead
  | wpOfShared i => exact (weak_step_SK (Op.wpOfShared i) rfl h).dead
  | wpAssignCopy i j => exact (weak_step_SK (Op.wpAssignCopy i j) rfl h).dead
  | wpAssignMove i j => exact (weak_step_SK (Op.wpAssignMove i j) rfl h).dead
  | wpReset j => exact (weak_step_SK (Op.wpReset j) rfl h).dead
  | wpDtor j => exact (weak_step_SK (Op.wpDtor j) rfl h).dead
  | wpSwap i j => exact (weak_step_SK (Op.wpSwap i j) rfl h).dead
  | wpTryLockInto j i =>
    simp only [step, Option.map_eq_some'] at h
    obtain ⟨r, h1, rfl⟩ := h
    simp only [WeakPtr.TryLockInto] at h1
    split at h1
    · cases h1
    · exact tryLockIntoOf_DK (f := r.2) h1
  | wpLock j =>
    simp only [step, WeakPtr.Lock, Option.map_eq_some'] at h
    obtain ⟨r, h1, rfl⟩ := h
    simp only [WeakPtr.TryLockInto] at h1
    split at h1
    · cases h1
    · exact (StrongKept.of_blocks (t := s.pushSp) rfl).dead.transD
        (tryLockIntoOf_DK (f := r.2) h1)
  | sharedFromThis o =>
    simp only [step, Option.map_eq_some'] at h
    obtain ⟨r, h1, rfl⟩ := h
    simp only [EnableSharedFromThis.SharedFromThis] at h1
    split at h1
    · cases h1
    · split at h1
      · exact ofWeakOf_DK (f := r.2) h1
      · cases h1
  | weakFromThis o => exact (WeakFromThis_SK h).dead

theorem run_DK {s s1 : State} (ops : List Op) (h : run s ops = some s1) : DeadKept s s1 := by
  induction ops generalizing s with
  | nil => simp only [run, Option.some.injEq] at h; subst h; exact DeadKept.reflD _
  | cons op ops ih =>
    simp only [run] at h
    split at h
    · cases h
    · rename_i sa h1
      exact (step_DK op h1).transD (ih h)

theorem setH_sps_length (s : State) (l : Loc) (p : Ptr) :
    (s.setH l p).sps.length = s.sps.length := by
  cases l <;> simp only [State.setH] <;> split <;>
    simp [State.setSp, State.setWp, State.setObj]

theorem setH_wps_length (s : State) (l : Loc) (p : Ptr) :
    (s.setH l p).wps.length = s.wps.length := by
  cases l <;> simp only [State.setH] <;> split <;>
    simp [State.setSp, State.setWp, State.setObj]

theorem getH_of_sp {s : State} {i : Nat} (h : i < s.sps.length) :
    ∃ q : Ptr, s.getH (Loc.sp i) = some q := by
  obtain ⟨x, hx⟩ := getElem?_of_lt h
  exact ⟨x.handle, by simp [State.getH, hx]⟩

theorem getH_of_wp {s : State} {j : Nat} (h : j < s.wps.length) :
    ∃ q : Ptr, s.getH (Loc.wp j) = some q := by
  obtain ⟨x, hx⟩ := getElem?_of_lt h
  exact ⟨x.handle, by simp [State.getH, hx]⟩

theorem getH_setH_some {s : State} {l l1 : Loc} {q : Ptr} (hg : s.getH l1 = some q) (p : Ptr) :
    ∃ q1 : Ptr, (s.setH l p).getH l1 = some q1 := by
  by_cases h : l = l1
  · subst h; exact ⟨p, getH_setH_self hg p⟩
  · exact ⟨q, by rw [getH_setH_ne h]; exact hg⟩

/-- Behaviour of `Handle::operator=(Handle&&)` into an empty handle: it returns. -/
theorem assignFrom_empty_total {s : State} {l src : Loc} {q : Ptr}
    (hg : s.getH l = some none) (hs : s.getH src = some q) :
    ∃ s1 : State, Handle.assignFrom s l src = some s1 ∧
      s1.sps.length = s.sps.length ∧ s1.wps.length = s.wps.length ∧
      (∃ q1 : Ptr, s1.getH l = some q1) ∧
      (l = src → s1.getH l = some none) ∧ (l ≠ src → s1.getH src = some none) := by
  obtain ⟨q1, h1⟩ := getH_setH_some hs (l := l) none
  have hgl : ((s.setH l none).setH src none).getH l = some (if l = src then none else none) := by
    by_cases h : l = src
    · subst h; simp only [if_true]; exact getH_setH_self (getH_setH_self hg none) none
    · simp only [h, if_false]; rw [getH_setH_ne (Ne.symm h)]; exact getH_setH_self hg none
  simp only [ite_self] at hgl
  refine ⟨((s.setH l none).setH src none).setH l q1,
    by simp only [Handle.assignFrom, Reset_empty hg, h1], ?_, ?_, ?_, ?_, ?_⟩
  · simp only [setH_sps_length]
  · simp only [setH_wps_length]
  · exact ⟨q1, getH_setH_self hgl q1⟩
  · intro h
    subst h
    rw [getH_setH_self hg none] at h1
    cases h1
    exact getH_setH_self hgl none
  · intro h
    rw [getH_setH_ne h]
    exact getH_setH_self h1 none

/-- Behaviour of `std::swap` on two handles that exist: it returns, and only handles move. -/
theorem swap_total {s : State} {a b : Loc} {t u : Ptr} (ha : s.getH a = some t)
    (hb : s.getH b = some u) :
    ∃ s1 : State, Handle.swap s a b = some s1 ∧ s1.sps.length = s.sps.length ∧
      s1.wps.length = s.wps.length := by
  have hga : (s.setH a none).getH a = some none := getH_setH_self ha none
  obtain ⟨u1, hgb⟩ := getH_setH_some hb (l := a) none
  obtain ⟨s1, e1, l1, l2, _, h5, h6⟩ := assignFrom_empty_total hga hgb
  have hgb1 : s1.getH b = some none := by
    by_cases h : a = b
    · subst h; exact h5 rfl
    · exact h6 h
  refine ⟨(s1.setH b none).setH b t, ?_, ?_, ?_⟩
  · simp only [Handle.swap, ha, e1, Handle.assignTemp, Reset_empty hgb1, release_none]
  · simp only [setH_sps_length, l1]
  · simp only [setH_wps_length, l2]

theorem aliasCopy_total {s : State} {j : Nat} {x : SharedPtr} (hI : Inv s)
    (hj : s.sps[j]? = some x) (ptr : Ptr) :
    ∃ s1 : State, SharedPtr.aliasCopy s j ptr = some s1 := by
  cases hxh : x.handle with
  | none => exact ⟨_, aliasCopy_none hj hxh ptr⟩
  | some b =>
    obtain ⟨blk, hb, hs, _, _, hh, _⟩ := hI.sp_block hj hxh
    exact ⟨_, aliasCopy_some hj hxh hb (by omega) (by omega) ptr⟩

/-- Copying a handle and adopting the copy returns whenever the handle is empty or
references a live block. -/
theorem copy_Adopt_total {s : State} {i : Nat} {x : SharedPtr} {p : Ptr} (hI : Inv s)
    (hx : s.sps[i]? = some x) (ptr : Ptr)
    (hp : ∀ b : Nat, p = some b →
      ∃ blk : Block, s.blocks[b]? = some blk ∧ 0 < blk.handles ∧ 0 < blk.strong) :
    ∃ sa s1 : State, Handle.copy s p = some sa ∧ SharedPtr.Adopt sa i p ptr = some s1 := by
  cases p with
  | none =>
    have w1 : WF s [none] none := hI.1.addNone
    have hg : s.getH (Loc.sp i) = some x.handle := by simp [State.getH, hx]
    obtain ⟨s1, h1⟩ := Adopt_total (m := ptr) w1 hI.2 hg (fun c blk hc _ => by cases hc)
    exact ⟨s, s1, rfl, h1⟩
  | some b =>
    obtain ⟨blk, hb, hh, hs⟩ := hp b rfl
    have hc := copy_eq hb hh
    have wa := copy_WF (T := []) hc hI.1
    have aa := copy_Alive hc hI.2
    have hg : (s.setBlock b { blk with handles := blk.handles + 1 }).getH (Loc.sp i)
        = some x.handle := by
      simp [State.getH, hx]
    obtain ⟨s1, h1⟩ := Adopt_total (m := ptr) wa aa hg (fun c blk1 hc1 hb1 => by
      cases hc1
      rw [getElem?_setBlock_self _ hb] at hb1
      cases hb1
      exact hs)
    exact ⟨_, s1, hc, h1⟩

theorem assignCopy_total {s : State} {i j : Nat} (hI : Inv s) (hi : i < s.sps.length)
    (hj : j < s.sps.length) : ∃ s1 : State, SharedPtr.assignCopy s i j = some s1 := by
  obtain ⟨x, hx⟩ := getElem?_of_lt hi
  obtain ⟨sa, e, hIa, _, hsp, _, _⟩ := Reset_facts hI hx
  have hja : j < sa.sps.length := by rw [hsp]; simpa using hj
  obtain ⟨other, ho⟩ := getElem?_of_lt hja
  have hxa : sa.sps[i]? = some ⟨none, x.ptr⟩ := by rw [hsp]; exact getElem?_set_self_of hx
  obtain ⟨sb, s1, e1, e2⟩ := copy_Adopt_total (p := other.handle) hIa hxa other.ptr
    (fun b hb => by
      obtain ⟨blk, h1, h2, _, _, h5, _⟩ := hIa.sp_block ho hb
      exact ⟨blk, h1, by omega, by omega⟩)
  exact ⟨s1, by simp only [SharedPtr.assignCopy, e, ho, e1, e2]⟩

theorem assignMove_total {s : State} {i j : Nat} (hI : Inv s) (hi : i < s.sps.length)
    (hj : j < s.sps.length) : ∃ s1 : State, SharedPtr.assignMove s i j = some s1 := by
  obtain ⟨x, hx⟩ := getElem?_of_lt hi
  obtain ⟨sa, e, hIa, _, hsp, _, _⟩ := Reset_facts hI hx
  have hja : j < sa.sps.length := by rw [hsp]; simpa using hj
  obtain ⟨other, ho⟩ := getElem?_of_lt hja
  have hxa : sa.sps[i]? = some ⟨none, x.ptr⟩ := by rw [hsp]; exact getElem?_set_self_of hx
  have hg : sa.getH (Loc.sp i) = some none := by simp [State.getH, hxa]
  have hgs : sa.getH (Loc.sp j) = some other.handle := by simp [State.getH, ho]
  obtain ⟨sb, e1, _⟩ := assignFrom_empty_total hg hgs
  exact ⟨sb.setSpPtr i other.ptr,
    by simp only [SharedPtr.assignMove, e, ho, SharedPtr.StealFrom, e1, Option.map_some']⟩

theorem ofRaw_null_total (s : State) :
    ∃ s1 : State, SharedPtr.ofRaw s none false = some s1 := by
  have h1 : (s.pushSp.newIndirect none).sps[s.sps.length]? = some ⟨none, none⟩ := by
    simp [State.pushSp, State.newIndirect]
  have e1 := StealTemp_empty h1 rfl (some s.blocks.length) none
  exact ⟨_, by simp only [SharedPtr.ofRaw, e1]; exact hook_nocap _ _⟩

theorem ofRawConv_total (s : State) (cap : Bool) :
    ∃ s1 : State, SharedPtr.ofRawConv (s.newObj cap) (some s.objs.length) cap = some s1 := by
  obtain ⟨t, ht, hn⟩ : ∃ t : State,
      SharedPtr.ofRaw (s.newObj cap) (some s.objs.length) cap = some t ∧
      t.sps[s.sps.length]? = some ⟨some s.blocks.length, some s.objs.length⟩ :=
    ⟨_, ofNew_eq s cap, by simp⟩
  have hlt := lt_of_getElem? hn
  obtain ⟨u, hu, hul⟩ : ∃ u : State,
      SharedPtr.aliasMove t s.sps.length (some s.objs.length) = some u ∧
      u.sps[s.sps.length]? = some ⟨none, some s.objs.length⟩ := by
    refine ⟨_, aliasMove_eq hn (some s.objs.length), ?_⟩
    simp only
    rw [List.getElem?_append_left (by rw [List.length_set]; exact hlt)]
    exact getElem?_set_self_of hn
  have hsl : (s.newObj cap).sps.length = s.sps.length := rfl
  refine ⟨u, ?_⟩
  simp only [SharedPtr.ofRawConv, ht, hsl, SharedPtr.convMove, Get_eq hn rfl, hu,
    SharedPtr.dtor, SharedPtr.Reset, hul]

theorem ResetNew_total {s : State} {i : Nat} (hI : Inv s) (hi : i < s.sps.length)
    (cap : Bool) : ∃ s1 : State, SharedPtr.ResetNew s i cap = some s1 := by
  obtain ⟨x, hx⟩ := getElem?_of_lt hi
  have hI1 := hI.newObj cap
  have hx0 : (s.newObj cap).sps[i]? = some x := hx
  obtain ⟨s1, e, hI2, f1, hsp, hwp, hrel⟩ := Reset_facts hI1 hx0
  have hx1 : s1.sps[i]? = some ⟨none, x.ptr⟩ := by
    rw [hsp]; exact getElem?_set_self_of hx0
  have ho0 : (s.newObj cap).objs[s.objs.length]? = some ⟨cap, ⟨none, none⟩, 0⟩ := by
    simp [State.newObj]
  have ho1 : s1.objs[s.objs.length]? = some ⟨cap, ⟨none, none⟩, 0⟩ := by
    obtain ⟨obj1, h1, _, _, _, h5⟩ := f1.obj _ _ ho0
    have := h5 (fun c blk _ hc hk => by
      have hc' : s.blocks[c]? = some blk := hc
      have := hI.1.own c blk _ hc' hk
      omega)
    rw [this] at h1; exact h1
  have e2 := rebind_eq cap hx1 rfl ho1 rfl
  have e0 : SharedPtr.ResetNew s i cap
      = (match SharedPtr.StealTemp (s1.newIndirect (some s.objs.length)) i
          (some s1.blocks.length) (some s.objs.length) with
        | none => none
        | some s2 => SharedPtr.SharedFromThisSetupHook s2 i cap) := by
    simp only [SharedPtr.ResetNew, SharedPtr.ResetPtr, e]
  exact ⟨_, e0.trans e2⟩

theorem ofWeakOf_total {s : State} {w : WeakPtr}
    (hv : ∀ b : Nat, w.handle = some b →
      ∃ blk : Block, s.blocks[b]? = some blk ∧ 0 < blk.handles) :
    ∃ r : State × Bool, SharedPtr.ofWeakOf s w = some r := by
  cases hwh : w.handle with
  | none => exact ⟨_, ofWeakOf_expired (expiredOf_none hwh)⟩
  | some b =>
    obtain ⟨blk, hb, hh⟩ := hv b hwh
    by_cases h0 : blk.strong = 0
    · have he : WeakPtr.expiredOf s w = some true := by
        rw [expiredOf_some hwh hb]; simp [h0]
      exact ⟨_, ofWeakOf_expired he⟩
    · exact ⟨_, ofWeakOf_live hwh hb hh (Nat.pos_of_ne_zero h0)⟩

theorem wp_handle_valid {s : State} {j : Nat} {w : WeakPtr} (hI : Inv s)
    (hw : s.wps[j]? = some w) :
    ∀ b : Nat, w.handle = some b →
      ∃ blk : Block, s.blocks[b]? = some blk ∧ 0 < blk.handles := by
  intro b hwh
  obtain ⟨blk, hb, hh, _⟩ := hI.wp_block hw hwh
  exact ⟨blk, hb, hh⟩

theorem me_handle_valid {s : State} {o : Nat} {obj : Obj} (hI : Inv s)
    (ho : s.objs[o]? = some obj) :
    ∀ b : Nat, obj.me.handle = some b →
      ∃ blk : Block, s.blocks[b]? = some blk ∧ 0 < blk.handles := by
  intro b hm
  obtain ⟨blk, hb, _⟩ := hI.1.meO o obj b ho hm
  have h1 := cntM_pos ho hm
  have h2 := hI.1.hEq b blk hb
  simp only [State.refs, List.count_nil] at h2
  exact ⟨blk, hb, by omega⟩

theorem copy_total {s : State} {p : Ptr}
    (hv : ∀ b : Nat, p = some b → ∃ blk : Block, s.blocks[b]? = some blk ∧ 0 < blk.handles) :
    ∃ s1 : State, Handle.copy s p = some s1 := by
  cases p with
  | none => exact ⟨s, rfl⟩
  | some b =>
    obtain ⟨blk, hb, hh⟩ := hv b rfl
    exact ⟨_, copy_eq hb hh⟩

/-- Behaviour of `Handle::Reset` at a `WeakPtr` of a well-formed state: it returns. -/
theorem HReset_wp_total {s : State} {j : Nat} (hI : Inv s) (hj : j < s.wps.length) :
    ∃ (s1 : State) (q : Ptr), Handle.Reset s (Loc.wp j) = some s1 ∧
      RelFrame (s.setH (Loc.wp j) none) s1 q ∧ s1.getH (Loc.wp j) = some none := by
  obtain ⟨q, hg⟩ := getH_of_wp hj
  obtain ⟨s1, e, _, _, f1, g1⟩ := Reset_spec (z := none) hI.1 hI.2 hg
    (fun c blk hc1 => by
      have := hI.1.sGe c blk hc1
      omega)
  exact ⟨s1, q, e, f1, g1⟩

theorem WeakPtr_assignCopy_total {s : State} {i j : Nat} (hI : Inv s)
    (hi : i < s.wps.length) (hj : j < s.wps.length) :
    ∃ s1 : State, WeakPtr.assignCopy s i j = some s1 := by
  obtain ⟨other, ho⟩ := getElem?_of_lt hj
  obtain ⟨sa, hc⟩ := copy_total (wp_handle_valid hI ho)
  obtain ⟨_, hwps, _⟩ := copy_frame hc
  have hia : i < sa.wps.length := by rw [hwps]; exact hi
  obtain ⟨q, hg⟩ := getH_of_wp hia
  obtain ⟨s0, _, f0, e, _, _⟩ := assignTemp_spec (z := none) (copy_WF hc hI.1)
    (copy_Alive hc hI.2) hg
    (fun c blk hc1 => by
      have := (copy_WF hc hI.1).sGe c blk hc1
      simp only [sCnt] at this ⊢
      omega)
    (fun o c hl _ => by cases hl)
  have hl : (s0.setH (Loc.wp i) other.handle).wps.length = s.wps.length := by
    rw [setH_wps_length, f0.wps, setH_wps_length, hwps]
  obtain ⟨o2, ho2⟩ := getElem?_of_lt (show j < (s0.setH (Loc.wp i) other.handle).wps.length by
    rw [hl]; exact hj)
  exact ⟨(s0.setH (Loc.wp i) other.handle).setWpPtr i o2.ptr,
    by simp only [WeakPtr.assignCopy, ho, hc, e, ho2, Option.map_some']⟩

theorem WeakPtr_assignMove_total {s : State} {i j : Nat} (hI : Inv s)
    (hi : i < s.wps.length) (hj : j < s.wps.length) :
    ∃ s1 : State, WeakPtr.assignMove s i j = some s1 := by
  obtain ⟨s1, q, e, f1, g1⟩ := HReset_wp_total hI hi
  obtain ⟨u, hu⟩ := getH_of_wp hj
  obtain ⟨u1, hu1⟩ := getH_setH_some hu (l := Loc.wp i) none
  have hg1 := f1.getH (Loc.wp j) hu1
  have hl : ((s1.setH (Loc.wp j) none).setH (Loc.wp i) u1).wps.length = s.wps.length := by
    rw [setH_wps_length, setH_wps_length, f1.wps, setH_wps_length]
  obtain ⟨o2, ho2⟩ := getElem?_of_lt
    (show j < ((s1.setH (Loc.wp j) none).setH (Loc.wp i) u1).wps.length by rw [hl]; exact hj)
  exact ⟨((s1.setH (Loc.wp j) none).setH (Loc.wp i) u1).setWpPtr i o2.ptr,
    by simp only [WeakPtr.assignMove, Handle.assignFrom, e, hg1, ho2, Option.map_some']⟩

theorem WeakPtr_Reset_total {s : State} {j : Nat} (hI : Inv s) (hj : j < s.wps.length) :
    ∃ s1 : State, WeakPtr.Reset s j = some s1 := by
  obtain ⟨s1, q, e, _, _⟩ := HReset_wp_total hI hj
  exact ⟨s1.setH (Loc.wp j) none, by simp only [WeakPtr.Reset, Handle.assignTemp, e]⟩

theorem WeakPtr_Swap_total {s : State} {i j : Nat} (hi : i < s.wps.length)
    (hj : j < s.wps.length) : ∃ s1 : State, WeakPtr.Swap s i j = some s1 := by
  obtain ⟨t, ht⟩ := getH_of_wp hi
  obtain ⟨u, hu⟩ := getH_of_wp hj
  obtain ⟨s1, e, _, hl⟩ := swap_total ht hu
  obtain ⟨x, hx⟩ := getElem?_of_lt (show i < s1.wps.length by rw [hl]; exact hi)
  obtain ⟨y, hy⟩ := getElem?_of_lt (show j < s1.wps.length by rw [hl]; exact hj)
  exact ⟨(s1.setWpPtr i y.ptr).setWpPtr j x.ptr, by simp only [WeakPtr.Swap, e, hx, hy]⟩

/-- Progress: in a well-formed state every operation on existing variables (and every
`SharedFromThis` / `WeakFromThis` on a live object that has the capability) returns:
no assertion fails and the destruction cascade does not run out of fuel. -/
theorem step_total {s : State} (hI : Inv s) (op : Op) (hv : op.valid s = true) :
    ∃ s1 : State, step s op = some s1 := by
  cases op with
  | spDefault => exact ⟨_, rfl⟩
  | spOfNew cap => exact ⟨_, ofNew_eq s cap⟩
  | spOfNull cap =>
    simp only [Op.valid, Bool.not_eq_true'] at hv
    subst hv
    exact ofRaw_null_total s
  | spOfNewConv cap => exact ofRawConv_total s cap
  | spMakeShared cap => exact ⟨_, MakeShared_eq s cap⟩
  | spCopy j =>
    simp only [Op.valid, decide_eq_true_eq] at hv
    obtain ⟨x, hx⟩ := getElem?_of_lt hv
    obtain ⟨s1, e⟩ := aliasCopy_total hI hx x.ptr
    exact ⟨s1, by simp only [step, SharedPtr.copy, hx, e]⟩
  | spMove j =>
    simp only [Op.valid, decide_eq_true_eq] at hv
    obtain ⟨x, hx⟩ := getElem?_of_lt hv
    exact ⟨_, by simp only [step, SharedPtr.move, hx]; exact aliasMove_eq hx x.ptr⟩
  | spAliasCopy j addr =>
    simp only [Op.valid, decide_eq_true_eq] at hv
    obtain ⟨x, hx⟩ := getElem?_of_lt hv
    exact aliasCopy_total hI hx addr
  | spAliasMove j addr =>
    simp only [Op.valid, decide_eq_true_eq] at hv
    obtain ⟨x, hx⟩ := getElem?_of_lt hv
    exact ⟨_, aliasMove_eq hx addr⟩
  | spConvCopy j =>
    simp only [Op.valid, decide_eq_true_eq] at hv
    obtain ⟨x, hx⟩ := getElem?_of_lt hv
    obtain ⟨s1, e⟩ := aliasCopy_total hI hx (match x.handle with | none => none | some _ => x.ptr)
    exact ⟨s1, by simp only [step, SharedPtr.convCopy, SharedPtr.Get, hx, Option.map_some']; exact e⟩
  | spConvMove j =>
    simp only [Op.valid, decide_eq_true_eq] at hv
    obtain ⟨x, hx⟩ := getElem?_of_lt hv
    exact ⟨_, by
      simp only [step, SharedPtr.convMove, SharedPtr.Get, hx, Option.map_some']
      exact aliasMove_eq hx _⟩
  | spOfWeak j =>
    simp only [Op.valid, decide_eq_true_eq] at hv
    obtain ⟨w, hw⟩ := getElem?_of_lt hv
    obtain ⟨r, e⟩ := ofWeakOf_total (wp_handle_valid hI hw)
    exact ⟨r.1, by simp only [step, SharedPtr.ofWeak, hw, e, Option.map_some']⟩
  | spAssignCopy i j =>
    simp only [Op.valid, Bool.and_eq_true, decide_eq_true_eq] at hv
    exact assignCopy_total hI hv.1 hv.2
  | spAssignMove i j =>
    simp only [Op.valid, Bool.and_eq_true, decide_eq_true_eq] at hv
    exact assignMove_total hI hv.1 hv.2
  | spDtor i =>
    simp only [Op.valid, decide_eq_true_eq] at hv
    obtain ⟨x, hx⟩ := getElem?_of_lt hv
    obtain ⟨s1, e, _⟩ := Reset_facts hI hx
    exact ⟨s1, e⟩
  | spReset i =>
    simp only [Op.valid, decide_eq_true_eq] at hv
    obtain ⟨x, hx⟩ := getElem?_of_lt hv
    obtain ⟨s1, e, _⟩ := Reset_facts hI hx
    exact ⟨s1, e⟩
  | spResetNew i cap =>
    simp only [Op.valid, decide_eq_true_eq] at hv
    exact ResetNew_total hI hv cap
  | spResetNull i =>
    simp only [Op.valid, decide_eq_true_eq] at hv
    obtain ⟨x, hx⟩ := getElem?_of_lt hv
    obtain ⟨s1, e, _⟩ := Reset_facts hI hx
    exact ⟨s1, by simp only [step, SharedPtr.ResetPtr, e]⟩
  | spSwap i j =>
    simp only [Op.valid, Bool.and_eq_true, decide_eq_true_eq] at hv
    obtain ⟨x, hx⟩ := getElem?_of_lt hv.1
    obtain ⟨y, hy⟩ := getElem?_of_lt hv.2
    exact ⟨_, Swap_eq hx hy⟩
  | wpDefault => exact ⟨_, rfl⟩
  | wpCopy j =>
    simp only [Op.valid, decide_eq_true_eq] at hv
    obtain ⟨w, hw⟩ := getElem?_of_lt hv
    obtain ⟨sa, e⟩ := copy_total (wp_handle_valid hI hw)
    exact ⟨{ sa with wps := sa.wps ++ [w] },
      by simp only [step, WeakPtr.copy, hw, e, Option.map_some']⟩
  | wpMove j =>
    simp only [Op.valid, decide_eq_true_eq] at hv
    obtain ⟨w, hw⟩ := getElem?_of_lt hv
    exact ⟨_, by simp only [step, WeakPtr.move, hw]; rfl⟩
  | wpOfShared i =>
    simp only [Op.valid, decide_eq_true_eq] at hv
    obtain ⟨x, hx⟩ := getElem?_of_lt hv
    obtain ⟨sa, e⟩ := copy_total (p := x.handle) (fun b hb => by
      obtain ⟨blk, h1, _, _, _, h5, _⟩ := hI.sp_block hx hb
      exact ⟨blk, h1, by omega⟩)
    exact ⟨{ sa with wps := sa.wps ++ [⟨x.handle, x.ptr⟩] },
      by simp only [step, WeakPtr.ofShared, hx, e, Option.map_some']⟩
  | wpAssignCopy i j =>
    simp only [Op.valid, Bool.and_eq_true, decide_eq_true_eq] at hv
    exact WeakPtr_assignCopy_total hI hv.1 hv.2
  | wpAssignMove i j =>
    simp only [Op.valid, Bool.and_eq_true, decide_eq_true_eq] at hv
    exact WeakPtr_assignMove_total hI hv.1 hv.2
  | wpReset j =>
    simp only [Op.valid, decide_eq_true_eq] at hv
    exact WeakPtr_Reset_total hI hv
  | wpDtor j =>
    simp only [Op.valid, decide_eq_true_eq] at hv
    obtain ⟨s1, q, e, _, _⟩ := HReset_wp_total hI hv
    exact ⟨s1, e⟩
  | wpSwap i j =>
    simp only [Op.valid, Bool.and_eq_true, decide_eq_true_eq] at hv
    exact WeakPtr_Swap_total hv.1 hv.2
  | wpTryLockInto j i =>
    simp only [Op.valid, Bool.and_eq_true, decide_eq_true_eq] at hv
    obtain ⟨w, hw⟩ := getElem?_of_lt hv.1
    obtain ⟨x, hx⟩ := getElem?_of_lt hv.2
    obtain ⟨e, s1, _, h1, _⟩ := tryLockIntoOf_total (i := i) hI hx (wp_handle_valid hI hw)
    exact ⟨s1, by simp only [step, WeakPtr.TryLockInto, hw, h1, Option.map_some']⟩
  | wpLock j =>
    simp only [Op.valid, decide_eq_true_eq] at hv
    obtain ⟨w, hw⟩ := getElem?_of_lt hv
    have hw1 : s.pushSp.wps[j]? = some w := hw
    obtain ⟨e, s1, _, h1, _⟩ := tryLockIntoOf_total (i := s.sps.length) hI.pushSpI
      (getElem?_pushSp_new s) (wp_handle_valid hI.pushSpI hw1)
    exact ⟨s1, by simp only [step, WeakPtr.Lock, WeakPtr.TryLockInto, hw1, h1, Option.map_some']⟩
  | sharedFromThis o =>
    simp only [Op.valid] at hv
    cases ho : s.objs[o]? with
    | none => simp [ho] at hv
    | some obj =>
      simp only [ho, Bool.and_eq_true, decide_eq_true_eq] at hv
      obtain ⟨r, e⟩ := ofWeakOf_total (me_handle_valid hI ho)
      exact ⟨r.1, by
        simp only [step, EnableSharedFromThis.SharedFromThis, ho, hv.1, hv.2, and_self, if_true,
          e, Option.map_some']⟩
  | weakFromThis o =>
    simp only [Op.valid] at hv
    cases ho : s.objs[o]? with
    | none => simp [ho] at hv
    | some obj =>
      simp only [ho, Bool.and_eq_true, decide_eq_true_eq] at hv
      obtain ⟨sa, e⟩ := copy_total (me_handle_valid hI ho)
      exact ⟨{ sa with wps := sa.wps ++ [obj.me] }, by
        simp only [step, EnableSharedFromThis.WeakFromThis, ho, hv.1, hv.2, and_self, if_true,
          e, Option.map_some']⟩

theorem exExpired_run :
    run State.init [Op.spMakeShared false, Op.wpOfShared 0, Op.spReset 0] = some exExpired :=
  rfl

theorem exExpired_Reachable : Reachable exExpired :=
  run_Reachable [Op.spMakeShared false, Op.wpOfShared 0, Op.spReset 0] Reachable.init rfl

/-- C13: every `WeakPtr` operation other than promotion (construction from a
`SharedPtr`, copy and move construction, copy and move assignment, also of a pointer
to itself, `Reset`, `Swap`, destruction; `Expired` and `UseCount` are pure observers)
returns in every reachable state and leaves the strong count of every control block
unchanged.  It can however destroy a managed object: after
`SharedPtr<T> s(new T); WeakPtr<T> w(s); w.TryLockInto(&s); s.Reset();` the block has
strong count 1 with `w` holding the only handle, `Destroy` has not run, and `w.Reset()`
deletes the block, whose destructor deletes the object. -/
theorem c13_weak_operations_keep_strong_count :
    (∀ (s : State) (op : Op), Reachable s → op.weak = true → op.valid s = true →
      ∃ s1 : State, step s op = some s1 ∧ StrongKept s s1) ∧
    run State.init [Op.spOfNew false, Op.wpOfShared 0, Op.wpTryLockInto 0 0, Op.spReset 0]
      = some exLeak ∧
    exLeak.blocks[0]? = some ⟨1, 1, Kind.indirect (some 0), 0, 0⟩ ∧
    exLeak.objs[0]? = some ⟨false, ⟨none, none⟩, 0⟩ ∧
    (Op.wpReset 0).weak = true ∧ (Op.wpReset 0).valid exLeak = true ∧
    step exLeak (Op.wpReset 0) = some exLeakReleased ∧
    step exLeak (Op.wpDtor 0) = some exLeakReleased ∧
    exLeakReleased.blocks[0]? = some ⟨0, 1, Kind.indirect (some 0), 1, 0⟩ ∧
    exLeakReleased.objs[0]? = some ⟨false, ⟨none, none⟩, 1⟩ :=
  ⟨fun s op h hw hv => by
      obtain ⟨s1, e⟩ := step_total (reachable_Inv h) op hv
      exact ⟨s1, e, weak_step_SK op hw e⟩,
    rfl, rfl, rfl, rfl, rfl, rfl, rfl, rfl, rfl⟩

theorem c13_weak_operations_keep_strong_count_witness :
    ∃ s1 : State, step exWeak (Op.wpCopy 0) = some s1 ∧ StrongKept exWeak s1 :=
  c13_weak_operations_keep_strong_count.1 exWeak (Op.wpCopy 0)
    (run_Reachable [Op.spOfNew false, Op.wpOfShared 0] Reachable.init rfl) rfl rfl

/-- C17: a control block of a reachable state whose strong count is 0 (`Alive()` is
false) keeps strong count 0 through every program of public operations, so `Alive()`
stays false, and `BeginStrong` and `EndStrong` are not completed on it.  In every
state the program reaches, every operation that meets the client's obligations
(`Op.valid`: the variables it names exist, `SharedFromThis` / `WeakFromThis` act on a
live object of a type with the capability, and no null `T*` is given to
`explicit SharedPtr(T*)` for such a type) returns, so no `strong_ > 0` assertion of
`BeginStrong` or `EndStrong` fails. -/
theorem c17_dead_block_stays_dead (s : State) (b : Nat) (blk : Block) (ops : List Op)
    (s1 : State) (h : Reachable s) (hb : s.blocks[b]? = some blk) (hs : blk.strong = 0)
    (hr : run s ops = some s1) :
    RealStorage.Alive s b = some false ∧
    RealStorage.Alive s1 b = some false ∧
    RealStorage.StrongCount s1 b = some 0 ∧
    RealStorage.BeginStrong s1 b = none ∧ RealStorage.EndStrong s1 b = none ∧
    ∀ op : Op, op.valid s1 = true → ∃ s2 : State, step s1 op = some s2 := by
  obtain ⟨blk1, hb1, hs1⟩ := run_DK ops hr b blk hb hs
  refine ⟨by simp [RealStorage.Alive, hb, hs], by simp [RealStorage.Alive, hb1, hs1],
    by simp [RealStorage.StrongCount, hb1, hs1], by simp [RealStorage.BeginStrong, hb1, hs1],
    by simp [RealStorage.EndStrong, hb1, hs1], ?_⟩
  intro op hv
  exact step_total (reachable_Inv (run_Reachable ops h hr)) op hv

theorem c17_dead_block_stays_dead_witness :
    Reachable exExpired ∧ exExpired.blocks[0]? = some ⟨1, 0, Kind.inline 0, 0, 1⟩ ∧
    run exExpired [Op.wpLock 0, Op.spCopy 0, Op.wpCopy 0, Op.spResetNew 0 false]
      = some exExpiredLater ∧
    (RealStorage.Alive exExpired 0 = some false ∧
      RealStorage.Alive exExpiredLater 0 = some false ∧
      RealStorage.StrongCount exExpiredLater 0 = some 0 ∧
      RealStorage.BeginStrong exExpiredLater 0 = none ∧
      RealStorage.EndStrong exExpiredLater 0 = none ∧
      ∀ op : Op, op.valid exExpiredLater = true →
        ∃ s2 : State, step exExpiredLater op = some s2) :=
  ⟨exExpired_Reachable, rfl, rfl,
    c17_dead_block_stays_dead exExpired 0 ⟨1, 0, Kind.inline 0, 0, 1⟩
      [Op.wpLock 0, Op.spCopy 0, Op.wpCopy 0, Op.spResetNew 0 false] exExpiredLater
      exExpired_Reachable rfl rfl rfl⟩

theorem c14_swap_exchanges_witness :
    run State.init [Op.spOfNew false, Op.wpOfShared 0, Op.spDefault] = some exTarget ∧
    exTarget.sps[0]? = some ⟨some 0, some 0⟩ ∧ exTarget.sps[1]? = some ⟨none, none⟩ ∧
    (∃ s1 : State, SharedPtr.Swap exTarget 0 1 = some s1 ∧
      s1.blocks = exTarget.blocks ∧ s1.objs = exTarget.objs ∧ s1.wps = exTarget.wps ∧
      s1.sps[0]? = some ⟨none, none⟩ ∧ s1.sps[1]? = some ⟨some 0, some 0⟩ ∧
      SharedPtr.Get s1 0 = SharedPtr.Get exTarget 1 ∧
      SharedPtr.Get s1 1 = SharedPtr.Get exTarget 0 ∧
      SharedPtr.UseCount s1 0 = SharedPtr.UseCount exTarget 1 ∧
      SharedPtr.UseCount s1 1 = SharedPtr.UseCount exTarget 0 ∧
      SharedPtr.toBool s1 0 = SharedPtr.toBool exTarget 1 ∧
      SharedPtr.toBool s1 1 = SharedPtr.toBool exTarget 0 ∧
      SharedPtr.Swap s1 0 1 = some exTarget) ∧
    SharedPtr.Swap exTarget 0 0 = some exTarget :=
  ⟨rfl, rfl, rfl, c14_swap_exchanges exTarget 0 1 ⟨some 0, some 0⟩ ⟨none, none⟩ rfl rfl⟩

theorem c16_destroy_once_at_zero_witness :
    exOwner.blocks[0]? = some ⟨1, 1, Kind.indirect (some 0), 0, 0⟩ ∧
    RealStorage.calls exOwner 0 [true, false, false]
      = some ⟨[⟨1, 0, Kind.indirect none, 0, 1⟩], [⟨false, ⟨none, none⟩, 1⟩],
          [⟨some 0, some 0⟩], [], 2⟩ ∧
    ∃ blk1 : Block,
      (⟨[⟨1, 0, Kind.indirect none, 0, 1⟩], [⟨false, ⟨none, none⟩, 1⟩],
          [⟨some 0, some 0⟩], [], 2⟩ : State).blocks[0]? = some blk1 ∧
      blk1.destroys = (if blk1.strong = 0 then 1 else 0) :=
  ⟨rfl, rfl, by
    obtain ⟨blk1, h1, h2, _⟩ :=
      c16_destroy_once_at_zero exOwner 0 ⟨1, 1, Kind.indirect (some 0), 0, 0⟩
        [true, false, false]
        ⟨[⟨1, 0, Kind.indirect none, 0, 1⟩], [⟨false, ⟨none, none⟩, 1⟩],
          [⟨some 0, some 0⟩], [], 2⟩
        rfl rfl rfl
        (fun o ho => ⟨⟨false, ⟨none, none⟩, 0⟩, by
          have h0 : o = 0 := by
            simp only [Kind.obj, Option.some.injEq] at ho
            exact ho.symm
          subst h0
          exact ⟨rfl, rfl⟩⟩)
        rfl
    exact ⟨blk1, h1, h2⟩⟩

theorem c18_indirect_teardown_deletes_once_witness :
    exOwner.blocks[0]? = some ⟨1, 1, Kind.indirect (some 0), 0, 0⟩ ∧
    exOwner.objs[0]? = some ⟨false, ⟨none, none⟩, 0⟩ ∧
    (∃ (s1 s2 : State) (obj1 : Obj), Storage.Destroy exOwner 0 = some s1 ∧
      s1.objs[0]? = some obj1 ∧ obj1.dtors = 0 + 1 ∧
      Handle.release s1 (some 0) = some s2 ∧ s2.objs = s1.objs) ∧
    (∃ (s2 : State) (obj2 : Obj), Handle.release exOwner (some 0) = some s2 ∧
      s2.objs[0]? = some obj2 ∧ obj2.dtors = 0 + 1) :=
  ⟨rfl, rfl, by
    obtain ⟨⟨s1, s2, _, _, obj1, h1, _, _, _, _, h2, h3, h4, _, _, _, h5⟩, _⟩ :=
      c18_indirect_teardown_deletes_once exOwner 0 0 ⟨1, 1, Kind.indirect (some 0), 0, 0⟩
        ⟨false, ⟨none, none⟩, 0⟩ rfl rfl rfl rfl rfl
    exact ⟨s1, s2, obj1, h1, h2, h3, h4, h5⟩, by
    obtain ⟨_, s2, _, obj2, h1, _, _, _, _, h2, h3⟩ :=
      c18_indirect_teardown_deletes_once exOwner 0 0 ⟨1, 1, Kind.indirect (some 0), 0, 0⟩
        ⟨false, ⟨none, none⟩, 0⟩ rfl rfl rfl rfl rfl
    exact ⟨s2, obj2, h1, h2, h3⟩⟩

theorem MeKept.reflM (s : State) : MeKept s s :=
  ⟨rfl, rfl, fun _ blk hb => ⟨blk, hb, fun _ h => h⟩, fun _ obj ho => ⟨obj, ho, fun _ => rfl⟩⟩

theorem MeKept.transM {s s1 s2 : State} (h1 : MeKept s s1) (h2 : MeKept s1 s2) :
    MeKept s s2 := by
  obtain ⟨a1, b1, c1, d1⟩ := h1
  obtain ⟨a2, b2, c2, d2⟩ := h2
  refine ⟨a2.trans a1, b2.trans b1, ?_, ?_⟩
  · intro b blk hb
    obtain ⟨blk1, hb1, e1⟩ := c1 b blk hb
    obtain ⟨blk2, hb2, e2⟩ := c2 b blk1 hb1
    exact ⟨blk2, hb2, fun o ho => e1 o (e2 o ho)⟩
  · intro o obj ho
    obtain ⟨obj1, ho1, e1⟩ := d1 o obj ho
    obtain ⟨obj2, ho2, e2⟩ := d2 o obj1 ho1
    refine ⟨obj2, ho2, fun hd => ?_⟩
    have h3 := e2 hd
    subst h3
    exact e1 hd

theorem MeKept.of_heap {s t : State} (hb : t.blocks = s.blocks) (ho : t.objs = s.objs) :
    MeKept s t :=
  ⟨by rw [hb], by rw [ho], fun _ blk h => ⟨blk, by rw [hb]; exact h, fun _ h1 => h1⟩,
    fun _ obj h => ⟨obj, by rw [ho]; exact h, fun _ => rfl⟩⟩

theorem MeKept.of_setBlockM {s : State} {b : Nat} {blk y : Block}
    (hb : s.blocks[b]? = some blk)
    (hy : ∀ o : Nat, y.kind.obj = some o → blk.kind.obj = some o) :
    MeKept s (s.setBlock b y) := by
  refine ⟨by simp [State.setBlock], rfl, ?_, fun _ obj h => ⟨obj, h, fun _ => rfl⟩⟩
  intro c x hc
  by_cases h : c = b
  · subst h
    rw [hb] at hc; cases hc
    exact ⟨y, getElem?_setBlock_self y hb, hy⟩
  · exact ⟨x, by rw [getElem?_setBlock_ne y h]; exact hc, fun _ h1 => h1⟩

theorem dtorTake_MK {s s1 : State} {o : Nat} {p : Ptr}
    (h : Obj.dtorTake s o = some (s1, p)) : MeKept s s1 := by
  simp only [Obj.dtorTake] at h
  cases ho : s.objs[o]? with
  | none => simp [ho] at h
  | some obj =>
    simp only [ho, Option.some.injEq, Prod.mk.injEq] at h
    obtain ⟨h1, _⟩ := h
    subst h1
    refine ⟨rfl, by simp [State.setObj], fun _ blk hb => ⟨blk, hb, fun _ h1 => h1⟩, ?_⟩
    intro c x hc
    by_cases hco : c = o
    · subst hco
      rw [ho] at hc; cases hc
      exact ⟨_, getElem?_setObj_self _ ho, fun hd => by simp at hd⟩
    · exact ⟨x, by rw [getElem?_setObj_ne _ hco]; exact hc, fun _ => rfl⟩

theorem HandleBegin_MK {s s1 : State} {b : Nat} (h : Storage.HandleBegin s b = some s1) :
    MeKept s s1 := by
  simp only [Storage.HandleBegin] at h
  cases hb : s.blocks[b]? with
  | none => simp [hb] at h
  | some blk =>
    simp only [hb] at h
    split at h
    · simp only [Option.some.injEq] at h
      subst h
      exact MeKept.of_setBlockM hb (fun _ h1 => h1)
    · cases h

theorem copy_MK {s s1 : State} {p : Ptr} (h : Handle.copy s p = some s1) :
    MeKept s s1 := by
  cases p with
  | none => simp only [Handle.copy, Option.some.injEq] at h; subst h; exact MeKept.reflM _
  | some b => exact HandleBegin_MK h

theorem HandleEnd_MK {s s1 : State} {b : Nat} {f : Bool}
    (h : Storage.HandleEnd s b = some (s1, f)) : MeKept s s1 := by
  simp only [Storage.HandleEnd] at h
  cases hb : s.blocks[b]? with
  | none => simp [hb] at h
  | some blk =>
    simp only [hb] at h
    split at h
    · simp only [Option.some.injEq, Prod.mk.injEq] at h
      obtain ⟨h1, _⟩ := h
      subst h1
      exact MeKept.of_setBlockM hb (fun _ h1 => h1)
    · cases h

theorem releaseAux_MK (fuel : Nat) {s s1 : State} {p : Ptr}
    (h : Handle.releaseAux fuel s p = some s1) : MeKept s s1 := by
  induction fuel generalizing s p with
  | zero =>
    cases p with
    | none => simp only [Handle.releaseAux, Option.some.injEq] at h; subst h; exact MeKept.reflM _
    | some b => simp [Handle.releaseAux] at h
  | succ n ih =>
    cases p with
    | none => simp only [Handle.releaseAux, Option.some.injEq] at h; subst h; exact MeKept.reflM _
    | some b =>
      simp only [Handle.releaseAux] at h
      cases he : Storage.HandleEnd s b with
      | none => simp [he] at h
      | some r =>
        obtain ⟨sa, f⟩ := r
        have k1 := HandleEnd_MK he
        cases f with
        | false =>
          simp only [he, Option.some.injEq] at h
          subst h; exact k1
        | true =>
          simp only [he] at h
          cases hb : sa.blocks[b]? with
          | none => simp [hb] at h
          | some blk =>
            obtain ⟨bh, bs, bk, bf, bd⟩ := blk
            simp only [hb] at h
            cases bk with
            | inline o =>
              simp only [Option.some.injEq] at h
              subst h
              exact k1.transM (MeKept.of_setBlockM hb (fun _ h1 => h1))
            | indirect d =>
              cases d with
              | none =>
                simp only [Option.some.injEq] at h
                subst h
                exact k1.transM (MeKept.of_setBlockM hb (fun _ h1 => h1))
              | some o =>
                simp only at h
                split at h
                · cases h
                · rename_i sb q hd
                  exact ((k1.transM (MeKept.of_setBlockM
                    (y := ⟨bh, bs, Kind.indirect (some o), bf + 1, bd⟩) hb
                    (fun _ h1 => h1))).transM (dtorTake_MK hd)).transM (ih h)

theorem release_MK {s s1 : State} {p : Ptr} (h : Handle.release s p = some s1) :
    MeKept s s1 :=
  releaseAux_MK _ h

theorem setH_objs {s : State} {l : Loc} (hl : l.isVar = true) (p : Ptr) :
    (s.setH l p).objs = s.objs := by
  cases l with
  | sp i => simp only [State.setH]; split <;> rfl
  | wp j => simp only [State.setH]; split <;> rfl
  | me o => cases hl

theorem setH_MK (s : State) {l : Loc} (hl : l.isVar = true) (p : Ptr) :
    MeKept s (s.setH l p) :=
  MeKept.of_heap (setH_blocks s l p) (setH_objs hl p)

theorem HReset_MK {s s1 : State} {l : Loc} (h : Handle.Reset s l = some s1)
    (hl : l.isVar = true) : MeKept s s1 := by
  simp only [Handle.Reset] at h
  cases hg : s.getH l with
  | none => simp [hg] at h
  | some p =>
    simp only [hg] at h
    exact (setH_MK s hl none).transM (release_MK h)

theorem assignTemp_MK {s s1 : State} {l : Loc} {hv : Ptr}
    (h : Handle.assignTemp s l hv = some s1) (hl : l.isVar = true) : MeKept s s1 := by
  simp only [Handle.assignTemp] at h
  cases hr : Handle.Reset s l with
  | none => simp [hr] at h
  | some sa =>
    simp only [hr, Option.some.injEq] at h
    subst h
    exact (HReset_MK hr hl).transM (setH_MK sa hl hv)

theorem assignFrom_MK {s s1 : State} {l src : Loc}
    (h : Handle.assignFrom s l src = some s1) (hl : l.isVar = true)
    (hs : src.isVar = true) : MeKept s s1 := by
  simp only [Handle.assignFrom] at h
  cases hr : Handle.Reset s l with
  | none => simp [hr] at h
  | some sa =>
    simp only [hr] at h
    cases hg : sa.getH src with
    | none => simp [hg] at h
    | some p =>
      simp only [hg, Option.some.injEq] at h
      subst h
      exact ((HReset_MK hr hl).transM (setH_MK sa hs none)).transM (setH_MK _ hl p)

theorem swap_MK {s s1 : State} {a b : Loc} (h : Handle.swap s a b = some s1)
    (ha : a.isVar = true) (hb : b.isVar = true) : MeKept s s1 := by
  simp only [Handle.swap] at h
  cases hg : s.getH a with
  | none => simp [hg] at h
  | some t =>
    simp only [hg] at h
    cases h1 : Handle.assignFrom (s.setH a none) a b with
    | none => simp [h1] at h
    | some sa =>
      simp only [h1] at h
      cases h2 : Handle.assignTemp sa b t with
      | none => simp [h2] at h
      | some sb =>
        simp only [h2] at h
        exact (((setH_MK s ha none).transM (assignFrom_MK h1 ha hb)).transM
          (assignTemp_MK h2 hb)).transM (release_MK h)

theorem Destroy_MK {s s1 : State} {b : Nat} (h : Storage.Destroy s b = some s1) :
    MeKept s s1 := by
  simp only [Storage.Destroy] at h
  cases hb : s.blocks[b]? with
  | none => simp [hb] at h
  | some blk =>
    obtain ⟨bh, bs, bk, bf, bd⟩ := blk
    simp only [hb] at h
    have k0 : MeKept s (s.setBlock b ⟨bh, bs, bk, bf, bd + 1⟩) :=
      MeKept.of_setBlockM hb (fun _ h1 => h1)
    cases bk with
    | inline o =>
      simp only at h
      split at h
      · cases h
      · rename_i sa p hd
        exact (k0.transM (dtorTake_MK hd)).transM (release_MK h)
    | indirect d =>
      cases d with
      | none =>
        simp only at h
        split at h
        · cases h
        · rename_i blk2 hb2
          simp only [Option.some.injEq] at h
          subst h
          exact k0.transM (MeKept.of_setBlockM hb2 (fun o h1 => by cases h1))
      | some o =>
        simp only at h
        split at h
        · cases h
        · rename_i s2 hr
          split at hr
          · cases hr
          · rename_i sa p hd
            split at h
            · cases h
            · rename_i blk2 hb2
              simp only [Option.some.injEq] at h
              subst h
              exact ((k0.transM (dtorTake_MK hd)).transM (release_MK hr)).transM
                (MeKept.of_setBlockM hb2 (fun o h1 => by cases h1))

theorem BeginStrong_MK {s s1 : State} {b : Nat} (h : RealStorage.BeginStrong s b = some s1) :
    MeKept s s1 := by
  obtain ⟨blk, hb, hpos, rfl⟩ := BeginStrong_inv h
  exact MeKept.of_setBlockM hb (fun _ h1 => h1)

theorem EndStrong_MK {s s1 : State} {b : Nat} (h : RealStorage.EndStrong s b = some s1) :
    MeKept s s1 := by
  simp only [RealStorage.EndStrong] at h
  cases hb : s.blocks[b]? with
  | none => simp [hb] at h
  | some blk =>
    simp only [hb] at h
    split at h
    · have k0 : MeKept s (s.setBlock b { blk with strong := blk.strong - 1 }) :=
        MeKept.of_setBlockM hb (fun _ h1 => h1)
      split at h
      · exact k0.transM (Destroy_MK h)
      · simp only [Option.some.injEq] at h
        subst h; exact k0
    · cases h

theorem setSpPtr_objs (s : State) (i : Nat) (p : Ptr) : (s.setSpPtr i p).objs = s.objs := by
  simp only [State.setSpPtr]; split <;> rfl

theorem setWpPtr_objs (s : State) (i : Nat) (p : Ptr) : (s.setWpPtr i p).objs = s.objs := by
  simp only [State.setWpPtr]; split <;> rfl

theorem setSpPtr_MK (s : State) (i : Nat) (p : Ptr) : MeKept s (s.setSpPtr i p) :=
  MeKept.of_heap (setSpPtr_blocks s i p) (setSpPtr_objs s i p)

theorem setWpPtr_MK (s : State) (i : Nat) (p : Ptr) : MeKept s (s.setWpPtr i p) :=
  MeKept.of_heap (setWpPtr_blocks s i p) (setWpPtr_objs s i p)

theorem StealTemp_MK {s s1 : State} {i : Nat} {hv ptr : Ptr}
    (h : SharedPtr.StealTemp s i hv ptr = some s1) : MeKept s s1 := by
  simp only [SharedPtr.StealTemp, Option.map_eq_some'] at h
  obtain ⟨sa, h1, rfl⟩ := h
  exact (assignTemp_MK h1 rfl).transM (setSpPtr_MK _ _ _)

theorem StealFrom_MK {s s1 : State} {i j : Nat} {ptr : Ptr}
    (h : SharedPtr.StealFrom s i j ptr = some s1) : MeKept s s1 := by
  simp only [SharedPtr.StealFrom, Option.map_eq_some'] at h
  obtain ⟨sa, h1, rfl⟩ := h
  exact (assignFrom_MK h1 rfl rfl).transM (setSpPtr_MK _ _ _)

theorem Adopt_MK {s s1 : State} {i : Nat} {hv ptr : Ptr}
    (h : SharedPtr.Adopt s i hv ptr = some s1) : MeKept s s1 := by
  simp only [SharedPtr.Adopt] at h
  split at h
  · cases h
  · rename_i sa h1
    simp only [Option.map_eq_some'] at h
    obtain ⟨sb, h2, rfl⟩ := h
    have k1 := assignTemp_MK h1 rfl
    cases hv with
    | none =>
      simp only [Option.some.injEq] at h2
      subst h2
      exact k1.transM (setSpPtr_MK _ _ _)
    | some b =>
      exact (k1.transM (BeginStrong_MK h2)).transM (setSpPtr_MK _ _ _)

theorem aliasCopy_MK {s s1 : State} {j : Nat} {ptr : Ptr}
    (h : SharedPtr.aliasCopy s j ptr = some s1) : MeKept s s1 := by
  simp only [SharedPtr.aliasCopy] at h
  split at h
  · cases h
  · split at h
    · cases h
    · rename_i sa h1
      exact ((MeKept.of_heap (t := s.pushSp) rfl rfl).transM (copy_MK h1)).transM (Adopt_MK h)

theorem SharedPtr_copy_MK {s s1 : State} {j : Nat} (h : SharedPtr.copy s j = some s1) :
    MeKept s s1 := by
  simp only [SharedPtr.copy] at h
  split at h
  · cases h
  · exact aliasCopy_MK h

theorem convCopy_MK {s s1 : State} {j : Nat} (h : SharedPtr.convCopy s j = some s1) :
    MeKept s s1 := by
  simp only [SharedPtr.convCopy] at h
  split at h
  · cases h
  · exact aliasCopy_MK h

theorem aliasMove_MK {s s1 : State} {j : Nat} {ptr : Ptr}
    (h : SharedPtr.aliasMove s j ptr = some s1) : MeKept s s1 := by
  simp only [SharedPtr.aliasMove] at h
  split at h
  · cases h
  · exact (MeKept.of_heap (t := s.pushSp) rfl rfl).transM (StealFrom_MK h)

theorem move_MK {s s1 : State} {j : Nat} (h : SharedPtr.move s j = some s1) :
    MeKept s s1 := by
  simp only [SharedPtr.move] at h
  split at h
  · cases h
  · exact aliasMove_MK h

theorem convMove_MK {s s1 : State} {j : Nat} (h : SharedPtr.convMove s j = some s1) :
    MeKept s s1 := by
  simp only [SharedPtr.convMove] at h
  split at h
  · cases h
  · exact aliasMove_MK h

theorem Reset_MK {s s1 : State} {i : Nat} (h : SharedPtr.Reset s i = some s1) :
    MeKept s s1 := by
  simp only [SharedPtr.Reset] at h
  split at h
  · cases h
  · split at h
    · simp only [Option.some.injEq] at h; subst h; exact MeKept.reflM _
    · split at h
      · cases h
      · rename_i sa h1
        exact (EndStrong_MK h1).transM (assignTemp_MK h rfl)

theorem assignCopy_MK {s s1 : State} {i j : Nat} (h : SharedPtr.assignCopy s i j = some s1) :
    MeKept s s1 := by
  simp only [SharedPtr.assignCopy] at h
  split at h
  · cases h
  · rename_i sa h1
    split at h
    · cases h
    · split at h
      · cases h
      · rename_i sb h2
        exact ((Reset_MK h1).transM (copy_MK h2)).transM (Adopt_MK h)

theorem assignMove_MK {s s1 : State} {i j : Nat} (h : SharedPtr.assignMove s i j = some s1) :
    MeKept s s1 := by
  simp only [SharedPtr.assignMove] at h
  split at h
  · cases h
  · rename_i sa h1
    split at h
    · cases h
    · exact (Reset_MK h1).transM (StealFrom_MK h)

theorem Swap_MK {s s1 : State} {i j : Nat} (h : SharedPtr.Swap s i j = some s1) :
    MeKept s s1 := by
  simp only [SharedPtr.Swap] at h
  split at h
  · cases h
  · rename_i sa h1
    split at h
    · simp only [Option.some.injEq] at h
      subst h
      exact ((swap_MK h1 rfl rfl).transM (setSpPtr_MK _ _ _)).transM (setSpPtr_MK _ _ _)
    · cases h

theorem WeakPtr_copy_MK {s s1 : State} {j : Nat} (h : WeakPtr.copy s j = some s1) :
    MeKept s s1 := by
  simp only [WeakPtr.copy] at h
  split at h
  · cases h
  · simp only [Option.map_eq_some'] at h
    obtain ⟨sa, h1, rfl⟩ := h
    exact (copy_MK h1).transM (MeKept.of_heap rfl rfl)

theorem WeakPtr_move_MK {s s1 : State} {j : Nat} (h : WeakPtr.move s j = some s1) :
    MeKept s s1 := by
  simp only [WeakPtr.move] at h
  split at h
  · cases h
  · simp only [Option.some.injEq] at h
    subst h
    exact (setH_MK s (l := Loc.wp j) rfl none).transM (MeKept.of_heap rfl rfl)

theorem WeakPtr_ofShared_MK {s s1 : State} {i : Nat} (h : WeakPtr.ofShared s i = some s1) :
    MeKept s s1 := by
  simp only [WeakPtr.ofShared] at h
  split at h
  · cases h
  · simp only [Option.map_eq_some'] at h
    obtain ⟨sa, h1, rfl⟩ := h
    exact (copy_MK h1).transM (MeKept.of_heap rfl rfl)

theorem WeakPtr_assignCopy_MK {s s1 : State} {i j : Nat}
    (h : WeakPtr.assignCopy s i j = some s1) : MeKept s s1 := by
  simp only [WeakPtr.assignCopy] at h
  split at h
  · cases h
  · split at h
    · cases h
    · rename_i sa h1
      split at h
      · cases h
      · rename_i sb h2
        simp only [Option.map_eq_some'] at h
        obtain ⟨o2, _, rfl⟩ := h
        exact ((copy_MK h1).transM (assignTemp_MK h2 rfl)).transM (setWpPtr_MK _ _ _)

theorem WeakPtr_assignMove_MK {s s1 : State} {i j : Nat}
    (h : WeakPtr.assignMove s i j = some s1) : MeKept s s1 := by
  simp only [WeakPtr.assignMove] at h
  split at h
  · cases h
  · rename_i sa h1
    simp only [Option.map_eq_some'] at h
    obtain ⟨o2, _, rfl⟩ := h
    exact (assignFrom_MK h1 rfl rfl).transM (setWpPtr_MK _ _ _)

theorem WeakPtr_Swap_MK {s s1 : State} {i j : Nat} (h : WeakPtr.Swap s i j = some s1) :
    MeKept s s1 := by
  simp only [WeakPtr.Swap] at h
  split at h
  · cases h
  · rename_i sa h1
    split at h
    · simp only [Option.some.injEq] at h
      subst h
      exact ((swap_MK h1 rfl rfl).transM (setWpPtr_MK _ _ _)).transM (setWpPtr_MK _ _ _)
    · cases h

theorem WeakFromThis_MK {s s1 : State} {o : Nat}
    (h : EnableSharedFromThis.WeakFromThis s o = some s1) : MeKept s s1 := by
  simp only [EnableSharedFromThis.WeakFromThis] at h
  split at h
  · cases h
  · split at h
    · simp only [Option.map_eq_some'] at h
      obtain ⟨sa, h1, rfl⟩ := h
      exact (copy_MK h1).transM (MeKept.of_heap rfl rfl)
    · cases h

theorem tryLockIntoOf_MK {s s1 : State} {w : WeakPtr} {i : Nat} {f : Bool}
    (h : WeakPtr.tryLockIntoOf s w i = some (s1, f)) : MeKept s s1 := by
  simp only [WeakPtr.tryLockIntoOf] at h
  split at h
  · cases h
  · simp only [Option.some.injEq, Prod.mk.injEq] at h
    obtain ⟨h1, _⟩ := h
    subst h1; exact MeKept.reflM _
  · split at h
    · cases h
    · rename_i sa h1
      simp only [Option.map_eq_some', Prod.mk.injEq] at h
      obtain ⟨sb, h2, rfl, _⟩ := h
      exact (copy_MK h1).transM (Adopt_MK h2)

theorem ofWeakOf_MK {s s1 : State} {w : WeakPtr} {f : Bool}
    (h : SharedPtr.ofWeakOf s w = some (s1, f)) : MeKept s s1 := by
  simp only [SharedPtr.ofWeakOf] at h
  have k0 : MeKept s s.pushSp := MeKept.of_heap rfl rfl
  split at h
  · cases h
  · rename_i sa h1
    simp only [Option.some.injEq, Prod.mk.injEq] at h
    obtain ⟨rfl, _⟩ := h
    exact k0.transM (tryLockIntoOf_MK h1)
  · rename_i sa h1
    simp only [Option.map_eq_some', Prod.mk.injEq] at h
    obtain ⟨sb, h2, rfl, _⟩ := h
    exact (k0.transM (tryLockIntoOf_MK h1)).transM (Reset_MK h2)

theorem MeKept.registered {s s1 : State} (k : MeKept s s1) (h : Registered s) :
    Registered s1 := by
  obtain ⟨hbl, hol, hblk, hobj⟩ := k
  intro b blk1 o obj1 hb1 hk1 ho1 hc hd
  obtain ⟨blk, hb⟩ := getElem?_of_lt (show b < s.blocks.length by
    rw [← hbl]; exact lt_of_getElem? hb1)
  obtain ⟨obj, ho⟩ := getElem?_of_lt (show o < s.objs.length by
    rw [← hol]; exact lt_of_getElem? ho1)
  obtain ⟨blk2, hb2, e2⟩ := hblk b blk hb
  rw [hb1] at hb2; cases hb2
  obtain ⟨obj2, ho2, e3⟩ := hobj o obj ho
  rw [ho1] at ho2; cases ho2
  have := e3 hd
  subst this
  exact h b blk o obj1 hb (e2 o hk1) ho hc hd

/-- Registration is kept when blocks and objects are added or changed, as long as
every block that is not as before has its object registered, and every object that
is not as before was in no block's care. -/
theorem Registered.extend {s t : State} (h : Registered s)
    (hblk : ∀ (b : Nat) (blk1 : Block), t.blocks[b]? = some blk1 →
      s.blocks[b]? = some blk1 ∨
      ∀ (o : Nat) (obj1 : Obj), blk1.kind.obj = some o → t.objs[o]? = some obj1 →
        obj1.cap = true → obj1.me = ⟨some b, some o⟩)
    (hobj : ∀ (o : Nat) (obj1 : Obj), t.objs[o]? = some obj1 →
      s.objs[o]? = some obj1 ∨
      ∀ (b : Nat) (blk : Block), s.blocks[b]? = some blk → blk.kind.obj ≠ some o) :
    Registered t := by
  intro b blk1 o obj1 hb1 hk1 ho1 hc hd
  rcases hblk b blk1 hb1 with hb | hnew
  · rcases hobj o obj1 ho1 with ho | hfresh
    · exact h b blk1 o obj1 hb hk1 ho hc hd
    · exact absurd hk1 (hfresh b blk1 hb)
  · exact hnew o obj1 hk1 ho1 hc

theorem Registered.initR : Registered State.init := by
  intro b blk o obj hb
  simp [State.init] at hb

/-- A fresh, owned object: the state after `SharedPtr<T>(new T)` or `MakeShared<T>()`
in explicit form. -/
theorem Registered.create {s : State} (hI : Inv s) (h : Registered s) (cap : Bool)
    (n : Nat) (k : Kind) (hk : k.obj = some s.objs.length) (S : List SharedPtr)
    (W : List WeakPtr) (a : Nat) :
    Registered ⟨s.blocks ++ [⟨n, 1, k, 0, 0⟩],
      s.objs ++ [⟨cap, if cap then ⟨some s.blocks.length, some s.objs.length⟩
                        else ⟨none, none⟩, 0⟩], S, W, a⟩ := by
  apply h.extend
  · intro b blk1 hb1
    rcases getElem?_append_singleton_cases hb1 with ⟨rfl, rfl⟩ | ⟨_, h1⟩
    · right
      intro o obj1 hko ho1 hc
      simp only [hk, Option.some.injEq] at hko
      subst hko
      simp only [List.getElem?_concat_length, Option.some.injEq] at ho1
      subst ho1
      simp only at hc
      simp [hc]
    · exact Or.inl h1
  · intro o obj1 ho1
    rcases getElem?_append_singleton_cases ho1 with ⟨rfl, _⟩ | ⟨_, h1⟩
    · right
      intro b blk hb hko
      have := hI.1.own b blk _ hb hko
      omega
    · exact Or.inl h1

theorem ofNew_Registered {s s1 : State} {cap : Bool} (hI : Inv s) (h : Registered s)
    (hr : SharedPtr.ofNew s cap = some s1) : Registered s1 := by
  rw [ofNew_eq] at hr
  simp only [Option.some.injEq] at hr
  subst hr
  exact Registered.create hI h cap _ (Kind.indirect (some s.objs.length)) rfl _ _ _

theorem MakeShared_Registered {s s1 : State} {cap : Bool} (hI : Inv s) (h : Registered s)
    (hr : SharedPtr.MakeShared s cap = some s1) : Registered s1 := by
  rw [MakeShared_eq] at hr
  simp only [Option.some.injEq] at hr
  subst hr
  exact Registered.create hI h cap _ (Kind.inline s.objs.length) rfl _ _ _

theorem ofRaw_null_Registered {s s1 : State} {c : Bool} (h : Registered s)
    (hr : SharedPtr.ofRaw s none c = some s1) : Registered s1 := by
  cases c with
  | true => rw [ofRaw_null_cap] at hr; cases hr
  | false =>
    have hx : (s.pushSp.newIndirect none).sps[s.sps.length]? = some ⟨none, none⟩ := by
      simp [State.pushSp, State.newIndirect]
    have e1 := StealTemp_empty hx rfl (some s.blocks.length) none
    simp only [SharedPtr.ofRaw, e1, hook_nocap, Option.some.injEq] at hr
    subst hr
    apply h.extend
    · intro b blk1 hb1
      have hb2 : (s.blocks ++ [(⟨1, 1, Kind.indirect none, 0, 0⟩ : Block)])[b]? = some blk1 :=
        hb1
      rcases getElem?_append_singleton_cases hb2 with ⟨_, rfl⟩ | ⟨_, h1⟩
      · right
        intro o obj1 hko
        cases hko
      · exact Or.inl h1
    · intro o obj1 ho1
      exact Or.inl ho1

theorem newObj_Registered {s : State} (hI : Inv s) (h : Registered s) (cap : Bool) :
    Registered (s.newObj cap) := by
  apply h.extend
  · intro b blk1 hb1
    exact Or.inl hb1
  · intro o obj1 ho1
    have ho2 : (s.objs ++ [(⟨cap, ⟨none, none⟩, 0⟩ : Obj)])[o]? = some obj1 := ho1
    rcases getElem?_append_singleton_cases ho2 with ⟨rfl, _⟩ | ⟨_, h1⟩
    · right
      intro b blk hb hko
      have := hI.1.own b blk _ hb hko
      omega
    · exact Or.inl h1

theorem ofRawConv_Registered {s s1 : State} {cap : Bool} (hI : Inv s) (h : Registered s)
    (hr : SharedPtr.ofRawConv (s.newObj cap) (some s.objs.length) cap = some s1) :
    Registered s1 := by
  simp only [SharedPtr.ofRawConv] at hr
  split at hr
  · cases hr
  · rename_i sa h1
    have h1a : SharedPtr.ofNew s cap = some sa := h1
    split at hr
    · cases hr
    · rename_i sb h2
      exact (Reset_MK hr).registered
        ((convMove_MK h2).registered (ofNew_Registered hI h h1a))

theorem ResetNew_Registered {s s1 : State} {i : Nat} {cap : Bool} (hI : Inv s)
    (h : Registered s) (hr : SharedPtr.ResetNew s i cap = some s1) : Registered s1 := by
  cases hi : s.sps[i]? with
  | none =>
    have hi0 : (s.newObj cap).sps[i]? = none := hi
    simp [SharedPtr.ResetNew, SharedPtr.ResetPtr, SharedPtr.Reset, hi0] at hr
  | some x =>
    have hI1 := hI.newObj cap
    have hx0 : (s.newObj cap).sps[i]? = some x := hi
    obtain ⟨sa, e, hI2, f1, hsp, hwp, hrel⟩ := Reset_facts hI1 hx0
    have kM := Reset_MK e
    have hRa : Registered sa := kM.registered (newObj_Registered hI h cap)
    have hx1 : sa.sps[i]? = some ⟨none, x.ptr⟩ := by
      rw [hsp]; exact getElem?_set_self_of hx0
    have ho0 : (s.newObj cap).objs[s.objs.length]? = some ⟨cap, ⟨none, none⟩, 0⟩ := by
      simp [State.newObj]
    have hfresh : ∀ (b : Nat) (blk : Block), sa.blocks[b]? = some blk →
        blk.kind.obj ≠ some s.objs.length := by
      intro b blk hb hko
      obtain ⟨hbl, _, hblk, _⟩ := kM
      obtain ⟨blk0, hb0⟩ := getElem?_of_lt (show b < (s.newObj cap).blocks.length by
        rw [← hbl]; exact lt_of_getElem? hb)
      obtain ⟨blk2, hb2, e2⟩ := hblk b blk0 hb0
      rw [hb] at hb2; cases hb2
      have hb0' : s.blocks[b]? = some blk0 := hb0
      have := hI.1.own b blk0 _ hb0' (e2 _ hko)
      omega
    have ho1 : sa.objs[s.objs.length]? = some ⟨cap, ⟨none, none⟩, 0⟩ := by
      obtain ⟨obj1, h1, _, _, _, h5⟩ := f1.obj _ _ ho0
      have := h5 (fun c blk _ hc hk => by
        have hc' : s.blocks[c]? = some blk := hc
        have := hI.1.own c blk _ hc' hk
        omega)
      rw [this] at h1; exact h1
    have e2 := rebind_eq cap hx1 rfl ho1 rfl
    have e0 : SharedPtr.ResetNew s i cap
        = (match SharedPtr.StealTemp (sa.newIndirect (some s.objs.length)) i
            (some sa.blocks.length) (some s.objs.length) with
          | none => none
          | some s2 => SharedPtr.SharedFromThisSetupHook s2 i cap) := by
      simp only [SharedPtr.ResetNew, SharedPtr.ResetPtr, e]
    have eN := e0.trans e2
    rw [eN] at hr
    simp only [Option.some.injEq] at hr
    subst hr
    have holt := lt_of_getElem? ho1
    apply hRa.extend
    · intro b blk1 hb1
      rcases getElem?_append_singleton_cases hb1 with ⟨rfl, rfl⟩ | ⟨_, h1⟩
      · right
        intro o obj1 hko ho2 hc
        simp only [Kind.obj, Option.some.injEq] at hko
        subst hko
        cases cap with
        | false =>
          simp only [Bool.false_eq_true, if_false] at ho2
          rw [ho1] at ho2
          cases ho2
          cases hc
        | true =>
          simp only [if_true] at ho2
          rw [getElem?_set_self_of ho1] at ho2
          cases ho2
          rfl
      · exact Or.inl h1
    · intro o obj1 ho2
      by_cases hoo : o = s.objs.length
      · subst hoo
        exact Or.inr hfresh
      · left
        cases cap with
        | false => simpa using ho2
        | true =>
          simp only [if_true] at ho2
          rw [List.getElem?_set] at ho2
          simpa [Ne.symm hoo] using ho2

/-- One operation keeps every registration. -/
theorem step_Registered {s s1 : State} (op : Op) (hI : Inv s) (h : Registered s)
    (hr : step s op = some s1) : Registered s1 := by
  cases op with
  | spDefault =>
    simp only [step, SharedPtr.default, Option.some.injEq] at hr
    subst hr; exact (MeKept.of_heap rfl rfl).registered h
  | spOfNew cap => exact ofNew_Registered hI h hr
  | spOfNull cap => exact ofRaw_null_Registered h hr
  | spOfNewConv cap => exact ofRawConv_Registered hI h hr
  | spMakeShared cap => exact MakeShared_Registered hI h hr
  | spCopy j => exact (SharedPtr_copy_MK hr).registered h
  | spMove j => exact (move_MK hr).registered h
  | spAliasCopy j addr => exact (aliasCopy_MK hr).registered h
  | spAliasMove j addr => exact (aliasMove_MK hr).registered h
  | spConvCopy j => exact (convCopy_MK hr).registered h
  | spConvMove j => exact (convMove_MK hr).registered h
  | spOfWeak j =>
    simp only [step, Option.map_eq_some'] at hr
    obtain ⟨r, h1, rfl⟩ := hr
    simp only [SharedPtr.ofWeak] at h1
    split at h1
    · cases h1
    · exact (ofWeakOf_MK (f := r.2) h1).registered h
  | spAssignCopy i j => exact (assignCopy_MK hr).registered h
  | spAssignMove i j => exact (assignMove_MK hr).registered h
  | spDtor i => exact (Reset_MK hr).registered h
  | spReset i => exact (Reset_MK hr).registered h
  | spResetNew i cap => exact ResetNew_Registered hI h hr
  | spResetNull i cap =>
    have h1 : SharedPtr.ResetPtr s i none cap = some s1 := hr
    simp only [SharedPtr.ResetPtr] at h1
    split at h1
    · cases h1
    · rename_i sa h2
      simp only [Option.some.injEq] at h1
      subst h1
      exact (Reset_MK h2).registered h
  | spSwap i j => exact (Swap_MK hr).registered h
  | wpDefault =>
    simp only [step, WeakPtr.default, Option.some.injEq] at hr
    subst hr; exact (MeKept.of_heap rfl rfl).registered h
  | wpCopy j => exact (WeakPtr_copy_MK hr).registered h
  | wpMove j => exact (WeakPtr_move_MK hr).registered h
  | wpOfShared i => exact (WeakPtr_ofShared_MK hr).registered h
  | wpAssignCopy i j => exact (WeakPtr_assignCopy_MK hr).registered h
  | wpAssignMove i j => exact (WeakPtr_assignMove_MK hr).registered h
  | wpReset j =>
    have h1 : Handle.assignTemp s (Loc.wp j) none = some s1 := hr
    exact (assignTemp_MK h1 rfl).registered h
  | wpDtor j =>
    have h1 : Handle.Reset s (Loc.wp j) = some s1 := hr
    exact (HReset_MK h1 rfl).registered h
  | wpSwap i j => exact (WeakPtr_Swap_MK hr).registered h
  | wpTryLockInto j i =>
    simp only [step, Option.map_eq_some'] at hr
    obtain ⟨r, h1, rfl⟩ := hr
    simp only [WeakPtr.TryLockInto] at h1
    split at h1
    · cases h1
    · exact (tryLockIntoOf_MK (f := r.2) h1).registered h
  | wpLock j =>
    simp only [step, WeakPtr.Lock, Option.map_eq_some'] at hr
    obtain ⟨r, h1, rfl⟩ := hr
    simp only [WeakPtr.TryLockInto] at h1
    split at h1
    · cases h1
    · exact ((MeKept.of_heap (t := s.pushSp) rfl rfl).transM
        (tryLockIntoOf_MK (f := r.2) h1)).registered h
  | sharedFromThis o =>
    simp only [step, Option.map_eq_some'] at hr
    obtain ⟨r, h1, rfl⟩ := hr
    simp only [EnableSharedFromThis.SharedFromThis] at h1
    split at h1
    · cases h1
    · split at h1
      · exact (ofWeakOf_MK (f := r.2) h1).registered h
      · cases h1
  | weakFromThis o => exact (WeakFromThis_MK hr).registered h

/-- In every reachable state, every live object with the self-reference capability
that is in a block's care is registered with that block. -/
theorem reachable_Registered {s : State} (h : Reachable s) : Registered s := by
  induction h with
  | init => exact Registered.initR
  | step op hr hs ih => exact step_Registered op (reachable_Inv hr) ih hs

theorem countP_le_one {α : Type} (p : α → Bool) (l : List α)
    (h : ∀ (i j : Nat) (x y : α), l[i]? = some x → l[j]? = some y → p x = true →
      p y = true → i = j) : l.countP p ≤ 1 := by
  induction l with
  | nil => simp
  | cons a t ih =>
    have ht : ∀ (i j : Nat) (x y : α), t[i]? = some x → t[j]? = some y → p x = true →
        p y = true → i = j := by
      intro i j x y hx hy px py
      have := h (i + 1) (j + 1) x y (by simpa using hx) (by simpa using hy) px py
      omega
    by_cases pa : p a = true
    · have h0 : t.countP p = 0 := by
        rw [List.countP_eq_zero]
        intro y hy py
        obtain ⟨j, hj⟩ := List.mem_iff_getElem?.1 hy
        have := h 0 (j + 1) a y (by simp) (by simpa using hj) pa py
        omega
      rw [List.countP_cons_of_pos _ _ pa, h0]
    · rw [List.countP_cons_of_neg _ _ pa]
      exact ih ht

/-- At most one object holds a handle on a given block in its `me_`: the object in
the block's care. -/
theorem WF.cntM_le_one {s : State} {T : List Ptr} {d : Ptr} (w : WF s T d) (b : Nat) :
    s.cntM b ≤ 1 := by
  apply countP_le_one
  intro i j x y hx hy px py
  simp only [decide_eq_true_eq] at px py
  obtain ⟨blk, hb, hk⟩ := w.meO i x b hx px
  obtain ⟨blk1, hb1, hk1⟩ := w.meO j y b hy py
  rw [hb] at hb1; cases hb1
  rw [hk] at hk1
  simpa using hk1

/-- The handle count of a block in whose care a registered object is: one handle per
`SharedPtr`, one per `WeakPtr`, one for `me_`. -/
theorem Inv.handles_registered {s : State} {b o : Nat} {blk : Block} {obj : Obj}
    (h : Inv s) (hb : s.blocks[b]? = some blk) (ho : s.objs[o]? = some obj)
    (hm : obj.me.handle = some b) : blk.handles = s.cntS b + s.cntW b + 1 := by
  have h1 := h.1.hEq b blk hb
  have h2 := h.1.cntM_le_one b
  have h3 := cntM_pos ho hm
  simp only [State.refs, List.count_nil] at h1
  omega

theorem exSelfLock_run :
    run State.init [Op.spOfNew true, Op.weakFromThis 0, Op.wpTryLockInto 0 0, Op.wpDtor 0]
      = some exSelfLock := rfl

/-- C20: in a reachable state, let `p` be the only `SharedPtr` referencing the block
in whose care the object `o` (of a type with the self-reference capability) is, no
`WeakPtr` referencing that block, and let the strong count be the number of owners,
1.  Then the handle count is 2 (`p` and `me_`), and `p.Reset()` is `EndStrong()`
followed by dropping the handle of `p`: when `EndStrong()` returns, `Destroy` has run
once more, the object has been destroyed once and `me_` has given up its handle, and
the block still has handle count 1 and is not freed; dropping the handle of `p` then
takes the handle count to 0 and frees the block once, and the object is not destroyed
again.  The strong count is not always the number of owners: after
`SharedPtr<T> p(new T); { auto w = p->WeakFromThis(); w.TryLockInto(&p); }` the
pointer `p` is the only `SharedPtr`, no `WeakPtr` references the block, and the
strong count is 2; `p.Reset()` then leaves strong count 1 and handle count 1 with
no `SharedPtr` left: the object is not destroyed and the block is not freed. -/
theorem c20_last_release_with_self_reference :
    (∀ (s : State) (i b o : Nat) (x : SharedPtr) (blk : Block) (obj : Obj), Reachable s →
      s.sps[i]? = some x → x.handle = some b → s.blocks[b]? = some blk →
      blk.kind.obj = some o → s.objs[o]? = some obj → obj.cap = true →
      s.cntS b = 1 → s.cntW b = 0 → blk.strong = s.cntS b →
      ∃ (sE s2 : State) (r : Kind),
        blk.handles = 2 ∧ blk.freed = 0 ∧ obj.dtors = 0 ∧ obj.me = ⟨some b, some o⟩ ∧
        RealStorage.EndStrong s b = some sE ∧
        sE.blocks[b]? = some ⟨1, 0, r, 0, blk.destroys + 1⟩ ∧
        sE.objs[o]? = some ⟨true, ⟨none, some o⟩, 1⟩ ∧
        sE.sps[i]? = some x ∧
        Handle.assignTemp sE (Loc.sp i) none = some s2 ∧
        SharedPtr.Reset s i = some s2 ∧
        s2.blocks[b]? = some ⟨0, 0, r, 1, blk.destroys + 1⟩ ∧
        s2.objs[o]? = some ⟨true, ⟨none, some o⟩, 1⟩ ∧
        s2.sps[i]? = some ⟨none, x.ptr⟩ ∧ Reachable s2) ∧
    run State.init [Op.spOfNew true, Op.weakFromThis 0, Op.wpTryLockInto 0 0, Op.wpDtor 0]
      = some exSelfLock ∧
    exSelfLock.sps = [⟨some 0, some 0⟩] ∧ exSelfLock.cntS 0 = 1 ∧ exSelfLock.cntW 0 = 0 ∧
    exSelfLock.blocks[0]? = some ⟨2, 2, Kind.indirect (some 0), 0, 0⟩ ∧
    exSelfLock.objs[0]? = some ⟨true, ⟨some 0, some 0⟩, 0⟩ ∧
    SharedPtr.UseCount exSelfLock 0 = some 2 ∧
    SharedPtr.Reset exSelfLock 0 = some exSelfLeak ∧
    exSelfLeak.sps = [⟨none, some 0⟩] ∧ exSelfLeak.cntS 0 = 0 ∧ exSelfLeak.cntW 0 = 0 ∧
    exSelfLeak.blocks[0]? = some ⟨1, 1, Kind.indirect (some 0), 0, 0⟩ ∧
    exSelfLeak.objs[0]? = some ⟨true, ⟨some 0, some 0⟩, 0⟩ := by
  refine ⟨?_, rfl, rfl, rfl, rfl, rfl, rfl, rfl, rfl, rfl, rfl, rfl, rfl, rfl⟩
  intro s i b o x blk obj hr hx hxh hb hk ho hc h1 hw hs
  have hI := reachable_Inv hr
  obtain ⟨blk1, hb1, _, _, _, _, hf⟩ := hI.sp_block hx hxh
  rw [hb] at hb1; cases hb1
  obtain ⟨obj1, ho1, hdt⟩ := hI.owned_alive hx hxh hb hk
  rw [ho] at ho1; cases ho1
  have hme := reachable_Registered hr b blk o obj hb hk ho hc hdt
  have hmh : obj.me.handle = some b := by rw [hme]
  have hmp : obj.me.ptr = some o := by rw [hme]
  have hh := hI.handles_registered hb ho hmh
  have hkr : ∃ r : Kind, (blk.kind = Kind.inline o ∧ r = Kind.inline o) ∨
      (blk.kind = Kind.indirect (some o) ∧ r = Kind.indirect none) := by
    cases hkind : blk.kind with
    | inline o1 =>
      rw [hkind] at hk
      simp only [Kind.obj, Option.some.injEq] at hk
      subst hk
      exact ⟨_, Or.inl ⟨rfl, rfl⟩⟩
    | indirect d =>
      rw [hkind] at hk
      simp only [Kind.obj] at hk
      subst hk
      exact ⟨_, Or.inr ⟨rfl, rfl⟩⟩
  obtain ⟨r, hkr⟩ := hkr
  obtain ⟨e1, e2, e3⟩ := Reset_sole_self_ref hx hxh hb (by omega) (by omega) ho hmh hkr
  rw [hf, hc, hmp, hdt] at e1 e2 e3
  exact ⟨_, _, r, by omega, hf, hdt, hme, e1, getElem?_set_self_of hb,
    getElem?_set_self_of ho, hx, e2, e3, getElem?_set_self_of hb, getElem?_set_self_of ho,
    getElem?_set_self_of hx, Reachable.step (Op.spReset i) hr e3⟩

theorem exSelfRefAlone_run :
    run State.init [Op.spMakeShared true, Op.wpOfShared 0, Op.spDefault, Op.spOfNew false,
      Op.wpReset 0] = some exSelfRefAlone := rfl

theorem c20_last_release_with_self_reference_witness :
    run State.init [Op.spMakeShared true, Op.wpOfShared 0, Op.spDefault, Op.spOfNew false,
      Op.wpReset 0] = some exSelfRefAlone ∧
    exSelfRefAlone.sps[0]? = some ⟨some 0, some 0⟩ ∧
    exSelfRefAlone.blocks[0]? = some ⟨2, 1, Kind.inline 0, 0, 0⟩ ∧
    exSelfRefAlone.objs[0]? = some ⟨true, ⟨some 0, some 0⟩, 0⟩ ∧
    exSelfRefAlone.cntS 0 = 1 ∧ exSelfRefAlone.cntW 0 = 0 ∧
    ∃ (sE s2 : State) (r : Kind),
      (⟨2, 1, Kind.inline 0, 0, 0⟩ : Block).handles = 2 ∧
      (⟨2, 1, Kind.inline 0, 0, 0⟩ : Block).freed = 0 ∧
      (⟨true, ⟨some 0, some 0⟩, 0⟩ : Obj).dtors = 0 ∧
      (⟨true, ⟨some 0, some 0⟩, 0⟩ : Obj).me = ⟨some 0, some 0⟩ ∧
      RealStorage.EndStrong exSelfRefAlone 0 = some sE ∧
      sE.blocks[0]? = some ⟨1, 0, r, 0, (⟨2, 1, Kind.inline 0, 0, 0⟩ : Block).destroys + 1⟩ ∧
      sE.objs[0]? = some ⟨true, ⟨none, some 0⟩, 1⟩ ∧
      sE.sps[0]? = some ⟨some 0, some 0⟩ ∧
      Handle.assignTemp sE (Loc.sp 0) none = some s2 ∧
      SharedPtr.Reset exSelfRefAlone 0 = some s2 ∧
      s2.blocks[0]? = some ⟨0, 0, r, 1, (⟨2, 1, Kind.inline 0, 0, 0⟩ : Block).destroys + 1⟩ ∧
      s2.objs[0]? = some ⟨true, ⟨none, some 0⟩, 1⟩ ∧
      s2.sps[0]? = some ⟨none, (⟨some 0, some 0⟩ : SharedPtr).ptr⟩ ∧ Reachable s2 :=
  ⟨rfl, rfl, rfl, rfl, rfl, rfl,
    c20_last_release_with_self_reference.1 exSelfRefAlone
      0 0 0 ⟨some 0, some 0⟩ ⟨2, 1, Kind.inline 0, 0, 0⟩ ⟨true, ⟨some 0, some 0⟩, 0⟩
      (run_Reachable _ Reachable.init exSelfRefAlone_run) rfl rfl rfl rfl rfl rfl rfl rfl rfl⟩

/-- C3: a pointer fresh from `MakeShared` or `SharedPtr(T*)` has `UseCount() == 1`.
In a reachable state, let `n >= 1` `SharedPtr`s reference a block whose strong count
is `n`.  Then each of them has `UseCount() == n` and the object in the block's care
has not been destroyed; `Reset()` on one of them returns, leaves that pointer with
`UseCount() == 0` and `Get() == nullptr`, leaves every other one with
`UseCount() == n - 1`, and has destroyed the object exactly when `n == 1`.  No object
is ever destroyed twice.  The strong count is not always the number of owners: after
`SharedPtr<T> s(new T); WeakPtr<T> w(s); w.TryLockInto(&s);` the one owner `s` has
`UseCount() == 2`, and `s.Reset()`, the release of the last owner, does not destroy
the object. -/
theorem c3_use_count_and_last_release :
    (∀ (s0 : State) (cap : Bool), Reachable s0 →
      (∃ s1 : State, SharedPtr.MakeShared s0 cap = some s1 ∧
        s1.sps[s0.sps.length]? = some ⟨some s0.blocks.length, some s0.objs.length⟩ ∧
        SharedPtr.UseCount s1 s0.sps.length = some 1) ∧
      (∃ s1 : State, SharedPtr.ofNew s0 cap = some s1 ∧
        s1.sps[s0.sps.length]? = some ⟨some s0.blocks.length, some s0.objs.length⟩ ∧
        SharedPtr.UseCount s1 s0.sps.length = some 1)) ∧
    (∀ (s : State) (i b : Nat) (x : SharedPtr) (blk : Block), Reachable s →
      s.sps[i]? = some x → x.handle = some b → s.blocks[b]? = some blk →
      blk.strong = s.cntS b →
      1 ≤ s.cntS b ∧
      (∀ (k : Nat) (y : SharedPtr), s.sps[k]? = some y → y.handle = some b →
        SharedPtr.UseCount s k = some (s.cntS b)) ∧
      (∀ o : Nat, blk.kind.obj = some o →
        ∃ obj : Obj, s.objs[o]? = some obj ∧ obj.dtors = 0) ∧
      ∃ s1 : State, SharedPtr.Reset s i = some s1 ∧ Reachable s1 ∧
        SharedPtr.UseCount s1 i = some 0 ∧ SharedPtr.Get s1 i = some none ∧
        (∀ (k : Nat) (y : SharedPtr), k ≠ i → s.sps[k]? = some y → y.handle = some b →
          SharedPtr.UseCount s1 k = some (s.cntS b - 1)) ∧
        (∀ (o : Nat) (obj : Obj), blk.kind.obj = some o → s.objs[o]? = some obj →
          ∃ obj1 : Obj, s1.objs[o]? = some obj1 ∧
            obj1.dtors = (if s.cntS b = 1 then 1 else 0))) ∧
    (∀ (s : State) (o : Nat) (obj : Obj), Reachable s → s.objs[o]? = some obj →
      obj.dtors ≤ 1) ∧
    run State.init [Op.spOfNew false, Op.wpOfShared 0, Op.wpTryLockInto 0 0]
      = some exLockSelf ∧
    exLockSelf.sps = [⟨some 0, some 0⟩] ∧ exLockSelf.cntS 0 = 1 ∧
    exLockSelf.blocks[0]? = some ⟨2, 2, Kind.indirect (some 0), 0, 0⟩ ∧
    SharedPtr.UseCount exLockSelf 0 = some 2 ∧
    SharedPtr.Reset exLockSelf 0 = some exLeak ∧
    exLeak.sps = [⟨none, some 0⟩] ∧ exLeak.cntS 0 = 0 ∧
    exLeak.blocks[0]? = some ⟨1, 1, Kind.indirect (some 0), 0, 0⟩ ∧
    exLeak.objs[0]? = some ⟨false, ⟨none, none⟩, 0⟩ := by
  refine ⟨?_, ?_, ?_, rfl, rfl, rfl, rfl, rfl, rfl, rfl, rfl, rfl, rfl⟩
  · intro s0 cap _
    constructor
    · refine ⟨_, MakeShared_eq s0 cap, by simp, ?_⟩
      simp [SharedPtr.UseCount, RealStorage.StrongCount]
    · refine ⟨_, ofNew_eq s0 cap, by simp, ?_⟩
      simp [SharedPtr.UseCount, RealStorage.StrongCount]
  · intro s i b x blk hr hx hxh hb hs
    have hI := reachable_Inv hr
    obtain ⟨blk1, hb1, hs1, _, hch, _, _⟩ := hI.sp_block hx hxh
    rw [hb] at hb1; cases hb1
    refine ⟨by omega, ?_, fun o hk => hI.owned_alive hx hxh hb hk, ?_⟩
    · intro k y hy hyh
      rw [UseCount_eq hy hyh hb, hs]
    · by_cases h1 : blk.strong = 1
      · obtain ⟨s1, e, hsp, _, _, ⟨blk2, hb2, hs2, _⟩, _, hobj, _⟩ :=
          Reset_last hI hx hxh hb h1
        have hxi1 : s1.sps[i]? = some ⟨none, x.ptr⟩ := by
          rw [hsp]; exact getElem?_set_self_of hx
        refine ⟨s1, e, Reachable.step (Op.spReset i) hr e, UseCount_empty hxi1 rfl,
          Get_empty hxi1 rfl, ?_, ?_⟩
        · intro k y hne hy hyh
          have hy1 : s1.sps[k]? = some y := by
            rw [hsp, List.getElem?_set]; simp [Ne.symm hne, hy]
          rw [UseCount_eq hy1 hyh hb2, hs2]
          congr 1
          omega
        · intro o obj hk ho
          refine ⟨_, (hobj o obj hk ho).2, ?_⟩
          have : s.cntS b = 1 := by omega
          simp [this]
      · have e := Reset_dec hx hxh hb (by omega) (by omega)
        refine ⟨_, e, Reachable.step (Op.spReset i) hr e, ?_, ?_, ?_, ?_⟩
        · exact UseCount_empty (x := ⟨none, x.ptr⟩) (getElem?_set_self_of hx) rfl
        · exact Get_empty (x := ⟨none, x.ptr⟩) (getElem?_set_self_of hx) rfl
        · intro k y hne hy hyh
          have hy1 : (s.sps.set i ⟨none, x.ptr⟩)[k]? = some y := by
            rw [List.getElem?_set]; simp [Ne.symm hne, hy]
          rw [UseCount_eq (s := State.mk _ _ _ _ _) (b := b) hy1 hyh (getElem?_set_self_of hb)]
          simp only [hs]
        · intro o obj hk ho
          obtain ⟨obj1, ho1, hd⟩ := hI.owned_alive hx hxh hb hk
          rw [ho] at ho1; cases ho1
          have : ¬ s.cntS b = 1 := by omega
          exact ⟨obj, ho, by simp [this, hd]⟩
  · intro s o obj hr ho
    exact (reachable_Inv hr).2.once o obj ho

theorem c3_use_count_and_last_release_witness :
    run State.init [Op.spMakeShared false, Op.spCopy 0] = some exShared ∧
    exShared.sps[0]? = some ⟨some 0, some 0⟩ ∧
    exShared.blocks[0]? = some ⟨2, 2, Kind.inline 0, 0, 0⟩ ∧ exShared.cntS 0 = 2 ∧
    SharedPtr.UseCount exShared 0 = some 2 ∧ SharedPtr.UseCount exShared 1 = some 2 ∧
    (1 ≤ exShared.cntS 0 ∧
      (∀ (k : Nat) (y : SharedPtr), exShared.sps[k]? = some y → y.handle = some 0 →
        SharedPtr.UseCount exShared k = some (exShared.cntS 0)) ∧
      (∀ o : Nat, (⟨2, 2, Kind.inline 0, 0, 0⟩ : Block).kind.obj = some o →
        ∃ obj : Obj, exShared.objs[o]? = some obj ∧ obj.dtors = 0) ∧
      ∃ s1 : State, SharedPtr.Reset exShared 0 = some s1 ∧ Reachable s1 ∧
        SharedPtr.UseCount s1 0 = some 0 ∧ SharedPtr.Get s1 0 = some none ∧
        (∀ (k : Nat) (y : SharedPtr), k ≠ 0 → exShared.sps[k]? = some y →
          y.handle = some 0 → SharedPtr.UseCount s1 k = some (exShared.cntS 0 - 1)) ∧
        (∀ (o : Nat) (obj : Obj), (⟨2, 2, Kind.inline 0, 0, 0⟩ : Block).kind.obj = some o →
          exShared.objs[o]? = some obj →
          ∃ obj1 : Obj, s1.objs[o]? = some obj1 ∧
            obj1.dtors = (if exShared.cntS 0 = 1 then 1 else 0))) :=
  ⟨rfl, rfl, rfl, rfl, rfl, rfl,
    c3_use_count_and_last_release.2.1 exShared 0 0 ⟨some 0, some 0⟩
      ⟨2, 2, Kind.inline 0, 0, 0⟩ exShared_Reachable rfl rfl rfl rfl⟩

/-- C12: in a reachable state, `p.Reset(newPtr)` returns.  With a null `newPtr` it
is `p.Reset()`: `p` ends empty (`Get()` null, `UseCount()` 0, boolean conversion
false).  With `newPtr` fresh from `new`, the state is that after `p.Reset()` with one
more block, an `IndirectStorage` for `newPtr` with strong count 1 (and a second handle
in `me_` when the type has the self-reference capability), to which `p` now points:
`p.Get() == newPtr`, `p.UseCount() == 1`.  In both cases the release is that of
`Reset()`: the strong count of the block `p` referenced before is one less, and if it
was 1 the object in that block's care has been destroyed.  A strong count of 1 is not
the same as `p` being the last owner: after
`SharedPtr<T> p(new T); WeakPtr<T> w(p); w.TryLockInto(&p);` the pointer `p` is the
only `SharedPtr` and the strong count is 2, and neither `p.Reset(new T)` nor
`p.Reset((T*)nullptr)` destroys the object `p` owned. -/
theorem c12_reset_pointer_release :
    (∀ (s : State) (i : Nat) (x : SharedPtr) (cap : Bool), Reachable s →
      s.sps[i]? = some x →
      (∃ s1 : State, SharedPtr.Reset s i = some s1 ∧
        SharedPtr.ResetPtr s i none cap = some s1 ∧
        SharedPtr.Get s1 i = some none ∧ SharedPtr.UseCount s1 i = some 0 ∧
        SharedPtr.toBool s1 i = some false ∧
        (∀ (b : Nat) (blk : Block), x.handle = some b → s.blocks[b]? = some blk →
          ∃ blk1 : Block, s1.blocks[b]? = some blk1 ∧ 1 ≤ blk.strong ∧
            blk1.strong = blk.strong - 1 ∧
            (blk.strong = 1 → ∀ (o : Nat) (obj : Obj), blk.kind.obj = some o →
              s.objs[o]? = some obj →
              obj.dtors = 0 ∧ ∃ obj1 : Obj, s1.objs[o]? = some obj1 ∧ obj1.dtors = 1))) ∧
      (∃ s1 s2 : State, SharedPtr.Reset (s.newObj cap) i = some s1 ∧
        SharedPtr.ResetNew s i cap = some s2 ∧
        s2.blocks = s1.blocks ++
          [⟨if cap = true then 2 else 1, 1, Kind.indirect (some s.objs.length), 0, 0⟩] ∧
        s2.sps = s1.sps.set i ⟨some s1.blocks.length, some s.objs.length⟩ ∧
        s2.wps = s1.wps ∧ s2.allocs = s1.allocs + 1 ∧
        (∀ o : Nat, o ≠ s.objs.length → s2.objs[o]? = s1.objs[o]?) ∧
        s2.objs[s.objs.length]? = some ⟨cap, if cap = true then
          ⟨some s1.blocks.length, some s.objs.length⟩ else ⟨none, none⟩, 0⟩ ∧
        SharedPtr.Get s2 i = some (some s.objs.length) ∧
        SharedPtr.UseCount s2 i = some 1 ∧ SharedPtr.toBool s2 i = some true ∧
        (∀ (b : Nat) (blk : Block), x.handle = some b → s.blocks[b]? = some blk →
          ∃ blk1 : Block, s2.blocks[b]? = some blk1 ∧ 1 ≤ blk.strong ∧
            blk1.strong = blk.strong - 1 ∧
            (blk.strong = 1 → ∀ (o : Nat) (obj : Obj), blk.kind.obj = some o →
              s.objs[o]? = some obj →
              obj.dtors = 0 ∧ ∃ obj1 : Obj, s2.objs[o]? = some obj1 ∧ obj1.dtors = 1)))) ∧
    run State.init [Op.spOfNew false, Op.wpOfShared 0, Op.wpTryLockInto 0 0]
      = some exLockSelf ∧
    exLockSelf.sps = [⟨some 0, some 0⟩] ∧ exLockSelf.cntS 0 = 1 ∧
    exLockSelf.blocks[0]? = some ⟨2, 2, Kind.indirect (some 0), 0, 0⟩ ∧
    exLockSelf.objs[0]? = some ⟨false, ⟨none, none⟩, 0⟩ ∧
    SharedPtr.ResetNew exLockSelf 0 false = some exLockSelfRebound ∧
    exLockSelfRebound.sps = [⟨some 1, some 1⟩] ∧ exLockSelfRebound.cntS 0 = 0 ∧
    exLockSelfRebound.blocks[0]? = some ⟨1, 1, Kind.indirect (some 0), 0, 0⟩ ∧
    exLockSelfRebound.objs[0]? = some ⟨false, ⟨none, none⟩, 0⟩ ∧
    SharedPtr.ResetPtr exLockSelf 0 none false = some exLeak ∧
    exLeak.sps = [⟨none, some 0⟩] ∧ exLeak.cntS 0 = 0 ∧
    exLeak.blocks[0]? = some ⟨1, 1, Kind.indirect (some 0), 0, 0⟩ ∧
    exLeak.objs[0]? = some ⟨false, ⟨none, none⟩, 0⟩ :=
  ⟨fun s i x cap h hx => ResetPtr_release s i x cap h hx,
    rfl, rfl, rfl, rfl, rfl, rfl, rfl, rfl, rfl, rfl, rfl, rfl, rfl, rfl, rfl⟩

theorem c12_reset_pointer_release_witness :
    run State.init [Op.spOfNew false] = some exOwner ∧
    exOwner.sps[0]? = some ⟨some 0, some 0⟩ ∧
    (∃ s1 : State, SharedPtr.Reset exOwner 0 = some s1 ∧
      SharedPtr.ResetPtr exOwner 0 none false = some s1 ∧
      SharedPtr.Get s1 0 = some none ∧ SharedPtr.UseCount s1 0 = some 0 ∧
      SharedPtr.toBool s1 0 = some false ∧
      (∀ (b : Nat) (blk : Block), (some 0 : Ptr) = some b → exOwner.blocks[b]? = some blk →
        ∃ blk1 : Block, s1.blocks[b]? = some blk1 ∧ 1 ≤ blk.strong ∧
          blk1.strong = blk.strong - 1 ∧
          (blk.strong = 1 → ∀ (o : Nat) (obj : Obj), blk.kind.obj = some o →
            exOwner.objs[o]? = some obj →
            obj.dtors = 0 ∧ ∃ obj1 : Obj, s1.objs[o]? = some obj1 ∧ obj1.dtors = 1))) ∧
    (∃ s1 s2 : State, SharedPtr.Reset (exOwner.newObj false) 0 = some s1 ∧
      SharedPtr.ResetNew exOwner 0 false = some s2 ∧
      SharedPtr.Get s2 0 = some (some exOwner.objs.length) ∧
      SharedPtr.UseCount s2 0 = some 1 ∧ SharedPtr.toBool s2 0 = some true) :=
  ⟨rfl, rfl,
    (c12_reset_pointer_release.1 exOwner 0 ⟨some 0, some 0⟩ false exOwner_Reachable rfl).1,
    by
      obtain ⟨s1, s2, h1, h2, _, _, _, _, _, _, h3, h4, h5, _⟩ :=
        (c12_reset_pointer_release.1 exOwner 0 ⟨some 0, some 0⟩ false
          exOwner_Reachable rfl).2
      exact ⟨s1, s2, h1, h2, h3, h4, h5⟩⟩

end SharedPtrModel
